import Mathlib

/-!
# GoSorter: duplicate detection and conflict-safe moving

A shallow embedding of the Go sources of GoSorter (`helpers/files.go`,
`helpers/hashing.go`, `helpers/images.go`, `model/*.go`,
`service/file_processor.go`) together with theorems about them.

Conventions of the embedding

* Go strings are Lean strings, that is sequences of Unicode characters (byte
  strings that are not UTF-8 are outside the embedding); `len(s)` is the UTF-8
  byte size.
* The operating system is a finite table from paths to nodes (`FS`) plus an
  environment `Env` of injected failures (permissions, devices, I/O errors) and
  of the two library functions that are not part of the repository (SHA-256 in
  hexadecimal and the PNG decoder).
* A Go function with side effects takes the file system and returns the new
  one; what it hands to the logger is returned as a list of `LogEntry`.
* `int64` counters are `Int`; the one place where wrap-around can be reached
  (`maxBytes * 1024 * 1024`) wraps explicitly.
-/

set_option autoImplicit false

namespace GoSorter

/-! ## Strings and paths (Go `strings`, `path/filepath`, `fmt`) -/

/-- Go `len(s)`: the number of bytes of the string. -/
def len (s : String) : Nat := s.utf8ByteSize

/-- The scan of `filepath.Ext` from the end of the path: the argument is the
reversed path, the accumulator the suffix read so far. -/
def extScan : List Char → List Char → List Char
  | [], _ => []
  | c :: rest, acc =>
    if c = '/' then []
    else if c = '.' then c :: acc
    else extScan rest (c :: acc)

/-- Go `filepath.Ext`: the suffix starting at the last dot of the last path
element, empty when that element has no dot. -/
def Ext (path : String) : String := ⟨extScan path.data.reverse []⟩

/-- Go `strings.TrimSuffix`. -/
def TrimSuffix (s suffix : String) : String :=
  if suffix.data.isSuffixOf s.data then ⟨s.data.take (s.data.length - suffix.data.length)⟩
  else s

/-- The letters above ASCII that Go `unicode.ToLower` changes, after the
lower-case column of `unicode.CaseRanges` (the simple lower-case mapping of the
Unicode Character Database): `(lo, hi, stride, delta)` stands for the code
points `lo, lo + stride, ..., hi`, each of which is mapped to itself plus
`delta`. -/
def lowerCaseRanges : List (Nat × Nat × Nat × Int) :=
  [
    (192, 214, 1, 32), (216, 222, 1, 32), (256, 302, 2, 1), (304, 304, 1, -199),
    (306, 310, 2, 1), (313, 327, 2, 1), (330, 374, 2, 1), (376, 376, 1, -121), (377, 381, 2, 1),
    (385, 385, 1, 210), (386, 388, 2, 1), (390, 390, 1, 206), (391, 391, 1, 1),
    (393, 394, 1, 205), (395, 395, 1, 1), (398, 398, 1, 79), (399, 399, 1, 202),
    (400, 400, 1, 203), (401, 401, 1, 1), (403, 403, 1, 205), (404, 404, 1, 207),
    (406, 406, 1, 211), (407, 407, 1, 209), (408, 408, 1, 1), (412, 412, 1, 211),
    (413, 413, 1, 213), (415, 415, 1, 214), (416, 420, 2, 1), (422, 422, 1, 218),
    (423, 423, 1, 1), (425, 425, 1, 218), (428, 428, 1, 1), (430, 430, 1, 218), (431, 431, 1, 1),
    (433, 434, 1, 217), (435, 437, 2, 1), (439, 439, 1, 219), (440, 440, 1, 1), (444, 444, 1, 1),
    (452, 452, 1, 2), (453, 453, 1, 1), (455, 455, 1, 2), (456, 456, 1, 1), (458, 458, 1, 2),
    (459, 475, 2, 1), (478, 494, 2, 1), (497, 497, 1, 2), (498, 500, 2, 1), (502, 502, 1, -97),
    (503, 503, 1, -56), (504, 542, 2, 1), (544, 544, 1, -130), (546, 562, 2, 1),
    (570, 570, 1, 10795), (571, 571, 1, 1), (573, 573, 1, -163), (574, 574, 1, 10792),
    (577, 577, 1, 1), (579, 579, 1, -195), (580, 580, 1, 69), (581, 581, 1, 71),
    (582, 590, 2, 1), (880, 882, 2, 1), (886, 886, 1, 1), (895, 895, 1, 116), (902, 902, 1, 38),
    (904, 906, 1, 37), (908, 908, 1, 64), (910, 911, 1, 63), (913, 929, 1, 32),
    (931, 939, 1, 32), (975, 975, 1, 8), (984, 1006, 2, 1), (1012, 1012, 1, -60),
    (1015, 1015, 1, 1), (1017, 1017, 1, -7), (1018, 1018, 1, 1), (1021, 1023, 1, -130),
    (1024, 1039, 1, 80), (1040, 1071, 1, 32), (1120, 1152, 2, 1), (1162, 1214, 2, 1),
    (1216, 1216, 1, 15), (1217, 1229, 2, 1), (1232, 1326, 2, 1), (1329, 1366, 1, 48),
    (4256, 4293, 1, 7264), (4295, 4295, 1, 7264), (4301, 4301, 1, 7264), (5024, 5103, 1, 38864),
    (5104, 5109, 1, 8), (7312, 7354, 1, -3008), (7357, 7359, 1, -3008), (7680, 7828, 2, 1),
    (7838, 7838, 1, -7615), (7840, 7934, 2, 1), (7944, 7951, 1, -8), (7960, 7965, 1, -8),
    (7976, 7983, 1, -8), (7992, 7999, 1, -8), (8008, 8013, 1, -8), (8025, 8031, 2, -8),
    (8040, 8047, 1, -8), (8072, 8079, 1, -8), (8088, 8095, 1, -8), (8104, 8111, 1, -8),
    (8120, 8121, 1, -8), (8122, 8123, 1, -74), (8124, 8124, 1, -9), (8136, 8139, 1, -86),
    (8140, 8140, 1, -9), (8152, 8153, 1, -8), (8154, 8155, 1, -100), (8168, 8169, 1, -8),
    (8170, 8171, 1, -112), (8172, 8172, 1, -7), (8184, 8185, 1, -128), (8186, 8187, 1, -126),
    (8188, 8188, 1, -9), (8486, 8486, 1, -7517), (8490, 8490, 1, -8383), (8491, 8491, 1, -8262),
    (8498, 8498, 1, 28), (8544, 8559, 1, 16), (8579, 8579, 1, 1), (9398, 9423, 1, 26),
    (11264, 11311, 1, 48), (11360, 11360, 1, 1), (11362, 11362, 1, -10743),
    (11363, 11363, 1, -3814), (11364, 11364, 1, -10727), (11367, 11371, 2, 1),
    (11373, 11373, 1, -10780), (11374, 11374, 1, -10749), (11375, 11375, 1, -10783),
    (11376, 11376, 1, -10782), (11378, 11378, 1, 1), (11381, 11381, 1, 1),
    (11390, 11391, 1, -10815), (11392, 11490, 2, 1), (11499, 11501, 2, 1), (11506, 11506, 1, 1),
    (42560, 42604, 2, 1), (42624, 42650, 2, 1), (42786, 42798, 2, 1), (42802, 42862, 2, 1),
    (42873, 42875, 2, 1), (42877, 42877, 1, -35332), (42878, 42886, 2, 1), (42891, 42891, 1, 1),
    (42893, 42893, 1, -42280), (42896, 42898, 2, 1), (42902, 42920, 2, 1),
    (42922, 42922, 1, -42308), (42923, 42923, 1, -42319), (42924, 42924, 1, -42315),
    (42925, 42925, 1, -42305), (42926, 42926, 1, -42308), (42928, 42928, 1, -42258),
    (42929, 42929, 1, -42282), (42930, 42930, 1, -42261), (42931, 42931, 1, 928),
    (42932, 42946, 2, 1), (42948, 42948, 1, -48), (42949, 42949, 1, -42307),
    (42950, 42950, 1, -35384), (42951, 42953, 2, 1), (42960, 42960, 1, 1), (42966, 42968, 2, 1),
    (42997, 42997, 1, 1), (65313, 65338, 1, 32), (66560, 66599, 1, 40), (66736, 66771, 1, 40),
    (66928, 66938, 1, 39), (66940, 66954, 1, 39), (66956, 66962, 1, 39), (66964, 66965, 1, 39),
    (68736, 68786, 1, 64), (71840, 71871, 1, 32), (93760, 93791, 1, 32), (125184, 125217, 1, 34)]

/-- Go `unicode.ToLower`: `A` to `Z` among the ASCII characters, the table
above them. -/
def unicodeToLower (c : Char) : Char :=
  if c.toNat < 128 then c.toLower
  else
    match lowerCaseRanges.find? (fun r =>
        decide (r.1 ≤ c.toNat) && decide (c.toNat ≤ r.2.1) &&
          (c.toNat - r.1) % r.2.2.1 == 0) with
    | some r => Char.ofNat ((c.toNat : Int) + r.2.2.2).toNat
    | none => c

/-- Go `strings.ToLower`: every character is mapped by `unicode.ToLower`, the
ASCII letters as well as the others. -/
def ToLower (s : String) : String := ⟨s.data.map unicodeToLower⟩

/-- Go `filepath.Base` for slash-separated paths. -/
def Base (path : String) : String :=
  if path = "" then "."
  else
    let stripped := path.data.reverse.dropWhile (fun c => c = '/')
    let last := stripped.takeWhile (fun c => c ≠ '/')
    if last = [] then "/" else ⟨last.reverse⟩

/-- Go `filepath.Join` of a directory and an element that `filepath.Clean`
leaves as they are (no `.` or `..` element, no doubled or trailing separator):
the two joined by one separator. -/
def Join (dir name : String) : String := dir ++ "/" ++ name

/-- Go `fmt.Sprint` / the verb `%d` for a non-negative integer. -/
def Sprint (n : Nat) : String := toString n

/-- The conflict name `fmt.Sprintf("%s(%d)%s", name, i, ext)`. -/
def suffixedName (name : String) (i : Nat) (ext : String) : String :=
  name ++ "(" ++ Sprint i ++ ")" ++ ext

/-! ## The operating system -/

/-- Error numbers that the system calls used by GoSorter can report. -/
inductive Errno
  | ENOENT | EEXIST | ENOTEMPTY | EACCES | EPERM | EXDEV | EISDIR | ENOTDIR | EINVAL | ENOSPC
  deriving DecidableEq, Repr

/-- Go `os.IsNotExist`. -/
def IsNotExist : Errno → Bool
  | .ENOENT => true
  | _ => false

/-- Go `os.IsExist`. -/
def IsExist : Errno → Bool
  | .EEXIST => true
  | .ENOTEMPTY => true
  | _ => false

/-- Go `os.IsPermission`. -/
def IsPermission : Errno → Bool
  | .EACCES => true
  | .EPERM => true
  | _ => false

/-- What a path names: a regular file with its bytes, or a directory. -/
inductive Node
  | file (content : List UInt8)
  | dir
  deriving DecidableEq, Repr

/-- The file system: a finite table from paths to nodes; the first entry of a
path is the one in force. -/
abbrev FS := List (String × Node)

/-- The node a path names, if any. -/
def FS.lookup (fs : FS) (p : String) : Option Node :=
  match fs with
  | [] => none
  | (q, n) :: rest => if q = p then some n else FS.lookup rest p

/-- The table without the path. -/
def FS.erase (fs : FS) (p : String) : FS := fs.filter (fun e => e.1 ≠ p)

/-- The table with the path bound to the node. -/
def FS.insert (fs : FS) (p : String) (n : Node) : FS := (p, n) :: FS.erase fs p

/-- A decoded image: its bounds and the 16-bit alpha of each pixel. -/
structure Image where
  minX : Int
  minY : Int
  maxX : Int
  maxY : Int
  alphaAt : Int → Int → Nat

/-- The part of the world that the program cannot control. A fault function
returns the error with which the system call on that path fails, `none` when
the call is left to its ordinary outcome on the table. -/
structure Env where
  sha256hex : List UInt8 → String
  pngDecode : List UInt8 → Option Image
  statFault : String → Option Errno
  renameFault : String → String → Option Errno
  openFault : String → Option Errno
  createFault : String → Option Errno
  readFault : String → Option Errno
  writeFault : String → Option Errno
  written : String → Nat
  removeFault : String → Option Errno
  mkdirFault : String → Option Errno
  readDirFault : String → Option Errno

/-- Result of `os.Stat`. -/
structure FileInfo where
  size : Nat
  isDir : Bool
  deriving DecidableEq, Repr

/-- The `FileInfo` of a node. -/
def Node.info : Node → FileInfo
  | .file c => ⟨c.length, false⟩
  | .dir => ⟨0, true⟩

/-- Go `os.Stat`. -/
def osStat (env : Env) (fs : FS) (p : String) : Except Errno FileInfo :=
  match env.statFault p with
  | some e => .error e
  | none =>
    match fs.lookup p with
    | some n => .ok n.info
    | none => .error .ENOENT

/-- Go `os.Rename`: fails on a missing source and, as the Go runtime does, with
`EEXIST` on a destination that is a directory; otherwise the source node
replaces whatever the destination named. -/
def osRename (env : Env) (fs : FS) (src dst : String) : Except Errno FS :=
  match env.renameFault src dst with
  | some e => .error e
  | none =>
    match fs.lookup dst, fs.lookup src with
    | some .dir, none => .error .ENOENT
    | some .dir, some _ => .error .EEXIST
    | _, none => .error .ENOENT
    | some (.file _), some .dir => .error .ENOTDIR
    | _, some n => if src = dst then .ok fs else .ok ((fs.erase src).insert dst n)

/-- Go `os.Open` followed by reading the whole file (`io.Copy` out of it). -/
def osReadAll (env : Env) (fs : FS) (p : String) : Except Errno (List UInt8) :=
  match env.readFault p with
  | some e => .error e
  | none =>
    match fs.lookup p with
    | some (.file c) => .ok c
    | some .dir => .error .EISDIR
    | none => .error .ENOENT

/-- Go `os.Open`: the path must name something and must be permitted. -/
def osOpen (env : Env) (fs : FS) (p : String) : Except Errno Unit :=
  match env.openFault p with
  | some e => .error e
  | none =>
    match fs.lookup p with
    | some _ => .ok ()
    | none => .error .ENOENT

/-- Go `os.Create`: creates the file or truncates it to length zero. -/
def osCreate (env : Env) (fs : FS) (p : String) : Except Errno FS :=
  match env.createFault p with
  | some e => .error e
  | none =>
    match fs.lookup p with
    | some .dir => .error .EISDIR
    | _ => .ok (fs.insert p (.file []))

/-- Go `os.Remove`. -/
def osRemove (env : Env) (fs : FS) (p : String) : Except Errno FS :=
  match env.removeFault p with
  | some e => .error e
  | none =>
    match fs.lookup p with
    | some _ => .ok (fs.erase p)
    | none => .error .ENOENT

/-- Go `os.MkdirAll`. -/
def osMkdirAll (env : Env) (fs : FS) (p : String) : Except Errno FS :=
  match env.mkdirFault p with
  | some e => .error e
  | none =>
    match fs.lookup p with
    | some .dir => .ok fs
    | some (.file _) => .error .ENOTDIR
    | none => .ok (fs.insert p .dir)

/-- Go `io.Copy(dstFile, srcFile)` between two open files: the bytes the source
holds now are written to the destination; on a failure the destination keeps
the bytes written so far. -/
def ioCopy (env : Env) (fs : FS) (src dst : String) : FS × Option Errno :=
  match osReadAll env fs src with
  | .error e => (fs, some e)
  | .ok c =>
    match env.writeFault dst with
    | some e => (fs.insert dst (.file (c.take (env.written dst))), some e)
    | none => (fs.insert dst (.file c), none)

/-! ## `model`: configuration, statistics, errors -/

/-- Go `model.Config`. -/
structure Config where
  MoveDuplicates : Bool
  DuplicatesOnly : Bool
  Verbose : Bool
  Silent : Bool
  LogFilePath : String
  DetectTransparentPNGs : Bool
  MaxHashFileSizeMB : Int
  MaxHashFileSize : Int
  deriving DecidableEq, Repr

/-- Go `model.Stats`, the counters only; `UnknownExtMap` is the `sync.Map` from
extension to its counter, in order of first insertion. -/
structure Stats where
  FilesMoved : Int
  DuplicatesMoved : Int
  TotalFiles : Int
  ErrorsCount : Int
  TransparentPNGsMoved : Int
  UnknownExtensions : Int
  UnknownExtMap : List (String × Int)
  deriving DecidableEq, Repr

/-- A fresh `model.Stats`. -/
def Stats.zero : Stats := ⟨0, 0, 0, 0, 0, 0, []⟩

def Stats.IncrementFilesMoved (s : Stats) : Stats := { s with FilesMoved := s.FilesMoved + 1 }

def Stats.IncrementDuplicatesMoved (s : Stats) : Stats :=
  { s with DuplicatesMoved := s.DuplicatesMoved + 1 }

def Stats.IncrementTotalFiles (s : Stats) : Stats := { s with TotalFiles := s.TotalFiles + 1 }

def Stats.IncrementErrors (s : Stats) : Stats := { s with ErrorsCount := s.ErrorsCount + 1 }

def Stats.IncrementTransparentPNGsMoved (s : Stats) : Stats :=
  { s with TransparentPNGsMoved := s.TransparentPNGsMoved + 1 }

/-- The `LoadOrStore` and atomic add on the per-extension counter. -/
def bumpExt (ext : String) : List (String × Int) → List (String × Int)
  | [] => [(ext, 1)]
  | (k, v) :: rest => if k = ext then (k, v + 1) :: rest else (k, v) :: bumpExt ext rest

def Stats.IncrementUnknownExtensions (s : Stats) (ext : String) : Stats :=
  { s with UnknownExtensions := s.UnknownExtensions + 1,
           UnknownExtMap := bumpExt ext s.UnknownExtMap }

/-- Go `model.HashError` (with its embedded `FileError`). -/
structure HashError where
  Op : String
  Path : String
  Err : Errno
  deriving DecidableEq, Repr

/-- Go `model.NewHashError`. -/
def NewHashError (path : String) (err : Errno) : HashError := ⟨"hash", path, err⟩

/-- Go `model.ExtensionConfig`; the map is an association list. -/
structure ExtensionConfig where
  ExtensionToFolder : List (String × String)
  ArchiveExtractedFolder : String
  DuplicatesFolder : String
  TransparentPNGFolder : String
  deriving DecidableEq, Repr

/-- Go `model.DefaultExtensionConfig`. -/
def DefaultExtensionConfig : ExtensionConfig where
  ExtensionToFolder := [
    (".zip", "Archives"), (".rar", "Archives"), (".tar", "Archives"), (".gz", "Archives"),
    (".mp3", "Music"), (".wav", "Music"), (".flac", "Music"), (".aac", "Music"),
    (".ogg", "Music"), (".m4a", "Music"), (".wma", "Music"), (".opus", "Music"),
    (".m4b", "Music"), (".m4p", "Music"),
    (".ai", "Illustrator"), (".indd", "InDesign"), (".psd", "Photoshop"),
    (".doc", "Documents"), (".docx", "Documents"), (".odt", "Documents"),
    (".txt", "Documents"),
    (".py", "Development"),
    (".mobi", "Ebooks"), (".epub", "Ebooks"), (".azw3", "Ebooks"),
    (".apk", "AndroidApps"), (".exe", "Executables"), (".deb", "Packages"),
    (".bmp", "Pictures"), (".gif", "GIFs"), (".heic", "Pictures"), (".heif", "Pictures"),
    (".jpg", "Pictures"), (".jpeg", "Pictures"), (".png", "Pictures"), (".raw", "RawImages"),
    (".svg", "SVGs"), (".tiff", "Pictures"), (".tif", "Pictures"), (".webp", "WebP"),
    (".odp", "Presentations"), (".ppt", "Presentations"), (".pptx", "Presentations"),
    (".csv", "Sheets"), (".ods", "Sheets"), (".xls", "Sheets"), (".xlsx", "Sheets"),
    (".dmg", "DiskImages"), (".iso", "ISOs"),
    (".json", "JSONs"), (".xml", "XMLs"),
    (".torrent", "Torrents"),
    (".avi", "Videos"), (".mkv", "Videos"), (".mp4", "Videos"), (".mpg", "Videos"),
    (".mpeg", "Videos"), (".webm", "Videos"),
    (".ova", "VirtualMachines"),
    (".ovpn", "Configs"),
    (".stl", "3D/STLs"), (".3mf", "3D/3MFs"), (".obj", "3D/Objects"), (".gcode", "3D/GCode"),
    (".pdf", "PDFs")]
  ArchiveExtractedFolder := "Archives-Extracted"
  DuplicatesFolder := "Duplicates"
  TransparentPNGFolder := "PNGs"

/-- Modelled from the spec: the declaration of `model.FileDetail` is not among
the sources; the spec gives a candidate the fields name, path, lowercased
extension and digest, which are the four fields the code reads and writes
(a field left out of a Go composite literal is the empty string). -/
structure FileDetail where
  Name : String
  Path : String
  Hash : String
  Ext : String
  deriving DecidableEq, Repr

/-- Go `(*Config).Validate`: the configuration behind the pointer after the
call, and the error (its message) if there is one. -/
def Config.Validate (c : Config) : Config × Option String :=
  if c.Verbose && c.Silent then
    (c, some ("verbose and silent modes cannot be enabled simultaneously, " ++
      "otherwise, GoSorter might take a selfie"))
  else if c.MaxHashFileSizeMB < 0 then (c, some "max hash file size must be >= 0")
  else (c, none)

/-- Go `merged[ext] = folder` on a map kept as a table. -/
def mapStore (k v : String) : List (String × String) → List (String × String)
  | [] => [(k, v)]
  | (k0, v0) :: rest => if k0 = k then (k0, v) :: rest else (k0, v0) :: mapStore k v rest

/-- Go `for ext, folder := range src { dst[ext] = folder }`, in the order of
the table. -/
def storeAll (src dst : List (String × String)) : List (String × String) :=
  src.foldl (fun m p => mapStore p.1 p.2 m) dst

/-- Go `mergeWithDefaults`. -/
def mergeWithDefaults (userConfig : ExtensionConfig) : ExtensionConfig :=
  let defaultConfig := DefaultExtensionConfig
  let table :=
    if userConfig.ExtensionToFolder.length = 0 then defaultConfig.ExtensionToFolder
    else storeAll userConfig.ExtensionToFolder (storeAll defaultConfig.ExtensionToFolder [])
  { ExtensionToFolder := table
    ArchiveExtractedFolder :=
      if userConfig.ArchiveExtractedFolder = "" then defaultConfig.ArchiveExtractedFolder
      else userConfig.ArchiveExtractedFolder
    DuplicatesFolder :=
      if userConfig.DuplicatesFolder = "" then defaultConfig.DuplicatesFolder
      else userConfig.DuplicatesFolder
    TransparentPNGFolder :=
      if userConfig.TransparentPNGFolder = "" then defaultConfig.TransparentPNGFolder
      else userConfig.TransparentPNGFolder }

/-- Go `Stats.GetUnknownExtensions`. -/
def Stats.GetUnknownExtensions (s : Stats) : Int := s.UnknownExtensions

/-- Go `Stats.GetUnknownExtMap`: the entries of the `sync.Map` with the values
of their counters. -/
def Stats.GetUnknownExtMap (s : Stats) : List (String × Int) := s.UnknownExtMap

/-! ## `helpers`: logging -/

/-- Go `helpers.LogLevel`. -/
inductive LogLevel
  | Normal | Info | Debug | Error | Raw
  deriving DecidableEq, Repr

/-- One call of `Logger.Log`: the level and the format string of the message
(its arguments are not rendered). -/
structure LogEntry where
  level : LogLevel
  text : String
  deriving DecidableEq, Repr

/-! ## `helpers`: hashing -/

/-- Go `int64` wrap-around. -/
def wrap64 (x : Int) : Int := (x + 2 ^ 63) % 2 ^ 64 - 2 ^ 63

/-- The ceiling in bytes that both `processFilesWithDuplicates` and
`MoveFileToTargetFolder` derive from the configuration. -/
def maxBytesOf (cfg : Config) : Int :=
  let maxBytes := if cfg.MaxHashFileSizeMB ≤ 0 then 1024 else cfg.MaxHashFileSizeMB
  wrap64 (wrap64 (maxBytes * 1024) * 1024)

/-- Go `helpers.HashFile`: the digest, the error, and the log. -/
def HashFile (env : Env) (fs : FS) (filePath : String) (maxBytes : Int) :
    (String × Option HashError) × List LogEntry :=
  let l0 : List LogEntry := [⟨.Debug, "[DEBUG] Opening file for hashing: %s"⟩]
  match osStat env fs filePath with
  | .error err => (("", some (NewHashError filePath err)),
      l0 ++ [⟨.Error, "[ERROR] Stat failed for %s: %v"⟩])
  | .ok fileInfo =>
    if (fileInfo.size : Int) > maxBytes then
      (("", none), l0 ++ [⟨.Info,
        "Skipping hash for %s: file size %d bytes exceeds max allowed %d bytes"⟩])
    else
      match osOpen env fs filePath with
      | .error err => (("", some (NewHashError filePath err)),
          l0 ++ [⟨.Error, "[ERROR] Failed to open file for hashing: %s, error: %v"⟩])
      | .ok _ =>
        match osReadAll env fs filePath with
        | .error err => (("", some (NewHashError filePath err)),
            l0 ++ [⟨.Error, "[ERROR] Failed to hash file %s: %v"⟩])
        | .ok content =>
          let result := env.sha256hex content
          let l1 : List LogEntry :=
            if result = "" then [⟨.Debug, "[DEBUG] Hash for file %s is empty, skipping"⟩] else []
          ((result, none), l0 ++ l1 ++ [⟨.Debug, "[DEBUG] Finished hashing file: %s"⟩])

/-- Go `helpers.PartialHashFile`: one `Read` of at most `numBytes` bytes, taken
to return the whole prefix. -/
def PartialHashFile (env : Env) (fs : FS) (filePath : String) (numBytes : Nat) :
    (String × Option Errno) × List LogEntry :=
  let l0 : List LogEntry := [⟨.Debug, "[DEBUG] Starting partial hash for file: %s (first %d bytes)"⟩]
  match osOpen env fs filePath with
  | .error err => (("", some err),
      l0 ++ [⟨.Error, "[ERROR] Failed to open file for partial hash: %s, error: %v"⟩])
  | .ok _ =>
    match osReadAll env fs filePath with
    | .error err => (("", some err),
        l0 ++ [⟨.Error, "[ERROR] Error reading file for partial hash: %s, error: %v"⟩])
    | .ok content =>
      let result := env.sha256hex (content.take numBytes)
      let l1 : List LogEntry :=
        if result = "" then [⟨.Debug, "[DEBUG] Partial hash for file %s is empty, skipping"⟩]
        else []
      ((result, none), l0 ++ l1 ++ [⟨.Debug, "[DEBUG] Finished partial hash for file: %s"⟩])

/-! ## `helpers`: images -/

/-- The double loop of `HasTransparency`: the number of pixels with `a < 0xffff`. -/
def countTransparent (img : Image) : Nat :=
  ((List.range (img.maxY - img.minY).toNat).map (fun (dy : Nat) =>
    ((List.range (img.maxX - img.minX).toNat).filter (fun (dx : Nat) =>
      decide (img.alphaAt (img.minX + (dx : Int)) (img.minY + (dy : Int)) < 0xffff))).length)).sum

/-- Go `helpers.HasTransparency`. The quotient `float64(a) / float64(b)` is the
exact quotient of the two counts: both are far below `2 ^ 53`, where `float64`
holds every integer exactly and the rounded quotient lies on the same side of
`0.5` as the exact one. -/
def HasTransparency (env : Env) (fs : FS) (filePath : String) :
    (Bool × Option Errno) × List LogEntry :=
  match osOpen env fs filePath with
  | .error err => ((false, some err), [⟨.Error, "Failed to open image file: "⟩])
  | .ok _ =>
    match osReadAll env fs filePath with
    | .error err => ((false, some err), [⟨.Error, "Failed to decode PNG: "⟩])
    | .ok content =>
      match env.pngDecode content with
      | none => ((false, some .EINVAL), [⟨.Error, "Failed to decode PNG: "⟩])
      | some img =>
        let width := img.maxX - img.minX
        let height := img.maxY - img.minY
        let totalPixels := width * height
        if totalPixels = 0 then ((false, none), [])
        else
          let transparentPixels := countTransparent img
          ((decide ((transparentPixels : ℚ) / (totalPixels : ℚ) > 1 / 2), none), [])

/-! ## `helpers`: files -/

/-- Go `helpers.FolderExists`: true unless `os.Stat` reports that the path does
not exist. -/
def FolderExists (env : Env) (fs : FS) (folderPath : String) : Bool :=
  match osStat env fs folderPath with
  | .ok _ => true
  | .error err => !IsNotExist err

/-- Go `helpers.FileExists`. -/
def FileExists (env : Env) (fs : FS) (path : String) : Bool :=
  match osStat env fs path with
  | .ok info => !info.isDir
  | .error _ => false

/-- Go `helpers.MoveFile`: rename, and on an already-exists or permission error
of the rename copy the bytes and delete the source. -/
def MoveFile (env : Env) (fs : FS) (src dst : String) : FS × Option Errno :=
  match osRename env fs src dst with
  | .ok fs1 => (fs1, none)
  | .error err =>
    if !IsExist err && !IsPermission err then (fs, some err)
    else
      match osOpen env fs src with
      | .error e => (fs, some e)
      | .ok _ =>
        match osCreate env fs dst with
        | .error e => (fs, some e)
        | .ok fs1 =>
          match ioCopy env fs1 src dst with
          | (fs2, some e) => (fs2, some e)
          | (fs2, none) =>
            match osRemove env fs2 src with
            | .error e => (fs2, some e)
            | .ok fs3 => (fs3, none)

/-- Go `helpers.MoveDuplicateFile`. -/
def MoveDuplicateFile (env : Env) (fs : FS) (folderPath fileName originalPath : String) :
    FS × List LogEntry :=
  let duplicatesFolder := Join folderPath "Duplicates"
  let mk : Except Errno FS :=
    if !FolderExists env fs duplicatesFolder then osMkdirAll env fs duplicatesFolder else .ok fs
  match mk with
  | .error _ => (fs, [⟨.Error, "Failed to create folder %s: %v"⟩])
  | .ok fs1 =>
    let originalFileName := TrimSuffix (Base originalPath) (Ext originalPath)
    let duplicateFileName := TrimSuffix fileName (Ext fileName)
    let newDuplicateFileName :=
      duplicateFileName ++ "_duplicate_of_" ++ originalFileName ++ Ext fileName
    let duplicateDstPath := Join duplicatesFolder newDuplicateFileName
    let srcPath := Join folderPath fileName
    match MoveFile env fs1 srcPath duplicateDstPath with
    | (fs2, some _) => (fs2, [⟨.Error, "Failed to move duplicate file %s: %v"⟩])
    | (fs2, none) => (fs2, [⟨.Info, "Moved duplicate: %s -> %s"⟩])

/-- Go `helpers.MoveExtractedArchive`. -/
def MoveExtractedArchive (env : Env) (fs : FS) (folderPath fileName : String) :
    FS × List LogEntry :=
  let extractedFolder := Join folderPath "Archives-Extracted"
  let mk : Except Errno FS :=
    if !FolderExists env fs extractedFolder then osMkdirAll env fs extractedFolder else .ok fs
  match mk with
  | .error _ => (fs, [⟨.Error, "Failed to create folder %s: %v"⟩])
  | .ok fs1 =>
    let extractedDstPath := Join extractedFolder fileName
    let srcPath := Join folderPath fileName
    match MoveFile env fs1 srcPath extractedDstPath with
    | (fs2, some _) => (fs2, [⟨.Error, "Failed to move archive %s: %v"⟩])
    | (fs2, none) => (fs2, [⟨.Info, "Moved: %s -> %s"⟩])

/-- The `for` loop of `MoveFileToTargetFolder` that looks for a free suffixed
name, starting at counter `i`; `fuel` bounds the number of iterations. -/
def findFreeSuffix (env : Env) (fs : FS) (targetPath name ext : String) :
    Nat → Nat → Option Nat
  | 0, _ => none
  | fuel + 1, i =>
    if !FileExists env fs (Join targetPath (suffixedName name i ext)) then some i
    else findFreeSuffix env fs targetPath name ext fuel (i + 1)

/-- Go `helpers.MoveFileToTargetFolder`. The search for a free name gets one
more iteration than the table has entries, which always suffices
(`findFreeSuffix_terminates`); the `none` branch is therefore never taken. -/
def MoveFileToTargetFolder (env : Env) (cfg : Config) (fs : FS)
    (folderPath fileName targetFolder : String) : FS × List LogEntry :=
  let targetPath := Join folderPath targetFolder
  let mk : Except Errno FS :=
    if !FolderExists env fs targetPath then osMkdirAll env fs targetPath else .ok fs
  match mk with
  | .error _ => (fs, [⟨.Error, "Failed to create folder %s: %v"⟩])
  | .ok fs1 =>
    let srcPath := Join folderPath fileName
    let dstPath := Join targetPath fileName
    let finish (fs2 : FS) (dstPath : String) (l : List LogEntry) : FS × List LogEntry :=
      match MoveFile env fs2 srcPath dstPath with
      | (fs3, some _) => (fs3, l ++ [⟨.Error, "Failed to move file %s: %v"⟩])
      | (fs3, none) => (fs3, l ++ [⟨.Info, "Moved: %s -> %s"⟩])
    if FileExists env fs1 dstPath then
      let maxBytes := maxBytesOf cfg
      let l1 : List LogEntry := [⟨.Debug, "Hashing source file: %s"⟩]
      match HashFile env fs1 srcPath maxBytes with
      | ((_, some _), hl) => (fs1, l1 ++ hl ++ [⟨.Error, "Failed to hash source file %s: %v"⟩])
      | ((srcHash, none), hl) =>
        let l2 := l1 ++ hl ++ [⟨.Debug, "Hashing destination file: %s"⟩]
        match HashFile env fs1 dstPath maxBytes with
        | ((_, some _), hl2) =>
          (fs1, l2 ++ hl2 ++ [⟨.Error, "Failed to hash destination file %s: %v"⟩])
        | ((dstHash, none), hl2) =>
          if srcHash ≠ dstHash then
            let ext := Ext fileName
            let name := TrimSuffix fileName ext
            match findFreeSuffix env fs1 targetPath name ext (fs1.length + 1) 1 with
            | none => (fs1, l2 ++ hl2)
            | some i =>
              finish fs1 (Join targetPath (suffixedName name i ext))
                (l2 ++ hl2 ++ [⟨.Debug, "File conflict: %s exists, renaming to %s"⟩])
          else
            match osRemove env fs1 dstPath with
            | .error _ => (fs1, l2 ++ hl2 ++ [⟨.Error, "Failed to overwrite file %s: %v"⟩])
            | .ok fs2 => finish fs2 dstPath (l2 ++ hl2 ++ [⟨.Debug, "Overwriting file: %s"⟩])
    else finish fs1 dstPath []

/-! ## `service`: the file processor -/

/-- Go `os.DirEntry`, as far as the processor reads it. -/
structure DirEntry where
  Name : String
  IsDir : Bool
  deriving DecidableEq, Repr

/-- Whether `p` is `dir/name` for a single path element `name`; then the name. -/
def childName (dir p : String) : Option String :=
  let pre := (dir ++ "/").data
  if pre.isPrefixOf p.data then
    let rest := p.data.drop pre.length
    if rest ≠ [] ∧ ¬ ('/' ∈ rest) then some ⟨rest⟩ else none
  else none

/-- The paths of the table, each once. -/
def FS.paths (fs : FS) : List String := (fs.map Prod.fst).dedup

/-- The entries of a directory, unsorted. -/
def childrenOf (dir : String) (fs : FS) : List DirEntry :=
  fs.paths.filterMap (fun p =>
    match childName dir p, fs.lookup p with
    | some name, some n => some ⟨name, decide (n = .dir)⟩
    | _, _ => none)

/-- The order of Go strings (`<=`), on the code points of the two strings. -/
def lexLE : List Nat → List Nat → Bool
  | [], _ => true
  | _ :: _, [] => false
  | a :: as, b :: bs => decide (a < b) || (decide (a = b) && lexLE as bs)

/-- The order in which `os.ReadDir` lists two names. -/
def nameLE (a b : String) : Bool := lexLE (a.data.map Char.toNat) (b.data.map Char.toNat)

/-- Go `os.ReadDir`: the entries of the directory sorted by file name. -/
def osReadDir (env : Env) (fs : FS) (dir : String) : Except Errno (List DirEntry) :=
  match env.readDirFault dir with
  | some e => .error e
  | none =>
    match fs.lookup dir with
    | some (.file _) => .error .ENOTDIR
    | _ => .ok ((childrenOf dir fs).insertionSort (fun a b => nameLE a.Name b.Name = true))

/-- A call of one of the three movers of `helpers`, with its arguments. -/
inductive Call
  | MoveDuplicateFile (folderPath fileName originalPath : String)
  | MoveFileToTargetFolder (folderPath fileName targetFolder : String)
  | MoveExtractedArchive (folderPath fileName : String)
  deriving DecidableEq, Repr

/-- The immutable part of Go `service.FileProcessor`. -/
structure FileProcessor where
  config : Config
  extConfig : ExtensionConfig

/-- What a run changes: the file system, the counters (`fp.stats`), what went to
the logger, and the mover calls made so far. -/
structure World where
  fs : FS
  stats : Stats
  log : List LogEntry
  calls : List Call
  deriving DecidableEq, Repr

/-- Append to the log (`fp.Logger.Log`). -/
def World.logf (w : World) (level : LogLevel) (text : String) : World :=
  { w with log := w.log ++ [⟨level, text⟩] }

/-- Record a mover call and take over its effect. -/
def World.call (w : World) (c : Call) (r : FS × List LogEntry) : World :=
  { w with fs := r.1, log := w.log ++ r.2, calls := w.calls ++ [c] }

/-- The mover call `helpers.MoveFileToTargetFolder(folderPath, fileName, targetFolder, ...)`. -/
def World.toTarget (w : World) (env : Env) (cfg : Config)
    (folderPath fileName targetFolder : String) : World :=
  w.call (.MoveFileToTargetFolder folderPath fileName targetFolder)
    (MoveFileToTargetFolder env cfg w.fs folderPath fileName targetFolder)

/-- Go `FileProcessor.moveFileToFolder`: the new world and the returned error. -/
def FileProcessor.moveFileToFolder (fp : FileProcessor) (env : Env) (w : World)
    (folderPath : String) (file : FileDetail) (config : ExtensionConfig) :
    World × Option String :=
  match config.ExtensionToFolder.lookup file.Ext with
  | none =>
    ({ w with stats := w.stats.IncrementUnknownExtensions file.Ext }.logf .Debug
        "Skipping file with unknown extension: %s (%s)",
      some "unknown extension: %s")
  | some targetFolder =>
    if file.Ext = ".zip" then
      let dirName := TrimSuffix file.Name file.Ext
      let dirPath := Join folderPath dirName
      if FolderExists env w.fs dirPath then
        (w.call (.MoveExtractedArchive folderPath file.Name)
          (MoveExtractedArchive env w.fs folderPath file.Name), none)
      else (w.toTarget env fp.config folderPath file.Name "Archives", none)
    else if file.Ext = ".png" then
      if fp.config.DetectTransparentPNGs then
        let r := HasTransparency env w.fs file.Path
        let w0 := { w with log := w.log ++ r.2 }
        let w1 :=
          match r.1.2 with
          | some _ =>
            { w0 with stats := w0.stats.IncrementErrors }.logf .Error
              "Failed to check transparency for file %s: %v"
          | none => w0
        let hasTransparency := match r.1.2 with
          | some _ => false
          | none => r.1.1
        if hasTransparency then
          (({ w1 with stats := w1.stats.IncrementTransparentPNGsMoved }.logf .Debug
              "PNG file %s has transparency, moving to %s").toTarget env fp.config
              folderPath file.Name config.TransparentPNGFolder, none)
        else
          ((w1.logf .Debug "PNG file %s has no transparency, moving to %s").toTarget env
            fp.config folderPath file.Name targetFolder, none)
      else (w.toTarget env fp.config folderPath file.Name targetFolder, none)
    else (w.toTarget env fp.config folderPath file.Name targetFolder, none)

/-- Go `fileHashes[h]`: the bucket of a digest, empty for a missing key. -/
def bucketOf (fileHashes : List (String × List FileDetail)) (h : String) : List FileDetail :=
  (fileHashes.lookup h).getD []

/-- Go `m[k] = append(m[k], v)` on a map kept in order of first insertion. -/
def appendTo {κ ν : Type} [DecidableEq κ] (k : κ) (v : ν) :
    List (κ × List ν) → List (κ × List ν)
  | [] => [(k, [v])]
  | (k0, vs) :: rest =>
    if k0 = k then (k0, vs ++ [v]) :: rest else (k0, vs) :: appendTo k v rest

/-- The comparison step of the loop that chooses the original. -/
def pickShorter (original file : FileDetail) : FileDetail :=
  if len file.Name < len original.Name then file else original

/-- Lines 280-285 of `processFileGroups`: starting from `files[0]`, a member
replaces the current original when its name is strictly shorter. -/
def chooseOriginal (first : FileDetail) (files : List FileDetail) : FileDetail :=
  files.foldl pickShorter first

/-- Lines 287-293 of `processFileGroups`: every member whose path is not the
original's is handed to `MoveDuplicateFile` and counted. -/
def moveDuplicates (env : Env) (folderPath : String) (original : FileDetail)
    (w : World) (files : List FileDetail) : World :=
  files.foldl (fun w file =>
    if file.Path = original.Path then w
    else
      let w1 := w.call (.MoveDuplicateFile folderPath file.Name original.Path)
        (MoveDuplicateFile env w.fs folderPath file.Name original.Path)
      { w1 with stats := w1.stats.IncrementDuplicatesMoved }) w

/-- The state of the loop of `processFileGroups`. -/
structure GroupState where
  world : World
  processedHashes : List String
  deriving DecidableEq, Repr

/-- The call of `moveFileToFolder` with the counting of its outcome, as both the
singleton branch and the duplicate branch of `processFileGroups` do it. -/
def FileProcessor.routeAndCount (fp : FileProcessor) (env : Env) (w : World)
    (folderPath : String) (original : FileDetail) : World :=
  match fp.moveFileToFolder env w folderPath original fp.extConfig with
  | (w1, some _) =>
    { w1 with stats := w1.stats.IncrementErrors }.logf .Error "Failed to move file: %v"
  | (w1, none) => { w1 with stats := w1.stats.IncrementFilesMoved }

/-- The body of the loop of `processFileGroups` for one element of `fileDetails`. -/
def FileProcessor.processDetail (fp : FileProcessor) (env : Env) (folderPath : String)
    (fileHashes : List (String × List FileDetail)) (st : GroupState) (detail : FileDetail) :
    GroupState :=
  if detail.Hash = "" then
    { st with world := st.world.logf .Debug "Skipping file %s due to empty hash" }
  else if detail.Hash ∈ st.processedHashes then st
  else
    match bucketOf fileHashes detail.Hash with
    | [] => { st with world := st.world.logf .Debug "No files found for hash %s, skipping" }
    | [original] =>
      if fp.config.DuplicatesOnly then st
      else
        match fp.extConfig.ExtensionToFolder.lookup original.Ext with
        | none =>
          { st with world :=
              { st.world with stats := st.world.stats.IncrementUnknownExtensions original.Ext
              }.logf .Debug "Skipping file with unknown extension: %s (%s)" }
        | some _ =>
          { world := fp.routeAndCount env st.world folderPath original,
            processedHashes := detail.Hash :: st.processedHashes }
    | first :: second :: more =>
      let files := first :: second :: more
      let original := chooseOriginal first files
      let w1 := moveDuplicates env folderPath original st.world files
      if fp.config.DuplicatesOnly then
        { world := w1.logf .Debug "Duplicates-only mode: leaving original file %s in place",
          processedHashes := detail.Hash :: st.processedHashes }
      else
        match fp.extConfig.ExtensionToFolder.lookup original.Ext with
        | none =>
          { world :=
              { w1 with stats := w1.stats.IncrementUnknownExtensions original.Ext
              }.logf .Debug "Skipping file with unknown extension: %s (%s)",
            processedHashes := detail.Hash :: st.processedHashes }
        | some _ =>
          { world := fp.routeAndCount env w1 folderPath original,
            processedHashes := detail.Hash :: st.processedHashes }

/-- Go `FileProcessor.processFileGroups`; it always returns `nil`. -/
def FileProcessor.processFileGroups (fp : FileProcessor) (env : Env) (w : World)
    (folderPath : String) (fileDetails : List FileDetail)
    (fileHashes : List (String × List FileDetail)) : World :=
  (fileDetails.foldl (fp.processDetail env folderPath fileHashes) ⟨w, []⟩).world

/-- The choices that the Go runtime makes during a run of
`processFilesWithDuplicates`: the iteration order of the two maps, the order in
which the workers deliver their results, and whether the `select` of the
enqueue loop takes the `ctx.Done()` case at an entry. -/
structure Sched where
  sizeOrder : List (Nat × List DirEntry) → List (Nat × List DirEntry)
  partialOrder : List (String × List DirEntry) → List (String × List DirEntry)
  arrival : List (FileDetail × Option HashError) → List (FileDetail × Option HashError)
  cancelAt : DirEntry → Bool

/-- The runtime that iterates maps in insertion order, delivers results in
the order of the jobs and never cancels. -/
def Sched.inOrder : Sched := ⟨id, id, id, fun _ => false⟩

/-- The accumulators of `processFilesWithDuplicates`; `cancelled` is set when
the function has returned `ctx.Err()`. -/
structure Acc where
  fileHashes : List (String × List FileDetail)
  fileDetails : List FileDetail
  world : World
  cancelled : Bool
  deriving DecidableEq, Repr

/-- The first loop of `processFilesWithDuplicates`: group the regular files by
the size that `os.Stat` reports. -/
def groupBySize (env : Env) (folderPath : String) :
    List DirEntry → List (Nat × List DirEntry) × World → List (Nat × List DirEntry) × World
  | [], r => r
  | entry :: rest, (sizeGroups, w) =>
    if entry.IsDir then groupBySize env folderPath rest (sizeGroups, w)
    else
      let filePath := Join folderPath entry.Name
      match osStat env w.fs filePath with
      | .error _ =>
        groupBySize env folderPath rest (sizeGroups,
          { w with stats := w.stats.IncrementErrors }.logf .Error "Failed to stat file %s: %v")
      | .ok info => groupBySize env folderPath rest (appendTo info.size entry sizeGroups, w)

/-- The loop over one size group that fills `partialHashes`. -/
def groupByPartialHash (env : Env) (folderPath : String) (partialHashSize : Nat) :
    List DirEntry → List (String × List DirEntry) × World →
      List (String × List DirEntry) × World
  | [], r => r
  | entry :: rest, (partialHashes, w) =>
    let filePath := Join folderPath entry.Name
    let r := PartialHashFile env w.fs filePath partialHashSize
    let w0 := { w with log := w.log ++ r.2 }
    match r.1.2 with
    | some _ =>
      groupByPartialHash env folderPath partialHashSize rest (partialHashes,
        { w0 with stats := w0.stats.IncrementErrors }.logf .Error
          "Failed to partial hash file %s: %v")
    | none =>
      groupByPartialHash env folderPath partialHashSize rest
        (appendTo r.1.1 entry partialHashes, w0)

/-- The body of a worker of the full-hash stage for one job: the candidate and
the error sent to `results` (what the concurrent workers hand to the logger is
not recorded). -/
def hashWorker (env : Env) (fs : FS) (folderPath : String) (maxBytes : Int) (entry : DirEntry) :
    FileDetail × Option HashError :=
  let filePath := Join folderPath entry.Name
  let r := (HashFile env fs filePath maxBytes).1
  (⟨entry.Name, filePath, r.1, ToLower (Ext entry.Name)⟩, r.2)

/-- The loop `for res := range results`. -/
def collectResults (acc : Acc) (results : List (FileDetail × Option HashError)) : Acc :=
  results.foldl (fun acc res =>
    match res.2 with
    | some _ =>
      { acc with world :=
          ({ acc.world with stats := acc.world.stats.IncrementErrors }.logf .Error
            "Failed to hash file %s: %v") }
    | none =>
      { acc with
        fileDetails := acc.fileDetails ++ [res.1],
        fileHashes := appendTo res.1.Hash res.1 acc.fileHashes,
        world := { acc.world with stats := acc.world.stats.IncrementTotalFiles } }) acc

/-- The body of the loop over `partialHashes` for one partial-hash group. -/
def partialGroupStep (env : Env) (sched : Sched) (folderPath : String) (maxBytes : Int)
    (size : Nat) (acc : Acc) (g : String × List DirEntry) : Acc :=
  if acc.cancelled then acc
  else
    match g.2 with
    | [entry] =>
      let filePath := Join folderPath entry.Name
      let detail : FileDetail := ⟨entry.Name, filePath, "", ToLower (Ext entry.Name)⟩
      { acc with
        fileDetails := acc.fileDetails ++ [detail],
        fileHashes := appendTo ("size-partial-" ++ Sprint size ++ "-" ++ g.1) detail acc.fileHashes,
        world := { acc.world with stats := acc.world.stats.IncrementTotalFiles } }
    | pGroup =>
      let acc1 := { acc with world := (acc.world.logf .Debug
        "[DEBUG] Processing %d files with size %d bytes and partial hash %s") }
      if pGroup.any sched.cancelAt then { acc1 with cancelled := true }
      else
        collectResults acc1
          (sched.arrival (pGroup.map (hashWorker env acc1.world.fs folderPath maxBytes)))

/-- The body of the loop over `sizeGroups` for one size group. -/
def sizeGroupStep (env : Env) (sched : Sched) (folderPath : String) (maxBytes : Int)
    (acc : Acc) (g : Nat × List DirEntry) : Acc :=
  if acc.cancelled then acc
  else
    match g.2 with
    | [entry] =>
      let filePath := Join folderPath entry.Name
      let uniqueHash := "size-" ++ Sprint g.1
      let detail : FileDetail := ⟨entry.Name, filePath, uniqueHash, ToLower (Ext entry.Name)⟩
      { acc with
        fileDetails := acc.fileDetails ++ [detail],
        fileHashes := appendTo uniqueHash detail acc.fileHashes,
        world := { acc.world with stats := acc.world.stats.IncrementTotalFiles } }
    | group =>
      let w0 := acc.world.logf .Debug "[DEBUG] Processing %d files of size %d bytes"
      let r := groupByPartialHash env folderPath 4096 group ([], w0)
      (sched.partialOrder r.1).foldl (partialGroupStep env sched folderPath maxBytes g.1)
        { acc with world := r.2 }

/-- The grouping part of `processFilesWithDuplicates`, up to the call of
`processFileGroups`. -/
def FileProcessor.buildGroups (fp : FileProcessor) (env : Env) (sched : Sched) (w : World)
    (folderPath : String) (entries : List DirEntry) : Acc :=
  let w0 := w.logf .Debug "[DEBUG] Grouping files by size"
  let r := groupBySize env folderPath entries ([], w0)
  (sched.sizeOrder r.1).foldl (sizeGroupStep env sched folderPath (maxBytesOf fp.config))
    ⟨[], [], r.2, false⟩

/-- The errors that a run returns. -/
inductive RunError
  | canceled
  | notExist
  | readDir (e : Errno)
  deriving DecidableEq, Repr

/-- Go `FileProcessor.processFilesWithDuplicates`. -/
def FileProcessor.processFilesWithDuplicates (fp : FileProcessor) (env : Env) (sched : Sched)
    (w : World) (folderPath : String) (entries : List DirEntry) : World × Option RunError :=
  let acc := fp.buildGroups env sched w folderPath entries
  if acc.cancelled then (acc.world, some .canceled)
  else (fp.processFileGroups env acc.world folderPath acc.fileDetails acc.fileHashes, none)

/-- Go `FileProcessor.processFilesWithoutDuplicates`. -/
def FileProcessor.processFilesWithoutDuplicates (fp : FileProcessor) (env : Env) (sched : Sched)
    (folderPath : String) : World → List DirEntry → World × Option RunError
  | w, [] => (w, none)
  | w, entry :: rest =>
    if sched.cancelAt entry then (w, some .canceled)
    else if entry.IsDir then fp.processFilesWithoutDuplicates env sched folderPath w rest
    else
      let filePath := Join folderPath entry.Name
      let detail : FileDetail := ⟨entry.Name, filePath, "", ToLower (Ext entry.Name)⟩
      let w1 := { w with stats := w.stats.IncrementTotalFiles }
      match fp.extConfig.ExtensionToFolder.lookup detail.Ext with
      | none =>
        fp.processFilesWithoutDuplicates env sched folderPath
          ({ w1 with stats := w1.stats.IncrementUnknownExtensions detail.Ext }.logf .Debug
            "Skipping file with unknown extension: %s (%s)") rest
      | some _ =>
        fp.processFilesWithoutDuplicates env sched folderPath
          (fp.routeAndCount env w1 folderPath detail) rest

/-- Go `FileProcessor.processFiles`. -/
def FileProcessor.processFiles (fp : FileProcessor) (env : Env) (sched : Sched) (w : World)
    (folderPath : String) (entries : List DirEntry) : World × Option RunError :=
  if fp.config.MoveDuplicates then fp.processFilesWithDuplicates env sched w folderPath entries
  else fp.processFilesWithoutDuplicates env sched folderPath w entries

/-- Go `FileProcessor.ProcessDirectory`. -/
def FileProcessor.ProcessDirectory (fp : FileProcessor) (env : Env) (sched : Sched) (w : World)
    (folderPath : String) : World × Option RunError :=
  if !FolderExists env w.fs folderPath then (w, some .notExist)
  else
    match osReadDir env w.fs folderPath with
    | .error e => (w, some (.readDir e))
    | .ok entries => fp.processFiles env sched w folderPath entries

/-! ## Vocabulary of the statements -/

/-- The value of a list of decimal digit characters, most significant first. -/
def digitsValue : List Char → Nat
  | [] => 0
  | c :: cs => (c.toNat - 48) * 10 ^ cs.length + digitsValue cs

/-- The mover call that the duplicate loop makes for a member. -/
def dupCall (folderPath : String) (original file : FileDetail) : Call :=
  .MoveDuplicateFile folderPath file.Name original.Path

/-- Whether a mover call is a call of `MoveDuplicateFile`. -/
def Call.isDuplicateMove : Call → Bool
  | .MoveDuplicateFile _ _ _ => true
  | _ => false

/-- An environment in which no system call fails for a reason outside the
table. -/
structure Env.FaultFree (env : Env) : Prop where
  stat : ∀ p, env.statFault p = none
  rename : ∀ p q, env.renameFault p q = none
  open_ : ∀ p, env.openFault p = none
  create : ∀ p, env.createFault p = none
  read : ∀ p, env.readFault p = none
  write : ∀ p, env.writeFault p = none
  remove : ∀ p, env.removeFault p = none
  mkdir : ∀ p, env.mkdirFault p = none
  readDir : ∀ p, env.readDirFault p = none

/-- The environment without failures, for a digest function and a decoder. -/
def Env.quiet (sha : List UInt8 → String) (png : List UInt8 → Option Image) : Env where
  sha256hex := sha
  pngDecode := png
  statFault := fun _ => none
  renameFault := fun _ _ => none
  openFault := fun _ => none
  createFault := fun _ => none
  readFault := fun _ => none
  writeFault := fun _ => none
  written := fun _ => 0
  removeFault := fun _ => none
  mkdirFault := fun _ => none
  readDirFault := fun _ => none

/-- What `HashFile` returns as the digest of a readable regular file with the
given content: nothing above the ceiling, the SHA-256 otherwise. -/
def hashOutcome (env : Env) (maxBytes : Int) (content : List UInt8) : String :=
  if (content.length : Int) > maxBytes then "" else env.sha256hex content

/-- The path of the `i`-th conflict name of a file in its target folder. -/
def conflictPath (folderPath fileName targetFolder : String) (i : Nat) : String :=
  Join (Join folderPath targetFolder)
    (suffixedName (TrimSuffix fileName (Ext fileName)) i (Ext fileName))

/-- A file named `fileName` with the given content appears in the source folder
and is moved to the target folder. -/
def arrive (env : Env) (cfg : Config) (folderPath fileName targetFolder : String)
    (fs : FS) (content : List UInt8) : FS :=
  (MoveFileToTargetFolder env cfg (fs.insert (Join folderPath fileName) (.file content))
    folderPath fileName targetFolder).1

/-- A sequence of such arrivals, one after the other. -/
def arrivals (env : Env) (cfg : Config) (folderPath fileName targetFolder : String)
    (fs : FS) (contents : List (List UInt8)) : FS :=
  contents.foldl (arrive env cfg folderPath fileName targetFolder) fs

/-- The state of a target folder after `m` conflicting arrivals of a name: the
folder and the first holder of the name are in place, the conflict names
`1..m` are regular files, the later ones are free. -/
structure Arrived (fs : FS) (folderPath fileName targetFolder : String) (d : List UInt8)
    (m : Nat) : Prop where
  folder : fs.lookup (Join folderPath targetFolder) = some .dir
  holder : fs.lookup (Join (Join folderPath targetFolder) fileName) = some (.file d)
  taken : ∀ j, 1 ≤ j → j ≤ m →
    ∃ c, fs.lookup (conflictPath folderPath fileName targetFolder j) = some (.file c)
  free : ∀ j, m < j → fs.lookup (conflictPath folderPath fileName targetFolder j) = none

/-- Whether the path lies inside the folder. -/
def inFolder (dir p : String) : Bool := (dir ++ "/").data.isPrefixOf p.data

/-- Whether the path names a regular file. -/
def FS.isFile (fs : FS) (p : String) : Bool :=
  match fs.lookup p with
  | some (.file _) => true
  | _ => false

/-- The regular files inside a folder, each path once. -/
def filesIn (fs : FS) (dir : String) : List String :=
  fs.paths.filter (fun p => inFolder dir p && fs.isFile p)

/-- The file name that a mover call is made for. -/
def Call.fileName : Call → String
  | .MoveDuplicateFile _ fileName _ => fileName
  | .MoveFileToTargetFolder _ fileName _ => fileName
  | .MoveExtractedArchive _ fileName => fileName

/-- What the library guarantees of a SHA-256 sum rendered with `%x`: 64
lowercase hexadecimal digits. -/
def isHexDigest (s : String) : Prop :=
  s.length = 64 ∧ ∀ c ∈ s.data, c ∈ "0123456789abcdef".data

/-- An environment whose digest function renders 64 hexadecimal digits. -/
structure Env.HexDigests (env : Env) : Prop where
  hex : ∀ content, isHexDigest (env.sha256hex content)

/-- The entry of an extension in the histogram (`GetUnknownExtMap()[ext]`), zero
for an extension that has none. -/
def extCount (m : List (String × Int)) (ext : String) : Int := (m.lookup ext).getD 0

/-- Whether the lowercased extension of an entry is in the mapping. -/
def FileProcessor.mapped (fp : FileProcessor) (e : DirEntry) : Bool :=
  (fp.extConfig.ExtensionToFolder.lookup (ToLower (Ext e.Name))).isSome

/-- The size that `os.Stat` reports for an entry of the listing, if it reports
one (first loop of `processFilesWithDuplicates`). -/
def statSize (env : Env) (fs : FS) (folderPath : String) (e : DirEntry) : Option Nat :=
  match osStat env fs (Join folderPath e.Name) with
  | .ok info => some info.size
  | .error _ => none

/-- The regular files of a listing for which `os.Stat` reports the size `n`, in
the order of the listing. -/
def regularOfSize (env : Env) (fs : FS) (folderPath : String) (n : Nat)
    (entries : List DirEntry) : List DirEntry :=
  entries.filter (fun e => !e.IsDir && decide (statSize env fs folderPath e = some n))

/-- The candidate that `processFilesWithDuplicates` records for the only file
of a size group. -/
def sizeDetail (folderPath : String) (n : Nat) (x : DirEntry) : FileDetail :=
  ⟨x.Name, Join folderPath x.Name, "size-" ++ Sprint n, ToLower (Ext x.Name)⟩

/-- The number of mover calls made for a file name. -/
def callsFor (name : String) (calls : List Call) : Nat :=
  (calls.filter (fun c => decide (Call.fileName c = name))).length

/-- A runtime that iterates the maps and delivers the results in some order,
each once, and never cancels. -/
structure Sched.Fair (sched : Sched) : Prop where
  sizeOrder : ∀ l, (sched.sizeOrder l).Perm l
  partialOrder : ∀ l, (sched.partialOrder l).Perm l
  arrival : ∀ l, (sched.arrival l).Perm l
  noCancel : ∀ e, sched.cancelAt e = false

/-- What the tables of `processFilesWithDuplicates` say of the file `name` whose
bucket has the key `key`: the bucket is `bucket`, no other bucket has a member
of that name, the candidates of that name are all `detail`, and `detail` is
recorded once the bucket is filled. -/
structure Acc.Keeps (name key : String) (bucket : List FileDetail) (detail : FileDetail)
    (acc : Acc) : Prop where
  running : acc.cancelled = false
  bucket_eq : bucketOf acc.fileHashes key = bucket
  others : ∀ k, k ≠ key → ∀ f ∈ bucketOf acc.fileHashes k, f.Name ≠ name
  details : ∀ d ∈ acc.fileDetails, d.Name = name → d = detail
  recorded : bucket ≠ [] → detail ∈ acc.fileDetails

/-- No `os.Stat`, partial hash or full hash of a regular file of the listing
fails. -/
structure Env.Hashes (env : Env) (fs : FS) (folderPath : String) (maxBytes : Int)
    (entries : List DirEntry) : Prop where
  stat : ∀ e ∈ entries, e.IsDir = false → statSize env fs folderPath e ≠ none
  partialHash : ∀ e ∈ entries, e.IsDir = false →
    (PartialHashFile env fs (Join folderPath e.Name) 4096).1.2 = none
  fullHash : ∀ e ∈ entries, e.IsDir = false →
    (HashFile env fs (Join folderPath e.Name) maxBytes).1.2 = none

/-- The number of members of all the groups of a table. -/
def members {κ ν : Type} (m : List (κ × List ν)) : Nat := (m.map (fun p => p.2.length)).sum

/-- The candidates that the results deliver for the digest `h`, in the order
of the results: those without an error whose digest is `h`. -/
def arrived (results : List (FileDetail × Option HashError)) (h : String) : List FileDetail :=
  (results.filter (fun r => r.2.isNone && decide (r.1.Hash = h))).map Prod.fst

/-- The candidates that the results deliver, in the order of the results. -/
def delivered (results : List (FileDetail × Option HashError)) : List FileDetail :=
  (results.filter (fun r => r.2.isNone)).map Prod.fst

/-- The number of duplicates of the bucket of a digest: one less than its
members, and none for the empty digest. -/
def duplicatesOf (fileHashes : List (String × List FileDetail)) (h : String) : Nat :=
  if h = "" then 0 else (bucketOf fileHashes h).length - 1

/-! ## Example data -/

/-- A stand-in for SHA-256 in the examples: the decimal bytes of the content,
each followed by a dot, so that different contents have different digests. -/
def plainDigest (content : List UInt8) : String :=
  String.join (content.map (fun b => toString b.toNat ++ "."))

/-- The environment of the examples: no failures, no PNG decodes. -/
def exEnv : Env := Env.quiet plainDigest (fun _ => none)

/-- The configuration of a run with duplicate detection and the default
ceiling of 1024 MB. -/
def exConfig : Config := ⟨true, false, false, true, "", false, 1024, 0⟩

/-- The processor of the examples, with the default extension mapping. -/
def exProcessor : FileProcessor := ⟨exConfig, DefaultExtensionConfig⟩

/-- A folder `d` whose `Pictures` already holds a `photo.jpg`, and another
`photo.jpg` with different bytes waiting in `d`. -/
def exPhotoFS : FS :=
  [("d", .dir), ("d/Pictures", .dir), ("d/Pictures/photo.jpg", .file [1]),
   ("d/photo.jpg", .file [2])]

/-- The folder of `exPhotoFS` in which `Pictures` also holds a directory named
`photo(1).jpg`. -/
def exPhotoDirFS : FS :=
  [("d", .dir), ("d/Pictures", .dir), ("d/Pictures/photo(1).jpg", .dir),
   ("d/Pictures/photo.jpg", .file [1]), ("d/photo.jpg", .file [2])]

/-- The configuration of a run with duplicate detection and a ceiling of 1 MB
(`-S 1M`). -/
def exConfig1M : Config := ⟨true, false, false, true, "", false, 1, 0⟩

/-- A content of 1 MiB + 1 byte, all bytes equal to `b`. -/
def exBig (b : UInt8) : List UInt8 := List.replicate 1048577 b

/-- A folder `d` whose `Videos` holds a `movie.mp4` of 1 MiB + 1 byte, and a
different `movie.mp4` of the same size waiting in `d`. -/
def exMovieFS : FS :=
  [("d", .dir), ("d/Videos", .dir), ("d/Videos/movie.mp4", .file (exBig 2)),
   ("d/movie.mp4", .file (exBig 1))]

/-- Like `exPhotoFS`, but the two `photo.jpg` have the same bytes. -/
def exSamePhotoFS : FS :=
  [("d", .dir), ("d/Pictures", .dir), ("d/Pictures/photo.jpg", .file [7]),
   ("d/photo.jpg", .file [7])]

/-- The bytes of `hello`. -/
def exHello : List UInt8 := [104, 101, 108, 108, 111]

/-- The bytes of `world`. -/
def exWorld : List UInt8 := [119, 111, 114, 108, 100]

/-- The directory of the example of the spec: `a.txt` and `b.txt` contain
`hello`, `c.txt` contains `world`. -/
def exHelloFS : FS :=
  [("d", .dir), ("d/a.txt", .file exHello), ("d/b.txt", .file exHello),
   ("d/c.txt", .file exWorld)]

/-- The listing of that directory. -/
def exHelloEntries : List DirEntry := [⟨"a.txt", false⟩, ⟨"b.txt", false⟩, ⟨"c.txt", false⟩]

/-- The world before a run on that directory. -/
def exHelloWorld : World := ⟨exHelloFS, Stats.zero, [], []⟩

/-- The candidate of `a.txt` with its full digest. -/
def exDetailA : FileDetail := ⟨"a.txt", "d/a.txt", plainDigest exHello, ".txt"⟩

/-- The candidate of `b.txt` with its full digest. -/
def exDetailB : FileDetail := ⟨"b.txt", "d/b.txt", plainDigest exHello, ".txt"⟩

/-- An environment in which every rename fails with the cross-device error and
nothing else fails. -/
def exCrossDeviceEnv : Env := { exEnv with renameFault := fun _ _ => some .EXDEV }

/-- An environment in which every rename fails with a permission error and
every write fails for lack of space, after two bytes. -/
def exNoSpaceEnv : Env :=
  { exEnv with renameFault := fun _ _ => some .EACCES,
               writeFault := fun _ => some .ENOSPC,
               written := fun _ => 2 }

/-- An environment in which every rename fails with a permission error and
nothing else fails. -/
def exNoRenameEnv : Env := { exEnv with renameFault := fun _ _ => some .EACCES }

/-- An environment in which no folder can be created. -/
def exNoMkdirEnv : Env := { exEnv with mkdirFault := fun _ => some .EACCES }

/-- The processor of a run with duplicate detection and a ceiling of 1 MB. -/
def exProcessor1M : FileProcessor := ⟨exConfig1M, DefaultExtensionConfig⟩

/-- A directory with two text files of 1 MiB + 1 byte and the same bytes. -/
def exBigFS : FS :=
  [("d", .dir), ("d/big1.txt", .file (exBig 1)), ("d/big2.txt", .file (exBig 1))]

/-- The listing of that directory. -/
def exBigEntries : List DirEntry := [⟨"big1.txt", false⟩, ⟨"big2.txt", false⟩]

/-- The two hexadecimal digits of a byte. -/
def byteHex (b : UInt8) : List Char := [Nat.digitChar (b.toNat / 16), Nat.digitChar (b.toNat % 16)]

/-- A stand-in for SHA-256 with the shape of a real digest: the bytes of the
content in hexadecimal, padded with zeros and cut to 64 digits. -/
def exHexDigest (content : List UInt8) : String :=
  ⟨((content.flatMap byteHex) ++ List.replicate 64 '0').take 64⟩

/-- The environment without failures whose digests have 64 hexadecimal digits. -/
def exHexEnv : Env := Env.quiet exHexDigest (fun _ => none)

/-- An image of two by two pixels, three of them not fully opaque. -/
def exImage : Image := ⟨0, 0, 2, 2, fun x y => if x = 0 ∧ y = 0 then 0xffff else 0⟩

/-- An image of two by two pixels, the two of the first column not fully
opaque. -/
def exHalfImage : Image := ⟨0, 0, 2, 2, fun x _ => if x = 0 then 0 else 0xffff⟩

/-- An environment without failures in which every file decodes to `exImage`. -/
def exPngEnv : Env := Env.quiet plainDigest (fun _ => some exImage)

/-- An environment without failures in which every file decodes to
`exHalfImage`. -/
def exHalfPngEnv : Env := Env.quiet plainDigest (fun _ => some exHalfImage)

/-- A directory with one PNG file. -/
def exPngFS : FS := [("d", .dir), ("d/logo.png", .file [137, 80, 78, 71])]

/-- The processor of a run in duplicates-only mode. -/
def exDupOnlyProcessor : FileProcessor :=
  ⟨{ exConfig with DuplicatesOnly := true }, DefaultExtensionConfig⟩

/-- The candidate of `c.txt` with its full digest. -/
def exDetailC : FileDetail := ⟨"c.txt", "d/c.txt", plainDigest exWorld, ".txt"⟩

/-- The processor of a run without duplicate detection. -/
def exPlainProcessor : FileProcessor :=
  ⟨⟨false, false, false, true, "", false, 1024, 0⟩, DefaultExtensionConfig⟩

/-- The directory of the test without duplicates: three mapped files and one
with an unknown extension. -/
def exMixedFS : FS :=
  [("d", .dir), ("d/document.pdf", .file [1]), ("d/image.jpg", .file [2]),
   ("d/unknown.xyz", .file [3]), ("d/video.mp4", .file [4])]

/-- The listing of that directory. -/
def exMixedEntries : List DirEntry :=
  [⟨"document.pdf", false⟩, ⟨"image.jpg", false⟩, ⟨"unknown.xyz", false⟩, ⟨"video.mp4", false⟩]

/-- A directory holding `doc.T\u00C9XT`, with a capital E acute, and
`movie.m\u212Av`, whose `K` is the Kelvin sign U+212A. -/
def exKelvinFS : FS :=
  [("d", .dir), ("d/doc.T\u00C9XT", .file [1]), ("d/movie.m\u212Av", .file [2])]

/-- The listing of that directory. -/
def exKelvinEntries : List DirEntry := [⟨"doc.T\u00C9XT", false⟩, ⟨"movie.m\u212Av", false⟩]

/-- A user-customised mapping: the default table with the three special folders
renamed (as in `TestSaveAndLoadExtensionConfig`). -/
def exCustomExtensionConfig : ExtensionConfig :=
  { DefaultExtensionConfig with
    ArchiveExtractedFolder := "MyArchives"
    DuplicatesFolder := "MyDuplicates"
    TransparentPNGFolder := "MyPNGs" }

/-- A processor with duplicate detection and the customised mapping. -/
def exCustomProcessor : FileProcessor := ⟨exConfig, exCustomExtensionConfig⟩

/-- A processor without duplicate detection and the customised mapping. -/
def exCustomPlainProcessor : FileProcessor := ⟨exPlainProcessor.config, exCustomExtensionConfig⟩

/-- The directory of `TestFileProcessor_ZipFileHandling`: `archive.zip` next to
the folder `archive`. -/
def exZipFS : FS :=
  [("d", .dir), ("d/archive", .dir), ("d/archive.zip", .file [80, 75, 3, 4])]

/-- A directory that holds `archive.zip` and no folder. -/
def exLowerZipFS : FS := [("d", .dir), ("d/archive.zip", .file [80, 75, 3, 4])]

/-- A directory that holds `ARCHIVE.ZIP` and no folder. -/
def exUpperZipFS : FS := [("d", .dir), ("d/ARCHIVE.ZIP", .file [80, 75, 3, 4])]

/-- A directory that holds `notes.zip` and a regular file `notes`. -/
def exNotesZipFS : FS :=
  [("d", .dir), ("d/notes", .file [1]), ("d/notes.zip", .file [80, 75, 3, 4])]

/-- A directory with two text files of the same bytes and a third of another
size. -/
def exUniqueFS : FS :=
  [("d", .dir), ("d/a.txt", .file exHello), ("d/b.txt", .file exHello),
   ("d/notes.txt", .file [1, 2, 3])]

/-- The listing of that directory. -/
def exUniqueEntries : List DirEntry :=
  [⟨"a.txt", false⟩, ⟨"b.txt", false⟩, ⟨"notes.txt", false⟩]

/-- A runtime in which the cancellation signal is raised when `image.jpg` is
examined. -/
def exCancelAtImage : Sched := ⟨id, id, id, fun e => decide (e.Name = "image.jpg")⟩

/-- A runtime in which the cancellation signal is raised from the start. -/
def exCancelled : Sched := ⟨id, id, id, fun _ => true⟩

/-- A user mapping as in the tests of `extension_config_test.go`: a new
extension, an override of `.jpg`, one special folder renamed and two left
empty. -/
def exUserExtensionConfig : ExtensionConfig :=
  ⟨[(".custom", "CustomFolder"), (".jpg", "MyPictures")], "MyArchives", "", ""⟩

/-- A runtime that delivers the results of the workers in the reverse order of
the jobs. -/
def exReverseArrival : Sched := ⟨id, id, List.reverse, fun _ => false⟩

/-- A directory with two files of the same bytes and of names of the same
length, of which only `a.txt` has a mapped extension. -/
def exTieFS : FS := [("d", .dir), ("d/a.txt", .file exHello), ("d/b.xyz", .file exHello)]
/-! ## The file-system table -/

theorem FS.lookup_cons (q : String) (n : Node) (rest : FS) (p : String) :
    FS.lookup ((q, n) :: rest) p = if q = p then some n else FS.lookup rest p := rfl

@[simp] theorem FS.lookup_nil (p : String) : FS.lookup [] p = none := rfl

theorem FS.lookup_erase (fs : FS) (p q : String) :
    (fs.erase p).lookup q = if q = p then none else fs.lookup q := by
  induction fs with
  | nil => simp [FS.erase]
  | cons e rest ih =>
    obtain ⟨k, n⟩ := e
    unfold FS.erase at ih ⊢
    by_cases hk : k = p
    · subst hk
      rw [List.filter_cons_of_neg (by simp), ih, FS.lookup_cons]
      by_cases hq : q = k
      · simp [hq]
      · have : ¬ k = q := fun h => hq h.symm
        simp [hq, this]
    · rw [List.filter_cons_of_pos (by simpa using hk), FS.lookup_cons, FS.lookup_cons, ih]
      by_cases hkq : k = q
      · have : ¬ q = p := fun h => hk (hkq.trans h)
        simp [hkq, this]
      · simp [hkq]

theorem FS.lookup_insert (fs : FS) (p q : String) (n : Node) :
    (fs.insert p n).lookup q = if q = p then some n else fs.lookup q := by
  unfold FS.insert
  rw [FS.lookup_cons, FS.lookup_erase]
  by_cases h : p = q
  · simp [h]
  · have : ¬ q = p := fun h2 => h h2.symm
    simp [h, this]

theorem FS.lookup_insert_self (fs : FS) (p : String) (n : Node) :
    (fs.insert p n).lookup p = some n := by
  rw [FS.lookup_insert]; simp

theorem FS.lookup_insert_ne (fs : FS) (p q : String) (n : Node) (h : q ≠ p) :
    (fs.insert p n).lookup q = fs.lookup q := by
  rw [FS.lookup_insert]; simp [h]

theorem FS.lookup_erase_self (fs : FS) (p : String) : (fs.erase p).lookup p = none := by
  rw [FS.lookup_erase]; simp

theorem FS.lookup_erase_ne (fs : FS) (p q : String) (h : q ≠ p) :
    (fs.erase p).lookup q = fs.lookup q := by
  rw [FS.lookup_erase]; simp [h]

/-- A path that the table binds is one of its keys. -/
theorem FS.mem_keys_of_lookup (fs : FS) (p : String) (n : Node) (h : fs.lookup p = some n) :
    p ∈ fs.map Prod.fst := by
  induction fs with
  | nil => simp at h
  | cons e rest ih =>
    obtain ⟨k, m⟩ := e
    rw [FS.lookup_cons] at h
    by_cases hk : k = p
    · simp [hk]
    · simp only [hk, if_false] at h
      simp [ih h]

theorem FS.lookup_of_mem_keys (fs : FS) (p : String) (h : p ∈ fs.map Prod.fst) :
    ∃ n, fs.lookup p = some n := by
  induction fs with
  | nil => simp at h
  | cons e rest ih =>
    obtain ⟨k, m⟩ := e
    rw [FS.lookup_cons]
    by_cases hk : k = p
    · exact ⟨m, by simp [hk]⟩
    · simp only [hk, if_false]
      apply ih
      have hk2 : ¬ p = k := fun h2 => hk h2.symm
      simpa [hk2] using h

theorem FS.mem_paths_iff (fs : FS) (p : String) :
    p ∈ fs.paths ↔ ∃ n, fs.lookup p = some n := by
  unfold FS.paths
  rw [List.mem_dedup]
  constructor
  · exact FS.lookup_of_mem_keys fs p
  · rintro ⟨n, h⟩
    exact FS.mem_keys_of_lookup fs p n h

/-! ## Decimal rendering -/

theorem digitChar_value (k : Nat) (h : k < 10) : (Nat.digitChar k).toNat - 48 = k := by
  interval_cases k <;> rfl

theorem toDigitsCore_value (fuel n : Nat) (ds : List Char) (h : n < fuel) :
    digitsValue (Nat.toDigitsCore 10 fuel n ds) = n * 10 ^ ds.length + digitsValue ds := by
  induction fuel generalizing n ds with
  | zero => omega
  | succ fuel ih =>
    unfold Nat.toDigitsCore
    simp only []
    by_cases h0 : n / 10 = 0
    · rw [if_pos h0]
      have hn : n < 10 := by omega
      have hm : n % 10 = n := Nat.mod_eq_of_lt hn
      simp [digitsValue, hm, digitChar_value n hn]
    · rw [if_neg h0]
      have hlt : n / 10 < fuel := by omega
      rw [ih (n / 10) _ hlt]
      have hd : (Nat.digitChar (n % 10)).toNat - 48 = n % 10 :=
        digitChar_value _ (Nat.mod_lt _ (by norm_num))
      simp only [digitsValue, List.length_cons, hd, pow_succ]
      have hsplit : n = 10 * (n / 10) + n % 10 := (Nat.div_add_mod n 10).symm
      generalize n / 10 = q at hsplit ⊢
      generalize n % 10 = r at hsplit ⊢
      generalize 10 ^ ds.length = P
      subst hsplit
      ring

/-- Reading back the decimal rendering of a number gives the number. -/
theorem digitsValue_Sprint (n : Nat) : digitsValue (Sprint n).data = n := by
  have h := toDigitsCore_value (n + 1) n [] (Nat.lt_succ_self n)
  simpa [Sprint, toString, Nat.repr, Nat.toDigits, List.asString, digitsValue] using h

theorem Sprint_injective : Function.Injective Sprint := by
  intro a b h
  rw [← digitsValue_Sprint a, ← digitsValue_Sprint b, h]

theorem String.append_right_cancel (a b c : String) (h : a ++ c = b ++ c) : a = b := by
  have := congrArg String.data h
  simp only [String.data_append] at this
  exact String.ext (List.append_cancel_right this)

theorem String.append_left_cancel (a b c : String) (h : a ++ b = a ++ c) : b = c := by
  have := congrArg String.data h
  simp only [String.data_append] at this
  exact String.ext (List.append_cancel_left this)

/-- Distinct counters give distinct conflict names. -/
theorem suffixedName_injective (name ext : String) :
    Function.Injective (fun i => suffixedName name i ext) := by
  intro i j h
  simp only [suffixedName] at h
  have h1 := String.append_right_cancel _ _ _ h
  have h2 := String.append_right_cancel _ _ _ h1
  have h3 := String.append_left_cancel _ _ _ h2
  exact Sprint_injective h3

theorem Join_injective (dir : String) : Function.Injective (Join dir) := by
  intro a b h
  exact String.append_left_cancel _ _ _ h

/-! ## The choice of the original -/

theorem chooseOriginal_eq_foldl (first : FileDetail) (files : List FileDetail) :
    chooseOriginal first files = files.foldl pickShorter first := rfl

/-- Running the loop from a current original `o` over `l` either keeps `o`,
which then is no longer than any member of `l`, or ends at the first member of
`l` of the least length, which is strictly shorter than `o`. -/
theorem foldl_pickShorter_spec (l : List FileDetail) (o : FileDetail) :
    (l.foldl pickShorter o = o ∧ ∀ f ∈ l, len o.Name ≤ len f.Name) ∨
    (∃ pre post, l = pre ++ l.foldl pickShorter o :: post ∧
      len (l.foldl pickShorter o).Name < len o.Name ∧
      (∀ f ∈ pre, len (l.foldl pickShorter o).Name < len f.Name) ∧
      (∀ f ∈ post, len (l.foldl pickShorter o).Name ≤ len f.Name)) := by
  induction l generalizing o with
  | nil => left; simp
  | cons f t ih =>
    rw [List.foldl_cons]
    by_cases hlt : len f.Name < len o.Name
    · have hp : pickShorter o f = f := by simp [pickShorter, hlt]
      rw [hp]
      right
      rcases ih f with ⟨hr, hall⟩ | ⟨pre, post, hsplit, hless, hpre, hpost⟩
      · refine ⟨[], t, ?_, ?_, ?_, ?_⟩
        · simp [hr]
        · rw [hr]; exact hlt
        · simp
        · intro g hg; rw [hr]; exact hall g hg
      · refine ⟨f :: pre, post, ?_, ?_, ?_, ?_⟩
        · rw [List.cons_append, ← hsplit]
        · exact lt_trans hless hlt
        · intro g hg
          rcases List.mem_cons.mp hg with rfl | hg
          · exact hless
          · exact hpre g hg
        · exact hpost
    · have hp : pickShorter o f = o := by simp [pickShorter, hlt]
      rw [hp]
      rcases ih o with ⟨hr, hall⟩ | ⟨pre, post, hsplit, hless, hpre, hpost⟩
      · left
        refine ⟨hr, ?_⟩
        intro g hg
        rcases List.mem_cons.mp hg with rfl | hg
        · exact Nat.le_of_not_lt hlt
        · exact hall g hg
      · right
        refine ⟨f :: pre, post, ?_, hless, ?_, hpost⟩
        · rw [List.cons_append, ← hsplit]
        · intro g hg
          rcases List.mem_cons.mp hg with rfl | hg
          · exact lt_of_lt_of_le hless (Nat.le_of_not_lt hlt)
          · exact hpre g hg

/-- The original of a bucket splits the bucket into the members before it, all
with strictly longer names, and the members after it, none with a shorter name. -/
theorem chooseOriginal_split (first : FileDetail) (rest : List FileDetail) :
    ∃ pre post, first :: rest = pre ++ chooseOriginal first (first :: rest) :: post ∧
      (∀ f ∈ pre, len (chooseOriginal first (first :: rest)).Name < len f.Name) ∧
      (∀ f ∈ post, len (chooseOriginal first (first :: rest)).Name ≤ len f.Name) := by
  have h0 : chooseOriginal first (first :: rest) = rest.foldl pickShorter first := by
    rw [chooseOriginal_eq_foldl, List.foldl_cons]
    simp [pickShorter]
  rw [h0]
  rcases foldl_pickShorter_spec rest first with ⟨hr, hall⟩ | ⟨pre, post, hsplit, hless, hpre, hpost⟩
  · refine ⟨[], rest, ?_, ?_, ?_⟩
    · simp [hr]
    · simp
    · intro g hg; rw [hr]; exact hall g hg
  · refine ⟨first :: pre, post, ?_, ?_, hpost⟩
    · rw [List.cons_append, ← hsplit]
    · intro g hg
      rcases List.mem_cons.mp hg with rfl | hg
      · exact hless
      · exact hpre g hg

/-- C1. In a bucket of two or more files the original chosen by
`processFileGroups` is a member of the bucket; every member before it has a
strictly longer name (no earlier member has a name of equal or shorter length)
and no member after it has a strictly shorter name, so its name has the least
length of the bucket and it is the earliest member of that length. -/
theorem C1_original_is_first_shortest (first second : FileDetail) (more : List FileDetail) :
    ∃ pre post,
      first :: second :: more
        = pre ++ chooseOriginal first (first :: second :: more) :: post ∧
      (∀ f ∈ pre, len (chooseOriginal first (first :: second :: more)).Name < len f.Name) ∧
      (∀ f ∈ post, len (chooseOriginal first (first :: second :: more)).Name ≤ len f.Name) ∧
      (∀ f ∈ first :: second :: more,
        len (chooseOriginal first (first :: second :: more)).Name ≤ len f.Name) := by
  obtain ⟨pre, post, hsplit, hpre, hpost⟩ := chooseOriginal_split first (second :: more)
  refine ⟨pre, post, hsplit, hpre, hpost, ?_⟩
  intro f hf
  rw [hsplit] at hf
  rcases List.mem_append.mp hf with hf | hf
  · exact Nat.le_of_lt (hpre f hf)
  · rcases List.mem_cons.mp hf with rfl | hf
    · exact Nat.le_refl _
    · exact hpost f hf

/-! ## The duplicates of a bucket -/

@[simp] theorem World.call_calls (w : World) (c : Call) (r : FS × List LogEntry) :
    (w.call c r).calls = w.calls ++ [c] := rfl

@[simp] theorem World.call_stats (w : World) (c : Call) (r : FS × List LogEntry) :
    (w.call c r).stats = w.stats := rfl

@[simp] theorem World.call_fs (w : World) (c : Call) (r : FS × List LogEntry) :
    (w.call c r).fs = r.1 := rfl

@[simp] theorem World.logf_calls (w : World) (l : LogLevel) (t : String) :
    (w.logf l t).calls = w.calls := rfl

@[simp] theorem World.logf_stats (w : World) (l : LogLevel) (t : String) :
    (w.logf l t).stats = w.stats := rfl

@[simp] theorem World.logf_fs (w : World) (l : LogLevel) (t : String) :
    (w.logf l t).fs = w.fs := rfl

@[simp] theorem World.toTarget_calls (w : World) (env : Env) (cfg : Config) (a b c : String) :
    (w.toTarget env cfg a b c).calls = w.calls ++ [.MoveFileToTargetFolder a b c] := rfl

@[simp] theorem World.toTarget_stats (w : World) (env : Env) (cfg : Config) (a b c : String) :
    (w.toTarget env cfg a b c).stats = w.stats := rfl

/-- The duplicate loop appends one `MoveDuplicateFile` call for every member
whose path differs from the original's, in the order of the bucket, and counts
each of them. -/
theorem moveDuplicates_spec (env : Env) (folderPath : String) (original : FileDetail)
    (l : List FileDetail) (w : World) :
    (moveDuplicates env folderPath original w l).calls
        = w.calls ++ (l.filter (fun f => decide (f.Path ≠ original.Path))).map
            (dupCall folderPath original) ∧
    (moveDuplicates env folderPath original w l).stats.DuplicatesMoved
        = w.stats.DuplicatesMoved
          + ((l.filter (fun f => decide (f.Path ≠ original.Path))).length : Int) ∧
    (moveDuplicates env folderPath original w l).stats.ErrorsCount = w.stats.ErrorsCount ∧
    (moveDuplicates env folderPath original w l).stats.FilesMoved = w.stats.FilesMoved := by
  induction l generalizing w with
  | nil => simp [moveDuplicates]
  | cons f t ih =>
    unfold moveDuplicates at ih ⊢
    rw [List.foldl_cons]
    by_cases hp : f.Path = original.Path
    · simp only [hp, if_true]
      have := ih w
      simpa [hp] using this
    · simp only [hp, if_false]
      obtain ⟨h1, h2, h3, h4⟩ := ih
        { w.call (.MoveDuplicateFile folderPath f.Name original.Path)
            (MoveDuplicateFile env w.fs folderPath f.Name original.Path) with
          stats := (w.call (.MoveDuplicateFile folderPath f.Name original.Path)
            (MoveDuplicateFile env w.fs folderPath f.Name original.Path)).stats.IncrementDuplicatesMoved }
      refine ⟨?_, ?_, ?_, ?_⟩
      · rw [h1]; simp [hp, dupCall]
      · rw [h2]; simp [hp, Stats.IncrementDuplicatesMoved]; ring
      · rw [h3]; simp [Stats.IncrementDuplicatesMoved]
      · rw [h4]; simp [Stats.IncrementDuplicatesMoved]

/-- With pairwise distinct paths, the members whose path differs from that of
a given member are the other members. -/
theorem filter_path_ne_of_nodup (pre post : List FileDetail) (o : FileDetail)
    (h : ((pre ++ o :: post).map FileDetail.Path).Nodup) :
    (pre ++ o :: post).filter (fun f => decide (f.Path ≠ o.Path)) = pre ++ post ∧
    ∀ f ∈ pre ++ post, f.Path ≠ o.Path := by
  have hne : ∀ f ∈ pre ++ post, f.Path ≠ o.Path := by
    intro f hf hEq
    rw [List.map_append, List.map_cons] at h
    have h1 := List.nodup_append.mp h
    have h2 := List.nodup_cons.mp h1.2.1
    rcases List.mem_append.mp hf with hf | hf
    · exact h1.2.2 (List.mem_map_of_mem _ hf)
        (by rw [hEq]; exact List.mem_cons_self _ _)
    · exact h2.1 (by rw [← hEq]; exact List.mem_map_of_mem _ hf)
  refine ⟨?_, hne⟩
  rw [List.filter_append, List.filter_cons]
  simp only [ne_eq, not_true_eq_false, decide_False, Bool.false_eq_true, if_false]
  congr 1
  · apply List.filter_eq_self.mpr
    intro f hf
    simpa using hne f (List.mem_append_left _ hf)
  · apply List.filter_eq_self.mpr
    intro f hf
    simpa using hne f (List.mem_append_right _ hf)

/-- The routing of a file appends mover calls that are not calls of
`MoveDuplicateFile` and leaves the duplicates counter alone. -/
theorem moveFileToFolder_frame (fp : FileProcessor) (env : Env) (w : World)
    (folderPath : String) (file : FileDetail) (config : ExtensionConfig) :
    ∃ routing, (fp.moveFileToFolder env w folderPath file config).1.calls = w.calls ++ routing ∧
      (∀ c ∈ routing, Call.isDuplicateMove c = false) ∧
      (fp.moveFileToFolder env w folderPath file config).1.stats.DuplicatesMoved
        = w.stats.DuplicatesMoved := by
  unfold FileProcessor.moveFileToFolder
  cases hl : List.lookup file.Ext config.ExtensionToFolder with
  | none => exact ⟨[], by simp [Stats.IncrementUnknownExtensions]⟩
  | some targetFolder =>
    simp only []
    by_cases hz : file.Ext = ".zip"
    · rw [if_pos hz]
      by_cases hF : FolderExists env w.fs (Join folderPath (TrimSuffix file.Name file.Ext)) = true
      · rw [if_pos hF]
        exact ⟨[.MoveExtractedArchive folderPath file.Name], by simp [Call.isDuplicateMove]⟩
      · rw [if_neg hF]
        exact ⟨[.MoveFileToTargetFolder folderPath file.Name "Archives"],
          by simp [Call.isDuplicateMove]⟩
    · rw [if_neg hz]
      by_cases hp : file.Ext = ".png"
      · rw [if_pos hp]
        by_cases hd : fp.config.DetectTransparentPNGs = true
        · rw [if_pos hd]
          rcases hT : HasTransparency env w.fs file.Path with ⟨⟨b, e⟩, l⟩
          cases e with
          | some err =>
            exact ⟨[.MoveFileToTargetFolder folderPath file.Name targetFolder],
              by simp [Call.isDuplicateMove, Stats.IncrementErrors]⟩
          | none =>
            cases b with
            | true =>
              exact ⟨[.MoveFileToTargetFolder folderPath file.Name config.TransparentPNGFolder],
                by simp [Call.isDuplicateMove, Stats.IncrementTransparentPNGsMoved]⟩
            | false =>
              exact ⟨[.MoveFileToTargetFolder folderPath file.Name targetFolder],
                by simp [Call.isDuplicateMove]⟩
        · rw [if_neg hd]
          exact ⟨[.MoveFileToTargetFolder folderPath file.Name targetFolder],
            by simp [Call.isDuplicateMove]⟩
      · rw [if_neg hp]
        exact ⟨[.MoveFileToTargetFolder folderPath file.Name targetFolder],
          by simp [Call.isDuplicateMove]⟩

/-- The routing with its counting keeps the same frame. -/
theorem routeAndCount_frame (fp : FileProcessor) (env : Env) (w : World)
    (folderPath : String) (original : FileDetail) :
    ∃ routing, (fp.routeAndCount env w folderPath original).calls = w.calls ++ routing ∧
      (∀ c ∈ routing, Call.isDuplicateMove c = false) ∧
      (fp.routeAndCount env w folderPath original).stats.DuplicatesMoved
        = w.stats.DuplicatesMoved := by
  obtain ⟨routing, h1, h2, h3⟩ := moveFileToFolder_frame fp env w folderPath original fp.extConfig
  refine ⟨routing, ?_, h2, ?_⟩
  · unfold FileProcessor.routeAndCount
    split <;> rename_i heq <;> rw [heq] at h1 <;> simpa using h1
  · unfold FileProcessor.routeAndCount
    split <;> rename_i heq <;> rw [heq] at h3 <;>
      simpa [Stats.IncrementErrors, Stats.IncrementFilesMoved] using h3

/-- The step of `processFileGroups` on a detail whose digest is not empty and
not yet processed and whose bucket has two members or more: after the
duplicate loop the original is either left in place, skipped for its unknown
extension, or routed. -/
theorem processDetail_duplicates (fp : FileProcessor) (env : Env) (folderPath : String)
    (fileHashes : List (String × List FileDetail)) (st : GroupState) (detail : FileDetail)
    (first second : FileDetail) (more : List FileDetail)
    (hhash : detail.Hash ≠ "") (hnew : detail.Hash ∉ st.processedHashes)
    (hbucket : bucketOf fileHashes detail.Hash = first :: second :: more) :
    ∃ routing,
      (fp.processDetail env folderPath fileHashes st detail).world.calls
        = (moveDuplicates env folderPath (chooseOriginal first (first :: second :: more))
            st.world (first :: second :: more)).calls ++ routing ∧
      (∀ c ∈ routing, Call.isDuplicateMove c = false) ∧
      (fp.processDetail env folderPath fileHashes st detail).world.stats.DuplicatesMoved
        = (moveDuplicates env folderPath (chooseOriginal first (first :: second :: more))
            st.world (first :: second :: more)).stats.DuplicatesMoved := by
  unfold FileProcessor.processDetail
  rw [if_neg hhash, if_neg hnew, hbucket]
  simp only []
  by_cases hdo : fp.config.DuplicatesOnly = true
  · rw [if_pos hdo]
    exact ⟨[], by simp⟩
  · rw [if_neg hdo]
    cases hl : List.lookup (chooseOriginal first (first :: second :: more)).Ext
        fp.extConfig.ExtensionToFolder with
    | none => exact ⟨[], by simp [Stats.IncrementUnknownExtensions]⟩
    | some t =>
      simp only []
      exact routeAndCount_frame fp env _ folderPath _

/-- A step on a bucket of two members or more marks the digest as processed. -/
theorem processDetail_marks (fp : FileProcessor) (env : Env) (folderPath : String)
    (fileHashes : List (String × List FileDetail)) (st : GroupState) (detail : FileDetail)
    (first second : FileDetail) (more : List FileDetail)
    (hhash : detail.Hash ≠ "") (hnew : detail.Hash ∉ st.processedHashes)
    (hbucket : bucketOf fileHashes detail.Hash = first :: second :: more) :
    detail.Hash ∈ (fp.processDetail env folderPath fileHashes st detail).processedHashes := by
  unfold FileProcessor.processDetail
  rw [if_neg hhash, if_neg hnew, hbucket]
  simp only []
  by_cases hdo : fp.config.DuplicatesOnly = true
  · rw [if_pos hdo]
    exact List.mem_cons_self _ _
  · rw [if_neg hdo]
    cases hl : List.lookup (chooseOriginal first (first :: second :: more)).Ext
        fp.extConfig.ExtensionToFolder with
    | none => exact List.mem_cons_self _ _
    | some t => exact List.mem_cons_self _ _

/-- A candidate whose non-empty digest is already processed changes nothing. -/
theorem processDetail_processed (fp : FileProcessor) (env : Env) (folderPath : String)
    (fileHashes : List (String × List FileDetail)) (st : GroupState) (detail : FileDetail)
    (hhash : detail.Hash ≠ "") (hdone : detail.Hash ∈ st.processedHashes) :
    fp.processDetail env folderPath fileHashes st detail = st := by
  unfold FileProcessor.processDetail
  rw [if_neg hhash, if_pos hdone]

/-- C2. In a step of `processFileGroups` on a bucket of `n >= 2` files with
pairwise distinct paths, the calls of `MoveDuplicateFile` are exactly one call
for each of the `n - 1` members other than the chosen original, in bucket
order, each with the member's name and the original's path as the reference;
the original is not among them, every other call of the step is a routing call,
and the duplicates-moved counter rises by exactly `n - 1`; the step marks the
digest as processed, after which a candidate with that digest changes nothing,
so that each of the members is handed over once. -/
theorem C2_all_but_original_are_moved (fp : FileProcessor) (env : Env) (folderPath : String)
    (fileHashes : List (String × List FileDetail)) (st : GroupState) (detail : FileDetail)
    (first second : FileDetail) (more : List FileDetail)
    (hhash : detail.Hash ≠ "") (hnew : detail.Hash ∉ st.processedHashes)
    (hbucket : bucketOf fileHashes detail.Hash = first :: second :: more)
    (hpaths : ((first :: second :: more).map FileDetail.Path).Nodup) :
    ∃ pre post routing,
      first :: second :: more
        = pre ++ chooseOriginal first (first :: second :: more) :: post ∧
      (fp.processDetail env folderPath fileHashes st detail).world.calls
        = st.world.calls
          ++ (pre ++ post).map (fun f => Call.MoveDuplicateFile folderPath f.Name
                (chooseOriginal first (first :: second :: more)).Path)
          ++ routing ∧
      (∀ c ∈ routing, Call.isDuplicateMove c = false) ∧
      chooseOriginal first (first :: second :: more) ∉ pre ++ post ∧
      (pre ++ post).length + 1 = (first :: second :: more).length ∧
      (fp.processDetail env folderPath fileHashes st detail).world.stats.DuplicatesMoved
        = st.world.stats.DuplicatesMoved + (((first :: second :: more).length : Int) - 1) ∧
      detail.Hash ∈ (fp.processDetail env folderPath fileHashes st detail).processedHashes ∧
      (∀ (st2 : GroupState) (d2 : FileDetail), d2.Hash = detail.Hash →
        detail.Hash ∈ st2.processedHashes →
        fp.processDetail env folderPath fileHashes st2 d2 = st2) := by
  obtain ⟨pre, post, hsplit, _, _⟩ := chooseOriginal_split first (second :: more)
  obtain ⟨routing, hcalls, hrouting, hdup⟩ :=
    processDetail_duplicates fp env folderPath fileHashes st detail first second more
      hhash hnew hbucket
  obtain ⟨hc, hd, _, _⟩ := moveDuplicates_spec env folderPath
    (chooseOriginal first (first :: second :: more)) (first :: second :: more) st.world
  have hnd : ((pre ++ chooseOriginal first (first :: second :: more) :: post).map
      FileDetail.Path).Nodup := by rw [← hsplit]; exact hpaths
  obtain ⟨hfilter, hne⟩ := filter_path_ne_of_nodup pre post _ hnd
  rw [← hsplit] at hfilter
  have hlen : (pre ++ post).length + 1 = (first :: second :: more).length := by
    have := congrArg List.length hsplit
    simp only [List.length_append, List.length_cons] at this ⊢
    omega
  refine ⟨pre, post, routing, hsplit, ?_, hrouting, ?_, hlen, ?_, ?_, ?_⟩
  · rw [hcalls, hc, hfilter]
    rfl
  · intro hmem
    exact hne _ hmem rfl
  · rw [hdup, hd, hfilter, ← hlen]
    push_cast
    ring
  · exact processDetail_marks fp env folderPath fileHashes st detail first second more
      hhash hnew hbucket
  · intro st2 d2 hEq hdone
    exact processDetail_processed fp env folderPath fileHashes st2 d2
      (by rw [hEq]; exact hhash) (by rw [hEq]; exact hdone)

/-- The bucket of `a.txt` and `b.txt`: one duplicate is moved. -/
theorem C2_witness_two_files :
    exDetailA.Hash ≠ "" ∧
    bucketOf [(plainDigest exHello, [exDetailA, exDetailB])] exDetailA.Hash
      = [exDetailA, exDetailB] ∧
    ([exDetailA, exDetailB].map FileDetail.Path).Nodup ∧
    (exProcessor.processDetail exEnv "d" [(plainDigest exHello, [exDetailA, exDetailB])]
        ⟨exHelloWorld, []⟩ exDetailA).world.stats.DuplicatesMoved
      = exHelloWorld.stats.DuplicatesMoved + ((([exDetailA, exDetailB]).length : Int) - 1) := by
  obtain ⟨_, _, _, _, _, _, _, _, h, _, _⟩ := C2_all_but_original_are_moved exProcessor exEnv "d"
    [(plainDigest exHello, [exDetailA, exDetailB])] ⟨exHelloWorld, []⟩ exDetailA
    exDetailA exDetailB [] (by decide) (by decide) (by decide) (by decide)
  exact ⟨by decide, by decide, by decide, h⟩

/-! ## The system calls without injected failures -/

theorem Env.quiet_faultFree (sha : List UInt8 → String) (png : List UInt8 → Option Image) :
    (Env.quiet sha png).FaultFree :=
  ⟨fun _ => rfl, fun _ _ => rfl, fun _ => rfl, fun _ => rfl, fun _ => rfl, fun _ => rfl,
    fun _ => rfl, fun _ => rfl, fun _ => rfl⟩

theorem osStat_of_lookup (env : Env) (fs : FS) (p : String) (n : Node)
    (hs : env.statFault p = none) (h : fs.lookup p = some n) :
    osStat env fs p = .ok n.info := by
  simp [osStat, hs, h]

theorem osStat_of_missing (env : Env) (fs : FS) (p : String)
    (hs : env.statFault p = none) (h : fs.lookup p = none) :
    osStat env fs p = .error .ENOENT := by
  simp [osStat, hs, h]

theorem FileExists_iff (env : Env) (fs : FS) (p : String) (hs : env.statFault p = none) :
    FileExists env fs p = true ↔ ∃ c, fs.lookup p = some (.file c) := by
  unfold FileExists osStat
  rw [hs]
  cases h : fs.lookup p with
  | none => simp
  | some n => cases n <;> simp [Node.info]

theorem FileExists_mem_keys (env : Env) (fs : FS) (p : String)
    (h : FileExists env fs p = true) : p ∈ fs.map Prod.fst := by
  unfold FileExists osStat at h
  cases hs : env.statFault p with
  | some e => simp [hs] at h
  | none =>
    cases hl : fs.lookup p with
    | none => simp [hs, hl] at h
    | some n => exact FS.mem_keys_of_lookup fs p n hl

theorem FolderExists_of_lookup (env : Env) (fs : FS) (p : String) (n : Node)
    (hs : env.statFault p = none) (h : fs.lookup p = some n) :
    FolderExists env fs p = true := by
  simp [FolderExists, osStat, hs, h]

/-- `HashFile` on a readable regular file. -/
theorem HashFile_of_file (env : Env) (fs : FS) (p : String) (maxBytes : Int) (c : List UInt8)
    (hs : env.statFault p = none) (ho : env.openFault p = none) (hr : env.readFault p = none)
    (h : fs.lookup p = some (.file c)) :
    (HashFile env fs p maxBytes).1 = (hashOutcome env maxBytes c, none) := by
  unfold HashFile hashOutcome
  simp only [osStat, hs, h, Node.info, osOpen, ho, osReadAll, hr]
  by_cases hgt : (c.length : Int) > maxBytes
  · simp [hgt]
  · simp [hgt]

/-- `MoveFile` when the rename goes through. -/
theorem MoveFile_of_rename (env : Env) (fs : FS) (src dst : String) (c : List UInt8)
    (hr : env.renameFault src dst = none) (hsrc : fs.lookup src = some (.file c))
    (hdst : fs.lookup dst ≠ some .dir) (hne : src ≠ dst) :
    MoveFile env fs src dst = ((fs.erase src).insert dst (.file c), none) := by
  unfold MoveFile osRename
  rw [hr, hsrc]
  cases hd : fs.lookup dst with
  | none => simp [hne]
  | some n =>
    cases n with
    | dir => exact absurd hd hdst
    | file c2 => simp [hne]

/-! ## The search for a free conflict name -/

/-- If some counter in the window of the loop is free, the loop returns the
least free counter of the window. -/
theorem findFreeSuffix_least (env : Env) (fs : FS) (targetPath name ext : String) :
    ∀ (fuel i : Nat),
      (∃ j, i ≤ j ∧ j < i + fuel ∧
        FileExists env fs (Join targetPath (suffixedName name j ext)) = false) →
      ∃ k, findFreeSuffix env fs targetPath name ext fuel i = some k ∧ i ≤ k ∧
        FileExists env fs (Join targetPath (suffixedName name k ext)) = false ∧
        ∀ j, i ≤ j → j < k →
          FileExists env fs (Join targetPath (suffixedName name j ext)) = true := by
  intro fuel
  induction fuel with
  | zero =>
    rintro i ⟨j, h1, h2, _⟩
    omega
  | succ fuel ih =>
    rintro i ⟨j, h1, h2, h3⟩
    unfold findFreeSuffix
    by_cases hi : FileExists env fs (Join targetPath (suffixedName name i ext)) = true
    · have hji : j ≠ i := by
        rintro rfl
        rw [hi] at h3
        exact Bool.noConfusion h3
      obtain ⟨k, hk1, hk2, hk3, hk4⟩ := ih (i + 1) ⟨j, by omega, by omega, h3⟩
      refine ⟨k, ?_, by omega, hk3, ?_⟩
      · simp [hi, hk1]
      · intro j2 hj1 hj2
        by_cases hEq : j2 = i
        · rw [hEq]; exact hi
        · exact hk4 j2 (by omega) hj2
    · have hi2 : FileExists env fs (Join targetPath (suffixedName name i ext)) = false := by
        simpa using hi
      refine ⟨i, ?_, Nat.le_refl _, hi2, ?_⟩
      · simp [hi2]
      · intro j2 hj1 hj2
        omega

/-- Among the first `fs.length + 1` counters at least one is free: the
conflict names are pairwise distinct and each taken one is a key of the table. -/
theorem exists_free_suffix (env : Env) (fs : FS) (targetPath name ext : String) :
    ∃ j, 1 ≤ j ∧ j < 1 + (fs.length + 1) ∧
      FileExists env fs (Join targetPath (suffixedName name j ext)) = false := by
  by_contra hcon
  push_neg at hcon
  have hall : ∀ j ∈ Finset.Icc 1 (fs.length + 1),
      Join targetPath (suffixedName name j ext) ∈ (fs.map Prod.fst).toFinset := by
    intro j hj
    rw [Finset.mem_Icc] at hj
    rw [List.mem_toFinset]
    apply FileExists_mem_keys env
    have := hcon j hj.1 (by omega)
    simpa using this
  have hinj : Function.Injective (fun j => Join targetPath (suffixedName name j ext)) := by
    intro a b hab
    exact suffixedName_injective name ext (Join_injective targetPath hab)
  have hsub : (Finset.Icc 1 (fs.length + 1)).image
      (fun j => Join targetPath (suffixedName name j ext)) ⊆ (fs.map Prod.fst).toFinset := by
    intro p hp
    rw [Finset.mem_image] at hp
    obtain ⟨j, hj, rfl⟩ := hp
    exact hall j hj
  have hcard := Finset.card_le_card hsub
  rw [Finset.card_image_of_injective _ hinj, Nat.card_Icc] at hcard
  have hle := List.toFinset_card_le (fs.map Prod.fst)
  rw [List.length_map] at hle
  omega

/-- The search of `MoveFileToTargetFolder` terminates within its bound, for
every table and every environment, at the least free counter. -/
theorem findFreeSuffix_terminates (env : Env) (fs : FS) (targetPath name ext : String) :
    ∃ k, findFreeSuffix env fs targetPath name ext (fs.length + 1) 1 = some k ∧ 1 ≤ k ∧
      FileExists env fs (Join targetPath (suffixedName name k ext)) = false ∧
      ∀ j, 1 ≤ j → j < k →
        FileExists env fs (Join targetPath (suffixedName name j ext)) = true :=
  findFreeSuffix_least env fs targetPath name ext (fs.length + 1) 1
    (exists_free_suffix env fs targetPath name ext)

/-! ## `MoveFileToTargetFolder` on a taken destination name -/

/-- The file system after the closing `MoveFile` of `MoveFileToTargetFolder`. -/
theorem finish_fs (env : Env) (fs : FS) (src dst : String) (l : List LogEntry) :
    (match MoveFile env fs src dst with
      | (fs3, some _) => (fs3, l ++ [(⟨.Error, "Failed to move file %s: %v"⟩ : LogEntry)])
      | (fs3, none) => (fs3, l ++ [(⟨.Info, "Moved: %s -> %s"⟩ : LogEntry)])).1
      = (MoveFile env fs src dst).1 := by
  rcases MoveFile env fs src dst with ⟨fs3, e⟩
  cases e <;> rfl

/-- The destination name is taken and the two digests differ: the search for a
free name ends at the least free counter and the source is moved there. -/
theorem MoveFileToTargetFolder_conflict (env : Env) (cfg : Config) (fs : FS)
    (folderPath fileName targetFolder hs hd : String)
    (hfolder : FolderExists env fs (Join folderPath targetFolder) = true)
    (hexists : FileExists env fs (Join (Join folderPath targetFolder) fileName) = true)
    (hsrcHash : (HashFile env fs (Join folderPath fileName) (maxBytesOf cfg)).1 = (hs, none))
    (hdstHash : (HashFile env fs (Join (Join folderPath targetFolder) fileName)
      (maxBytesOf cfg)).1 = (hd, none))
    (hne : hs ≠ hd) :
    ∃ i, findFreeSuffix env fs (Join folderPath targetFolder)
          (TrimSuffix fileName (Ext fileName)) (Ext fileName) (fs.length + 1) 1 = some i ∧
      1 ≤ i ∧
      FileExists env fs (conflictPath folderPath fileName targetFolder i) = false ∧
      (∀ j, 1 ≤ j → j < i →
        FileExists env fs (conflictPath folderPath fileName targetFolder j) = true) ∧
      (MoveFileToTargetFolder env cfg fs folderPath fileName targetFolder).1
        = (MoveFile env fs (Join folderPath fileName)
            (conflictPath folderPath fileName targetFolder i)).1 := by
  obtain ⟨i, hi1, hi2, hi3, hi4⟩ := findFreeSuffix_terminates env fs
    (Join folderPath targetFolder) (TrimSuffix fileName (Ext fileName)) (Ext fileName)
  refine ⟨i, hi1, hi2, hi3, hi4, ?_⟩
  unfold MoveFileToTargetFolder
  simp only [hfolder, Bool.not_true, Bool.false_eq_true, if_false, hexists, if_true]
  rcases hS : HashFile env fs (Join folderPath fileName) (maxBytesOf cfg) with ⟨⟨s1, e1⟩, l1⟩
  rw [hS] at hsrcHash
  obtain ⟨rfl, rfl⟩ := Prod.mk.inj hsrcHash
  rcases hD : HashFile env fs (Join (Join folderPath targetFolder) fileName) (maxBytesOf cfg)
    with ⟨⟨s2, e2⟩, l2⟩
  rw [hD] at hdstHash
  obtain ⟨rfl, rfl⟩ := Prod.mk.inj hdstHash
  simp only [ne_eq, hne, not_false_eq_true, if_true, hi1]
  rw [finish_fs]
  rfl

/-- The destination name is taken and the two digests are equal: the
destination is removed and the source moved to that very path. -/
theorem MoveFileToTargetFolder_same (env : Env) (cfg : Config) (fs : FS)
    (folderPath fileName targetFolder h : String)
    (hfolder : FolderExists env fs (Join folderPath targetFolder) = true)
    (hexists : FileExists env fs (Join (Join folderPath targetFolder) fileName) = true)
    (hsrcHash : (HashFile env fs (Join folderPath fileName) (maxBytesOf cfg)).1 = (h, none))
    (hdstHash : (HashFile env fs (Join (Join folderPath targetFolder) fileName)
      (maxBytesOf cfg)).1 = (h, none)) :
    (MoveFileToTargetFolder env cfg fs folderPath fileName targetFolder).1
      = match osRemove env fs (Join (Join folderPath targetFolder) fileName) with
        | .error _ => fs
        | .ok fs2 => (MoveFile env fs2 (Join folderPath fileName)
            (Join (Join folderPath targetFolder) fileName)).1 := by
  unfold MoveFileToTargetFolder
  simp only [hfolder, Bool.not_true, Bool.false_eq_true, if_false, hexists, if_true]
  rcases hS : HashFile env fs (Join folderPath fileName) (maxBytesOf cfg) with ⟨⟨s1, e1⟩, l1⟩
  rw [hS] at hsrcHash
  obtain ⟨rfl, rfl⟩ := Prod.mk.inj hsrcHash
  rcases hD : HashFile env fs (Join (Join folderPath targetFolder) fileName) (maxBytesOf cfg)
    with ⟨⟨s2, e2⟩, l2⟩
  rw [hD] at hdstHash
  obtain ⟨rfl, rfl⟩ := Prod.mk.inj hdstHash
  simp only [ne_eq, not_true_eq_false, if_false]
  cases osRemove env fs (Join (Join folderPath targetFolder) fileName) with
  | error e => rfl
  | ok fs2 =>
    simp only []
    rw [finish_fs]

/-! ## Lengths of paths -/

theorem Join_length (a b : String) : (Join a b).length = a.length + 1 + b.length := by
  simp [Join, String.length_append]
  rfl

theorem suffixedName_length (name ext : String) (i : Nat) :
    (suffixedName name i ext).length
      = name.length + 1 + (Sprint i).length + 1 + ext.length := by
  simp [suffixedName, String.length_append]
  rfl

theorem TrimSuffix_length_ge (s suffix : String) :
    s.length ≤ (TrimSuffix s suffix).length + suffix.length := by
  unfold TrimSuffix
  split
  · simp only [String.length, List.length_take]
    omega
  · omega

theorem conflictPath_length_gt (folderPath fileName targetFolder : String) (i : Nat) :
    (Join (Join folderPath targetFolder) fileName).length
      < (conflictPath folderPath fileName targetFolder i).length := by
  have h := TrimSuffix_length_ge fileName (Ext fileName)
  simp only [conflictPath, Join_length, suffixedName_length]
  omega

/-- The source path is not the destination path. -/
theorem src_ne_dst (folderPath fileName targetFolder : String) :
    Join folderPath fileName ≠ Join (Join folderPath targetFolder) fileName := by
  intro h
  have := congrArg String.length h
  simp only [Join_length] at this
  omega

/-- The source path is not a conflict path. -/
theorem src_ne_conflictPath (folderPath fileName targetFolder : String) (i : Nat) :
    Join folderPath fileName ≠ conflictPath folderPath fileName targetFolder i := by
  intro h
  have h1 := congrArg String.length h
  have h2 := conflictPath_length_gt folderPath fileName targetFolder i
  simp only [Join_length] at h1 h2
  omega

/-- The destination path is not a conflict path. -/
theorem dst_ne_conflictPath (folderPath fileName targetFolder : String) (i : Nat) :
    Join (Join folderPath targetFolder) fileName
      ≠ conflictPath folderPath fileName targetFolder i := by
  intro h
  have h1 := congrArg String.length h
  have h2 := conflictPath_length_gt folderPath fileName targetFolder i
  omega

/-- The target folder is not a conflict path. -/
theorem target_ne_conflictPath (folderPath fileName targetFolder : String) (i : Nat) :
    Join folderPath targetFolder ≠ conflictPath folderPath fileName targetFolder i := by
  intro h
  have h1 := congrArg String.length h
  have h2 := conflictPath_length_gt folderPath fileName targetFolder i
  simp only [Join_length] at h1 h2
  omega

/-- The target folder is not the destination path. -/
theorem target_ne_dst (folderPath fileName targetFolder : String) :
    Join folderPath targetFolder ≠ Join (Join folderPath targetFolder) fileName := by
  intro h
  have h1 := congrArg String.length h
  simp only [Join_length] at h1
  omega

theorem conflictPath_injective (folderPath fileName targetFolder : String) :
    Function.Injective (conflictPath folderPath fileName targetFolder) := by
  intro a b h
  exact suffixedName_injective _ _ (Join_injective _ h)

/-! ## A conflicting arrival -/

/-- One conflicting move in an environment without failures: the counter found
is the least one whose conflict name is no regular file, and the source lands
there while everything else stays. -/
theorem conflict_move_spec (env : Env) (cfg : Config) (fs : FS)
    (folderPath fileName targetFolder : String) (c d : List UInt8)
    (henv : env.FaultFree)
    (hT : fs.lookup (Join folderPath targetFolder) = some .dir)
    (hsrc : fs.lookup (Join folderPath fileName) = some (.file c))
    (hdst : fs.lookup (Join (Join folderPath targetFolder) fileName) = some (.file d))
    (hhash : hashOutcome env (maxBytesOf cfg) c ≠ hashOutcome env (maxBytesOf cfg) d)
    (hnodir : ∀ j, 1 ≤ j →
      fs.lookup (conflictPath folderPath fileName targetFolder j) ≠ some .dir) :
    ∃ i, 1 ≤ i ∧
      findFreeSuffix env fs (Join folderPath targetFolder)
          (TrimSuffix fileName (Ext fileName)) (Ext fileName) (fs.length + 1) 1 = some i ∧
      fs.lookup (conflictPath folderPath fileName targetFolder i) = none ∧
      (∀ j, 1 ≤ j → j < i →
        ∃ c2, fs.lookup (conflictPath folderPath fileName targetFolder j) = some (.file c2)) ∧
      (MoveFileToTargetFolder env cfg fs folderPath fileName targetFolder).1
        = (fs.erase (Join folderPath fileName)).insert
            (conflictPath folderPath fileName targetFolder i) (.file c) := by
  have hfolder := FolderExists_of_lookup env fs _ _ (henv.stat _) hT
  have hexists : FileExists env fs (Join (Join folderPath targetFolder) fileName) = true :=
    (FileExists_iff env fs _ (henv.stat _)).mpr ⟨d, hdst⟩
  have hS := HashFile_of_file env fs _ (maxBytesOf cfg) c (henv.stat _) (henv.open_ _)
    (henv.read _) hsrc
  have hD := HashFile_of_file env fs _ (maxBytesOf cfg) d (henv.stat _) (henv.open_ _)
    (henv.read _) hdst
  obtain ⟨i, hfind, hi, hfree, hbelow, hres⟩ :=
    MoveFileToTargetFolder_conflict env cfg fs folderPath fileName targetFolder _ _
      hfolder hexists hS hD hhash
  have hnone : fs.lookup (conflictPath folderPath fileName targetFolder i) = none := by
    cases hl : fs.lookup (conflictPath folderPath fileName targetFolder i) with
    | none => rfl
    | some n =>
      cases n with
      | dir => exact absurd hl (hnodir i hi)
      | file c2 =>
        have := (FileExists_iff env fs _ (henv.stat _)).mpr ⟨c2, hl⟩
        rw [hfree] at this
        exact Bool.noConfusion this
  refine ⟨i, hi, hfind, hnone, ?_, ?_⟩
  · intro j hj1 hj2
    exact (FileExists_iff env fs _ (henv.stat _)).mp (hbelow j hj1 hj2)
  · rw [hres, MoveFile_of_rename env fs _ _ c (henv.rename _ _) hsrc (by rw [hnone]; simp)
      (src_ne_conflictPath folderPath fileName targetFolder i)]

/-- One more conflicting arrival takes the next counter and keeps the earlier
arrivals. -/
theorem arrive_step (env : Env) (cfg : Config) (fs : FS)
    (folderPath fileName targetFolder : String) (c d : List UInt8) (m : Nat)
    (henv : env.FaultFree) (hname : fileName ≠ targetFolder)
    (hinv : Arrived fs folderPath fileName targetFolder d m)
    (hhash : hashOutcome env (maxBytesOf cfg) c ≠ hashOutcome env (maxBytesOf cfg) d) :
    Arrived (arrive env cfg folderPath fileName targetFolder fs c)
      folderPath fileName targetFolder d (m + 1) ∧
    (arrive env cfg folderPath fileName targetFolder fs c).lookup
      (conflictPath folderPath fileName targetFolder (m + 1)) = some (.file c) ∧
    ∀ j, j ≠ m + 1 →
      (arrive env cfg folderPath fileName targetFolder fs c).lookup
        (conflictPath folderPath fileName targetFolder j)
      = fs.lookup (conflictPath folderPath fileName targetFolder j) := by
  have hsrcT : Join folderPath targetFolder ≠ Join folderPath fileName := by
    intro h
    exact hname (Join_injective folderPath h).symm
  have hin : ∀ p, p ≠ Join folderPath fileName →
      (fs.insert (Join folderPath fileName) (.file c)).lookup p = fs.lookup p :=
    fun p hp => FS.lookup_insert_ne fs _ p _ hp
  have hcp : ∀ j, conflictPath folderPath fileName targetFolder j ≠ Join folderPath fileName :=
    fun j h => src_ne_conflictPath folderPath fileName targetFolder j h.symm
  have hdp : Join (Join folderPath targetFolder) fileName ≠ Join folderPath fileName :=
    fun h => src_ne_dst folderPath fileName targetFolder h.symm
  obtain ⟨i, hi, _, hnone, hbelow, hres⟩ :=
    conflict_move_spec env cfg (fs.insert (Join folderPath fileName) (.file c))
      folderPath fileName targetFolder c d henv
      (by rw [hin _ hsrcT]; exact hinv.folder)
      (FS.lookup_insert_self fs _ _)
      (by rw [hin _ hdp]; exact hinv.holder)
      hhash
      (by
        intro j hj1
        rw [hin _ (hcp j)]
        by_cases hj : j ≤ m
        · obtain ⟨c2, h2⟩ := hinv.taken j hj1 hj
          rw [h2]; simp
        · rw [hinv.free j (by omega)]; simp)
  have hnone2 : fs.lookup (conflictPath folderPath fileName targetFolder i) = none := by
    rw [← hin _ (hcp i)]; exact hnone
  have him : i = m + 1 := by
    by_contra hne
    by_cases hle : i ≤ m
    · obtain ⟨c2, h2⟩ := hinv.taken i hi hle
      rw [h2] at hnone2
      exact Option.noConfusion hnone2
    · obtain ⟨c2, h2⟩ := hbelow (m + 1) (by omega) (by omega)
      rw [hin _ (hcp (m + 1)), hinv.free (m + 1) (by omega)] at h2
      exact Option.noConfusion h2
  subst him
  have hfs : ∀ p, p ≠ Join folderPath fileName →
      p ≠ conflictPath folderPath fileName targetFolder (m + 1) →
      (arrive env cfg folderPath fileName targetFolder fs c).lookup p = fs.lookup p := by
    intro p hp1 hp2
    unfold arrive
    rw [hres, FS.lookup_insert_ne _ _ _ _ hp2, FS.lookup_erase_ne _ _ _ hp1, hin p hp1]
  have hnew : (arrive env cfg folderPath fileName targetFolder fs c).lookup
      (conflictPath folderPath fileName targetFolder (m + 1)) = some (.file c) := by
    unfold arrive
    rw [hres, FS.lookup_insert_self]
  have hold : ∀ j, j ≠ m + 1 →
      (arrive env cfg folderPath fileName targetFolder fs c).lookup
        (conflictPath folderPath fileName targetFolder j)
      = fs.lookup (conflictPath folderPath fileName targetFolder j) := by
    intro j hj
    apply hfs _ (hcp j)
    intro h
    exact hj (conflictPath_injective folderPath fileName targetFolder h)
  refine ⟨⟨?_, ?_, ?_, ?_⟩, hnew, hold⟩
  · rw [hfs _ hsrcT (target_ne_conflictPath folderPath fileName targetFolder _)]
    exact hinv.folder
  · rw [hfs _ hdp (dst_ne_conflictPath folderPath fileName targetFolder _)]
    exact hinv.holder
  · intro j hj1 hj2
    by_cases hj : j = m + 1
    · subst hj; exact ⟨c, hnew⟩
    · rw [hold j hj]
      exact hinv.taken j hj1 (by omega)
  · intro j hj
    rw [hold j (by omega)]
    exact hinv.free j (by omega)

/-- After the arrivals `cs`, starting with `m` conflict names taken, the `k`-th
arrival sits under the counter `m + k`, and the first holder of the name is
still in place. -/
theorem arrivals_spec (env : Env) (cfg : Config)
    (folderPath fileName targetFolder : String) (d : List UInt8)
    (henv : env.FaultFree) (hname : fileName ≠ targetFolder) :
    ∀ (cs : List (List UInt8)) (fs : FS) (m : Nat),
      Arrived fs folderPath fileName targetFolder d m →
      (∀ c ∈ cs, hashOutcome env (maxBytesOf cfg) c ≠ hashOutcome env (maxBytesOf cfg) d) →
      Arrived (arrivals env cfg folderPath fileName targetFolder fs cs)
        folderPath fileName targetFolder d (m + cs.length) ∧
      (∀ j, j ≤ m →
        (arrivals env cfg folderPath fileName targetFolder fs cs).lookup
          (conflictPath folderPath fileName targetFolder j)
        = fs.lookup (conflictPath folderPath fileName targetFolder j)) ∧
      ∀ k c, cs.get? k = some c →
        (arrivals env cfg folderPath fileName targetFolder fs cs).lookup
          (conflictPath folderPath fileName targetFolder (m + k + 1)) = some (.file c) := by
  intro cs
  induction cs with
  | nil =>
    intro fs m hinv _
    exact ⟨by simpa [arrivals] using hinv, fun _ _ => rfl, fun k c h => by simp at h⟩
  | cons c0 rest ih =>
    intro fs m hinv hhash
    obtain ⟨hinv1, hnew, hold⟩ := arrive_step env cfg fs folderPath fileName targetFolder
      c0 d m henv hname hinv (hhash c0 (List.mem_cons_self _ _))
    obtain ⟨hinv2, hkeep, hrest⟩ := ih (arrive env cfg folderPath fileName targetFolder fs c0)
      (m + 1) hinv1 (fun c hc => hhash c (List.mem_cons_of_mem _ hc))
    have hunf : arrivals env cfg folderPath fileName targetFolder fs (c0 :: rest)
        = arrivals env cfg folderPath fileName targetFolder
            (arrive env cfg folderPath fileName targetFolder fs c0) rest := rfl
    rw [hunf]
    refine ⟨?_, ?_, ?_⟩
    · have : m + (c0 :: rest).length = m + 1 + rest.length := by
        simp only [List.length_cons]; omega
      rw [this]; exact hinv2
    · intro j hj
      rw [hkeep j (by omega), hold j (by omega)]
    · intro k c hk
      cases k with
      | zero =>
        simp only [List.get?_cons_zero, Option.some.injEq] at hk
        subst hk
        rw [hkeep (m + 0 + 1) (by omega)]
        exact hnew
      | succ k =>
        simp only [List.get?_cons_succ] at hk
        have := hrest k c hk
        have he : m + (k + 1) + 1 = m + 1 + k + 1 := by omega
        rw [he]; exact this

theorem FS.lookup_none_of_not_mem (fs : FS) (p : String) (h : p ∉ fs.map Prod.fst) :
    fs.lookup p = none := by
  cases hl : fs.lookup p with
  | none => rfl
  | some n => exact absurd (FS.mem_keys_of_lookup fs p n hl) h

/-- `MoveFile` of a regular file onto the name of a directory, with no failure
injected: `os.Rename` refuses with an already-exists error, the copy that
follows cannot create the destination, and the table stays as it is. -/
theorem MoveFile_onto_dir (env : Env) (fs : FS) (src dst : String) (c : List UInt8)
    (hren : env.renameFault src dst = none) (hopen : env.openFault src = none)
    (hcreate : env.createFault dst = none)
    (hsrc : fs.lookup src = some (.file c)) (hdst : fs.lookup dst = some .dir) :
    MoveFile env fs src dst = (fs, some .EISDIR) := by
  have h1 : osRename env fs src dst = .error .EEXIST := by
    unfold osRename
    rw [hren, hdst, hsrc]
  have h2 : osOpen env fs src = .ok () := by
    unfold osOpen
    rw [hopen, hsrc]
  have h3 : osCreate env fs dst = .error .EISDIR := by
    unfold osCreate
    rw [hcreate, hdst]
  unfold MoveFile
  rw [h1]
  simp only [IsExist, Bool.not_true, Bool.false_and, Bool.false_eq_true, if_false]
  rw [h2, h3]

/-- One conflicting move in an environment without failures, whatever the
conflict names are: the counter found is the least one whose conflict name is
no regular file; the source lands there when nothing has that name, and nothing
changes when a directory has it. -/
theorem conflict_move_cases (env : Env) (cfg : Config) (fs : FS)
    (folderPath fileName targetFolder : String) (c d : List UInt8)
    (henv : env.FaultFree)
    (hT : fs.lookup (Join folderPath targetFolder) = some .dir)
    (hsrc : fs.lookup (Join folderPath fileName) = some (.file c))
    (hdst : fs.lookup (Join (Join folderPath targetFolder) fileName) = some (.file d))
    (hhash : hashOutcome env (maxBytesOf cfg) c ≠ hashOutcome env (maxBytesOf cfg) d) :
    ∃ i, 1 ≤ i ∧
      findFreeSuffix env fs (Join folderPath targetFolder)
          (TrimSuffix fileName (Ext fileName)) (Ext fileName) (fs.length + 1) 1 = some i ∧
      (∀ c2, fs.lookup (conflictPath folderPath fileName targetFolder i) ≠ some (.file c2)) ∧
      (∀ j, 1 ≤ j → j < i →
        ∃ c2, fs.lookup (conflictPath folderPath fileName targetFolder j) = some (.file c2)) ∧
      (fs.lookup (conflictPath folderPath fileName targetFolder i) = none →
        (MoveFileToTargetFolder env cfg fs folderPath fileName targetFolder).1
          = (fs.erase (Join folderPath fileName)).insert
              (conflictPath folderPath fileName targetFolder i) (.file c)) ∧
      (fs.lookup (conflictPath folderPath fileName targetFolder i) = some .dir →
        (MoveFileToTargetFolder env cfg fs folderPath fileName targetFolder).1 = fs) := by
  have hfolder := FolderExists_of_lookup env fs _ _ (henv.stat _) hT
  have hexists : FileExists env fs (Join (Join folderPath targetFolder) fileName) = true :=
    (FileExists_iff env fs _ (henv.stat _)).mpr ⟨d, hdst⟩
  have hS := HashFile_of_file env fs _ (maxBytesOf cfg) c (henv.stat _) (henv.open_ _)
    (henv.read _) hsrc
  have hD := HashFile_of_file env fs _ (maxBytesOf cfg) d (henv.stat _) (henv.open_ _)
    (henv.read _) hdst
  obtain ⟨i, hfind, hi, hfree, hbelow, hres⟩ :=
    MoveFileToTargetFolder_conflict env cfg fs folderPath fileName targetFolder _ _
      hfolder hexists hS hD hhash
  refine ⟨i, hi, hfind, ?_, ?_, ?_, ?_⟩
  · intro c2 h2
    have := (FileExists_iff env fs _ (henv.stat _)).mpr ⟨c2, h2⟩
    rw [hfree] at this
    exact Bool.noConfusion this
  · intro j hj1 hj2
    exact (FileExists_iff env fs _ (henv.stat _)).mp (hbelow j hj1 hj2)
  · intro hnone
    rw [hres, MoveFile_of_rename env fs _ _ c (henv.rename _ _) hsrc (by rw [hnone]; simp)
      (src_ne_conflictPath folderPath fileName targetFolder i)]
  · intro hdir
    rw [hres, MoveFile_onto_dir env fs _ _ c (henv.rename _ _) (henv.open_ _)
      (henv.create _) hsrc hdir]

/-- C6, amended. In an environment without failures, when the destination name
is taken by a regular file whose digest differs from the source's, the search
for a free name ends within its bound at the least counter `i >= 1` whose name
`<name>(i)<ext>` is no regular file of the target folder. When nothing in the
folder has that name, `MoveFileToTargetFolder` moves the source there, keeping
the holder of the name; when a directory has that name, nothing is moved and the
table stays as it was. The search ends for every table and environment; and
when the folder starts without conflict names, the `k`-th conflicting arrival of
the name gets the suffix `(k)`. -/
theorem C6_conflict_gets_least_free_suffix (env : Env) (cfg : Config) (fs : FS)
    (folderPath fileName targetFolder : String) (c d : List UInt8)
    (henv : env.FaultFree) (hname : fileName ≠ targetFolder)
    (hT : fs.lookup (Join folderPath targetFolder) = some .dir)
    (hsrc : fs.lookup (Join folderPath fileName) = some (.file c))
    (hdst : fs.lookup (Join (Join folderPath targetFolder) fileName) = some (.file d))
    (hhash : hashOutcome env (maxBytesOf cfg) c ≠ hashOutcome env (maxBytesOf cfg) d) :
    (∃ i, 1 ≤ i ∧
      findFreeSuffix env fs (Join folderPath targetFolder)
          (TrimSuffix fileName (Ext fileName)) (Ext fileName) (fs.length + 1) 1 = some i ∧
      (∀ c2, fs.lookup (conflictPath folderPath fileName targetFolder i) ≠ some (.file c2)) ∧
      (∀ j, 1 ≤ j → j < i →
        ∃ c2, fs.lookup (conflictPath folderPath fileName targetFolder j) = some (.file c2)) ∧
      (fs.lookup (conflictPath folderPath fileName targetFolder i) = none →
        (MoveFileToTargetFolder env cfg fs folderPath fileName targetFolder).1.lookup
          (conflictPath folderPath fileName targetFolder i) = some (.file c) ∧
        (MoveFileToTargetFolder env cfg fs folderPath fileName targetFolder).1.lookup
          (Join folderPath fileName) = none ∧
        (MoveFileToTargetFolder env cfg fs folderPath fileName targetFolder).1.lookup
          (Join (Join folderPath targetFolder) fileName) = some (.file d)) ∧
      (fs.lookup (conflictPath folderPath fileName targetFolder i) = some .dir →
        (MoveFileToTargetFolder env cfg fs folderPath fileName targetFolder).1 = fs)) ∧
    (∀ (env2 : Env) (fs2 : FS) (targetPath name ext : String),
      ∃ k, findFreeSuffix env2 fs2 targetPath name ext (fs2.length + 1) 1 = some k) ∧
    (∀ cs : List (List UInt8),
      (∀ j, 1 ≤ j → fs.lookup (conflictPath folderPath fileName targetFolder j) = none) →
      (∀ x ∈ cs, hashOutcome env (maxBytesOf cfg) x ≠ hashOutcome env (maxBytesOf cfg) d) →
      ∀ k x, cs.get? k = some x →
        (arrivals env cfg folderPath fileName targetFolder fs cs).lookup
          (conflictPath folderPath fileName targetFolder (k + 1)) = some (.file x)) := by
  refine ⟨?_, ?_, ?_⟩
  · obtain ⟨i, hi, hfind, hnofile, hbelow, hfreeCase, hdirCase⟩ :=
      conflict_move_cases env cfg fs folderPath fileName targetFolder c d henv hT hsrc hdst
        hhash
    refine ⟨i, hi, hfind, hnofile, hbelow, ?_, hdirCase⟩
    intro hnone
    have hres := hfreeCase hnone
    refine ⟨?_, ?_, ?_⟩
    · rw [hres, FS.lookup_insert_self]
    · rw [hres, FS.lookup_insert_ne _ _ _ _
        (src_ne_conflictPath folderPath fileName targetFolder i), FS.lookup_erase_self]
    · rw [hres, FS.lookup_insert_ne _ _ _ _
        (dst_ne_conflictPath folderPath fileName targetFolder i),
        FS.lookup_erase_ne _ _ _ (fun h => src_ne_dst folderPath fileName targetFolder h.symm)]
      exact hdst
  · intro env2 fs2 targetPath name ext
    obtain ⟨k, hk, _⟩ := findFreeSuffix_terminates env2 fs2 targetPath name ext
    exact ⟨k, hk⟩
  · intro cs hfree hdiff k x hk
    have hinv : Arrived fs folderPath fileName targetFolder d 0 :=
      ⟨hT, hdst, fun j h1 h2 => by omega, fun j hj => hfree j hj⟩
    obtain ⟨_, _, hall⟩ := arrivals_spec env cfg folderPath fileName targetFolder d henv hname
      cs fs 0 hinv hdiff
    have := hall k x hk
    simpa using this

/-- C6, the claim fails when the least conflict name is a directory. In
`exPhotoDirFS` the folder `d/Pictures` holds a `photo.jpg` that differs from the
arriving one and a directory `photo(1).jpg`: `FileExists` is false for the
directory, so the search stops at counter 1 although the name is taken; the
rename onto the directory and the copy both fail, the failure is logged, the
table is unchanged and the source is still at `d/photo.jpg`. -/
theorem C6_counterexample_directory_name :
    exPhotoDirFS.lookup "d/Pictures/photo.jpg" = some (.file [1]) ∧
    exPhotoDirFS.lookup "d/photo.jpg" = some (.file [2]) ∧
    exPhotoDirFS.lookup "d/Pictures/photo(1).jpg" = some .dir ∧
    hashOutcome exEnv (maxBytesOf exConfig) [2] ≠ hashOutcome exEnv (maxBytesOf exConfig) [1] ∧
    conflictPath "d" "photo.jpg" "Pictures" 1 = "d/Pictures/photo(1).jpg" ∧
    FileExists exEnv exPhotoDirFS "d/Pictures/photo(1).jpg" = false ∧
    findFreeSuffix exEnv exPhotoDirFS (Join "d" "Pictures")
      (TrimSuffix "photo.jpg" (Ext "photo.jpg")) (Ext "photo.jpg") (exPhotoDirFS.length + 1) 1
      = some 1 ∧
    MoveFile exEnv exPhotoDirFS "d/photo.jpg" "d/Pictures/photo(1).jpg"
      = (exPhotoDirFS, some .EISDIR) ∧
    (MoveFileToTargetFolder exEnv exConfig exPhotoDirFS "d" "photo.jpg" "Pictures").1
      = exPhotoDirFS ∧
    (MoveFileToTargetFolder exEnv exConfig exPhotoDirFS "d" "photo.jpg" "Pictures").2.getLast?
      = some ⟨.Error, "Failed to move file %s: %v"⟩ ∧
    (MoveFileToTargetFolder exEnv exConfig exPhotoDirFS "d" "photo.jpg" "Pictures").1.lookup
      "d/photo.jpg" = some (.file [2]) ∧
    (MoveFileToTargetFolder exEnv exConfig exPhotoDirFS "d" "photo.jpg" "Pictures").1.lookup
      "d/Pictures/photo(1).jpg" ≠ some (.file [2]) := by
  decide

/-- The conflict names of `photo.jpg` in `d/Pictures` are not in the example
table. -/
theorem exPhotoFS_conflict_free (j : Nat) :
    exPhotoFS.lookup (conflictPath "d" "photo.jpg" "Pictures" j) = none := by
  apply FS.lookup_none_of_not_mem
  intro hmem
  have hlen := conflictPath_length_gt "d" "photo.jpg" "Pictures" j
  have hdstlen : (Join (Join "d" "Pictures") "photo.jpg").length = 20 := by decide
  simp only [exPhotoFS, List.map_cons, List.map_nil, List.mem_cons, List.mem_singleton,
    List.not_mem_nil, or_false] at hmem
  rcases hmem with h | h | h | h <;>
    · have h2 := congrArg String.length h
      rw [hdstlen] at hlen
      have h3 : ("d" : String).length = 1 := by decide
      have h4 : ("d/Pictures" : String).length = 10 := by decide
      have h5 : ("d/Pictures/photo.jpg" : String).length = 20 := by decide
      have h6 : ("d/photo.jpg" : String).length = 11 := by decide
      omega

/-- The example of the claim: a `photo.jpg` arriving next to a different
`photo.jpg` lands as `photo(1).jpg`, the next one as `photo(2).jpg`. -/
theorem C6_witness_photo :
    exPhotoFS.lookup "d/Pictures/photo.jpg" = some (.file [1]) ∧
    exPhotoFS.lookup "d/photo.jpg" = some (.file [2]) ∧
    (MoveFileToTargetFolder exEnv exConfig exPhotoFS "d" "photo.jpg" "Pictures").1.lookup
      "d/Pictures/photo(1).jpg" = some (.file [2]) ∧
    (arrivals exEnv exConfig "d" "photo.jpg" "Pictures" exPhotoFS [[2], [3]]).lookup
      "d/Pictures/photo(1).jpg" = some (.file [2]) ∧
    (arrivals exEnv exConfig "d" "photo.jpg" "Pictures" exPhotoFS [[2], [3]]).lookup
      "d/Pictures/photo(2).jpg" = some (.file [3]) := by
  have hmain := C6_conflict_gets_least_free_suffix exEnv exConfig exPhotoFS
    "d" "photo.jpg" "Pictures" [2] [1] (Env.quiet_faultFree _ _) (by decide) (by decide)
    (by decide) (by decide) (by decide)
  obtain ⟨⟨i, hi, hfind, _, _, hfreeCase, _⟩, _, harr⟩ := hmain
  have hfind1 : findFreeSuffix exEnv exPhotoFS (Join "d" "Pictures")
      (TrimSuffix "photo.jpg" (Ext "photo.jpg")) (Ext "photo.jpg") (exPhotoFS.length + 1) 1
      = some 1 := by decide
  have hi1 : i = 1 := by
    rw [hfind1] at hfind
    exact (Option.some.inj hfind).symm
  subst hi1
  have hmoved := (hfreeCase (exPhotoFS_conflict_free 1)).1
  have hall := harr [[2], [3]] (fun j _ => exPhotoFS_conflict_free j) (by decide)
  have h1 := hall 0 [2] rfl
  have h2 := hall 1 [3] rfl
  have hp1 : conflictPath "d" "photo.jpg" "Pictures" 1 = "d/Pictures/photo(1).jpg" := by decide
  have hp2 : conflictPath "d" "photo.jpg" "Pictures" 2 = "d/Pictures/photo(2).jpg" := by decide
  rw [hp1] at hmoved h1
  rw [hp2] at h2
  exact ⟨by decide, by decide, hmoved, h1, h2⟩

/-! ## Equal digests: the destination is replaced -/

/-- One move onto a holder with the same digest, in an environment without
failures: the holder is removed and the source takes its path. -/
theorem same_move_spec (env : Env) (cfg : Config) (fs : FS)
    (folderPath fileName targetFolder : String) (c d : List UInt8)
    (henv : env.FaultFree)
    (hT : fs.lookup (Join folderPath targetFolder) = some .dir)
    (hsrc : fs.lookup (Join folderPath fileName) = some (.file c))
    (hdst : fs.lookup (Join (Join folderPath targetFolder) fileName) = some (.file d))
    (hhash : hashOutcome env (maxBytesOf cfg) c = hashOutcome env (maxBytesOf cfg) d) :
    (MoveFileToTargetFolder env cfg fs folderPath fileName targetFolder).1
      = ((fs.erase (Join (Join folderPath targetFolder) fileName)).erase
          (Join folderPath fileName)).insert
            (Join (Join folderPath targetFolder) fileName) (.file c) := by
  have hfolder := FolderExists_of_lookup env fs _ _ (henv.stat _) hT
  have hexists : FileExists env fs (Join (Join folderPath targetFolder) fileName) = true :=
    (FileExists_iff env fs _ (henv.stat _)).mpr ⟨d, hdst⟩
  have hS := HashFile_of_file env fs _ (maxBytesOf cfg) c (henv.stat _) (henv.open_ _)
    (henv.read _) hsrc
  have hD := HashFile_of_file env fs _ (maxBytesOf cfg) d (henv.stat _) (henv.open_ _)
    (henv.read _) hdst
  rw [← hhash] at hD
  rw [MoveFileToTargetFolder_same env cfg fs folderPath fileName targetFolder _
    hfolder hexists hS hD]
  have hrem : osRemove env fs (Join (Join folderPath targetFolder) fileName)
      = .ok (fs.erase (Join (Join folderPath targetFolder) fileName)) := by
    simp [osRemove, henv.remove, hdst]
  rw [hrem]
  simp only []
  have hne := src_ne_dst folderPath fileName targetFolder
  rw [MoveFile_of_rename env _ _ _ c (henv.rename _ _)
    (by rw [FS.lookup_erase_ne _ _ _ hne]; exact hsrc)
    (by rw [FS.lookup_erase_self]; simp) hne]

/-- The lookups after such a move. -/
theorem same_move_lookup (env : Env) (cfg : Config) (fs : FS)
    (folderPath fileName targetFolder : String) (c d : List UInt8)
    (henv : env.FaultFree)
    (hT : fs.lookup (Join folderPath targetFolder) = some .dir)
    (hsrc : fs.lookup (Join folderPath fileName) = some (.file c))
    (hdst : fs.lookup (Join (Join folderPath targetFolder) fileName) = some (.file d))
    (hhash : hashOutcome env (maxBytesOf cfg) c = hashOutcome env (maxBytesOf cfg) d)
    (p : String) :
    (MoveFileToTargetFolder env cfg fs folderPath fileName targetFolder).1.lookup p
      = if p = Join (Join folderPath targetFolder) fileName then some (.file c)
        else if p = Join folderPath fileName then none
        else fs.lookup p := by
  rw [same_move_spec env cfg fs folderPath fileName targetFolder c d henv hT hsrc hdst hhash,
    FS.lookup_insert, FS.lookup_erase, FS.lookup_erase]
  by_cases h1 : p = Join (Join folderPath targetFolder) fileName
  · simp [h1]
  · by_cases h2 : p = Join folderPath fileName
    · simp [h1, h2]
    · simp [h1, h2]

theorem mem_filesIn (fs : FS) (dir p : String) :
    p ∈ filesIn fs dir ↔ inFolder dir p = true ∧ ∃ c, fs.lookup p = some (.file c) := by
  unfold filesIn
  rw [List.mem_filter, FS.mem_paths_iff]
  constructor
  · rintro ⟨_, h⟩
    rw [Bool.and_eq_true] at h
    refine ⟨h.1, ?_⟩
    have h2 := h.2
    unfold FS.isFile at h2
    cases hl : fs.lookup p with
    | none => simp [hl] at h2
    | some n =>
      cases n with
      | dir => simp [hl] at h2
      | file c => exact ⟨c, rfl⟩
  · rintro ⟨h1, c, hc⟩
    exact ⟨⟨_, hc⟩, by simp [h1, FS.isFile, hc]⟩

theorem filesIn_nodup (fs : FS) (dir : String) : (filesIn fs dir).Nodup :=
  List.Nodup.filter _ (List.nodup_dedup _)

/-- A name without a separator is not inside a sibling folder. -/
theorem src_not_inFolder (folderPath fileName targetFolder : String)
    (hflat : '/' ∉ fileName.data) :
    inFolder (Join folderPath targetFolder) (Join folderPath fileName) = false := by
  cases hin : inFolder (Join folderPath targetFolder) (Join folderPath fileName) with
  | false => rfl
  | true =>
    exfalso
    unfold inFolder Join at hin
    simp only [String.data_append, List.append_assoc] at hin
    rw [List.isPrefixOf_iff_prefix] at hin
    obtain ⟨t, ht⟩ := hin
    simp only [List.append_assoc] at ht
    have h1 := List.append_cancel_left ht
    have h2 := List.append_cancel_left h1
    apply hflat
    rw [← h2]
    simp

/-- C7. In an environment without failures, when the destination name is taken
by a regular file whose digest equals the source's, `MoveFileToTargetFolder`
puts the source at exactly the destination path and the source path is gone;
every other path, hence every conflict name `<name>(i)<ext>`, is as before, and
the target folder holds as many regular files as before. -/
theorem C7_equal_digest_replaces_destination (env : Env) (cfg : Config) (fs : FS)
    (folderPath fileName targetFolder : String) (c d : List UInt8)
    (henv : env.FaultFree) (hflat : '/' ∉ fileName.data)
    (hT : fs.lookup (Join folderPath targetFolder) = some .dir)
    (hsrc : fs.lookup (Join folderPath fileName) = some (.file c))
    (hdst : fs.lookup (Join (Join folderPath targetFolder) fileName) = some (.file d))
    (hhash : hashOutcome env (maxBytesOf cfg) c = hashOutcome env (maxBytesOf cfg) d) :
    (MoveFileToTargetFolder env cfg fs folderPath fileName targetFolder).1.lookup
      (Join (Join folderPath targetFolder) fileName) = some (.file c) ∧
    (MoveFileToTargetFolder env cfg fs folderPath fileName targetFolder).1.lookup
      (Join folderPath fileName) = none ∧
    (∀ p, p ≠ Join folderPath fileName → p ≠ Join (Join folderPath targetFolder) fileName →
      (MoveFileToTargetFolder env cfg fs folderPath fileName targetFolder).1.lookup p
        = fs.lookup p) ∧
    (∀ i, (MoveFileToTargetFolder env cfg fs folderPath fileName targetFolder).1.lookup
        (conflictPath folderPath fileName targetFolder i)
      = fs.lookup (conflictPath folderPath fileName targetFolder i)) ∧
    (filesIn (MoveFileToTargetFolder env cfg fs folderPath fileName targetFolder).1
        (Join folderPath targetFolder)).length
      = (filesIn fs (Join folderPath targetFolder)).length := by
  have hlook := same_move_lookup env cfg fs folderPath fileName targetFolder c d henv hT hsrc
    hdst hhash
  have hne := src_ne_dst folderPath fileName targetFolder
  refine ⟨?_, ?_, ?_, ?_, ?_⟩
  · rw [hlook]; simp
  · rw [hlook]; simp [hne]
  · intro p h1 h2
    rw [hlook]; simp [h1, h2]
  · intro i
    rw [hlook]
    have h1 : conflictPath folderPath fileName targetFolder i
        ≠ Join (Join folderPath targetFolder) fileName :=
      fun h => dst_ne_conflictPath folderPath fileName targetFolder i h.symm
    have h2 : conflictPath folderPath fileName targetFolder i ≠ Join folderPath fileName :=
      fun h => src_ne_conflictPath folderPath fileName targetFolder i h.symm
    simp [h1, h2]
  · apply List.Perm.length_eq
    rw [List.perm_ext_iff_of_nodup (filesIn_nodup _ _) (filesIn_nodup _ _)]
    intro p
    rw [mem_filesIn, mem_filesIn, hlook]
    by_cases h1 : p = Join (Join folderPath targetFolder) fileName
    · subst h1
      simp [hdst]
    · by_cases h2 : p = Join folderPath fileName
      · subst h2
        have := src_not_inFolder folderPath fileName targetFolder hflat
        simp [this]
      · simp [h1, h2]

/-- A `photo.jpg` arriving next to a `photo.jpg` with the same bytes replaces
it: `Pictures` still holds one file. -/
theorem C7_witness_same_photo :
    exSamePhotoFS.lookup "d/photo.jpg" = some (.file [7]) ∧
    exSamePhotoFS.lookup "d/Pictures/photo.jpg" = some (.file [7]) ∧
    (MoveFileToTargetFolder exEnv exConfig exSamePhotoFS "d" "photo.jpg" "Pictures").1.lookup
      "d/photo.jpg" = none ∧
    (MoveFileToTargetFolder exEnv exConfig exSamePhotoFS "d" "photo.jpg" "Pictures").1.lookup
      "d/Pictures/photo.jpg" = some (.file [7]) ∧
    (filesIn (MoveFileToTargetFolder exEnv exConfig exSamePhotoFS "d" "photo.jpg" "Pictures").1
      "d/Pictures").length = 1 := by
  have h := C7_equal_digest_replaces_destination exEnv exConfig exSamePhotoFS
    "d" "photo.jpg" "Pictures" [7] [7]
    (Env.quiet_faultFree _ _) (by decide) (by decide) (by decide) (by decide) (by decide)
  obtain ⟨h1, h2, _, _, h5⟩ := h
  exact ⟨by decide, by decide, h2, h1, h5.trans (by decide)⟩

/-- Above the ceiling `HashFile` gives the empty digest. -/
theorem hashOutcome_of_oversized (env : Env) (maxBytes : Int) (c : List UInt8)
    (h : (c.length : Int) > maxBytes) : hashOutcome env maxBytes c = "" := by
  simp [hashOutcome, h]

/-- C5, the code at the failing input. When the source and the same-named
holder of the destination both exceed the hash ceiling, `HashFile` returns the
empty digest for both, `MoveFileToTargetFolder` takes the two files for equal,
removes the holder and puts the source in its place: the holder's content,
although different from the source's, is no longer anywhere in the table. -/
theorem C5_oversized_pair_loses_destination (env : Env) (cfg : Config) (fs : FS)
    (folderPath fileName targetFolder : String) (c d : List UInt8)
    (henv : env.FaultFree)
    (hT : fs.lookup (Join folderPath targetFolder) = some .dir)
    (hsrc : fs.lookup (Join folderPath fileName) = some (.file c))
    (hdst : fs.lookup (Join (Join folderPath targetFolder) fileName) = some (.file d))
    (hc : (c.length : Int) > maxBytesOf cfg) (hd : (d.length : Int) > maxBytesOf cfg)
    (hdiff : c ≠ d)
    (honly : ∀ p, p ≠ Join (Join folderPath targetFolder) fileName →
      fs.lookup p ≠ some (.file d)) :
    (MoveFileToTargetFolder env cfg fs folderPath fileName targetFolder).1.lookup
      (Join (Join folderPath targetFolder) fileName) = some (.file c) ∧
    ∀ p, (MoveFileToTargetFolder env cfg fs folderPath fileName targetFolder).1.lookup p
      ≠ some (.file d) := by
  have hhash : hashOutcome env (maxBytesOf cfg) c = hashOutcome env (maxBytesOf cfg) d := by
    rw [hashOutcome_of_oversized env _ c hc, hashOutcome_of_oversized env _ d hd]
  have hlook := same_move_lookup env cfg fs folderPath fileName targetFolder c d henv hT hsrc
    hdst hhash
  refine ⟨by rw [hlook]; simp, ?_⟩
  intro p
  rw [hlook]
  by_cases h1 : p = Join (Join folderPath targetFolder) fileName
  · simp only [h1, if_true, ne_eq, Option.some.injEq, Node.file.injEq]
    exact hdiff
  · by_cases h2 : p = Join folderPath fileName
    · rw [if_neg h1, if_pos h2]
      simp
    · simp only [h1, h2, if_false]
      exact honly p h1

theorem exBig_ne : exBig 1 ≠ exBig 2 := by
  intro h
  have h1 : (1 : UInt8) ∈ exBig 1 := by
    unfold exBig
    exact List.mem_replicate.mpr ⟨by norm_num, rfl⟩
  rw [h] at h1
  unfold exBig at h1
  have := (List.mem_replicate.mp h1).2
  exact absurd this (by decide)

theorem exBig_length (b : UInt8) : ((exBig b).length : Int) > maxBytesOf exConfig1M := by
  have h : maxBytesOf exConfig1M = 1048576 := by decide
  rw [h]
  unfold exBig
  rw [List.length_replicate]
  norm_num

/-- Two different files `movie.mp4` of 1 MiB + 1 byte under `-S 1M`: after the
move the destination holds the bytes of the source and the bytes of the old
destination are gone. -/
theorem C5_witness_movie :
    exBig 1 ≠ exBig 2 ∧
    exMovieFS.lookup "d/Videos/movie.mp4" = some (.file (exBig 2)) ∧
    (MoveFileToTargetFolder exEnv exConfig1M exMovieFS "d" "movie.mp4" "Videos").1.lookup
      "d/Videos/movie.mp4" = some (.file (exBig 1)) ∧
    ∀ p, (MoveFileToTargetFolder exEnv exConfig1M exMovieFS "d" "movie.mp4" "Videos").1.lookup p
      ≠ some (.file (exBig 2)) := by
  have h := C5_oversized_pair_loses_destination exEnv exConfig1M exMovieFS
    "d" "movie.mp4" "Videos" (exBig 1) (exBig 2) (Env.quiet_faultFree _ _)
    (by rfl) (by rfl) (by rfl) (exBig_length 1) (exBig_length 2) exBig_ne
    (by
      intro p hp
      have hp2 : p ≠ "d/Videos/movie.mp4" := hp
      simp only [exMovieFS, FS.lookup_cons, FS.lookup_nil]
      split_ifs with h1 h2 h3 h4
      · simp
      · simp
      · exact absurd h3.symm hp2
      · simpa using exBig_ne
      · simp)
  exact ⟨exBig_ne, by rfl, h.1, h.2⟩

/-! ## `MoveFile` -/

theorem osCreate_lookup_ne (env : Env) (fs fs1 : FS) (p q : String)
    (h : osCreate env fs p = .ok fs1) (hq : q ≠ p) : fs1.lookup q = fs.lookup q := by
  unfold osCreate at h
  cases hf : env.createFault p with
  | some e => simp [hf] at h
  | none =>
    simp only [hf] at h
    cases hl : fs.lookup p with
    | none =>
      simp only [hl] at h
      cases h
      exact FS.lookup_insert_ne fs p q _ hq
    | some n =>
      cases n with
      | dir => simp [hl] at h
      | file c =>
        simp only [hl] at h
        cases h
        exact FS.lookup_insert_ne fs p q _ hq

theorem ioCopy_lookup_ne (env : Env) (fs : FS) (src dst q : String) (hq : q ≠ dst) :
    (ioCopy env fs src dst).1.lookup q = fs.lookup q := by
  unfold ioCopy
  cases osReadAll env fs src with
  | error e => rfl
  | ok c =>
    simp only []
    cases env.writeFault dst with
    | some e => exact FS.lookup_insert_ne fs dst q _ hq
    | none => exact FS.lookup_insert_ne fs dst q _ hq

theorem ioCopy_complete (env : Env) (fs : FS) (src dst : String) (c : List UInt8)
    (hsrc : fs.lookup src = some (.file c)) (hok : (ioCopy env fs src dst).2 = none) :
    (ioCopy env fs src dst).1.lookup dst = some (.file c) := by
  unfold ioCopy osReadAll at hok ⊢
  cases hr : env.readFault src with
  | some e => simp [hr] at hok
  | none =>
    simp only [hr, hsrc] at hok ⊢
    cases hw : env.writeFault dst with
    | some e => simp [hw] at hok
    | none => exact FS.lookup_insert_self fs dst _

theorem osRemove_ok (env : Env) (fs fs1 : FS) (p : String) (h : osRemove env fs p = .ok fs1) :
    fs1 = fs.erase p := by
  unfold osRemove at h
  cases hf : env.removeFault p with
  | some e => simp [hf] at h
  | none =>
    simp only [hf] at h
    cases hl : fs.lookup p with
    | none => simp [hl] at h
    | some n =>
      simp only [hl] at h
      cases h
      rfl

/-- `MoveFile` after a rename that failed with an already-exists or permission
error: the four ways the copy-then-delete can go. -/
theorem MoveFile_fallback (env : Env) (fs : FS) (src dst : String) (e0 : Errno)
    (hren : osRename env fs src dst = .error e0)
    (hfb : IsExist e0 = true ∨ IsPermission e0 = true) :
    MoveFile env fs src dst =
      match osOpen env fs src with
      | .error e => (fs, some e)
      | .ok _ =>
        match osCreate env fs dst with
        | .error e => (fs, some e)
        | .ok fs1 =>
          match ioCopy env fs1 src dst with
          | (fs2, some e) => (fs2, some e)
          | (fs2, none) =>
            match osRemove env fs2 src with
            | .error e => (fs2, some e)
            | .ok fs3 => (fs3, none) := by
  unfold MoveFile
  rw [hren]
  have hc : (!IsExist e0 && !IsPermission e0) = false := by
    rcases hfb with h | h <;> simp [h]
  simp only [hc, Bool.false_eq_true, if_false]

/-- `MoveFile` after a rename that failed with any other error. -/
theorem MoveFile_no_fallback (env : Env) (fs : FS) (src dst : String) (e0 : Errno)
    (hren : osRename env fs src dst = .error e0)
    (h1 : IsExist e0 = false) (h2 : IsPermission e0 = false) :
    MoveFile env fs src dst = (fs, some e0) := by
  unfold MoveFile
  rw [hren]
  simp [h1, h2]

/-- C8. In the copy-then-delete fallback of `MoveFile` (the rename of a regular
file to another path has failed with an already-exists or permission error):
if opening the source, creating the destination or copying the bytes fails,
`MoveFile` returns that error and the source still holds its content; and
whenever the source does not hold its content afterwards, the copy has fully
succeeded: the destination holds the content and no error is returned. -/
theorem C8_source_removed_only_after_copy (env : Env) (fs : FS) (src dst : String)
    (c : List UInt8) (e0 : Errno)
    (hne : src ≠ dst) (hsrc : fs.lookup src = some (.file c))
    (hren : osRename env fs src dst = .error e0)
    (hfb : IsExist e0 = true ∨ IsPermission e0 = true) :
    (∀ e, osOpen env fs src = .error e →
      MoveFile env fs src dst = (fs, some e)) ∧
    (∀ e, osOpen env fs src = .ok () → osCreate env fs dst = .error e →
      MoveFile env fs src dst = (fs, some e)) ∧
    (∀ fs1 e, osOpen env fs src = .ok () → osCreate env fs dst = .ok fs1 →
      (ioCopy env fs1 src dst).2 = some e →
      (MoveFile env fs src dst).2 = some e ∧
      (MoveFile env fs src dst).1.lookup src = some (.file c)) ∧
    ((MoveFile env fs src dst).1.lookup src ≠ some (.file c) →
      (MoveFile env fs src dst).2 = none ∧
      (MoveFile env fs src dst).1.lookup dst = some (.file c)) := by
  have hM := MoveFile_fallback env fs src dst e0 hren hfb
  refine ⟨?_, ?_, ?_, ?_⟩
  · intro e ho
    rw [hM, ho]
  · intro e ho hc
    rw [hM, ho, hc]
  · intro fs1 e ho hc hcopy
    rw [hM, ho, hc]
    simp only []
    have hl1 : fs1.lookup src = some (.file c) := by
      rw [osCreate_lookup_ne env fs fs1 dst src hc hne]; exact hsrc
    have hl2 := ioCopy_lookup_ne env fs1 src dst src hne
    rcases hcp : ioCopy env fs1 src dst with ⟨fs2, r⟩
    rw [hcp] at hcopy hl2
    simp only at hcopy hl2
    subst hcopy
    exact ⟨rfl, by rw [hl2]; exact hl1⟩
  · intro hgone
    rw [hM] at hgone ⊢
    cases ho : osOpen env fs src with
    | error e =>
      rw [ho] at hgone
      exact absurd hsrc hgone
    | ok u =>
      rw [ho] at hgone
      simp only [] at hgone ⊢
      cases hc : osCreate env fs dst with
      | error e =>
        rw [hc] at hgone
        exact absurd hsrc hgone
      | ok fs1 =>
        rw [hc] at hgone
        simp only [] at hgone ⊢
        have hl1 : fs1.lookup src = some (.file c) := by
          rw [osCreate_lookup_ne env fs fs1 dst src hc hne]; exact hsrc
        have hl2 := ioCopy_lookup_ne env fs1 src dst src hne
        have hl3 := ioCopy_complete env fs1 src dst c hl1
        rcases hcp : ioCopy env fs1 src dst with ⟨fs2, r⟩
        rw [hcp] at hgone hl2 hl3
        simp only at hl2 hl3
        cases r with
        | some e =>
          simp only [] at hgone
          exact absurd (by rw [hl2]; exact hl1) hgone
        | none =>
          simp only [] at hgone ⊢
          cases hr : osRemove env fs2 src with
          | error e =>
            rw [hr] at hgone
            simp only [] at hgone
            exact absurd (by rw [hl2]; exact hl1) hgone
          | ok fs3 =>
            refine ⟨rfl, ?_⟩
            show fs3.lookup dst = some (.file c)
            rw [osRemove_ok env fs2 fs3 src hr,
              FS.lookup_erase_ne _ _ _ (fun h => hne h.symm)]
            exact hl3 rfl

/-- A rename that is not permitted followed by a copy that runs out of space:
`MoveFile` returns the error of the copy and the source is untouched. -/
theorem C8_witness_no_space :
    osRename exNoSpaceEnv [("a/x.txt", .file [1, 2, 3])] "a/x.txt" "b/x.txt" = .error .EACCES ∧
    (ioCopy exNoSpaceEnv [("b/x.txt", .file []), ("a/x.txt", .file [1, 2, 3])]
      "a/x.txt" "b/x.txt").2 = some .ENOSPC ∧
    (MoveFile exNoSpaceEnv [("a/x.txt", .file [1, 2, 3])] "a/x.txt" "b/x.txt").2
      = some .ENOSPC ∧
    (MoveFile exNoSpaceEnv [("a/x.txt", .file [1, 2, 3])] "a/x.txt" "b/x.txt").1.lookup
      "a/x.txt" = some (.file [1, 2, 3]) := by
  have h := (C8_source_removed_only_after_copy exNoSpaceEnv [("a/x.txt", .file [1, 2, 3])]
    "a/x.txt" "b/x.txt" [1, 2, 3] .EACCES (by decide) (by decide) rfl
    (Or.inr rfl)).2.2.1
    [("b/x.txt", .file []), ("a/x.txt", .file [1, 2, 3])] .ENOSPC rfl rfl rfl
  exact ⟨rfl, rfl, h.1, h.2⟩

/-- C9, the claim fails at a cross-device error. The rename fails with `EXDEV`,
which is neither an already-exists nor a permission error for Go: `MoveFile`
returns it at once, the source stays, nothing reaches the destination, although
nothing would have kept the copy from succeeding. -/
theorem C9_counterexample_cross_device :
    osRename exCrossDeviceEnv [("a/x.txt", .file [1, 2, 3])] "a/x.txt" "b/x.txt"
      = .error .EXDEV ∧
    IsExist .EXDEV = false ∧ IsPermission .EXDEV = false ∧
    MoveFile exCrossDeviceEnv [("a/x.txt", .file [1, 2, 3])] "a/x.txt" "b/x.txt"
      = ([("a/x.txt", .file [1, 2, 3])], some .EXDEV) ∧
    (MoveFile exCrossDeviceEnv [("a/x.txt", .file [1, 2, 3])] "a/x.txt" "b/x.txt").1.lookup
      "b/x.txt" = none := by
  refine ⟨rfl, rfl, rfl, rfl, rfl⟩

/-- C9, amended. When the rename of a regular file to another path that is no
directory fails: with an error that is neither already-exists nor permission
(a cross-device error is one) `MoveFile` returns that error and changes
nothing; with an already-exists or permission error it copies and deletes, and
when opening, creating, reading, writing and removing do not fail the
destination holds the source's content, the source is gone and no error is
returned. -/
theorem C9_fallback_on_exist_or_permission (env : Env) (fs : FS) (src dst : String)
    (c : List UInt8) (e0 : Errno)
    (hne : src ≠ dst) (hsrc : fs.lookup src = some (.file c))
    (hdst : fs.lookup dst ≠ some .dir)
    (hren : osRename env fs src dst = .error e0) :
    (IsExist e0 = false → IsPermission e0 = false →
      MoveFile env fs src dst = (fs, some e0)) ∧
    (IsExist e0 = true ∨ IsPermission e0 = true →
      env.openFault src = none → env.createFault dst = none → env.readFault src = none →
      env.writeFault dst = none → env.removeFault src = none →
      (MoveFile env fs src dst).2 = none ∧
      (MoveFile env fs src dst).1.lookup dst = some (.file c) ∧
      (MoveFile env fs src dst).1.lookup src = none) := by
  refine ⟨MoveFile_no_fallback env fs src dst e0 hren, ?_⟩
  intro hfb ho hc hr hw hrm
  have hopen : osOpen env fs src = .ok () := by simp [osOpen, ho, hsrc]
  have hcreate : osCreate env fs dst = .ok (fs.insert dst (.file [])) := by
    unfold osCreate
    rw [hc]
    cases hl : fs.lookup dst with
    | none => rfl
    | some n =>
      cases n with
      | dir => exact absurd hl hdst
      | file c2 => rfl
  have hl1 : (fs.insert dst (.file [])).lookup src = some (.file c) := by
    rw [FS.lookup_insert_ne _ _ _ _ hne]; exact hsrc
  have hcopy : ioCopy env (fs.insert dst (.file [])) src dst
      = ((fs.insert dst (.file [])).insert dst (.file c), none) := by
    simp [ioCopy, osReadAll, hr, hl1, hw]
  have hl2 : ((fs.insert dst (.file [])).insert dst (.file c)).lookup src
      = some (.file c) := by
    rw [FS.lookup_insert_ne _ _ _ _ hne]; exact hl1
  have hremove : osRemove env ((fs.insert dst (.file [])).insert dst (.file c)) src
      = .ok (((fs.insert dst (.file [])).insert dst (.file c)).erase src) := by
    simp [osRemove, hrm, hl2]
  rw [MoveFile_fallback env fs src dst e0 hren hfb, hopen]
  simp only [hcreate, hcopy, hremove]
  refine ⟨trivial, ?_, ?_⟩
  · rw [FS.lookup_erase_ne _ _ _ (fun h => hne h.symm), FS.lookup_insert_self]
  · rw [FS.lookup_erase_self]

/-- A rename that is not permitted, with nothing else failing: the fallback
moves the file. -/
theorem C9_witness_permission :
    osRename exNoRenameEnv [("a/x.txt", .file [1, 2, 3])] "a/x.txt" "b/x.txt"
      = .error .EACCES ∧
    IsPermission .EACCES = true ∧
    (MoveFile exNoRenameEnv [("a/x.txt", .file [1, 2, 3])] "a/x.txt" "b/x.txt").2 = none ∧
    (MoveFile exNoRenameEnv [("a/x.txt", .file [1, 2, 3])] "a/x.txt" "b/x.txt").1.lookup
      "b/x.txt" = some (.file [1, 2, 3]) ∧
    (MoveFile exNoRenameEnv [("a/x.txt", .file [1, 2, 3])] "a/x.txt" "b/x.txt").1.lookup
      "a/x.txt" = none := by
  have h := (C9_fallback_on_exist_or_permission exNoRenameEnv [("a/x.txt", .file [1, 2, 3])]
    "a/x.txt" "b/x.txt" [1, 2, 3] .EACCES (by decide) (by decide) (by decide) rfl).2
    (Or.inr rfl) rfl rfl rfl rfl rfl
  exact ⟨rfl, rfl, h.1, h.2.1, h.2.2⟩

/-! ## Failed moves and the error counter -/

/-- `moveFileToFolder` returns an error only for an unmapped extension. -/
theorem moveFileToFolder_no_error (fp : FileProcessor) (env : Env) (w : World)
    (folderPath : String) (file : FileDetail) (config : ExtensionConfig) (t : String)
    (hl : List.lookup file.Ext config.ExtensionToFolder = some t) :
    (fp.moveFileToFolder env w folderPath file config).2 = none := by
  unfold FileProcessor.moveFileToFolder
  rw [hl]
  simp only []
  split_ifs <;> rfl

/-- Without the transparency check, routing leaves the error counter and the
files-moved counter alone. -/
theorem moveFileToFolder_counters (fp : FileProcessor) (env : Env) (w : World)
    (folderPath : String) (file : FileDetail) (config : ExtensionConfig) (t : String)
    (hl : List.lookup file.Ext config.ExtensionToFolder = some t)
    (hpng : fp.config.DetectTransparentPNGs = false) :
    (fp.moveFileToFolder env w folderPath file config).1.stats = w.stats := by
  unfold FileProcessor.moveFileToFolder
  rw [hl]
  simp only []
  have hoff : ¬ fp.config.DetectTransparentPNGs = true := by simp [hpng]
  by_cases hz : file.Ext = ".zip"
  · rw [if_pos hz]
    split_ifs <;> rfl
  · rw [if_neg hz]
    by_cases hp : file.Ext = ".png"
    · rw [if_pos hp, if_neg hoff]
      rfl
    · rw [if_neg hp]
      rfl

/-- Routing a file with a mapped extension counts it as moved and never as an
error, whatever the mover did. -/
theorem routeAndCount_counters (fp : FileProcessor) (env : Env) (w : World)
    (folderPath : String) (file : FileDetail) (t : String)
    (hl : List.lookup file.Ext fp.extConfig.ExtensionToFolder = some t)
    (hpng : fp.config.DetectTransparentPNGs = false) :
    (fp.routeAndCount env w folderPath file).stats.FilesMoved = w.stats.FilesMoved + 1 ∧
    (fp.routeAndCount env w folderPath file).stats.ErrorsCount = w.stats.ErrorsCount := by
  have h1 := moveFileToFolder_no_error fp env w folderPath file fp.extConfig t hl
  have h2 := moveFileToFolder_counters fp env w folderPath file fp.extConfig t hl hpng
  unfold FileProcessor.routeAndCount
  rcases hm : fp.moveFileToFolder env w folderPath file fp.extConfig with ⟨w1, e⟩
  rw [hm] at h1 h2
  simp only at h1 h2
  subst h1
  simp [Stats.IncrementFilesMoved, h2]

/-- One step of `processFileGroups` leaves the error counter alone when the
transparency check is off. -/
theorem processDetail_errors (fp : FileProcessor) (env : Env) (folderPath : String)
    (fileHashes : List (String × List FileDetail)) (st : GroupState) (detail : FileDetail)
    (hpng : fp.config.DetectTransparentPNGs = false) :
    (fp.processDetail env folderPath fileHashes st detail).world.stats.ErrorsCount
      = st.world.stats.ErrorsCount := by
  unfold FileProcessor.processDetail
  by_cases h1 : detail.Hash = ""
  · rw [if_pos h1]; rfl
  · rw [if_neg h1]
    by_cases h2 : detail.Hash ∈ st.processedHashes
    · rw [if_pos h2]
    · rw [if_neg h2]
      rcases hb : bucketOf fileHashes detail.Hash with _ | ⟨first, _ | ⟨second, more⟩⟩
      · rfl
      · simp only []
        by_cases hdo : fp.config.DuplicatesOnly = true
        · rw [if_pos hdo]
        · rw [if_neg hdo]
          cases hl : List.lookup first.Ext fp.extConfig.ExtensionToFolder with
          | none => rfl
          | some t => exact (routeAndCount_counters fp env _ folderPath first t hl hpng).2
      · simp only []
        have hd := (moveDuplicates_spec env folderPath
          (chooseOriginal first (first :: second :: more)) (first :: second :: more)
          st.world).2.2.1
        by_cases hdo : fp.config.DuplicatesOnly = true
        · rw [if_pos hdo]; exact hd
        · rw [if_neg hdo]
          cases hl : List.lookup (chooseOriginal first (first :: second :: more)).Ext
              fp.extConfig.ExtensionToFolder with
          | none => exact hd
          | some t =>
            exact (routeAndCount_counters fp env _ folderPath _ t hl hpng).2.trans hd

theorem foldl_processDetail_errors (fp : FileProcessor) (env : Env) (folderPath : String)
    (fileHashes : List (String × List FileDetail))
    (hpng : fp.config.DetectTransparentPNGs = false) :
    ∀ (fileDetails : List FileDetail) (st : GroupState),
      (fileDetails.foldl (fp.processDetail env folderPath fileHashes) st).world.stats.ErrorsCount
        = st.world.stats.ErrorsCount := by
  intro fileDetails
  induction fileDetails with
  | nil => intro st; rfl
  | cons d rest ih =>
    intro st
    rw [List.foldl_cons, ih, processDetail_errors fp env folderPath fileHashes st d hpng]

/-- C10, the failing input. No folder can be created, so the move of the
duplicate `b.txt` and the routing of the original `a.txt` both fail and every
file stays where it was; yet the error counter is still zero, and one
duplicate and one moved file are counted. -/
theorem C10_counterexample_failed_moves :
    (exProcessor.processFilesWithDuplicates exNoMkdirEnv Sched.inOrder exHelloWorld "d"
      exHelloEntries).1.fs = exHelloFS ∧
    (exProcessor.processFilesWithDuplicates exNoMkdirEnv Sched.inOrder exHelloWorld "d"
      exHelloEntries).1.calls
      = [.MoveDuplicateFile "d" "b.txt" "d/a.txt", .MoveFileToTargetFolder "d" "a.txt" "Documents"] ∧
    (exProcessor.processFilesWithDuplicates exNoMkdirEnv Sched.inOrder exHelloWorld "d"
      exHelloEntries).1.stats.ErrorsCount = 0 ∧
    (exProcessor.processFilesWithDuplicates exNoMkdirEnv Sched.inOrder exHelloWorld "d"
      exHelloEntries).1.stats.DuplicatesMoved = 1 ∧
    (exProcessor.processFilesWithDuplicates exNoMkdirEnv Sched.inOrder exHelloWorld "d"
      exHelloEntries).1.stats.FilesMoved = 1 := by
  decide

/-- C10, the divergence. The callers of the movers hold a branch that adds one
to the error counter when a move reports an error, but `MoveFileToTargetFolder`
and `MoveDuplicateFile` return nothing and `moveFileToFolder` reports an error
for an unmapped extension only, so the branch is never taken for a failed move:
with the transparency check off, `processFileGroups` never changes the error
counter, whatever moves fail. The duplicate loop leaves it alone and counts
every member handed to `MoveDuplicateFile` as a moved duplicate, routing a file
with a mapped extension counts the file as moved and not as an error, and the
loop goes on with the next candidate after every step. -/
theorem C10_failed_moves_are_not_counted (fp : FileProcessor) (env : Env) (w : World)
    (folderPath : String) (fileDetails : List FileDetail)
    (fileHashes : List (String × List FileDetail))
    (hpng : fp.config.DetectTransparentPNGs = false) :
    (fp.processFileGroups env w folderPath fileDetails fileHashes).stats.ErrorsCount
      = w.stats.ErrorsCount ∧
    (∀ (original : FileDetail) (w2 : World) (files : List FileDetail),
      (moveDuplicates env folderPath original w2 files).stats.ErrorsCount
        = w2.stats.ErrorsCount ∧
      (moveDuplicates env folderPath original w2 files).stats.DuplicatesMoved
        = w2.stats.DuplicatesMoved
          + ((files.filter (fun f => decide (f.Path ≠ original.Path))).length : Int)) ∧
    (∀ (w2 : World) (file : FileDetail) (t : String),
      List.lookup file.Ext fp.extConfig.ExtensionToFolder = some t →
      (fp.routeAndCount env w2 folderPath file).stats.FilesMoved = w2.stats.FilesMoved + 1 ∧
      (fp.routeAndCount env w2 folderPath file).stats.ErrorsCount = w2.stats.ErrorsCount) ∧
    (∀ (st : GroupState) (d : FileDetail) (rest : List FileDetail),
      (d :: rest).foldl (fp.processDetail env folderPath fileHashes) st
        = rest.foldl (fp.processDetail env folderPath fileHashes)
            (fp.processDetail env folderPath fileHashes st d)) := by
  refine ⟨?_, ?_, ?_, ?_⟩
  · unfold FileProcessor.processFileGroups
    exact foldl_processDetail_errors fp env folderPath fileHashes hpng fileDetails _
  · intro original w2 files
    exact ⟨(moveDuplicates_spec env folderPath original files w2).2.2.1,
      (moveDuplicates_spec env folderPath original files w2).2.1⟩
  · intro w2 file t hl
    exact routeAndCount_counters fp env w2 folderPath file t hl hpng
  · intro st d rest
    rfl

/-- The two failing moves of the counterexample, seen from `processFileGroups`. -/
theorem C10_witness_no_mkdir :
    exProcessor.config.DetectTransparentPNGs = false ∧
    (exProcessor.processFileGroups exNoMkdirEnv exHelloWorld "d" [exDetailA, exDetailB]
      [(plainDigest exHello, [exDetailA, exDetailB])]).fs = exHelloFS ∧
    (exProcessor.processFileGroups exNoMkdirEnv exHelloWorld "d" [exDetailA, exDetailB]
      [(plainDigest exHello, [exDetailA, exDetailB])]).stats.ErrorsCount
      = exHelloWorld.stats.ErrorsCount := by
  have h := (C10_failed_moves_are_not_counted exProcessor exNoMkdirEnv exHelloWorld "d"
    [exDetailA, exDetailB] [(plainDigest exHello, [exDetailA, exDetailB])] rfl).1
  exact ⟨rfl, by decide, h⟩

/-! ## Candidates with the empty digest -/

/-- A candidate with the empty digest is passed over by `processFileGroups`:
nothing but a debug line. -/
theorem processDetail_empty_hash (fp : FileProcessor) (env : Env) (folderPath : String)
    (fileHashes : List (String × List FileDetail)) (st : GroupState) (detail : FileDetail)
    (h : detail.Hash = "") :
    fp.processDetail env folderPath fileHashes st detail
      = { st with world := st.world.logf .Debug "Skipping file %s due to empty hash" } := by
  unfold FileProcessor.processDetail
  rw [if_pos h]

/-- A partial-hash group of one file: the candidate is recorded without a
digest, although its bucket is filed under the sentinel key. -/
theorem partialGroupStep_singleton (env : Env) (sched : Sched) (folderPath : String)
    (maxBytes : Int) (size : Nat) (acc : Acc) (pHash : String) (entry : DirEntry)
    (hc : acc.cancelled = false) :
    (partialGroupStep env sched folderPath maxBytes size acc (pHash, [entry])).fileDetails
      = acc.fileDetails
        ++ [⟨entry.Name, Join folderPath entry.Name, "", ToLower (Ext entry.Name)⟩] ∧
    (partialGroupStep env sched folderPath maxBytes size acc (pHash, [entry])).fileHashes
      = appendTo ("size-partial-" ++ Sprint size ++ "-" ++ pHash)
          ⟨entry.Name, Join folderPath entry.Name, "", ToLower (Ext entry.Name)⟩
          acc.fileHashes := by
  simp [partialGroupStep, hc]

/-- C3, the code at the failing input. In the directory of the spec's example
(`a.txt` and `b.txt` contain `hello`, `c.txt` contains `world`, all of five
bytes) the partial hash of `c.txt` is unique in its size group. Its candidate
is recorded with the empty digest while its bucket is filed under the sentinel
key, so `processFileGroups` passes it over: although `.txt` is mapped to
`Documents`, no mover is called for `c.txt` and it stays in the directory. -/
theorem C3_partial_singleton_not_routed :
    (exProcessor.buildGroups exEnv Sched.inOrder exHelloWorld "d" exHelloEntries).fileDetails
      = [exDetailA, exDetailB, ⟨"c.txt", "d/c.txt", "", ".txt"⟩] ∧
    bucketOf
      (exProcessor.buildGroups exEnv Sched.inOrder exHelloWorld "d" exHelloEntries).fileHashes
      ("size-partial-5-" ++ plainDigest (exWorld.take 4096))
      = [⟨"c.txt", "d/c.txt", "", ".txt"⟩] ∧
    List.lookup ".txt" exProcessor.extConfig.ExtensionToFolder = some "Documents" ∧
    (exProcessor.processFilesWithDuplicates exEnv Sched.inOrder exHelloWorld "d"
      exHelloEntries).1.calls
      = [.MoveDuplicateFile "d" "b.txt" "d/a.txt", .MoveFileToTargetFolder "d" "a.txt" "Documents"] ∧
    (exProcessor.processFilesWithDuplicates exEnv Sched.inOrder exHelloWorld "d"
      exHelloEntries).1.fs.lookup "d/c.txt" = some (.file exWorld) ∧
    (exProcessor.processFilesWithDuplicates exEnv Sched.inOrder exHelloWorld "d"
      exHelloEntries).1.fs.lookup "d/Documents/c.txt" = none ∧
    (exProcessor.processFilesWithDuplicates exEnv Sched.inOrder exHelloWorld "d"
      exHelloEntries).1.fs.lookup "d/Documents/a.txt" = some (.file exHello) ∧
    (exProcessor.processFilesWithDuplicates exEnv Sched.inOrder exHelloWorld "d"
      exHelloEntries).1.stats.FilesMoved = 1 := by
  decide

/-! ## Which files the movers are called for -/

/-- Every mover call made by the routing of a file is a call for that file. -/
theorem moveFileToFolder_names (fp : FileProcessor) (env : Env) (w : World)
    (folderPath : String) (file : FileDetail) (config : ExtensionConfig) :
    ∀ c ∈ (fp.moveFileToFolder env w folderPath file config).1.calls,
      c ∈ w.calls ∨ Call.fileName c = file.Name := by
  unfold FileProcessor.moveFileToFolder
  cases hl : List.lookup file.Ext config.ExtensionToFolder with
  | none => intro c hc; left; simpa using hc
  | some targetFolder =>
    simp only []
    by_cases hz : file.Ext = ".zip"
    · rw [if_pos hz]
      by_cases hF : FolderExists env w.fs (Join folderPath (TrimSuffix file.Name file.Ext)) = true
      · rw [if_pos hF]
        intro c hc
        simp only [World.call_calls, List.mem_append, List.mem_singleton] at hc
        rcases hc with hc | rfl
        · exact Or.inl hc
        · exact Or.inr rfl
      · rw [if_neg hF]
        intro c hc
        simp only [World.toTarget_calls, List.mem_append, List.mem_singleton] at hc
        rcases hc with hc | rfl
        · exact Or.inl hc
        · exact Or.inr rfl
    · rw [if_neg hz]
      by_cases hp : file.Ext = ".png"
      · rw [if_pos hp]
        by_cases hd : fp.config.DetectTransparentPNGs = true
        · rw [if_pos hd]
          rcases hT : HasTransparency env w.fs file.Path with ⟨⟨b, e⟩, l⟩
          intro c hc
          cases e with
          | some err =>
            simp only [Bool.false_eq_true, if_false, World.toTarget_calls, World.logf_calls,
              List.mem_append, List.mem_singleton] at hc
            rcases hc with hc | rfl
            · exact Or.inl hc
            · exact Or.inr rfl
          | none =>
            cases b with
            | true =>
              simp only [if_true, World.toTarget_calls, World.logf_calls,
                List.mem_append, List.mem_singleton] at hc
              rcases hc with hc | rfl
              · exact Or.inl hc
              · exact Or.inr rfl
            | false =>
              simp only [Bool.false_eq_true, if_false, World.toTarget_calls, World.logf_calls,
                List.mem_append, List.mem_singleton] at hc
              rcases hc with hc | rfl
              · exact Or.inl hc
              · exact Or.inr rfl
        · rw [if_neg hd]
          intro c hc
          simp only [World.toTarget_calls, List.mem_append, List.mem_singleton] at hc
          rcases hc with hc | rfl
          · exact Or.inl hc
          · exact Or.inr rfl
      · rw [if_neg hp]
        intro c hc
        simp only [World.toTarget_calls, List.mem_append, List.mem_singleton] at hc
        rcases hc with hc | rfl
        · exact Or.inl hc
        · exact Or.inr rfl

theorem routeAndCount_names (fp : FileProcessor) (env : Env) (w : World)
    (folderPath : String) (original : FileDetail) :
    ∀ c ∈ (fp.routeAndCount env w folderPath original).calls,
      c ∈ w.calls ∨ Call.fileName c = original.Name := by
  have h := moveFileToFolder_names fp env w folderPath original fp.extConfig
  unfold FileProcessor.routeAndCount
  rcases hm : fp.moveFileToFolder env w folderPath original fp.extConfig with ⟨w1, e⟩
  rw [hm] at h
  cases e with
  | some err => exact h
  | none => exact h

theorem moveDuplicates_names (env : Env) (folderPath : String) (original : FileDetail)
    (l : List FileDetail) (w : World) :
    ∀ c ∈ (moveDuplicates env folderPath original w l).calls,
      c ∈ w.calls ∨ ∃ f ∈ l, Call.fileName c = f.Name := by
  intro c hc
  rw [(moveDuplicates_spec env folderPath original l w).1, List.mem_append] at hc
  rcases hc with hc | hc
  · exact Or.inl hc
  · right
    rw [List.mem_map] at hc
    obtain ⟨f, hf, rfl⟩ := hc
    exact ⟨f, (List.mem_filter.mp hf).1, rfl⟩

theorem chooseOriginal_mem (first : FileDetail) (rest : List FileDetail) :
    chooseOriginal first (first :: rest) ∈ first :: rest := by
  obtain ⟨pre, post, hsplit, _, _⟩ := chooseOriginal_split first rest
  have : chooseOriginal first (first :: rest)
      ∈ pre ++ chooseOriginal first (first :: rest) :: post := by simp
  rw [← hsplit] at this
  exact this

/-- Every mover call of a step of `processFileGroups` is made for a member of
a bucket with a non-empty key. -/
theorem processDetail_names (fp : FileProcessor) (env : Env) (folderPath : String)
    (fileHashes : List (String × List FileDetail)) (st : GroupState) (detail : FileDetail) :
    ∀ c ∈ (fp.processDetail env folderPath fileHashes st detail).world.calls,
      c ∈ st.world.calls ∨
      ∃ h, h ≠ "" ∧ ∃ f ∈ bucketOf fileHashes h, Call.fileName c = f.Name := by
  unfold FileProcessor.processDetail
  by_cases h1 : detail.Hash = ""
  · rw [if_pos h1]; intro c hc; exact Or.inl hc
  · rw [if_neg h1]
    by_cases h2 : detail.Hash ∈ st.processedHashes
    · rw [if_pos h2]; intro c hc; exact Or.inl hc
    · rw [if_neg h2]
      rcases hb : bucketOf fileHashes detail.Hash with _ | ⟨first, _ | ⟨second, more⟩⟩
      · intro c hc; exact Or.inl hc
      · simp only []
        by_cases hdo : fp.config.DuplicatesOnly = true
        · rw [if_pos hdo]; intro c hc; exact Or.inl hc
        · rw [if_neg hdo]
          cases hl : List.lookup first.Ext fp.extConfig.ExtensionToFolder with
          | none => intro c hc; exact Or.inl hc
          | some t =>
            intro c hc
            rcases routeAndCount_names fp env _ folderPath first c hc with hc | hc
            · exact Or.inl hc
            · exact Or.inr ⟨detail.Hash, h1, first, by rw [hb]; simp, hc⟩
      · simp only []
        have hmem := chooseOriginal_mem first (second :: more)
        have hdups := moveDuplicates_names env folderPath
          (chooseOriginal first (first :: second :: more)) (first :: second :: more) st.world
        have hfromDup : ∀ c ∈ (moveDuplicates env folderPath
            (chooseOriginal first (first :: second :: more)) st.world
            (first :: second :: more)).calls,
            c ∈ st.world.calls ∨
            ∃ h, h ≠ "" ∧ ∃ f ∈ bucketOf fileHashes h, Call.fileName c = f.Name := by
          intro c hc
          rcases hdups c hc with hc | ⟨f, hf, hn⟩
          · exact Or.inl hc
          · exact Or.inr ⟨detail.Hash, h1, f, by rw [hb]; exact hf, hn⟩
        by_cases hdo : fp.config.DuplicatesOnly = true
        · rw [if_pos hdo]; exact hfromDup
        · rw [if_neg hdo]
          cases hl : List.lookup (chooseOriginal first (first :: second :: more)).Ext
              fp.extConfig.ExtensionToFolder with
          | none => exact hfromDup
          | some t =>
            intro c hc
            rcases routeAndCount_names fp env _ folderPath _ c hc with hc | hc
            · exact hfromDup c hc
            · exact Or.inr ⟨detail.Hash, h1, _, by rw [hb]; exact hmem, hc⟩

theorem foldl_processDetail_names (fp : FileProcessor) (env : Env) (folderPath : String)
    (fileHashes : List (String × List FileDetail)) :
    ∀ (fileDetails : List FileDetail) (st : GroupState),
      ∀ c ∈ (fileDetails.foldl (fp.processDetail env folderPath fileHashes) st).world.calls,
        c ∈ st.world.calls ∨
        ∃ h, h ≠ "" ∧ ∃ f ∈ bucketOf fileHashes h, Call.fileName c = f.Name := by
  intro fileDetails
  induction fileDetails with
  | nil => intro st c hc; exact Or.inl hc
  | cons d rest ih =>
    intro st c hc
    rw [List.foldl_cons] at hc
    rcases ih _ c hc with hc | hc
    · exact processDetail_names fp env folderPath fileHashes st d c hc
    · exact Or.inr hc

/-- A run of `processFileGroups` over candidates that all have the empty
digest moves nothing. -/
theorem foldl_processDetail_all_empty (fp : FileProcessor) (env : Env) (folderPath : String)
    (fileHashes : List (String × List FileDetail)) :
    ∀ (fileDetails : List FileDetail) (st : GroupState),
      (∀ d ∈ fileDetails, d.Hash = "") →
      (fileDetails.foldl (fp.processDetail env folderPath fileHashes) st).world.fs = st.world.fs ∧
      (fileDetails.foldl (fp.processDetail env folderPath fileHashes) st).world.calls
        = st.world.calls ∧
      (fileDetails.foldl (fp.processDetail env folderPath fileHashes) st).world.stats
        = st.world.stats := by
  intro fileDetails
  induction fileDetails with
  | nil => intro st _; exact ⟨rfl, rfl, rfl⟩
  | cons d rest ih =>
    intro st hall
    rw [List.foldl_cons, processDetail_empty_hash fp env folderPath fileHashes st d
      (hall d (List.mem_cons_self _ _))]
    exact ih _ (fun d2 hd2 => hall d2 (List.mem_cons_of_mem _ hd2))

/-- The worker of the full-hash stage on a file above the ceiling: the empty
digest and no error. -/
theorem hashWorker_oversized (env : Env) (fs : FS) (folderPath : String) (maxBytes : Int)
    (entry : DirEntry) (c : List UInt8)
    (hs : env.statFault (Join folderPath entry.Name) = none)
    (hl : fs.lookup (Join folderPath entry.Name) = some (.file c))
    (hc : (c.length : Int) > maxBytes) :
    hashWorker env fs folderPath maxBytes entry
      = (⟨entry.Name, Join folderPath entry.Name, "", ToLower (Ext entry.Name)⟩, none) := by
  simp [hashWorker, HashFile, osStat, hs, hl, Node.info, hc]

/-- A directory of two regular files of the same size and the same partial
hash, both above the ceiling, under the in-order runtime: both candidates get
the empty digest and the run moves nothing. -/
theorem run_two_oversized (fp : FileProcessor) (env : Env) (w : World)
    (folderPath : String) (e1 e2 : DirEntry) (c1 c2 : List UInt8)
    (henv : env.FaultFree) (hd1 : e1.IsDir = false) (hd2 : e2.IsDir = false)
    (h1 : w.fs.lookup (Join folderPath e1.Name) = some (.file c1))
    (h2 : w.fs.lookup (Join folderPath e2.Name) = some (.file c2))
    (hlen : c1.length = c2.length)
    (hph : env.sha256hex (c1.take 4096) = env.sha256hex (c2.take 4096))
    (hbig : (c1.length : Int) > maxBytesOf fp.config) :
    (fp.processFilesWithDuplicates env Sched.inOrder w folderPath [e1, e2]).2 = none ∧
    (fp.processFilesWithDuplicates env Sched.inOrder w folderPath [e1, e2]).1.fs = w.fs ∧
    (fp.processFilesWithDuplicates env Sched.inOrder w folderPath [e1, e2]).1.calls = w.calls ∧
    (fp.processFilesWithDuplicates env Sched.inOrder w folderPath [e1, e2]).1.stats.TotalFiles
      = w.stats.TotalFiles + 2 ∧
    (fp.processFilesWithDuplicates env Sched.inOrder w folderPath [e1, e2]).1.stats.FilesMoved
      = w.stats.FilesMoved := by
  have hbig2 : (c2.length : Int) > maxBytesOf fp.config := by rw [← hlen]; exact hbig
  have hdet : (fp.buildGroups env Sched.inOrder w folderPath [e1, e2]).fileDetails
      = [⟨e1.Name, Join folderPath e1.Name, "", ToLower (Ext e1.Name)⟩,
         ⟨e2.Name, Join folderPath e2.Name, "", ToLower (Ext e2.Name)⟩] := by
    simp [FileProcessor.buildGroups, groupBySize, hd1, hd2, osStat, henv.stat, h1, h2, Node.info,
      hlen, appendTo, Sched.inOrder, sizeGroupStep, groupByPartialHash, PartialHashFile, osOpen,
      henv.open_, osReadAll, henv.read, hph, partialGroupStep, collectResults, hashWorker,
      HashFile, hbig2]
  have hcan : (fp.buildGroups env Sched.inOrder w folderPath [e1, e2]).cancelled = false := by
    simp [FileProcessor.buildGroups, groupBySize, hd1, hd2, osStat, henv.stat, h1, h2, Node.info,
      hlen, appendTo, Sched.inOrder, sizeGroupStep, groupByPartialHash, PartialHashFile, osOpen,
      henv.open_, osReadAll, henv.read, hph, partialGroupStep, collectResults, hashWorker,
      HashFile, hbig2]
  have hw : (fp.buildGroups env Sched.inOrder w folderPath [e1, e2]).world.fs = w.fs ∧
      (fp.buildGroups env Sched.inOrder w folderPath [e1, e2]).world.calls = w.calls ∧
      (fp.buildGroups env Sched.inOrder w folderPath [e1, e2]).world.stats.TotalFiles
        = w.stats.TotalFiles + 2 ∧
      (fp.buildGroups env Sched.inOrder w folderPath [e1, e2]).world.stats.FilesMoved
        = w.stats.FilesMoved := by
    simp [FileProcessor.buildGroups, groupBySize, hd1, hd2, osStat, henv.stat, h1, h2, Node.info,
      hlen, appendTo, Sched.inOrder, sizeGroupStep, groupByPartialHash, PartialHashFile, osOpen,
      henv.open_, osReadAll, henv.read, hph, partialGroupStep, collectResults, hashWorker,
      HashFile, hbig2, World.logf, Stats.IncrementTotalFiles]
    ring
  unfold FileProcessor.processFilesWithDuplicates
  simp only [hcan, Bool.false_eq_true, if_false]
  unfold FileProcessor.processFileGroups
  obtain ⟨hf, hc, hs⟩ := foldl_processDetail_all_empty fp env folderPath
    (fp.buildGroups env Sched.inOrder w folderPath [e1, e2]).fileHashes
    (fp.buildGroups env Sched.inOrder w folderPath [e1, e2]).fileDetails
    ⟨(fp.buildGroups env Sched.inOrder w folderPath [e1, e2]).world, []⟩
    (by rw [hdet]; intro d hd; simp at hd; rcases hd with rfl | rfl <;> rfl)
  refine ⟨trivial, ?_, ?_, ?_, ?_⟩
  · rw [hf]; exact hw.1
  · rw [hc]; exact hw.2.1
  · rw [hs]; exact hw.2.2.1
  · rw [hs]; exact hw.2.2.2

/-- C4, the claim fails. Two text files of 1 MiB + 1 byte with the same bytes,
under a ceiling of 1 MB: both reach the full-hashing stage, both exceed the
ceiling, and although `.txt` is mapped to `Documents` the run calls no mover
and leaves both files where they were. -/
theorem C4_counterexample_oversized_not_routed :
    ((exBig 1).length : Int) > maxBytesOf exProcessor1M.config ∧
    List.lookup ".txt" exProcessor1M.extConfig.ExtensionToFolder = some "Documents" ∧
    (exProcessor1M.processFilesWithDuplicates exEnv Sched.inOrder
      ⟨exBigFS, Stats.zero, [], []⟩ "d" exBigEntries).2 = none ∧
    (exProcessor1M.processFilesWithDuplicates exEnv Sched.inOrder
      ⟨exBigFS, Stats.zero, [], []⟩ "d" exBigEntries).1.calls = [] ∧
    (exProcessor1M.processFilesWithDuplicates exEnv Sched.inOrder
      ⟨exBigFS, Stats.zero, [], []⟩ "d" exBigEntries).1.fs = exBigFS ∧
    exBigFS.lookup "d/big1.txt" = some (.file (exBig 1)) ∧
    exBigFS.lookup "d/Documents/big1.txt" = none ∧
    (exProcessor1M.processFilesWithDuplicates exEnv Sched.inOrder
      ⟨exBigFS, Stats.zero, [], []⟩ "d" exBigEntries).1.stats.FilesMoved = 0 := by
  obtain ⟨h1, h2, h3, _, h5⟩ := run_two_oversized exProcessor1M exEnv
    ⟨exBigFS, Stats.zero, [], []⟩ "d" ⟨"big1.txt", false⟩ ⟨"big2.txt", false⟩
    (exBig 1) (exBig 1) (Env.quiet_faultFree _ _) rfl rfl rfl rfl rfl rfl (exBig_length 1)
  have e3 : (⟨exBigFS, Stats.zero, [], []⟩ : World).calls = [] := rfl
  have e2 : (⟨exBigFS, Stats.zero, [], []⟩ : World).fs = exBigFS := rfl
  have e5 : (⟨exBigFS, Stats.zero, [], []⟩ : World).stats.FilesMoved = 0 := rfl
  rw [e3] at h3
  rw [e2] at h2
  rw [e5] at h5
  unfold exBigEntries
  refine ⟨exBig_length 1, by decide, ?_, ?_, ?_, ?_, ?_, ?_⟩
  · exact h1
  · exact h3
  · exact h2
  · rfl
  · rfl
  · exact h5

/-- C4, amended. A file above the hash ceiling that reaches the full-hashing
stage is not routed: its worker returns the empty digest and no error, the
candidate is counted in `TotalFiles` and filed under the empty key,
`processFileGroups` passes over the candidate with nothing but a debug line,
and every mover call of `processFileGroups` is made for a member of a bucket
with a non-empty key. -/
theorem C4_oversized_is_passed_over (fp : FileProcessor) (env : Env) (fs : FS)
    (folderPath : String) (entry : DirEntry) (c : List UInt8)
    (hs : env.statFault (Join folderPath entry.Name) = none)
    (hl : fs.lookup (Join folderPath entry.Name) = some (.file c))
    (hc : (c.length : Int) > maxBytesOf fp.config) :
    hashWorker env fs folderPath (maxBytesOf fp.config) entry
      = (⟨entry.Name, Join folderPath entry.Name, "", ToLower (Ext entry.Name)⟩, none) ∧
    (∀ acc : Acc,
      (collectResults acc [hashWorker env fs folderPath (maxBytesOf fp.config) entry]).fileDetails
        = acc.fileDetails
          ++ [⟨entry.Name, Join folderPath entry.Name, "", ToLower (Ext entry.Name)⟩] ∧
      (collectResults acc [hashWorker env fs folderPath (maxBytesOf fp.config) entry]).fileHashes
        = appendTo "" ⟨entry.Name, Join folderPath entry.Name, "", ToLower (Ext entry.Name)⟩
            acc.fileHashes ∧
      (collectResults acc
          [hashWorker env fs folderPath (maxBytesOf fp.config) entry]).world.stats.TotalFiles
        = acc.world.stats.TotalFiles + 1 ∧
      (collectResults acc
          [hashWorker env fs folderPath (maxBytesOf fp.config) entry]).world.stats.ErrorsCount
        = acc.world.stats.ErrorsCount) ∧
    (∀ (fileHashes : List (String × List FileDetail)) (st : GroupState),
      fp.processDetail env folderPath fileHashes st
          ⟨entry.Name, Join folderPath entry.Name, "", ToLower (Ext entry.Name)⟩
        = { st with world := st.world.logf .Debug "Skipping file %s due to empty hash" }) ∧
    (∀ (w : World) (fileDetails : List FileDetail)
        (fileHashes : List (String × List FileDetail)),
      ∀ call ∈ (fp.processFileGroups env w folderPath fileDetails fileHashes).calls,
        call ∈ w.calls ∨
        ∃ h, h ≠ "" ∧ ∃ f ∈ bucketOf fileHashes h, Call.fileName call = f.Name) := by
  have hw := hashWorker_oversized env fs folderPath (maxBytesOf fp.config) entry c hs hl hc
  refine ⟨hw, ?_, ?_, ?_⟩
  · intro acc
    rw [hw]
    simp [collectResults, Stats.IncrementTotalFiles]
  · intro fileHashes st
    exact processDetail_empty_hash fp env folderPath fileHashes st _ rfl
  · intro w fileDetails fileHashes call hcall
    unfold FileProcessor.processFileGroups at hcall
    exact foldl_processDetail_names fp env folderPath fileHashes fileDetails ⟨w, []⟩ call hcall

/-- The file `big1.txt` of the counterexample. -/
theorem C4_witness_big_file :
    exBigFS.lookup (Join "d" "big1.txt") = some (.file (exBig 1)) ∧
    ((exBig 1).length : Int) > maxBytesOf exProcessor1M.config ∧
    hashWorker exEnv exBigFS "d" (maxBytesOf exProcessor1M.config) ⟨"big1.txt", false⟩
      = (⟨"big1.txt", "d/big1.txt", "", ".txt"⟩, none) := by
  have h := (C4_oversized_is_passed_over exProcessor1M exEnv exBigFS "d" ⟨"big1.txt", false⟩
    (exBig 1) rfl rfl (exBig_length 1)).1
  exact ⟨rfl, exBig_length 1, h⟩

/-! ## `HashFile` -/

theorem digitChar_hex (k : Nat) (h : k < 16) :
    Nat.digitChar k ∈ "0123456789abcdef".data := by
  interval_cases k <;> decide

theorem exHexDigest_isHex (content : List UInt8) : isHexDigest (exHexDigest content) := by
  constructor
  · simp only [exHexDigest, String.length, List.length_take, List.length_append,
      List.length_replicate]
    omega
  · intro c hc
    simp only [exHexDigest] at hc
    have hc2 := List.mem_of_mem_take hc
    rcases List.mem_append.mp hc2 with h | h
    · rw [List.mem_flatMap] at h
      obtain ⟨b, _, hb⟩ := h
      have hlt : b.toNat < 256 := b.val.isLt
      simp only [byteHex, List.mem_cons, List.mem_singleton, List.not_mem_nil, or_false] at hb
      rcases hb with rfl | rfl
      · exact digitChar_hex _ (by omega)
      · exact digitChar_hex _ (Nat.mod_lt _ (by norm_num))
    · rw [(List.mem_replicate.mp h).2]
      decide

theorem exHexEnv_hexDigests : exHexEnv.HexDigests := ⟨exHexDigest_isHex⟩

/-- A digest of 64 digits is not the empty string. -/
theorem isHexDigest_ne_empty (s : String) (h : isHexDigest s) : s ≠ "" := by
  intro hs
  have := h.1
  rw [hs] at this
  exact absurd this (by decide)

/-- C11. `HashFile` returns the empty digest with no error exactly when
`os.Stat` succeeds and the size is strictly greater than `maxBytes`; when the
size is at most `maxBytes` (equal to it, or zero, included) and the file is
opened and read, it returns the SHA-256 of the whole content, which is not
empty, with no error; and a failure of stat, open or read yields the empty
digest together with a `HashError` for that path and error. -/
theorem C11_HashFile_outcomes (env : Env) (fs : FS) (filePath : String) (maxBytes : Int)
    (hhex : env.HexDigests) :
    ((HashFile env fs filePath maxBytes).1 = ("", none) ↔
      ∃ info, osStat env fs filePath = .ok info ∧ (info.size : Int) > maxBytes) ∧
    (∀ info content, osStat env fs filePath = .ok info → (info.size : Int) ≤ maxBytes →
      osOpen env fs filePath = .ok () → osReadAll env fs filePath = .ok content →
      (HashFile env fs filePath maxBytes).1 = (env.sha256hex content, none) ∧
      env.sha256hex content ≠ "") ∧
    (∀ content, env.statFault filePath = none → env.openFault filePath = none →
      env.readFault filePath = none → fs.lookup filePath = some (.file content) →
      (content.length : Int) ≤ maxBytes →
      (HashFile env fs filePath maxBytes).1 = (env.sha256hex content, none)) ∧
    (∀ err, osStat env fs filePath = .error err →
      (HashFile env fs filePath maxBytes).1 = ("", some (NewHashError filePath err))) ∧
    (∀ info err, osStat env fs filePath = .ok info → (info.size : Int) ≤ maxBytes →
      osOpen env fs filePath = .error err →
      (HashFile env fs filePath maxBytes).1 = ("", some (NewHashError filePath err))) ∧
    (∀ info err, osStat env fs filePath = .ok info → (info.size : Int) ≤ maxBytes →
      osOpen env fs filePath = .ok () → osReadAll env fs filePath = .error err →
      (HashFile env fs filePath maxBytes).1 = ("", some (NewHashError filePath err))) := by
  have hne : ∀ c, env.sha256hex c ≠ "" := fun c => isHexDigest_ne_empty _ (hhex.hex c)
  refine ⟨?_, ?_, ?_, ?_, ?_, ?_⟩
  · unfold HashFile
    cases hs : osStat env fs filePath with
    | error e => simp
    | ok info =>
      simp only []
      by_cases hgt : (info.size : Int) > maxBytes
      · simp [hgt]
      · rw [if_neg hgt]
        cases ho : osOpen env fs filePath with
        | error e => simp [hgt]
        | ok u =>
          simp only []
          cases hr : osReadAll env fs filePath with
          | error e => simp [hgt]
          | ok content =>
            simp only [Prod.mk.injEq, and_true, Except.ok.injEq, exists_eq_left']
            constructor
            · intro h; exact absurd h (hne content)
            · intro h; exact absurd h hgt
  · intro info content hs hle ho hr
    refine ⟨?_, hne content⟩
    unfold HashFile
    rw [hs]
    simp only [not_lt.mpr hle, gt_iff_lt, if_false, ho, hr]
  · intro content hs ho hr hl hle
    rw [HashFile_of_file env fs filePath maxBytes content hs ho hr hl]
    simp [hashOutcome, not_lt.mpr hle]
  · intro err hs
    unfold HashFile
    rw [hs]
  · intro info err hs hle ho
    unfold HashFile
    rw [hs]
    simp only [not_lt.mpr hle, gt_iff_lt, if_false, ho]
  · intro info err hs hle ho hr
    unfold HashFile
    rw [hs]
    simp only [not_lt.mpr hle, gt_iff_lt, if_false, ho, hr]

/-- A file of five bytes under a ceiling of exactly five bytes is hashed; the
same file under a ceiling of four bytes is skipped without an error. -/
theorem C11_witness_ceiling :
    (HashFile exHexEnv exHelloFS "d/a.txt" 5).1 = (exHexDigest exHello, none) ∧
    exHexDigest exHello ≠ "" ∧
    (HashFile exHexEnv exHelloFS "d/a.txt" 4).1 = ("", none) := by
  have h := C11_HashFile_outcomes exHexEnv exHelloFS "d/a.txt" 5 exHexEnv_hexDigests
  have h4 := C11_HashFile_outcomes exHexEnv exHelloFS "d/a.txt" 4 exHexEnv_hexDigests
  obtain ⟨h1, h2⟩ := h.2.1 ⟨5, false⟩ exHello rfl (by decide) rfl rfl
  exact ⟨h1, h2, h4.1.mpr ⟨⟨5, false⟩, rfl, by decide⟩⟩

/-! ## `HasTransparency` -/

/-- The comparison of the quotient with one half, on the integers. -/
theorem quotient_gt_half (t : Nat) (total : Int) (hpos : 0 < total) :
    ((t : ℚ) / (total : ℚ) > 1 / 2) ↔ 2 * (t : Int) > total := by
  have hq : (0 : ℚ) < (total : ℚ) := by exact_mod_cast hpos
  rw [gt_iff_lt, lt_div_iff₀ hq]
  constructor
  · intro h
    have h2 : (total : ℚ) < 2 * (t : ℚ) := by linarith
    have h3 : ((total : Int) : ℚ) < ((2 * (t : Int) : Int) : ℚ) := by
      push_cast; exact h2
    exact_mod_cast h3
  · intro h
    have h3 : ((total : Int) : ℚ) < ((2 * (t : Int) : Int) : ℚ) := by exact_mod_cast h
    push_cast at h3
    linarith

theorem list_range_sum (f : Nat → Nat) (n : Nat) :
    ((List.range n).map f).sum = ∑ i in Finset.range n, f i := by
  induction n with
  | zero => simp
  | succ n ih => rw [List.range_succ, List.map_append, List.sum_append, ih,
      Finset.sum_range_succ]; simp

theorem list_range_filter_length (p : Nat → Bool) (n : Nat) :
    ((List.range n).filter p).length = ((Finset.range n).filter (fun i => p i = true)).card := by
  induction n with
  | zero => simp
  | succ n ih =>
    rw [List.range_succ, List.filter_append, List.length_append, ih, Finset.range_succ,
      Finset.filter_insert]
    by_cases hp : p n = true
    · rw [if_pos hp, Finset.card_insert_of_not_mem (by simp)]
      simp [hp]
    · rw [if_neg hp]
      simp [hp]

/-- The count of the double loop is the number of pixels of the bounds with `a < 0xffff`. -/
theorem countTransparent_eq_card (img : Image) :
    countTransparent img
      = ((Finset.Ico img.minX img.maxX ×ˢ Finset.Ico img.minY img.maxY).filter
          (fun p => img.alphaAt p.1 p.2 < 0xffff)).card := by
  unfold countTransparent
  rw [list_range_sum]
  simp only [list_range_filter_length, decide_eq_true_eq]
  rw [← Finset.card_sigma]
  symm
  apply Finset.card_bij (fun p _ => ⟨(p.2 - img.minY).toNat, (p.1 - img.minX).toNat⟩)
  · intro p hp
    simp only [Finset.mem_filter, Finset.mem_product, Finset.mem_Ico] at hp
    simp only [Finset.mem_sigma, Finset.mem_range, Finset.mem_filter]
    obtain ⟨⟨⟨h1, h2⟩, h3, h4⟩, h5⟩ := hp
    refine ⟨by omega, by omega, ?_⟩
    have e1 : img.minX + ((p.1 - img.minX).toNat : Int) = p.1 := by omega
    have e2 : img.minY + ((p.2 - img.minY).toNat : Int) = p.2 := by omega
    rw [e1, e2]; exact h5
  · intro p hp q hq h
    simp only [Finset.mem_filter, Finset.mem_product, Finset.mem_Ico] at hp hq
    simp only [Sigma.mk.inj_iff, heq_eq_eq] at h
    obtain ⟨ha, hb⟩ := h
    ext <;> omega
  · intro s hs
    simp only [Finset.mem_sigma, Finset.mem_range, Finset.mem_filter] at hs
    obtain ⟨h1, h2, h3⟩ := hs
    refine ⟨(img.minX + s.2, img.minY + s.1), ?_, ?_⟩
    · simp only [Finset.mem_filter, Finset.mem_product, Finset.mem_Ico]
      exact ⟨⟨⟨by omega, by omega⟩, by omega, by omega⟩, h3⟩
    · ext <;> simp

/-- C18. For a file that is opened, read and decoded to an image with
well-formed bounds, `HasTransparency` returns no error and returns true exactly
when the image has at least one pixel and twice the number of pixels with
`a < 0xffff` (the count of the double loop, which is the number of such pixels
inside the bounds) is more than `width * height`; an image without pixels and
an image with exactly half of its pixels not opaque yield false. -/
theorem C18_transparency_threshold (env : Env) (fs : FS) (filePath : String)
    (content : List UInt8) (img : Image)
    (ho : osOpen env fs filePath = .ok ()) (hr : osReadAll env fs filePath = .ok content)
    (hd : env.pngDecode content = some img)
    (hwf : img.minX ≤ img.maxX ∧ img.minY ≤ img.maxY) :
    countTransparent img
      = ((Finset.Ico img.minX img.maxX ×ˢ Finset.Ico img.minY img.maxY).filter
          (fun p => img.alphaAt p.1 p.2 < 0xffff)).card ∧
    (HasTransparency env fs filePath).1
      = (decide ((img.maxX - img.minX) * (img.maxY - img.minY) ≠ 0 ∧
          2 * (countTransparent img : Int) > (img.maxX - img.minX) * (img.maxY - img.minY)),
         none) ∧
    ((img.maxX - img.minX) * (img.maxY - img.minY) = 0 →
      (HasTransparency env fs filePath).1 = (false, none)) ∧
    (2 * (countTransparent img : Int) = (img.maxX - img.minX) * (img.maxY - img.minY) →
      (HasTransparency env fs filePath).1 = (false, none)) := by
  have hnn : 0 ≤ (img.maxX - img.minX) * (img.maxY - img.minY) :=
    mul_nonneg (by omega) (by omega)
  have hmain : (HasTransparency env fs filePath).1
      = (decide ((img.maxX - img.minX) * (img.maxY - img.minY) ≠ 0 ∧
          2 * (countTransparent img : Int) > (img.maxX - img.minX) * (img.maxY - img.minY)),
         none) := by
    unfold HasTransparency
    rw [ho]
    simp only [hr, hd]
    by_cases h0 : (img.maxX - img.minX) * (img.maxY - img.minY) = 0
    · rw [if_pos h0]
      simp [h0]
    · rw [if_neg h0]
      have hpos : 0 < (img.maxX - img.minX) * (img.maxY - img.minY) :=
        lt_of_le_of_ne hnn (Ne.symm h0)
      have hiff := quotient_gt_half (countTransparent img) _ hpos
      simp only [Prod.mk.injEq, and_true, decide_eq_decide]
      rw [hiff]
      simp [h0]
  refine ⟨countTransparent_eq_card img, hmain, ?_, ?_⟩
  · intro h0
    rw [hmain]
    simp [h0]
  · intro hhalf
    rw [hmain]
    simp [hhalf]

/-- Three of four pixels not opaque give true; two of four give false. -/
theorem C18_witness_pixels :
    countTransparent exImage = 3 ∧
    (HasTransparency exPngEnv exPngFS "d/logo.png").1 = (true, none) ∧
    countTransparent exHalfImage = 2 ∧
    (HasTransparency exHalfPngEnv exPngFS "d/logo.png").1 = (false, none) := by
  have h1 := (C18_transparency_threshold exPngEnv exPngFS "d/logo.png" [137, 80, 78, 71]
    exImage rfl rfl rfl (by decide)).2.1
  have h2 := (C18_transparency_threshold exHalfPngEnv exPngFS "d/logo.png" [137, 80, 78, 71]
    exHalfImage rfl rfl rfl (by decide)).2.2.2 (by decide)
  refine ⟨by decide, ?_, by decide, h2⟩
  rw [h1]
  decide

/-! ## `ProcessDirectory`: the two fatal errors and nothing else -/

/-- C19. When `os.Stat` reports that the path does not exist,
`ProcessDirectory` returns the not-exist error and the world it was given: the
directory is not listed, no mover is called, the file system, the log and every
counter are as before. -/
theorem C19_missing_directory (fp : FileProcessor) (env : Env) (sched : Sched) (w : World)
    (folderPath : String) (e : Errno)
    (hstat : osStat env w.fs folderPath = .error e) (he : IsNotExist e = true) :
    fp.ProcessDirectory env sched w folderPath = (w, some .notExist) ∧
    (fp.ProcessDirectory env sched w folderPath).1.fs = w.fs ∧
    (fp.ProcessDirectory env sched w folderPath).1.calls = w.calls ∧
    (fp.ProcessDirectory env sched w folderPath).1.stats = w.stats := by
  have h : fp.ProcessDirectory env sched w folderPath = (w, some .notExist) := by
    unfold FileProcessor.ProcessDirectory FolderExists
    rw [hstat]
    simp [he]
  rw [h]
  exact ⟨rfl, rfl, rfl, rfl⟩

/-- The directory of the test `TestFileProcessor_ProcessDirectoryNonExistent`. -/
theorem C19_witness_nonexistent :
    osStat exEnv exHelloWorld.fs "/nonexistent/directory" = .error .ENOENT ∧
    exProcessor.ProcessDirectory exEnv Sched.inOrder exHelloWorld "/nonexistent/directory"
      = (exHelloWorld, some .notExist) := by
  exact ⟨rfl, (C19_missing_directory exProcessor exEnv Sched.inOrder exHelloWorld
    "/nonexistent/directory" .ENOENT rfl rfl).1⟩

theorem collectResults_cancelled (results : List (FileDetail × Option HashError)) (acc : Acc) :
    (collectResults acc results).cancelled = acc.cancelled := by
  unfold collectResults
  induction results generalizing acc with
  | nil => rfl
  | cons r rest ih =>
    rw [List.foldl_cons, ih]
    cases r.2 <;> rfl

theorem partialGroupStep_cancelled (env : Env) (sched : Sched) (folderPath : String)
    (maxBytes : Int) (size : Nat) (acc : Acc) (g : String × List DirEntry)
    (hsched : ∀ e, sched.cancelAt e = false) (hacc : acc.cancelled = false) :
    (partialGroupStep env sched folderPath maxBytes size acc g).cancelled = false := by
  have hany : ∀ l : List DirEntry, l.any sched.cancelAt = false := by
    intro l
    rw [List.any_eq_false]
    intro e _
    simp [hsched e]
  unfold partialGroupStep
  rw [hacc]
  simp only [Bool.false_eq_true, if_false]
  split
  · rfl
  · rw [hany]
    simp only [Bool.false_eq_true, if_false]
    rw [collectResults_cancelled]

theorem foldl_partialGroupStep_cancelled (env : Env) (sched : Sched) (folderPath : String)
    (maxBytes : Int) (size : Nat) (hsched : ∀ e, sched.cancelAt e = false) :
    ∀ (gs : List (String × List DirEntry)) (acc : Acc), acc.cancelled = false →
      (gs.foldl (partialGroupStep env sched folderPath maxBytes size) acc).cancelled
        = false := by
  intro gs
  induction gs with
  | nil => intro acc h; exact h
  | cons g rest ih =>
    intro acc h
    rw [List.foldl_cons]
    exact ih _ (partialGroupStep_cancelled env sched folderPath maxBytes size acc g hsched h)

theorem sizeGroupStep_cancelled (env : Env) (sched : Sched) (folderPath : String)
    (maxBytes : Int) (acc : Acc) (g : Nat × List DirEntry)
    (hsched : ∀ e, sched.cancelAt e = false) (hacc : acc.cancelled = false) :
    (sizeGroupStep env sched folderPath maxBytes acc g).cancelled = false := by
  unfold sizeGroupStep
  rw [hacc]
  simp only [Bool.false_eq_true, if_false]
  split
  · rfl
  · exact foldl_partialGroupStep_cancelled env sched folderPath maxBytes g.1 hsched _ _ rfl

theorem foldl_sizeGroupStep_cancelled (env : Env) (sched : Sched) (folderPath : String)
    (maxBytes : Int) (hsched : ∀ e, sched.cancelAt e = false) :
    ∀ (gs : List (Nat × List DirEntry)) (acc : Acc), acc.cancelled = false →
      (gs.foldl (sizeGroupStep env sched folderPath maxBytes) acc).cancelled = false := by
  intro gs
  induction gs with
  | nil => intro acc h; exact h
  | cons g rest ih =>
    intro acc h
    rw [List.foldl_cons]
    exact ih _ (sizeGroupStep_cancelled env sched folderPath maxBytes acc g hsched h)

/-- Without a cancellation the grouping is never given up. -/
theorem buildGroups_not_cancelled (fp : FileProcessor) (env : Env) (sched : Sched) (w : World)
    (folderPath : String) (entries : List DirEntry)
    (hsched : ∀ e, sched.cancelAt e = false) :
    (fp.buildGroups env sched w folderPath entries).cancelled = false := by
  unfold FileProcessor.buildGroups
  exact foldl_sizeGroupStep_cancelled env sched folderPath _ hsched _ _ rfl

theorem processFilesWithDuplicates_no_error (fp : FileProcessor) (env : Env) (sched : Sched)
    (w : World) (folderPath : String) (entries : List DirEntry)
    (hsched : ∀ e, sched.cancelAt e = false) :
    (fp.processFilesWithDuplicates env sched w folderPath entries).2 = none := by
  unfold FileProcessor.processFilesWithDuplicates
  simp only [buildGroups_not_cancelled fp env sched w folderPath entries hsched,
    Bool.false_eq_true, if_false]

theorem processFilesWithoutDuplicates_no_error (fp : FileProcessor) (env : Env) (sched : Sched)
    (folderPath : String) (hsched : ∀ e, sched.cancelAt e = false) :
    ∀ (entries : List DirEntry) (w : World),
      (fp.processFilesWithoutDuplicates env sched folderPath w entries).2 = none := by
  intro entries
  induction entries with
  | nil => intro w; rfl
  | cons entry rest ih =>
    intro w
    unfold FileProcessor.processFilesWithoutDuplicates
    simp only [hsched entry, Bool.false_eq_true, if_false]
    by_cases hd : entry.IsDir = true
    · rw [if_pos hd]; exact ih w
    · rw [if_neg hd]
      split
      · exact ih _
      · exact ih _

/-- C20. When the directory exists, its listing succeeds and the context is
never cancelled, `ProcessDirectory` returns no error, for every configuration
(with and without duplicate detection) and every environment, that is, whatever
stat, hashing, move, copy or decode failures occur on the files; the same holds
for the two processing functions on any listing. -/
theorem C20_per_file_failures_are_not_returned (fp : FileProcessor) (env : Env) (sched : Sched)
    (w : World) (folderPath : String) (entries : List DirEntry)
    (hexists : FolderExists env w.fs folderPath = true)
    (hlist : osReadDir env w.fs folderPath = .ok entries)
    (hsched : ∀ e, sched.cancelAt e = false) :
    (fp.ProcessDirectory env sched w folderPath).2 = none ∧
    (∀ (w2 : World) (l : List DirEntry),
      (fp.processFilesWithDuplicates env sched w2 folderPath l).2 = none) ∧
    (∀ (w2 : World) (l : List DirEntry),
      (fp.processFilesWithoutDuplicates env sched folderPath w2 l).2 = none) := by
  refine ⟨?_, ?_, ?_⟩
  · unfold FileProcessor.ProcessDirectory
    rw [hexists, hlist]
    simp only [Bool.not_true, Bool.false_eq_true, if_false]
    unfold FileProcessor.processFiles
    by_cases hm : fp.config.MoveDuplicates = true
    · rw [if_pos hm]
      exact processFilesWithDuplicates_no_error fp env sched w folderPath entries hsched
    · rw [if_neg hm]
      exact processFilesWithoutDuplicates_no_error fp env sched folderPath hsched entries w
  · intro w2 l
    exact processFilesWithDuplicates_no_error fp env sched w2 folderPath l hsched
  · intro w2 l
    exact processFilesWithoutDuplicates_no_error fp env sched folderPath hsched l w2

set_option maxRecDepth 8000 in
/-- The run in which no folder can be created and both moves fail still
returns no error. -/
theorem C20_witness_failing_moves :
    FolderExists exNoMkdirEnv exHelloWorld.fs "d" = true ∧
    osReadDir exNoMkdirEnv exHelloWorld.fs "d" = .ok exHelloEntries ∧
    (exProcessor.ProcessDirectory exNoMkdirEnv Sched.inOrder exHelloWorld "d").2 = none ∧
    (exProcessor.ProcessDirectory exNoMkdirEnv Sched.inOrder exHelloWorld "d").1.fs
      = exHelloFS := by
  have h := (C20_per_file_failures_are_not_returned exProcessor exNoMkdirEnv Sched.inOrder
    exHelloWorld "d" exHelloEntries rfl rfl (fun _ => rfl)).1
  exact ⟨rfl, rfl, h, by decide⟩

/-! ## Duplicates-only mode -/

/-- The duplicate loop changes no counter but the one of the moved
duplicates. -/
theorem moveDuplicates_other_stats (env : Env) (folderPath : String) (original : FileDetail)
    (l : List FileDetail) (w : World) :
    (moveDuplicates env folderPath original w l).stats.TotalFiles = w.stats.TotalFiles ∧
    (moveDuplicates env folderPath original w l).stats.UnknownExtensions
      = w.stats.UnknownExtensions ∧
    (moveDuplicates env folderPath original w l).stats.UnknownExtMap = w.stats.UnknownExtMap ∧
    (moveDuplicates env folderPath original w l).stats.TransparentPNGsMoved
      = w.stats.TransparentPNGsMoved := by
  induction l generalizing w with
  | nil => exact ⟨rfl, rfl, rfl, rfl⟩
  | cons f t ih =>
    unfold moveDuplicates at ih ⊢
    rw [List.foldl_cons]
    by_cases hp : f.Path = original.Path
    · simp only [hp, if_true]
      exact ih w
    · simp only [hp, if_false]
      exact ih _

/-- Every call of the duplicate loop is a call of `MoveDuplicateFile`. -/
theorem moveDuplicates_only_duplicate_moves (env : Env) (folderPath : String)
    (original : FileDetail) (l : List FileDetail) (w : World) :
    ∃ dups, (moveDuplicates env folderPath original w l).calls = w.calls ++ dups ∧
      ∀ c ∈ dups, Call.isDuplicateMove c = true := by
  refine ⟨_, (moveDuplicates_spec env folderPath original l w).1, ?_⟩
  intro c hc
  rw [List.mem_map] at hc
  obtain ⟨f, _, rfl⟩ := hc
  rfl

/-- One step of `processFileGroups` in duplicates-only mode. -/
theorem processDetail_duplicatesOnly (fp : FileProcessor) (env : Env) (folderPath : String)
    (fileHashes : List (String × List FileDetail)) (st : GroupState) (detail : FileDetail)
    (hdo : fp.config.DuplicatesOnly = true) :
    (∃ dups, (fp.processDetail env folderPath fileHashes st detail).world.calls
        = st.world.calls ++ dups ∧ ∀ c ∈ dups, Call.isDuplicateMove c = true) ∧
    (fp.processDetail env folderPath fileHashes st detail).world.stats.FilesMoved
      = st.world.stats.FilesMoved ∧
    (fp.processDetail env folderPath fileHashes st detail).world.stats.UnknownExtensions
      = st.world.stats.UnknownExtensions ∧
    (fp.processDetail env folderPath fileHashes st detail).world.stats.UnknownExtMap
      = st.world.stats.UnknownExtMap := by
  have hnil : ∃ dups : List Call, st.world.calls = st.world.calls ++ dups ∧
      ∀ c ∈ dups, Call.isDuplicateMove c = true := ⟨[], by simp⟩
  unfold FileProcessor.processDetail
  by_cases h1 : detail.Hash = ""
  · rw [if_pos h1]; exact ⟨hnil, rfl, rfl, rfl⟩
  · rw [if_neg h1]
    by_cases h2 : detail.Hash ∈ st.processedHashes
    · rw [if_pos h2]; exact ⟨hnil, rfl, rfl, rfl⟩
    · rw [if_neg h2]
      rcases hb : bucketOf fileHashes detail.Hash with _ | ⟨first, _ | ⟨second, more⟩⟩
      · exact ⟨hnil, rfl, rfl, rfl⟩
      · simp only []
        rw [if_pos hdo]
        exact ⟨hnil, rfl, rfl, rfl⟩
      · simp only []
        rw [if_pos hdo]
        obtain ⟨_, _, _, hfm⟩ := moveDuplicates_spec env folderPath
          (chooseOriginal first (first :: second :: more)) (first :: second :: more) st.world
        obtain ⟨_, hue, hum, _⟩ := moveDuplicates_other_stats env folderPath
          (chooseOriginal first (first :: second :: more)) (first :: second :: more) st.world
        exact ⟨moveDuplicates_only_duplicate_moves env folderPath _ _ st.world, hfm, hue, hum⟩

theorem foldl_processDetail_duplicatesOnly (fp : FileProcessor) (env : Env)
    (folderPath : String) (fileHashes : List (String × List FileDetail))
    (hdo : fp.config.DuplicatesOnly = true) :
    ∀ (fileDetails : List FileDetail) (st : GroupState),
      (∃ dups, (fileDetails.foldl (fp.processDetail env folderPath fileHashes) st).world.calls
          = st.world.calls ++ dups ∧ ∀ c ∈ dups, Call.isDuplicateMove c = true) ∧
      (fileDetails.foldl (fp.processDetail env folderPath fileHashes) st).world.stats.FilesMoved
        = st.world.stats.FilesMoved ∧
      (fileDetails.foldl
          (fp.processDetail env folderPath fileHashes) st).world.stats.UnknownExtensions
        = st.world.stats.UnknownExtensions ∧
      (fileDetails.foldl (fp.processDetail env folderPath fileHashes) st).world.stats.UnknownExtMap
        = st.world.stats.UnknownExtMap := by
  intro fileDetails
  induction fileDetails with
  | nil => intro st; exact ⟨⟨[], by simp⟩, rfl, rfl, rfl⟩
  | cons d rest ih =>
    intro st
    rw [List.foldl_cons]
    obtain ⟨⟨dups1, hc1, hd1⟩, hf1, hu1, hm1⟩ :=
      processDetail_duplicatesOnly fp env folderPath fileHashes st d hdo
    obtain ⟨⟨dups2, hc2, hd2⟩, hf2, hu2, hm2⟩ :=
      ih (fp.processDetail env folderPath fileHashes st d)
    refine ⟨⟨dups1 ++ dups2, ?_, ?_⟩, hf2.trans hf1, hu2.trans hu1, hm2.trans hm1⟩
    · rw [hc2, hc1, List.append_assoc]
    · intro c hc
      rcases List.mem_append.mp hc with h | h
      · exact hd1 c h
      · exact hd2 c h

/-- C14. In duplicates-only mode every mover call of `processFileGroups` is a
call of `MoveDuplicateFile`, so no file is routed, and `FilesMoved`, the
unknown-extension total and the histogram keep their values; a candidate whose
bucket has one member changes nothing; and on a bucket of two or more with
pairwise distinct paths the calls of the step are exactly the calls of
`MoveDuplicateFile` for the members other than the original, counted in
`DuplicatesMoved`. -/
theorem C14_duplicates_only_routes_nothing (fp : FileProcessor) (env : Env) (w : World)
    (folderPath : String) (fileDetails : List FileDetail)
    (fileHashes : List (String × List FileDetail))
    (hdo : fp.config.DuplicatesOnly = true) :
    (∃ dups, (fp.processFileGroups env w folderPath fileDetails fileHashes).calls
        = w.calls ++ dups ∧ ∀ c ∈ dups, Call.isDuplicateMove c = true) ∧
    (fp.processFileGroups env w folderPath fileDetails fileHashes).stats.FilesMoved
      = w.stats.FilesMoved ∧
    (fp.processFileGroups env w folderPath fileDetails fileHashes).stats.UnknownExtensions
      = w.stats.UnknownExtensions ∧
    (fp.processFileGroups env w folderPath fileDetails fileHashes).stats.UnknownExtMap
      = w.stats.UnknownExtMap ∧
    (∀ (st : GroupState) (detail single : FileDetail), detail.Hash ≠ "" →
      bucketOf fileHashes detail.Hash = [single] →
      fp.processDetail env folderPath fileHashes st detail = st) ∧
    (∀ (st : GroupState) (detail first second : FileDetail) (more : List FileDetail),
      detail.Hash ≠ "" → detail.Hash ∉ st.processedHashes →
      bucketOf fileHashes detail.Hash = first :: second :: more →
      ((first :: second :: more).map FileDetail.Path).Nodup →
      ∃ pre post,
        first :: second :: more
          = pre ++ chooseOriginal first (first :: second :: more) :: post ∧
        (fp.processDetail env folderPath fileHashes st detail).world.calls
          = st.world.calls
            ++ (pre ++ post).map (fun f => Call.MoveDuplicateFile folderPath f.Name
                  (chooseOriginal first (first :: second :: more)).Path) ∧
        (fp.processDetail env folderPath fileHashes st detail).world.stats.DuplicatesMoved
          = st.world.stats.DuplicatesMoved + ((pre ++ post).length : Int)) := by
  obtain ⟨h1, h2, h3, h4⟩ :=
    foldl_processDetail_duplicatesOnly fp env folderPath fileHashes hdo fileDetails ⟨w, []⟩
  refine ⟨h1, h2, h3, h4, ?_, ?_⟩
  · intro st detail single hhash hb
    unfold FileProcessor.processDetail
    rw [if_neg hhash]
    by_cases hp : detail.Hash ∈ st.processedHashes
    · rw [if_pos hp]
    · rw [if_neg hp, hb]
      simp only []
      rw [if_pos hdo]
  · intro st detail first second more hhash hnew hb hpaths
    obtain ⟨pre, post, hsplit, _, _⟩ := chooseOriginal_split first (second :: more)
    have hnd : ((pre ++ chooseOriginal first (first :: second :: more) :: post).map
        FileDetail.Path).Nodup := by rw [← hsplit]; exact hpaths
    obtain ⟨hfilter, _⟩ := filter_path_ne_of_nodup pre post _ hnd
    rw [← hsplit] at hfilter
    obtain ⟨hc, hd, _, _⟩ := moveDuplicates_spec env folderPath
      (chooseOriginal first (first :: second :: more)) (first :: second :: more) st.world
    refine ⟨pre, post, hsplit, ?_, ?_⟩
    · unfold FileProcessor.processDetail
      rw [if_neg hhash, if_neg hnew, hb]
      simp only []
      rw [if_pos hdo]
      show (moveDuplicates env folderPath _ st.world _).calls = _
      rw [hc, hfilter]
      rfl
    · unfold FileProcessor.processDetail
      rw [if_neg hhash, if_neg hnew, hb]
      simp only []
      rw [if_pos hdo]
      show (moveDuplicates env folderPath _ st.world _).stats.DuplicatesMoved = _
      rw [hd, hfilter]

/-- The duplicates-only run on `a.txt`, `b.txt` (same bytes) and `c.txt`: only
`b.txt` is moved, `a.txt` and `c.txt` stay, nothing is counted as moved. -/
theorem C14_witness_duplicates_only :
    exDupOnlyProcessor.config.DuplicatesOnly = true ∧
    (exDupOnlyProcessor.processFileGroups exEnv exHelloWorld "d"
      [exDetailA, exDetailB, exDetailC]
      [(plainDigest exHello, [exDetailA, exDetailB]), (plainDigest exWorld, [exDetailC])]).calls
      = [.MoveDuplicateFile "d" "b.txt" "d/a.txt"] ∧
    (exDupOnlyProcessor.processFileGroups exEnv exHelloWorld "d"
      [exDetailA, exDetailB, exDetailC]
      [(plainDigest exHello, [exDetailA, exDetailB]),
       (plainDigest exWorld, [exDetailC])]).stats.FilesMoved = exHelloWorld.stats.FilesMoved := by
  have h := (C14_duplicates_only_routes_nothing exDupOnlyProcessor exEnv exHelloWorld "d"
    [exDetailA, exDetailB, exDetailC]
    [(plainDigest exHello, [exDetailA, exDetailB]), (plainDigest exWorld, [exDetailC])] rfl).2.1
  exact ⟨rfl, by decide, h⟩

/-! ## Runs without duplicate detection -/

/-- Routing a file with a mapped extension changes no counter but those of the
errors and of the transparent PNGs. -/
theorem moveFileToFolder_stats_frame (fp : FileProcessor) (env : Env) (w : World)
    (folderPath : String) (file : FileDetail) (config : ExtensionConfig) (t : String)
    (hl : List.lookup file.Ext config.ExtensionToFolder = some t) :
    (fp.moveFileToFolder env w folderPath file config).1.stats.FilesMoved = w.stats.FilesMoved ∧
    (fp.moveFileToFolder env w folderPath file config).1.stats.TotalFiles = w.stats.TotalFiles ∧
    (fp.moveFileToFolder env w folderPath file config).1.stats.UnknownExtensions
      = w.stats.UnknownExtensions ∧
    (fp.moveFileToFolder env w folderPath file config).1.stats.UnknownExtMap
      = w.stats.UnknownExtMap := by
  unfold FileProcessor.moveFileToFolder
  rw [hl]
  simp only []
  by_cases hz : file.Ext = ".zip"
  · rw [if_pos hz]
    split_ifs <;> exact ⟨rfl, rfl, rfl, rfl⟩
  · rw [if_neg hz]
    by_cases hp : file.Ext = ".png"
    · rw [if_pos hp]
      by_cases hd : fp.config.DetectTransparentPNGs = true
      · rw [if_pos hd]
        rcases hT : HasTransparency env w.fs file.Path with ⟨⟨b, e⟩, l⟩
        cases e with
        | some err => exact ⟨rfl, rfl, rfl, rfl⟩
        | none =>
          cases b with
          | true => exact ⟨rfl, rfl, rfl, rfl⟩
          | false => exact ⟨rfl, rfl, rfl, rfl⟩
      · rw [if_neg hd]
        exact ⟨rfl, rfl, rfl, rfl⟩
    · rw [if_neg hp]
      exact ⟨rfl, rfl, rfl, rfl⟩

/-- Routing a file with a mapped extension counts it as moved, and as nothing
else. -/
theorem routeAndCount_stats_frame (fp : FileProcessor) (env : Env) (w : World)
    (folderPath : String) (file : FileDetail) (t : String)
    (hl : List.lookup file.Ext fp.extConfig.ExtensionToFolder = some t) :
    (fp.routeAndCount env w folderPath file).stats.FilesMoved = w.stats.FilesMoved + 1 ∧
    (fp.routeAndCount env w folderPath file).stats.TotalFiles = w.stats.TotalFiles ∧
    (fp.routeAndCount env w folderPath file).stats.UnknownExtensions
      = w.stats.UnknownExtensions ∧
    (fp.routeAndCount env w folderPath file).stats.UnknownExtMap = w.stats.UnknownExtMap := by
  have h1 := moveFileToFolder_no_error fp env w folderPath file fp.extConfig t hl
  obtain ⟨h2, h3, h4, h5⟩ := moveFileToFolder_stats_frame fp env w folderPath file
    fp.extConfig t hl
  unfold FileProcessor.routeAndCount
  rcases hm : fp.moveFileToFolder env w folderPath file fp.extConfig with ⟨w1, e⟩
  rw [hm] at h1 h2 h3 h4 h5
  simp only at h1 h2 h3 h4 h5
  subst h1
  simp [Stats.IncrementFilesMoved, h2, h3, h4, h5]

theorem extCount_bumpExt_self (ext : String) (m : List (String × Int)) :
    extCount (bumpExt ext m) ext = extCount m ext + 1 := by
  induction m with
  | nil => simp [bumpExt, extCount, List.lookup]
  | cons e rest ih =>
    obtain ⟨k, v⟩ := e
    unfold bumpExt
    by_cases hk : k = ext
    · subst hk
      simp [extCount, List.lookup]
    · rw [if_neg hk]
      have hb : (ext == k) = false := by
        rw [beq_eq_false_iff_ne]; exact fun h => hk h.symm
      unfold extCount at ih ⊢
      simp only [List.lookup, hb]
      exact ih

theorem extCount_bumpExt_other (ext other : String) (m : List (String × Int))
    (h : other ≠ ext) : extCount (bumpExt ext m) other = extCount m other := by
  induction m with
  | nil =>
    have hb : (other == ext) = false := by rw [beq_eq_false_iff_ne]; exact h
    simp [bumpExt, extCount, List.lookup, hb]
  | cons e rest ih =>
    obtain ⟨k, v⟩ := e
    unfold bumpExt
    by_cases hk : k = ext
    · subst hk
      have hb : (other == k) = false := by rw [beq_eq_false_iff_ne]; exact h
      simp [extCount, List.lookup, hb]
    · rw [if_neg hk]
      unfold extCount at ih ⊢
      by_cases ho : other = k
      · subst ho
        simp [List.lookup]
      · have hb : (other == k) = false := by rw [beq_eq_false_iff_ne]; exact ho
        simp only [List.lookup, hb]
        exact ih

/-- The step of `processFilesWithoutDuplicates` on a regular file whose
extension is not in the mapping. -/
theorem processFilesWithoutDuplicates_unknown (fp : FileProcessor) (env : Env) (sched : Sched)
    (folderPath : String) (w : World) (entry : DirEntry) (rest : List DirEntry)
    (hc : sched.cancelAt entry = false) (hd : entry.IsDir = false)
    (hu : List.lookup (ToLower (Ext entry.Name)) fp.extConfig.ExtensionToFolder = none) :
    fp.processFilesWithoutDuplicates env sched folderPath w (entry :: rest)
      = fp.processFilesWithoutDuplicates env sched folderPath
          ({ w with stats := ((w.stats.IncrementTotalFiles).IncrementUnknownExtensions
                (ToLower (Ext entry.Name))) }.logf .Debug
            "Skipping file with unknown extension: %s (%s)") rest := by
  conv_lhs => unfold FileProcessor.processFilesWithoutDuplicates
  simp only [hc, hd, Bool.false_eq_true, if_false, hu]

/-- The step of `processFilesWithoutDuplicates` on a regular file whose
extension is in the mapping. -/
theorem processFilesWithoutDuplicates_mapped (fp : FileProcessor) (env : Env) (sched : Sched)
    (folderPath : String) (w : World) (entry : DirEntry) (rest : List DirEntry) (t : String)
    (hc : sched.cancelAt entry = false) (hd : entry.IsDir = false)
    (hm : List.lookup (ToLower (Ext entry.Name)) fp.extConfig.ExtensionToFolder = some t) :
    fp.processFilesWithoutDuplicates env sched folderPath w (entry :: rest)
      = fp.processFilesWithoutDuplicates env sched folderPath
          (fp.routeAndCount env { w with stats := w.stats.IncrementTotalFiles } folderPath
            ⟨entry.Name, Join folderPath entry.Name, "", ToLower (Ext entry.Name)⟩) rest := by
  conv_lhs => unfold FileProcessor.processFilesWithoutDuplicates
  simp only [hc, hd, Bool.false_eq_true, if_false, hm]

/-- The step of `processFilesWithoutDuplicates` on a directory. -/
theorem processFilesWithoutDuplicates_dir (fp : FileProcessor) (env : Env) (sched : Sched)
    (folderPath : String) (w : World) (entry : DirEntry) (rest : List DirEntry)
    (hc : sched.cancelAt entry = false) (hd : entry.IsDir = true) :
    fp.processFilesWithoutDuplicates env sched folderPath w (entry :: rest)
      = fp.processFilesWithoutDuplicates env sched folderPath w rest := by
  conv_lhs => unfold FileProcessor.processFilesWithoutDuplicates
  simp only [hc, hd, Bool.false_eq_true, if_false, if_true]

/-- The counters and the calls after a run without duplicate detection that is
not cancelled. -/
theorem processFilesWithoutDuplicates_counts (fp : FileProcessor) (env : Env) (sched : Sched)
    (folderPath : String) (hsched : ∀ e, sched.cancelAt e = false) :
    ∀ (entries : List DirEntry) (w : World),
      (fp.processFilesWithoutDuplicates env sched folderPath w entries).1.stats.TotalFiles
        = w.stats.TotalFiles + ((entries.filter (fun e => !e.IsDir)).length : Int) ∧
      (fp.processFilesWithoutDuplicates env sched folderPath w entries).1.stats.FilesMoved
        = w.stats.FilesMoved
          + ((entries.filter (fun e => !e.IsDir && fp.mapped e)).length : Int) ∧
      (fp.processFilesWithoutDuplicates env sched folderPath w entries).1.stats.UnknownExtensions
        = w.stats.UnknownExtensions
          + ((entries.filter (fun e => !e.IsDir && !fp.mapped e)).length : Int) ∧
      ∀ c ∈ (fp.processFilesWithoutDuplicates env sched folderPath w entries).1.calls,
        c ∈ w.calls ∨
        ∃ e ∈ entries, e.IsDir = false ∧ fp.mapped e = true ∧ Call.fileName c = e.Name := by
  intro entries
  induction entries with
  | nil =>
    intro w
    exact ⟨by simp [FileProcessor.processFilesWithoutDuplicates],
      by simp [FileProcessor.processFilesWithoutDuplicates],
      by simp [FileProcessor.processFilesWithoutDuplicates],
      fun c hc => Or.inl hc⟩
  | cons entry rest ih =>
    intro w
    by_cases hd : entry.IsDir = true
    · rw [processFilesWithoutDuplicates_dir fp env sched folderPath w entry rest
        (hsched entry) hd]
      obtain ⟨h1, h2, h3, h4⟩ := ih w
      refine ⟨?_, ?_, ?_, ?_⟩
      · rw [h1]; simp [hd]
      · rw [h2]; simp [hd]
      · rw [h3]; simp [hd]
      · intro c hc
        rcases h4 c hc with h | ⟨e, he, h⟩
        · exact Or.inl h
        · exact Or.inr ⟨e, List.mem_cons_of_mem _ he, h⟩
    · have hd2 : entry.IsDir = false := by simpa using hd
      cases hl : List.lookup (ToLower (Ext entry.Name)) fp.extConfig.ExtensionToFolder with
      | none =>
        have hmap : fp.mapped entry = false := by simp [FileProcessor.mapped, hl]
        rw [processFilesWithoutDuplicates_unknown fp env sched folderPath w entry rest
          (hsched entry) hd2 hl]
        obtain ⟨h1, h2, h3, h4⟩ := ih ({ w with stats :=
          ((w.stats.IncrementTotalFiles).IncrementUnknownExtensions
            (ToLower (Ext entry.Name))) }.logf .Debug
              "Skipping file with unknown extension: %s (%s)")
        refine ⟨?_, ?_, ?_, ?_⟩
        · rw [h1]
          simp [hd2, Stats.IncrementTotalFiles, Stats.IncrementUnknownExtensions]
          ring
        · rw [h2]
          simp [hd2, hmap, Stats.IncrementTotalFiles, Stats.IncrementUnknownExtensions]
        · rw [h3]
          simp [hd2, hmap, Stats.IncrementTotalFiles, Stats.IncrementUnknownExtensions]
          ring
        · intro c hc
          rcases h4 c hc with h | ⟨e, he, h⟩
          · exact Or.inl h
          · exact Or.inr ⟨e, List.mem_cons_of_mem _ he, h⟩
      | some t =>
        have hmap : fp.mapped entry = true := by simp [FileProcessor.mapped, hl]
        rw [processFilesWithoutDuplicates_mapped fp env sched folderPath w entry rest t
          (hsched entry) hd2 hl]
        obtain ⟨h1, h2, h3, h4⟩ := ih (fp.routeAndCount env
          { w with stats := w.stats.IncrementTotalFiles } folderPath
          ⟨entry.Name, Join folderPath entry.Name, "", ToLower (Ext entry.Name)⟩)
        obtain ⟨r1, r2, r3, _⟩ := routeAndCount_stats_frame fp env
          { w with stats := w.stats.IncrementTotalFiles } folderPath
          ⟨entry.Name, Join folderPath entry.Name, "", ToLower (Ext entry.Name)⟩ t hl
        refine ⟨?_, ?_, ?_, ?_⟩
        · rw [h1, r2]
          simp [hd2, Stats.IncrementTotalFiles]
          ring
        · rw [h2, r1]
          simp [hd2, hmap, Stats.IncrementTotalFiles]
          ring
        · rw [h3, r3]
          simp [hd2, hmap, Stats.IncrementTotalFiles]
        · intro c hc
          rcases h4 c hc with h | ⟨e, he, h⟩
          · rcases routeAndCount_names fp env _ folderPath _ c h with h | h
            · exact Or.inl h
            · exact Or.inr ⟨entry, List.mem_cons_self _ _, hd2, hmap, h⟩
          · exact Or.inr ⟨e, List.mem_cons_of_mem _ he, h⟩

theorem filter_mapped_lt (fp : FileProcessor) (entries : List DirEntry) (entry : DirEntry)
    (hmem : entry ∈ entries) (hd : entry.IsDir = false) (hmap : fp.mapped entry = false) :
    (entries.filter (fun e => !e.IsDir && fp.mapped e)).length
      < (entries.filter (fun e => !e.IsDir)).length := by
  induction entries with
  | nil => cases hmem
  | cons x rest ih =>
    have hle : (rest.filter (fun e => !e.IsDir && fp.mapped e)).length
        ≤ (rest.filter (fun e => !e.IsDir)).length := by
      clear ih hmem
      induction rest with
      | nil => simp
      | cons y ys ihy =>
        simp only [List.filter_cons]
        cases hy : y.IsDir <;> cases hm : fp.mapped y <;> simp <;> omega
    rcases List.mem_cons.mp hmem with h | h
    · subst h
      simp only [List.filter_cons, hd, hmap]
      simp
      omega
    · have := ih h
      simp only [List.filter_cons]
      cases hy : x.IsDir <;> cases hm : fp.mapped x <;> simp <;> omega

/-- Claim C15. In a run without duplicate detection, a regular file whose
lowercased extension is not in the mapping is left untouched. The step of the
loop on such an entry changes neither the file system nor the mover calls, adds
one to the total of files, one to the total of unknown extensions and one to the
histogram entry of that extension (and nothing to the entry of another
extension), and leaves `ErrorsCount`, `FilesMoved`, `DuplicatesMoved` and
`TransparentPNGsMoved` alone. In a whole run that is not cancelled no mover call is
made for the name of that file, and a run started with `FilesMoved ≤ TotalFiles`
over a listing holding such a file ends with `FilesMoved < TotalFiles`. -/
theorem C15_unmapped_file_is_left_untouched (fp : FileProcessor) (env : Env) (sched : Sched)
    (folderPath : String) (entry : DirEntry)
    (hsched : ∀ e, sched.cancelAt e = false) (hd : entry.IsDir = false)
    (hu : List.lookup (ToLower (Ext entry.Name)) fp.extConfig.ExtensionToFolder = none) :
    (∀ (w : World) (rest : List DirEntry), ∃ w1 : World,
      fp.processFilesWithoutDuplicates env sched folderPath w (entry :: rest)
        = fp.processFilesWithoutDuplicates env sched folderPath w1 rest ∧
      w1.fs = w.fs ∧ w1.calls = w.calls ∧
      w1.stats.TotalFiles = w.stats.TotalFiles + 1 ∧
      w1.stats.UnknownExtensions = w.stats.UnknownExtensions + 1 ∧
      extCount w1.stats.UnknownExtMap (ToLower (Ext entry.Name))
        = extCount w.stats.UnknownExtMap (ToLower (Ext entry.Name)) + 1 ∧
      (∀ other, other ≠ ToLower (Ext entry.Name) →
        extCount w1.stats.UnknownExtMap other = extCount w.stats.UnknownExtMap other) ∧
      w1.stats.ErrorsCount = w.stats.ErrorsCount ∧
      w1.stats.FilesMoved = w.stats.FilesMoved ∧
      w1.stats.DuplicatesMoved = w.stats.DuplicatesMoved ∧
      w1.stats.TransparentPNGsMoved = w.stats.TransparentPNGsMoved) ∧
    (∀ (w : World) (entries : List DirEntry), entry ∈ entries →
      (∀ c ∈ (fp.processFilesWithoutDuplicates env sched folderPath w entries).1.calls,
        c ∈ w.calls ∨ Call.fileName c ≠ entry.Name) ∧
      (w.stats.FilesMoved ≤ w.stats.TotalFiles →
        (fp.processFilesWithoutDuplicates env sched folderPath w entries).1.stats.FilesMoved
          < (fp.processFilesWithoutDuplicates env sched folderPath w entries).1.stats.TotalFiles)) := by
  have hmap : fp.mapped entry = false := by simp [FileProcessor.mapped, hu]
  refine ⟨?_, ?_⟩
  · intro w rest
    refine ⟨_, processFilesWithoutDuplicates_unknown fp env sched folderPath w entry rest
      (hsched entry) hd hu, rfl, rfl, rfl, rfl, ?_, ?_, rfl, rfl, rfl, rfl⟩
    · exact extCount_bumpExt_self _ _
    · intro other ho
      exact extCount_bumpExt_other _ _ _ ho
  · intro w entries hmem
    obtain ⟨h1, h2, _, h4⟩ := processFilesWithoutDuplicates_counts fp env sched folderPath
      hsched entries w
    refine ⟨?_, ?_⟩
    · intro c hc
      rcases h4 c hc with h | ⟨e, _, _, hme, hn⟩
      · exact Or.inl h
      · right
        intro heq
        have : fp.mapped e = fp.mapped entry := by
          unfold FileProcessor.mapped
          rw [← hn, heq]
        rw [this, hmap] at hme
        cases hme
    · intro hle
      rw [h1, h2]
      have := filter_mapped_lt fp entries entry hmem hd hmap
      omega

/-- The run over `document.pdf`, `image.jpg`, `unknown.xyz` and `video.mp4`
makes no call for `unknown.xyz` and ends with three files moved out of four. -/
theorem C15_witness_unknown_xyz :
    ((∀ e, Sched.inOrder.cancelAt e = false) ∧ (⟨"unknown.xyz", false⟩ : DirEntry).IsDir = false ∧
      List.lookup (ToLower (Ext "unknown.xyz")) exPlainProcessor.extConfig.ExtensionToFolder
        = none) ∧
    (∀ c ∈ (exPlainProcessor.processFilesWithoutDuplicates exEnv Sched.inOrder "d"
        ⟨exMixedFS, Stats.zero, [], []⟩ exMixedEntries).1.calls,
      c ∈ ([] : List Call) ∨ Call.fileName c ≠ "unknown.xyz") ∧
    (exPlainProcessor.processFilesWithoutDuplicates exEnv Sched.inOrder "d"
        ⟨exMixedFS, Stats.zero, [], []⟩ exMixedEntries).1.stats.FilesMoved
      < (exPlainProcessor.processFilesWithoutDuplicates exEnv Sched.inOrder "d"
        ⟨exMixedFS, Stats.zero, [], []⟩ exMixedEntries).1.stats.TotalFiles := by
  have h := (C15_unmapped_file_is_left_untouched exPlainProcessor exEnv Sched.inOrder "d"
    ⟨"unknown.xyz", false⟩ (fun _ => rfl) rfl (by decide)).2 ⟨exMixedFS, Stats.zero, [], []⟩
    exMixedEntries (by decide)
  exact ⟨⟨fun _ => rfl, rfl, by decide⟩, h.1, h.2 (by decide)⟩

/-! ## Extensions with letters outside ASCII -/

/-- `ToLower` on extensions: the ASCII capitals, a capital of Latin-1, the
Kelvin sign (whose lower case is the ASCII `k`), the dotted capital I (whose
lower case is the ASCII `i`), a Greek and a Cyrillic capital; lower-case and
uncased characters are kept. -/
theorem ToLower_extensions :
    ToLower ".JPG" = ".jpg" ∧ ToLower ".Zip" = ".zip" ∧ ToLower ".xyz" = ".xyz" ∧
    ToLower ".T\u00C9XT" = ".t\u00E9xt" ∧ ToLower ".m\u212Av" = ".mkv" ∧
    ToLower ".\u0130" = ".i" ∧ ToLower ".\u03A3" = ".\u03C3" ∧
    ToLower ".\u0416" = ".\u0436" ∧ ToLower ".\u00DF\u4E2D_1" = ".\u00DF\u4E2D_1" := by
  decide

/-- A run without duplicate detection over `exKelvinFS`. The extension of
`movie.m\u212Av` lowercases to `.mkv`, which the default mapping sends to
`Videos`: the file is moved there and counted as moved. The extension of
`doc.T\u00C9XT` lowercases to `.t\u00E9xt`, which is not in the mapping: the
file stays and the histogram entry of `.t\u00E9xt` is one. -/
theorem processFilesWithoutDuplicates_kelvin :
    List.lookup (ToLower (Ext "movie.m\u212Av")) exPlainProcessor.extConfig.ExtensionToFolder
      = some "Videos" ∧
    List.lookup (ToLower (Ext "doc.T\u00C9XT")) exPlainProcessor.extConfig.ExtensionToFolder
      = none ∧
    (exPlainProcessor.processFilesWithoutDuplicates exEnv Sched.inOrder "d"
        ⟨exKelvinFS, Stats.zero, [], []⟩ exKelvinEntries).1.calls
      = [.MoveFileToTargetFolder "d" "movie.m\u212Av" "Videos"] ∧
    (exPlainProcessor.processFilesWithoutDuplicates exEnv Sched.inOrder "d"
        ⟨exKelvinFS, Stats.zero, [], []⟩ exKelvinEntries).1.fs.lookup
      "d/Videos/movie.m\u212Av" = some (.file [2]) ∧
    (exPlainProcessor.processFilesWithoutDuplicates exEnv Sched.inOrder "d"
        ⟨exKelvinFS, Stats.zero, [], []⟩ exKelvinEntries).1.fs.lookup
      "d/movie.m\u212Av" = none ∧
    (exPlainProcessor.processFilesWithoutDuplicates exEnv Sched.inOrder "d"
        ⟨exKelvinFS, Stats.zero, [], []⟩ exKelvinEntries).1.fs.lookup
      "d/doc.T\u00C9XT" = some (.file [1]) ∧
    (exPlainProcessor.processFilesWithoutDuplicates exEnv Sched.inOrder "d"
        ⟨exKelvinFS, Stats.zero, [], []⟩ exKelvinEntries).1.stats
      = ⟨1, 0, 2, 0, 0, 1, [(".t\u00E9xt", 1)]⟩ := by
  decide

/-! ## Archives and holding folders -/

set_option maxRecDepth 8000 in
/-- Claim C16 (divergence). A directory that holds `ARCHIVE.ZIP` and no folder
at all: the extension is lowercased to `.zip`, `TrimSuffix` with that
lowercased extension strips nothing from the name, the path tested by
`FolderExists` is the archive itself, and the archive goes to
`Archives-Extracted` although no folder `ARCHIVE` exists. The same happens to
`notes.zip` next to a regular file `notes`, because `FolderExists` accepts
every path that `os.Stat` finds. The lowercase `archive.zip` alone in its
directory goes to `Archives`. -/
theorem C16_zip_held_as_extracted_without_folder :
    (exUpperZipFS.lookup "d/ARCHIVE" = none ∧
      ToLower (Ext "ARCHIVE.ZIP") = ".zip" ∧
      TrimSuffix "ARCHIVE.ZIP" (ToLower (Ext "ARCHIVE.ZIP")) = "ARCHIVE.ZIP" ∧
      (exPlainProcessor.ProcessDirectory exEnv Sched.inOrder
          ⟨exUpperZipFS, Stats.zero, [], []⟩ "d").1.calls
        = [.MoveExtractedArchive "d" "ARCHIVE.ZIP"] ∧
      (exPlainProcessor.ProcessDirectory exEnv Sched.inOrder
          ⟨exUpperZipFS, Stats.zero, [], []⟩ "d").1.fs
        = [("d/Archives-Extracted/ARCHIVE.ZIP", .file [80, 75, 3, 4]),
           ("d/Archives-Extracted", .dir), ("d", .dir)]) ∧
    (exNotesZipFS.lookup "d/notes" = some (.file [1]) ∧
      (exPlainProcessor.ProcessDirectory exEnv Sched.inOrder
          ⟨exNotesZipFS, Stats.zero, [], []⟩ "d").1.calls
        = [.MoveExtractedArchive "d" "notes.zip"]) ∧
    (exPlainProcessor.ProcessDirectory exEnv Sched.inOrder
        ⟨exLowerZipFS, Stats.zero, [], []⟩ "d").1.calls
      = [.MoveFileToTargetFolder "d" "archive.zip" "Archives"] := by
  refine ⟨⟨by decide, by decide, by decide, by decide, by decide⟩, ⟨by decide, by decide⟩,
    by decide⟩

/-- The processor with the two holding-folder names of its mapping replaced. -/
theorem processDetail_holding_names (fp : FileProcessor) (env : Env) (folderPath a b : String)
    (fileHashes : List (String × List FileDetail)) :
    FileProcessor.processDetail
        ⟨fp.config, { fp.extConfig with ArchiveExtractedFolder := a, DuplicatesFolder := b }⟩
        env folderPath fileHashes
      = fp.processDetail env folderPath fileHashes := rfl

theorem processFilesWithDuplicates_holding_names (fp : FileProcessor) (env : Env)
    (sched : Sched) (w : World) (folderPath a b : String) (entries : List DirEntry) :
    FileProcessor.processFilesWithDuplicates
        ⟨fp.config, { fp.extConfig with ArchiveExtractedFolder := a, DuplicatesFolder := b }⟩
        env sched w folderPath entries
      = fp.processFilesWithDuplicates env sched w folderPath entries := by
  unfold FileProcessor.processFilesWithDuplicates FileProcessor.processFileGroups
  simp only [processDetail_holding_names]
  rfl

theorem processFilesWithoutDuplicates_holding_names (fp : FileProcessor) (env : Env)
    (sched : Sched) (folderPath a b : String) :
    ∀ (entries : List DirEntry) (w : World),
    FileProcessor.processFilesWithoutDuplicates
        ⟨fp.config, { fp.extConfig with ArchiveExtractedFolder := a, DuplicatesFolder := b }⟩
        env sched folderPath w entries
      = fp.processFilesWithoutDuplicates env sched folderPath w entries := by
  intro entries
  induction entries with
  | nil => intro w; rfl
  | cons entry rest ih =>
    intro w
    have hr : ∀ (w1 : World) (d : FileDetail),
        FileProcessor.routeAndCount
          ⟨fp.config, { fp.extConfig with ArchiveExtractedFolder := a, DuplicatesFolder := b }⟩
          env w1 folderPath d = fp.routeAndCount env w1 folderPath d := fun _ _ => rfl
    unfold FileProcessor.processFilesWithoutDuplicates
    simp only [ih, hr]

set_option maxRecDepth 8000 in
/-- Claim C17 (divergence). With a mapping whose `DuplicatesFolder` is
`MyDuplicates` and whose `ArchiveExtractedFolder` is `MyArchives`, the duplicate
`b.txt` is moved into `d/Duplicates` and the extracted `archive.zip` into
`d/Archives-Extracted`: neither `d/MyDuplicates` nor `d/MyArchives` is created.
For every processor, the run does not depend on these two fields. -/
theorem C17_holding_folder_names_are_ignored :
    (exCustomExtensionConfig.DuplicatesFolder = "MyDuplicates" ∧
      exCustomExtensionConfig.ArchiveExtractedFolder = "MyArchives") ∧
    (exCustomProcessor.ProcessDirectory exEnv Sched.inOrder exHelloWorld "d").1.calls
      = [.MoveDuplicateFile "d" "b.txt" "d/a.txt",
         .MoveFileToTargetFolder "d" "a.txt" "Documents"] ∧
    (exCustomProcessor.ProcessDirectory exEnv Sched.inOrder exHelloWorld "d").1.fs
      = [("d/Documents/a.txt", .file exHello), ("d/Documents", .dir),
         ("d/Duplicates/b_duplicate_of_a.txt", .file exHello), ("d/Duplicates", .dir),
         ("d", .dir), ("d/c.txt", .file exWorld)] ∧
    (exCustomPlainProcessor.ProcessDirectory exEnv Sched.inOrder
        ⟨exZipFS, Stats.zero, [], []⟩ "d").1.fs
      = [("d/Archives-Extracted/archive.zip", .file [80, 75, 3, 4]),
         ("d/Archives-Extracted", .dir), ("d", .dir), ("d/archive", .dir)] ∧
    (∀ (fp : FileProcessor) (env : Env) (sched : Sched) (w : World) (folderPath a b : String),
      FileProcessor.ProcessDirectory
          ⟨fp.config, { fp.extConfig with ArchiveExtractedFolder := a, DuplicatesFolder := b }⟩
          env sched w folderPath
        = fp.ProcessDirectory env sched w folderPath) := by
  refine ⟨⟨rfl, rfl⟩, by decide, by decide, by decide, ?_⟩
  intro fp env sched w folderPath a b
  unfold FileProcessor.ProcessDirectory FileProcessor.processFiles
  simp only [processFilesWithDuplicates_holding_names,
    processFilesWithoutDuplicates_holding_names]

/-! ## Which files can be taken for duplicates -/

/-- A routing step adds no call of `MoveDuplicateFile`. -/
theorem routeAndCount_not_duplicate (fp : FileProcessor) (env : Env) (w : World)
    (folderPath : String) (original : FileDetail) :
    ∀ c ∈ (fp.routeAndCount env w folderPath original).calls,
      c ∈ w.calls ∨ Call.isDuplicateMove c = false := by
  obtain ⟨routing, h1, h2, _⟩ := routeAndCount_frame fp env w folderPath original
  intro c hc
  rw [h1, List.mem_append] at hc
  rcases hc with hc | hc
  · exact Or.inl hc
  · exact Or.inr (h2 c hc)

/-- A non-empty bucket is an entry of the table. -/
theorem bucketOf_mem (fileHashes : List (String × List FileDetail)) (h : String)
    (hne : bucketOf fileHashes h ≠ []) : (h, bucketOf fileHashes h) ∈ fileHashes := by
  unfold bucketOf at hne ⊢
  induction fileHashes with
  | nil => simp [List.lookup] at hne
  | cons e rest ih =>
    obtain ⟨k, v⟩ := e
    by_cases hk : h = k
    · subst hk
      simp [List.lookup]
    · have hb : (h == k) = false := by rw [beq_eq_false_iff_ne]; exact hk
      simp only [List.lookup, hb] at hne ⊢
      exact List.mem_cons_of_mem _ (ih hne)

/-- Every call of `MoveDuplicateFile` that a step of `processFileGroups` adds
names a member of a bucket of two files or more with a non-empty key, and gives
the path of another member of that bucket as the original. -/
theorem processDetail_duplicate_calls (fp : FileProcessor) (env : Env) (folderPath : String)
    (fileHashes : List (String × List FileDetail)) (st : GroupState) (detail : FileDetail) :
    ∀ c ∈ (fp.processDetail env folderPath fileHashes st detail).world.calls,
      c ∈ st.world.calls ∨ Call.isDuplicateMove c = false ∨
      ∃ h, h ≠ "" ∧ 2 ≤ (bucketOf fileHashes h).length ∧
        ∃ g ∈ bucketOf fileHashes h, ∃ o ∈ bucketOf fileHashes h,
          g.Path ≠ o.Path ∧ c = .MoveDuplicateFile folderPath g.Name o.Path := by
  unfold FileProcessor.processDetail
  by_cases h1 : detail.Hash = ""
  · rw [if_pos h1]; intro c hc; exact Or.inl hc
  · rw [if_neg h1]
    by_cases h2 : detail.Hash ∈ st.processedHashes
    · rw [if_pos h2]; intro c hc; exact Or.inl hc
    · rw [if_neg h2]
      rcases hb : bucketOf fileHashes detail.Hash with _ | ⟨first, _ | ⟨second, more⟩⟩
      · intro c hc; exact Or.inl hc
      · simp only []
        by_cases hdo : fp.config.DuplicatesOnly = true
        · rw [if_pos hdo]; intro c hc; exact Or.inl hc
        · rw [if_neg hdo]
          cases hl : List.lookup first.Ext fp.extConfig.ExtensionToFolder with
          | none => intro c hc; exact Or.inl hc
          | some t =>
            intro c hc
            rcases routeAndCount_not_duplicate fp env _ folderPath first c hc with hc | hc
            · exact Or.inl hc
            · exact Or.inr (Or.inl hc)
      · simp only []
        have hmem := chooseOriginal_mem first (second :: more)
        have hfromDup : ∀ c ∈ (moveDuplicates env folderPath
            (chooseOriginal first (first :: second :: more)) st.world
            (first :: second :: more)).calls,
            c ∈ st.world.calls ∨ Call.isDuplicateMove c = false ∨
            ∃ h, h ≠ "" ∧ 2 ≤ (bucketOf fileHashes h).length ∧
              ∃ g ∈ bucketOf fileHashes h, ∃ o ∈ bucketOf fileHashes h,
                g.Path ≠ o.Path ∧ c = .MoveDuplicateFile folderPath g.Name o.Path := by
          intro c hc
          rw [(moveDuplicates_spec env folderPath _ _ st.world).1, List.mem_append] at hc
          rcases hc with hc | hc
          · exact Or.inl hc
          · rw [List.mem_map] at hc
            obtain ⟨g, hg, rfl⟩ := hc
            rw [List.mem_filter] at hg
            refine Or.inr (Or.inr ⟨detail.Hash, h1, ?_, g, ?_, _, ?_, ?_, rfl⟩)
            · rw [hb]; simp
            · rw [hb]; exact hg.1
            · rw [hb]; exact hmem
            · simpa using hg.2
        by_cases hdo : fp.config.DuplicatesOnly = true
        · rw [if_pos hdo]; exact hfromDup
        · rw [if_neg hdo]
          cases hl : List.lookup (chooseOriginal first (first :: second :: more)).Ext
              fp.extConfig.ExtensionToFolder with
          | none => exact hfromDup
          | some t =>
            intro c hc
            rcases routeAndCount_not_duplicate fp env _ folderPath _ c hc with hc | hc
            · exact hfromDup c hc
            · exact Or.inr (Or.inl hc)

theorem foldl_processDetail_duplicate_calls (fp : FileProcessor) (env : Env)
    (folderPath : String) (fileHashes : List (String × List FileDetail)) :
    ∀ (fileDetails : List FileDetail) (st : GroupState),
      ∀ c ∈ (fileDetails.foldl (fp.processDetail env folderPath fileHashes) st).world.calls,
        c ∈ st.world.calls ∨ Call.isDuplicateMove c = false ∨
        ∃ h, h ≠ "" ∧ 2 ≤ (bucketOf fileHashes h).length ∧
          ∃ g ∈ bucketOf fileHashes h, ∃ o ∈ bucketOf fileHashes h,
            g.Path ≠ o.Path ∧ c = .MoveDuplicateFile folderPath g.Name o.Path := by
  intro fileDetails
  induction fileDetails with
  | nil => intro st c hc; exact Or.inl hc
  | cons d rest ih =>
    intro st c hc
    rw [List.foldl_cons] at hc
    rcases ih _ c hc with hc | hc
    · exact processDetail_duplicate_calls fp env folderPath fileHashes st d c hc
    · exact Or.inr hc

/-- Claim C13. Let the name and the path of a file occur in the entries of one
key `k0` of the table only, and let that key be the empty digest (hashing was
skipped) or its bucket hold one member at most (unique size, unique partial
hash or unique full hash). Then in a run of `processFileGroups` over any list
of candidates, no call of `MoveDuplicateFile` that the run adds is made for
that file, and none names its path as the original. -/
theorem C13_unique_files_are_never_duplicates (fp : FileProcessor) (env : Env) (w : World)
    (folderPath : String) (fileDetails : List FileDetail)
    (fileHashes : List (String × List FileDetail)) (f : FileDetail) (k0 : String)
    (hown : ∀ p ∈ fileHashes, ∀ g ∈ p.2, (g.Name = f.Name ∨ g.Path = f.Path) → p.1 = k0)
    (hunique : k0 = "" ∨ (bucketOf fileHashes k0).length ≤ 1) :
    ∀ c ∈ (fp.processFileGroups env w folderPath fileDetails fileHashes).calls,
      c ∈ w.calls ∨
      ∀ a b o, c = .MoveDuplicateFile a b o → b ≠ f.Name ∧ o ≠ f.Path := by
  intro c hc
  unfold FileProcessor.processFileGroups at hc
  rcases foldl_processDetail_duplicate_calls fp env folderPath fileHashes fileDetails _ c hc
    with hc | hc | ⟨h, hne, hlen, g, hg, o, ho, _, rfl⟩
  · exact Or.inl hc
  · right
    intro a b o heq
    subst heq
    simp [Call.isDuplicateMove] at hc
  · right
    intro a b o0 heq
    injection heq with _ hb ho0
    subst hb ho0
    have hbne : bucketOf fileHashes h ≠ [] := by
      intro h0; rw [h0] at hlen; simp at hlen
    have hin := bucketOf_mem fileHashes h hbne
    have hk : ∀ x ∈ bucketOf fileHashes h, (x.Name = f.Name ∨ x.Path = f.Path) → False := by
      intro x hx hxf
      have hk0 : h = k0 := hown _ hin x hx hxf
      rcases hunique with hu | hu
      · exact hne (hk0.trans hu)
      · rw [← hk0] at hu; omega
    exact ⟨fun hn => hk g hg (Or.inl hn), fun hp => hk o ho (Or.inr hp)⟩

/-- The run on `a.txt`, `b.txt` (same bytes) and `c.txt`: `c.txt` is alone in
its bucket, and the only call of `MoveDuplicateFile` is for `b.txt` with
`d/a.txt` as the original. -/
theorem C13_witness_unique_c_txt :
    ((∀ p ∈ [(plainDigest exHello, [exDetailA, exDetailB]), (plainDigest exWorld, [exDetailC])],
        ∀ g ∈ p.2, (g.Name = exDetailC.Name ∨ g.Path = exDetailC.Path) →
          p.1 = plainDigest exWorld) ∧
      (bucketOf [(plainDigest exHello, [exDetailA, exDetailB]),
        (plainDigest exWorld, [exDetailC])] (plainDigest exWorld)).length ≤ 1) ∧
    ∀ c ∈ (exProcessor.processFileGroups exEnv exHelloWorld "d"
        [exDetailA, exDetailB, exDetailC]
        [(plainDigest exHello, [exDetailA, exDetailB]), (plainDigest exWorld, [exDetailC])]).calls,
      c ∈ exHelloWorld.calls ∨
      ∀ a b o, c = .MoveDuplicateFile a b o → b ≠ "c.txt" ∧ o ≠ "d/c.txt" :=
  ⟨⟨by decide, by decide⟩,
    C13_unique_files_are_never_duplicates exProcessor exEnv exHelloWorld "d"
      [exDetailA, exDetailB, exDetailC]
      [(plainDigest exHello, [exDetailA, exDetailB]), (plainDigest exWorld, [exDetailC])]
      exDetailC (plainDigest exWorld) (by decide) (Or.inr (by decide))⟩

/-! ## Files of a unique size -/

theorem lookup_appendTo {κ ν : Type} [DecidableEq κ] (k : κ) (v : ν) (m : List (κ × List ν))
    (q : κ) :
    ((appendTo k v m).lookup q).getD []
      = if k = q then (m.lookup q).getD [] ++ [v] else (m.lookup q).getD [] := by
  induction m with
  | nil =>
    by_cases h : k = q
    · subst h; simp [appendTo, List.lookup]
    · have hb : (q == k) = false := by rw [beq_eq_false_iff_ne]; exact fun e => h e.symm
      simp [appendTo, List.lookup, hb, h]
  | cons e rest ih =>
    obtain ⟨k0, vs⟩ := e
    unfold appendTo
    by_cases h0 : k0 = k
    · subst h0
      rw [if_pos rfl]
      by_cases h : k0 = q
      · subst h; simp [List.lookup]
      · have hb : (q == k0) = false := by rw [beq_eq_false_iff_ne]; exact fun e => h e.symm
        simp [List.lookup, hb, h]
    · rw [if_neg h0]
      by_cases hq : q = k0
      · subst hq
        have : ¬ k = q := fun e => h0 e.symm
        simp [List.lookup, this]
      · have hb : (q == k0) = false := by rw [beq_eq_false_iff_ne]; exact hq
        simp only [List.lookup, hb]
        exact ih

theorem bucketOf_appendTo (k : String) (v : FileDetail) (m : List (String × List FileDetail))
    (q : String) :
    bucketOf (appendTo k v m) q = if k = q then bucketOf m q ++ [v] else bucketOf m q := by
  unfold bucketOf
  exact lookup_appendTo k v m q

theorem keys_appendTo {κ ν : Type} [DecidableEq κ] (k : κ) (v : ν) (m : List (κ × List ν)) :
    (appendTo k v m).map Prod.fst
      = if k ∈ m.map Prod.fst then m.map Prod.fst else m.map Prod.fst ++ [k] := by
  induction m with
  | nil => simp [appendTo]
  | cons e rest ih =>
    obtain ⟨k0, vs⟩ := e
    unfold appendTo
    by_cases h0 : k0 = k
    · subst h0; simp
    · rw [if_neg h0]
      have hk : ¬ k = k0 := fun e => h0 e.symm
      by_cases hm : k ∈ rest.map Prod.fst
      · rw [if_pos hm] at ih
        simp only [List.map_cons, ih]
        rw [if_pos (List.mem_cons_of_mem _ hm)]
      · rw [if_neg hm] at ih
        simp only [List.map_cons, ih]
        rw [if_neg (by simp only [List.mem_cons, not_or]; exact ⟨hk, hm⟩)]
        rfl

theorem keys_appendTo_nodup {κ ν : Type} [DecidableEq κ] (k : κ) (v : ν)
    (m : List (κ × List ν)) (h : (m.map Prod.fst).Nodup) :
    ((appendTo k v m).map Prod.fst).Nodup := by
  rw [keys_appendTo]
  by_cases hm : k ∈ m.map Prod.fst
  · rw [if_pos hm]; exact h
  · rw [if_neg hm]
    rw [List.nodup_append]
    refine ⟨h, List.nodup_singleton k, ?_⟩
    intro a ha hb
    rw [List.mem_singleton] at hb
    subst hb
    exact hm ha

theorem lookup_of_mem_nodup {κ ν : Type} [DecidableEq κ] (m : List (κ × ν)) (k : κ) (v : ν)
    (hnd : (m.map Prod.fst).Nodup) (hmem : (k, v) ∈ m) : m.lookup k = some v := by
  induction m with
  | nil => cases hmem
  | cons e rest ih =>
    obtain ⟨k0, v0⟩ := e
    rw [List.map_cons, List.nodup_cons] at hnd
    rcases List.mem_cons.mp hmem with h | h
    · injection h with h1 h2
      subst h1 h2
      simp [List.lookup]
    · have hne : k ≠ k0 := by
        intro e
        subst e
        exact hnd.1 (List.mem_map.mpr ⟨(k, v), h, rfl⟩)
      have hb : (k == k0) = false := by rw [beq_eq_false_iff_ne]; exact hne
      simp only [List.lookup, hb]
      exact ih hnd.2 h

theorem mem_appendTo {κ ν : Type} [DecidableEq κ] (k : κ) (v : ν) (m : List (κ × List ν)) :
    ∀ p ∈ appendTo k v m, ∀ e ∈ p.2, e = v ∨ ∃ q ∈ m, e ∈ q.2 := by
  induction m with
  | nil =>
    intro p hp e he
    simp only [appendTo, List.mem_singleton] at hp
    subst hp
    left
    simpa using he
  | cons a rest ih =>
    obtain ⟨k0, vs⟩ := a
    intro p hp e he
    unfold appendTo at hp
    by_cases h0 : k0 = k
    · rw [if_pos h0] at hp
      rcases List.mem_cons.mp hp with h | h
      · subst h
        rcases List.mem_append.mp he with h | h
        · exact Or.inr ⟨(k0, vs), List.mem_cons_self _ _, h⟩
        · left; simpa using h
      · exact Or.inr ⟨p, List.mem_cons_of_mem _ h, he⟩
    · rw [if_neg h0] at hp
      rcases List.mem_cons.mp hp with h | h
      · subst h
        exact Or.inr ⟨(k0, vs), List.mem_cons_self _ _, he⟩
      · rcases ih p h e he with h1 | ⟨q, hq, hqe⟩
        · exact Or.inl h1
        · exact Or.inr ⟨q, List.mem_cons_of_mem _ hq, hqe⟩

/-! ### The keys of the buckets -/

theorem digitChar_isDigit (k : Nat) (h : k < 10) : Nat.digitChar k ≠ 'p' := by
  interval_cases k <;> decide

theorem toDigitsCore_no_p (fuel n : Nat) (ds : List Char) (hds : ∀ c ∈ ds, c ≠ 'p') :
    ∀ c ∈ Nat.toDigitsCore 10 fuel n ds, c ≠ 'p' := by
  induction fuel generalizing n ds with
  | zero => simpa [Nat.toDigitsCore] using hds
  | succ fuel ih =>
    unfold Nat.toDigitsCore
    simp only []
    have hd : Nat.digitChar (n % 10) ≠ 'p' := digitChar_isDigit _ (Nat.mod_lt _ (by norm_num))
    have hcons : ∀ c ∈ Nat.digitChar (n % 10) :: ds, c ≠ 'p' := by
      intro c hc
      rcases List.mem_cons.mp hc with h | h
      · rw [h]; exact hd
      · exact hds c h
    by_cases h0 : n / 10 = 0
    · rw [if_pos h0]; exact hcons
    · rw [if_neg h0]; exact ih _ _ hcons

theorem Sprint_no_p (n : Nat) : ∀ c ∈ (Sprint n).data, c ≠ 'p' := by
  have h := toDigitsCore_no_p (n + 1) n [] (by simp)
  simpa [Sprint, toString, Nat.repr, Nat.toDigits, List.asString] using h

theorem sizeKey_ne_sizeKey (n k : Nat) (h : k ≠ n) : "size-" ++ Sprint k ≠ "size-" ++ Sprint n :=
  fun e => h (Sprint_injective (String.append_left_cancel _ _ _ e))

theorem partialKey_ne_sizeKey (n size : Nat) (ph : String) :
    "size-partial-" ++ Sprint size ++ "-" ++ ph ≠ "size-" ++ Sprint n := by
  intro e
  have h1 : "size-partial-" ++ Sprint size ++ "-" ++ ph
      = "size-" ++ ("partial-" ++ Sprint size ++ "-" ++ ph) := by
    apply String.ext
    simp [String.data_append]
  rw [h1] at e
  have h2 := String.append_left_cancel _ _ _ e
  have h3 : 'p' ∈ (Sprint n).data := by
    rw [← h2]
    simp [String.data_append]
  exact Sprint_no_p n 'p' h3 rfl

theorem hexDigest_ne_sizeKey (n : Nat) (s : String) (h : isHexDigest s) :
    s ≠ "size-" ++ Sprint n := by
  intro e
  have h1 : 's' ∈ s.data := by
    rw [e]
    simp [String.data_append]
  exact absurd (h.2 's' h1) (by decide)

theorem sizeKey_ne_empty (n : Nat) : "size-" ++ Sprint n ≠ "" := by
  intro e
  have h := congrArg String.length e
  rw [String.length_append] at h
  have h5 : "size-".length = 5 := by decide
  have h0 : "".length = 0 := by decide
  omega

/-! ### The size groups -/

theorem mem_of_lookup {κ ν : Type} [DecidableEq κ] (m : List (κ × ν)) (k : κ) (v : ν)
    (h : m.lookup k = some v) : (k, v) ∈ m := by
  induction m with
  | nil => simp [List.lookup] at h
  | cons e rest ih =>
    obtain ⟨k0, v0⟩ := e
    by_cases hk : k = k0
    · subst hk
      simp [List.lookup] at h
      subst h
      exact List.mem_cons_self _ _
    · have hb : (k == k0) = false := by rw [beq_eq_false_iff_ne]; exact hk
      simp only [List.lookup, hb] at h
      exact List.mem_cons_of_mem _ (ih h)

/-- The table that the first loop builds: under each size, the regular files
of that size in the order of the listing; no size has two entries. -/
theorem groupBySize_spec (env : Env) (folderPath : String) :
    ∀ (entries : List DirEntry) (sg : List (Nat × List DirEntry)) (w : World),
      (∀ k, ((groupBySize env folderPath entries (sg, w)).1.lookup k).getD []
          = (sg.lookup k).getD [] ++ regularOfSize env w.fs folderPath k entries) ∧
      ((sg.map Prod.fst).Nodup →
        ((groupBySize env folderPath entries (sg, w)).1.map Prod.fst).Nodup) := by
  intro entries
  induction entries with
  | nil => intro sg w; exact ⟨fun k => by simp [groupBySize, regularOfSize], fun h => h⟩
  | cons entry rest ih =>
    intro sg w
    unfold groupBySize
    by_cases hd : entry.IsDir = true
    · rw [if_pos hd]
      obtain ⟨h1, h2⟩ := ih sg w
      refine ⟨fun k => ?_, h2⟩
      rw [h1 k]
      simp [regularOfSize, hd]
    · rw [if_neg hd]
      have hd2 : entry.IsDir = false := by simpa using hd
      simp only []
      cases hs : osStat env w.fs (Join folderPath entry.Name) with
      | error e =>
        simp only []
        obtain ⟨h1, h2⟩ := ih sg
          ({ w with stats := w.stats.IncrementErrors }.logf .Error "Failed to stat file %s: %v")
        refine ⟨fun k => ?_, h2⟩
        rw [h1 k]
        have hnone : statSize env w.fs folderPath entry = none := by simp [statSize, hs]
        simp [regularOfSize, hnone, World.logf]
      | ok info =>
        simp only []
        obtain ⟨h1, h2⟩ := ih (appendTo info.size entry sg) w
        refine ⟨fun k => ?_, fun hn => h2 (keys_appendTo_nodup _ _ _ hn)⟩
        rw [h1 k, lookup_appendTo]
        have hsome : statSize env w.fs folderPath entry = some info.size := by
          simp [statSize, hs]
        by_cases hk : info.size = k
        · subst hk; simp [regularOfSize, hsome, hd2]
        · simp [regularOfSize, hsome, hd2, hk]

/-- The members of the partial-hash groups are members of the size group. -/
theorem groupByPartialHash_mem (env : Env) (folderPath : String) (sz : Nat) :
    ∀ (group : List DirEntry) (ph0 : List (String × List DirEntry)) (w : World),
      ∀ p ∈ (groupByPartialHash env folderPath sz group (ph0, w)).1, ∀ e ∈ p.2,
        e ∈ group ∨ ∃ q ∈ ph0, e ∈ q.2 := by
  intro group
  induction group with
  | nil =>
    intro ph0 w p hp e he
    exact Or.inr ⟨p, by simpa [groupByPartialHash] using hp, he⟩
  | cons entry rest ih =>
    intro ph0 w p hp e he
    unfold groupByPartialHash at hp
    simp only [] at hp
    cases hr : (PartialHashFile env w.fs (Join folderPath entry.Name) sz).1.2 with
    | some err =>
      rw [hr] at hp
      simp only [] at hp
      rcases ih _ _ p hp e he with h | h
      · exact Or.inl (List.mem_cons_of_mem _ h)
      · exact Or.inr h
    | none =>
      rw [hr] at hp
      simp only [] at hp
      rcases ih _ _ p hp e he with h | ⟨q, hq, hqe⟩
      · exact Or.inl (List.mem_cons_of_mem _ h)
      · rcases mem_appendTo _ _ _ q hq e hqe with h | h
        · exact Or.inl (by rw [h]; exact List.mem_cons_self _ _)
        · exact Or.inr h

/-! ### What the other groups leave alone -/

theorem Keeps_world (name key : String) (bucket : List FileDetail) (detail : FileDetail)
    (acc : Acc) (w : World) (h : acc.Keeps name key bucket detail) :
    Acc.Keeps name key bucket detail { acc with world := w } :=
  ⟨h.running, h.bucket_eq, h.others, h.details, h.recorded⟩

theorem Keeps_append_other (name key : String) (bucket : List FileDetail) (detail : FileDetail)
    (acc : Acc) (k : String) (d : FileDetail) (w : World)
    (h : acc.Keeps name key bucket detail) (hk : k ≠ key) (hd : d.Name ≠ name) :
    Acc.Keeps name key bucket detail
      { acc with
        fileDetails := acc.fileDetails ++ [d],
        fileHashes := appendTo k d acc.fileHashes,
        world := w } := by
  refine ⟨h.running, ?_, ?_, ?_, ?_⟩
  · show bucketOf (appendTo k d acc.fileHashes) key = bucket
    rw [bucketOf_appendTo, if_neg hk]
    exact h.bucket_eq
  · intro q hq f hf
    have hf2 : f ∈ bucketOf (appendTo k d acc.fileHashes) q := hf
    rw [bucketOf_appendTo] at hf2
    by_cases hkq : k = q
    · rw [if_pos hkq] at hf2
      rcases List.mem_append.mp hf2 with h1 | h1
      · exact h.others q hq f h1
      · rw [List.mem_singleton.mp h1]; exact hd
    · rw [if_neg hkq] at hf2
      exact h.others q hq f hf2
  · intro d0 hd0 hn
    have hd1 : d0 ∈ acc.fileDetails ++ [d] := hd0
    rcases List.mem_append.mp hd1 with h1 | h1
    · exact h.details d0 h1 hn
    · rw [List.mem_singleton.mp h1] at hn
      exact absurd hn hd
  · intro hb
    show detail ∈ acc.fileDetails ++ [d]
    exact List.mem_append_left _ (h.recorded hb)

theorem collectResults_keeps (name key : String) (bucket : List FileDetail)
    (detail : FileDetail) :
    ∀ (results : List (FileDetail × Option HashError)) (acc : Acc),
      acc.Keeps name key bucket detail →
      (∀ res ∈ results, res.1.Name ≠ name ∧ (res.2 = none → res.1.Hash ≠ key)) →
      (collectResults acc results).Keeps name key bucket detail := by
  intro results
  induction results with
  | nil => intro acc h _; exact h
  | cons res rest ih =>
    intro acc h hres
    unfold collectResults
    rw [List.foldl_cons]
    have hr := hres res (List.mem_cons_self _ _)
    have hrest : ∀ r ∈ rest, r.1.Name ≠ name ∧ (r.2 = none → r.1.Hash ≠ key) :=
      fun r hr => hres r (List.mem_cons_of_mem _ hr)
    cases h2 : res.2 with
    | some err =>
      simp only []
      exact ih _ (Keeps_world name key bucket detail acc _ h) hrest
    | none =>
      simp only []
      exact ih _ (Keeps_append_other name key bucket detail acc _ _ _ h (hr.2 h2) hr.1) hrest

/-- The digest that `HashFile` returns without an error is empty or a SHA-256
sum. -/
theorem HashFile_digest (env : Env) (fs : FS) (p : String) (maxBytes : Int)
    (h : (HashFile env fs p maxBytes).1.2 = none) :
    (HashFile env fs p maxBytes).1.1 = "" ∨
    ∃ content, (HashFile env fs p maxBytes).1.1 = env.sha256hex content := by
  unfold HashFile at h ⊢
  simp only [] at h ⊢
  cases hs : osStat env fs p with
  | error e => rw [hs] at h; simp at h
  | ok info =>
    rw [hs] at h
    simp only [] at h ⊢
    by_cases hgt : (info.size : Int) > maxBytes
    · rw [if_pos hgt]; exact Or.inl rfl
    · rw [if_neg hgt] at h ⊢
      cases ho : osOpen env fs p with
      | error e => rw [ho] at h; simp at h
      | ok u =>
        rw [ho] at h
        simp only [] at h ⊢
        cases hr : osReadAll env fs p with
        | error e => rw [hr] at h; simp at h
        | ok content => exact Or.inr ⟨content, rfl⟩

theorem partialGroupStep_keeps (env : Env) (sched : Sched) (folderPath : String)
    (maxBytes : Int) (size n : Nat) (name : String) (bucket : List FileDetail)
    (detail : FileDetail) (acc : Acc) (g : String × List DirEntry)
    (hfair : sched.Fair) (hhex : env.HexDigests)
    (h : acc.Keeps name ("size-" ++ Sprint n) bucket detail)
    (hg : ∀ e ∈ g.2, e.Name ≠ name) :
    (partialGroupStep env sched folderPath maxBytes size acc g).Keeps name
      ("size-" ++ Sprint n) bucket detail := by
  have hany : ∀ l : List DirEntry, l.any sched.cancelAt = false := by
    intro l
    rw [List.any_eq_false]
    intro e _
    simp [hfair.noCancel e]
  have hcollect : ∀ (acc1 : Acc) (pGroup : List DirEntry),
      acc1.Keeps name ("size-" ++ Sprint n) bucket detail →
      (∀ e ∈ pGroup, e.Name ≠ name) →
      (collectResults acc1 (sched.arrival
        (pGroup.map (hashWorker env acc1.world.fs folderPath maxBytes)))).Keeps name
        ("size-" ++ Sprint n) bucket detail := by
    intro acc1 pGroup h1 hp
    apply collectResults_keeps name _ bucket detail _ acc1 h1
    intro res hres
    have hres2 := (hfair.arrival _).mem_iff.mp hres
    rw [List.mem_map] at hres2
    obtain ⟨e, he, rfl⟩ := hres2
    refine ⟨hp e he, ?_⟩
    intro hnone
    show (HashFile env acc1.world.fs (Join folderPath e.Name) maxBytes).1.1
      ≠ "size-" ++ Sprint n
    rcases HashFile_digest env acc1.world.fs (Join folderPath e.Name) maxBytes hnone
      with h0 | ⟨content, hc⟩
    · rw [h0]; exact fun e0 => sizeKey_ne_empty n e0.symm
    · rw [hc]; exact hexDigest_ne_sizeKey n _ (hhex.hex content)
  have hrun : ¬ acc.cancelled = true := by rw [h.running]; exact Bool.false_ne_true
  obtain ⟨ph, pg⟩ := g
  unfold partialGroupStep
  rw [if_neg hrun]
  rcases pg with _ | ⟨e1, _ | ⟨e2, more⟩⟩
  · simp only [hany, Bool.false_eq_true, if_false]
    exact hcollect _ [] (Keeps_world _ _ _ _ acc _ h) hg
  · simp only []
    apply Keeps_append_other name _ bucket detail acc _ _ _ h
    · exact partialKey_ne_sizeKey n size ph
    · exact hg e1 (List.mem_cons_self _ _)
  · simp only [hany, Bool.false_eq_true, if_false]
    exact hcollect _ (e1 :: e2 :: more) (Keeps_world _ _ _ _ acc _ h) hg

theorem foldl_partialGroupStep_keeps (env : Env) (sched : Sched) (folderPath : String)
    (maxBytes : Int) (size n : Nat) (name : String) (bucket : List FileDetail)
    (detail : FileDetail) (hfair : sched.Fair) (hhex : env.HexDigests) :
    ∀ (gs : List (String × List DirEntry)) (acc : Acc),
      acc.Keeps name ("size-" ++ Sprint n) bucket detail →
      (∀ g ∈ gs, ∀ e ∈ g.2, e.Name ≠ name) →
      (gs.foldl (partialGroupStep env sched folderPath maxBytes size) acc).Keeps name
        ("size-" ++ Sprint n) bucket detail := by
  intro gs
  induction gs with
  | nil => intro acc h _; exact h
  | cons g rest ih =>
    intro acc h hgs
    rw [List.foldl_cons]
    exact ih _ (partialGroupStep_keeps env sched folderPath maxBytes size n name bucket detail
      acc g hfair hhex h (hgs g (List.mem_cons_self _ _)))
      (fun g0 hg0 => hgs g0 (List.mem_cons_of_mem _ hg0))

/-- A size group other than that of the file leaves its bucket alone. -/
theorem sizeGroupStep_keeps (env : Env) (sched : Sched) (folderPath : String)
    (maxBytes : Int) (n : Nat) (name : String) (bucket : List FileDetail)
    (detail : FileDetail) (acc : Acc) (g : Nat × List DirEntry)
    (hfair : sched.Fair) (hhex : env.HexDigests)
    (h : acc.Keeps name ("size-" ++ Sprint n) bucket detail)
    (hk : g.1 ≠ n) (hg : ∀ e ∈ g.2, e.Name ≠ name) :
    (sizeGroupStep env sched folderPath maxBytes acc g).Keeps name
      ("size-" ++ Sprint n) bucket detail := by
  have hfold : ∀ (group : List DirEntry), (∀ e ∈ group, e.Name ≠ name) →
      ((sched.partialOrder (groupByPartialHash env folderPath 4096 group ([],
          acc.world.logf .Debug "[DEBUG] Processing %d files of size %d bytes")).1).foldl
        (partialGroupStep env sched folderPath maxBytes g.1)
        { acc with world := (groupByPartialHash env folderPath 4096 group ([],
          acc.world.logf .Debug "[DEBUG] Processing %d files of size %d bytes")).2 }).Keeps name
        ("size-" ++ Sprint n) bucket detail := by
    intro group hgroup
    apply foldl_partialGroupStep_keeps env sched folderPath maxBytes g.1 n name bucket detail
      hfair hhex _ _ (Keeps_world _ _ _ _ acc _ h)
    intro p hp e he
    have hp2 := (hfair.partialOrder _).mem_iff.mp hp
    rcases groupByPartialHash_mem env folderPath 4096 group [] _ p hp2 e he with h1 | ⟨q, hq, _⟩
    · exact hgroup e h1
    · cases hq
  have hrun : ¬ acc.cancelled = true := by rw [h.running]; exact Bool.false_ne_true
  obtain ⟨k, group⟩ := g
  unfold sizeGroupStep
  rw [if_neg hrun]
  rcases group with _ | ⟨e1, _ | ⟨e2, more⟩⟩
  · simp only []
    exact hfold [] hg
  · simp only []
    apply Keeps_append_other name _ bucket detail acc _ _ _ h
    · exact sizeKey_ne_sizeKey n k hk
    · exact hg e1 (List.mem_cons_self _ _)
  · simp only []
    exact hfold (e1 :: e2 :: more) hg

theorem foldl_sizeGroupStep_keeps (env : Env) (sched : Sched) (folderPath : String)
    (maxBytes : Int) (n : Nat) (name : String) (bucket : List FileDetail)
    (detail : FileDetail) (hfair : sched.Fair) (hhex : env.HexDigests) :
    ∀ (gs : List (Nat × List DirEntry)) (acc : Acc),
      acc.Keeps name ("size-" ++ Sprint n) bucket detail →
      (∀ g ∈ gs, g.1 ≠ n ∧ ∀ e ∈ g.2, e.Name ≠ name) →
      (gs.foldl (sizeGroupStep env sched folderPath maxBytes) acc).Keeps name
        ("size-" ++ Sprint n) bucket detail := by
  intro gs
  induction gs with
  | nil => intro acc h _; exact h
  | cons g rest ih =>
    intro acc h hgs
    rw [List.foldl_cons]
    have hg := hgs g (List.mem_cons_self _ _)
    exact ih _ (sizeGroupStep_keeps env sched folderPath maxBytes n name bucket detail
      acc g hfair hhex h hg.1 hg.2) (fun g0 hg0 => hgs g0 (List.mem_cons_of_mem _ hg0))

/-- The step on a size group of one file: the candidate gets the sentinel
digest and is filed under it; no file is opened, read or hashed. -/
theorem sizeGroupStep_singleton (env : Env) (sched : Sched) (folderPath : String)
    (maxBytes : Int) (acc : Acc) (n : Nat) (x : DirEntry) (hc : acc.cancelled = false) :
    sizeGroupStep env sched folderPath maxBytes acc (n, [x])
      = { acc with
          fileDetails := acc.fileDetails ++ [sizeDetail folderPath n x],
          fileHashes := appendTo ("size-" ++ Sprint n) (sizeDetail folderPath n x)
            acc.fileHashes,
          world := { acc.world with stats := acc.world.stats.IncrementTotalFiles } } := by
  have hrun : ¬ acc.cancelled = true := by rw [hc]; exact Bool.false_ne_true
  unfold sizeGroupStep
  rw [if_neg hrun]
  rfl

theorem sizeGroupStep_keeps_self (env : Env) (sched : Sched) (folderPath : String)
    (maxBytes : Int) (acc : Acc) (n : Nat) (x : DirEntry)
    (h : acc.Keeps x.Name ("size-" ++ Sprint n) [] (sizeDetail folderPath n x)) :
    (sizeGroupStep env sched folderPath maxBytes acc (n, [x])).Keeps x.Name
      ("size-" ++ Sprint n) [sizeDetail folderPath n x] (sizeDetail folderPath n x) := by
  rw [sizeGroupStep_singleton env sched folderPath maxBytes acc n x h.running]
  refine ⟨h.running, ?_, ?_, ?_, ?_⟩
  · show bucketOf (appendTo _ _ acc.fileHashes) _ = _
    rw [bucketOf_appendTo, if_pos rfl, h.bucket_eq]
    rfl
  · intro q hq f hf
    have hf2 : f ∈ bucketOf (appendTo ("size-" ++ Sprint n) (sizeDetail folderPath n x)
      acc.fileHashes) q := hf
    rw [bucketOf_appendTo, if_neg (fun e => hq e.symm)] at hf2
    exact h.others q hq f hf2
  · intro d hd hn
    have hd1 : d ∈ acc.fileDetails ++ [sizeDetail folderPath n x] := hd
    rcases List.mem_append.mp hd1 with h1 | h1
    · exact h.details d h1 hn
    · exact List.mem_singleton.mp h1
  · intro _
    show sizeDetail folderPath n x ∈ acc.fileDetails ++ [sizeDetail folderPath n x]
    simp

/-- The tables at the end of the grouping, for a file that is the only regular
file of its size. -/
theorem buildGroups_keeps (fp : FileProcessor) (env : Env) (sched : Sched) (w : World)
    (folderPath : String) (entries : List DirEntry) (x : DirEntry) (n : Nat)
    (hfair : sched.Fair) (hhex : env.HexDigests)
    (hx : regularOfSize env w.fs folderPath n entries = [x]) :
    (fp.buildGroups env sched w folderPath entries).Keeps x.Name ("size-" ++ Sprint n)
      [sizeDetail folderPath n x] (sizeDetail folderPath n x) := by
  unfold FileProcessor.buildGroups
  simp only []
  obtain ⟨hlook, hnd⟩ := groupBySize_spec env folderPath entries []
    (w.logf .Debug "[DEBUG] Grouping files by size")
  have hnd2 := hnd (by simp)
  have hlook2 : ∀ k, ((groupBySize env folderPath entries ([],
      w.logf .Debug "[DEBUG] Grouping files by size")).1.lookup k).getD []
      = regularOfSize env w.fs folderPath k entries := by
    intro k
    rw [hlook k]
    simp [World.logf]
  generalize (groupBySize env folderPath entries ([],
      w.logf .Debug "[DEBUG] Grouping files by size")) = r at hnd2 hlook2 ⊢
  have hxn : statSize env w.fs folderPath x = some n := by
    have hmem : x ∈ regularOfSize env w.fs folderPath n entries := by rw [hx]; simp
    unfold regularOfSize at hmem
    have := (List.mem_filter.mp hmem).2
    simp only [Bool.and_eq_true, decide_eq_true_eq] at this
    exact this.2
  have hgroup : ∀ g ∈ r.1, g.2 = regularOfSize env w.fs folderPath g.1 entries := by
    intro g hg
    have := lookup_of_mem_nodup r.1 g.1 g.2 hnd2 hg
    rw [← hlook2 g.1, this]
    rfl
  have hin : (n, [x]) ∈ r.1 := by
    have h1 := hlook2 n
    rw [hx] at h1
    cases hl : r.1.lookup n with
    | none => rw [hl] at h1; simp at h1
    | some v =>
      rw [hl] at h1
      simp only [Option.getD_some] at h1
      subst h1
      exact mem_of_lookup _ _ _ hl
  have hin2 : (n, [x]) ∈ sched.sizeOrder r.1 := (hfair.sizeOrder _).mem_iff.mpr hin
  have hnd3 : ((sched.sizeOrder r.1).map Prod.fst).Nodup :=
    ((hfair.sizeOrder r.1).map Prod.fst).nodup_iff.mpr hnd2
  obtain ⟨pre, post, hsplit⟩ := List.append_of_mem hin2
  have hother : ∀ g ∈ sched.sizeOrder r.1, g.1 ≠ n → ∀ e ∈ g.2, e.Name ≠ x.Name := by
    intro g hg hk e he hname
    have hg2 := (hfair.sizeOrder _).mem_iff.mp hg
    rw [hgroup g hg2] at he
    unfold regularOfSize at he
    have := (List.mem_filter.mp he).2
    simp only [Bool.and_eq_true, decide_eq_true_eq] at this
    have h1 : statSize env w.fs folderPath e = statSize env w.fs folderPath x := by
      unfold statSize
      rw [hname]
    rw [this.2, hxn] at h1
    exact hk (Option.some.inj h1)
  rw [hsplit] at hnd3 hother
  rw [hsplit, List.foldl_append, List.foldl_cons]
  rw [List.map_append, List.map_cons, List.nodup_append] at hnd3
  obtain ⟨_, hndpost, hdisj⟩ := hnd3
  rw [List.nodup_cons] at hndpost
  have hpre : ∀ g ∈ pre, g.1 ≠ n ∧ ∀ e ∈ g.2, e.Name ≠ x.Name := by
    intro g hg
    have hk : g.1 ≠ n := by
      intro e
      exact hdisj (List.mem_map.mpr ⟨g, hg, rfl⟩) (by rw [e]; exact List.mem_cons_self _ _)
    exact ⟨hk, hother g (List.mem_append_left _ hg) hk⟩
  have hpost : ∀ g ∈ post, g.1 ≠ n ∧ ∀ e ∈ g.2, e.Name ≠ x.Name := by
    intro g hg
    have hk : g.1 ≠ n := by
      intro e
      exact hndpost.1 (by rw [← e]; exact List.mem_map.mpr ⟨g, hg, rfl⟩)
    exact ⟨hk, hother g (List.mem_append_right _ (List.mem_cons_of_mem _ hg)) hk⟩
  apply foldl_sizeGroupStep_keeps env sched folderPath _ n x.Name _ _ hfair hhex post _ _ hpost
  apply sizeGroupStep_keeps_self
  apply foldl_sizeGroupStep_keeps env sched folderPath _ n x.Name _ _ hfair hhex pre _ _ hpre
  exact ⟨rfl, rfl, fun k _ f hf => (by simp [bucketOf, List.lookup] at hf),
    fun d hd => (by cases hd), fun hb => absurd rfl hb⟩

/-! ### The grouping makes no mover call -/

theorem groupBySize_world (env : Env) (folderPath : String) :
    ∀ (entries : List DirEntry) (sg : List (Nat × List DirEntry)) (w : World),
      (groupBySize env folderPath entries (sg, w)).2.calls = w.calls ∧
      (groupBySize env folderPath entries (sg, w)).2.fs = w.fs := by
  intro entries
  induction entries with
  | nil => intro sg w; exact ⟨rfl, rfl⟩
  | cons entry rest ih =>
    intro sg w
    unfold groupBySize
    by_cases hd : entry.IsDir = true
    · rw [if_pos hd]; exact ih sg w
    · rw [if_neg hd]
      simp only []
      cases hs : osStat env w.fs (Join folderPath entry.Name) with
      | error e => exact ih _ _
      | ok info => exact ih _ _

theorem groupByPartialHash_world (env : Env) (folderPath : String) (sz : Nat) :
    ∀ (group : List DirEntry) (ph0 : List (String × List DirEntry)) (w : World),
      (groupByPartialHash env folderPath sz group (ph0, w)).2.calls = w.calls ∧
      (groupByPartialHash env folderPath sz group (ph0, w)).2.fs = w.fs := by
  intro group
  induction group with
  | nil => intro ph0 w; exact ⟨rfl, rfl⟩
  | cons entry rest ih =>
    intro ph0 w
    unfold groupByPartialHash
    simp only []
    cases hr : (PartialHashFile env w.fs (Join folderPath entry.Name) sz).1.2 with
    | some err => exact ih _ _
    | none => exact ih _ _

theorem collectResults_world (results : List (FileDetail × Option HashError)) (acc : Acc) :
    (collectResults acc results).world.calls = acc.world.calls ∧
    (collectResults acc results).world.fs = acc.world.fs := by
  unfold collectResults
  induction results generalizing acc with
  | nil => exact ⟨rfl, rfl⟩
  | cons r rest ih =>
    rw [List.foldl_cons]
    cases h2 : r.2 with
    | some err => exact ih _
    | none => exact ih _

theorem partialGroupStep_world (env : Env) (sched : Sched) (folderPath : String)
    (maxBytes : Int) (size : Nat) (acc : Acc) (g : String × List DirEntry) :
    (partialGroupStep env sched folderPath maxBytes size acc g).world.calls = acc.world.calls ∧
    (partialGroupStep env sched folderPath maxBytes size acc g).world.fs = acc.world.fs := by
  obtain ⟨ph, pg⟩ := g
  unfold partialGroupStep
  by_cases hc : acc.cancelled = true
  · rw [if_pos hc]; exact ⟨rfl, rfl⟩
  · rw [if_neg hc]
    rcases pg with _ | ⟨e1, _ | ⟨e2, more⟩⟩
    · simp only []
      split
      · exact ⟨rfl, rfl⟩
      · exact collectResults_world _ _
    · exact ⟨rfl, rfl⟩
    · simp only []
      split
      · exact ⟨rfl, rfl⟩
      · exact collectResults_world _ _

theorem foldl_partialGroupStep_world (env : Env) (sched : Sched) (folderPath : String)
    (maxBytes : Int) (size : Nat) :
    ∀ (gs : List (String × List DirEntry)) (acc : Acc),
      (gs.foldl (partialGroupStep env sched folderPath maxBytes size) acc).world.calls
        = acc.world.calls ∧
      (gs.foldl (partialGroupStep env sched folderPath maxBytes size) acc).world.fs
        = acc.world.fs := by
  intro gs
  induction gs with
  | nil => intro acc; exact ⟨rfl, rfl⟩
  | cons g rest ih =>
    intro acc
    rw [List.foldl_cons]
    obtain ⟨h1, h2⟩ := ih (partialGroupStep env sched folderPath maxBytes size acc g)
    obtain ⟨h3, h4⟩ := partialGroupStep_world env sched folderPath maxBytes size acc g
    exact ⟨h1.trans h3, h2.trans h4⟩

theorem sizeGroupStep_world (env : Env) (sched : Sched) (folderPath : String)
    (maxBytes : Int) (acc : Acc) (g : Nat × List DirEntry) :
    (sizeGroupStep env sched folderPath maxBytes acc g).world.calls = acc.world.calls ∧
    (sizeGroupStep env sched folderPath maxBytes acc g).world.fs = acc.world.fs := by
  obtain ⟨k, group⟩ := g
  unfold sizeGroupStep
  by_cases hc : acc.cancelled = true
  · rw [if_pos hc]; exact ⟨rfl, rfl⟩
  · rw [if_neg hc]
    have hmany : ∀ (grp : List DirEntry) (w0 : World),
        ((sched.partialOrder (groupByPartialHash env folderPath 4096 grp ([], w0)).1).foldl
          (partialGroupStep env sched folderPath maxBytes k)
          ⟨acc.fileHashes, acc.fileDetails,
            (groupByPartialHash env folderPath 4096 grp ([], w0)).2, acc.cancelled⟩).world.calls
          = w0.calls ∧
        ((sched.partialOrder (groupByPartialHash env folderPath 4096 grp ([], w0)).1).foldl
          (partialGroupStep env sched folderPath maxBytes k)
          ⟨acc.fileHashes, acc.fileDetails,
            (groupByPartialHash env folderPath 4096 grp ([], w0)).2, acc.cancelled⟩).world.fs
          = w0.fs := by
      intro grp w0
      obtain ⟨h1, h2⟩ := foldl_partialGroupStep_world env sched folderPath maxBytes k
        (sched.partialOrder (groupByPartialHash env folderPath 4096 grp ([], w0)).1)
        ⟨acc.fileHashes, acc.fileDetails,
          (groupByPartialHash env folderPath 4096 grp ([], w0)).2, acc.cancelled⟩
      obtain ⟨h3, h4⟩ := groupByPartialHash_world env folderPath 4096 grp [] w0
      exact ⟨h1.trans h3, h2.trans h4⟩
    rcases group with _ | ⟨e1, _ | ⟨e2, more⟩⟩
    · exact hmany [] _
    · exact ⟨rfl, rfl⟩
    · exact hmany (e1 :: e2 :: more) _

theorem foldl_sizeGroupStep_world (env : Env) (sched : Sched) (folderPath : String)
    (maxBytes : Int) :
    ∀ (gs : List (Nat × List DirEntry)) (acc : Acc),
      (gs.foldl (sizeGroupStep env sched folderPath maxBytes) acc).world.calls
        = acc.world.calls ∧
      (gs.foldl (sizeGroupStep env sched folderPath maxBytes) acc).world.fs = acc.world.fs := by
  intro gs
  induction gs with
  | nil => intro acc; exact ⟨rfl, rfl⟩
  | cons g rest ih =>
    intro acc
    rw [List.foldl_cons]
    obtain ⟨h1, h2⟩ := ih (sizeGroupStep env sched folderPath maxBytes acc g)
    obtain ⟨h3, h4⟩ := sizeGroupStep_world env sched folderPath maxBytes acc g
    exact ⟨h1.trans h3, h2.trans h4⟩

/-- The grouping calls no mover and leaves the file system as it is. -/
theorem buildGroups_world (fp : FileProcessor) (env : Env) (sched : Sched) (w : World)
    (folderPath : String) (entries : List DirEntry) :
    (fp.buildGroups env sched w folderPath entries).world.calls = w.calls ∧
    (fp.buildGroups env sched w folderPath entries).world.fs = w.fs := by
  unfold FileProcessor.buildGroups
  simp only []
  obtain ⟨h1, h2⟩ := foldl_sizeGroupStep_world env sched folderPath (maxBytesOf fp.config)
    (sched.sizeOrder (groupBySize env folderPath entries ([],
      w.logf .Debug "[DEBUG] Grouping files by size")).1)
    ⟨[], [], (groupBySize env folderPath entries ([],
      w.logf .Debug "[DEBUG] Grouping files by size")).2, false⟩
  obtain ⟨h3, h4⟩ := groupBySize_world env folderPath entries []
    (w.logf .Debug "[DEBUG] Grouping files by size")
  exact ⟨h1.trans h3, h2.trans h4⟩

/-! ### Routing a file once -/

theorem callsFor_append (name : String) (l extra : List Call) :
    callsFor name (l ++ extra) = callsFor name l + callsFor name extra := by
  simp [callsFor, List.filter_append]

theorem callsFor_others (name : String) (extra : List Call)
    (h : ∀ c ∈ extra, Call.fileName c ≠ name) : callsFor name extra = 0 := by
  unfold callsFor
  rw [List.length_eq_zero, List.filter_eq_nil_iff]
  intro c hc
  simpa using h c hc

/-- The routing of a file with a mapped extension makes one mover call, for
that file, which is not a call of `MoveDuplicateFile`. -/
theorem moveFileToFolder_one_call (fp : FileProcessor) (env : Env) (w : World)
    (folderPath : String) (file : FileDetail) (config : ExtensionConfig) (t : String)
    (hl : List.lookup file.Ext config.ExtensionToFolder = some t) :
    ∃ c, (fp.moveFileToFolder env w folderPath file config).1.calls = w.calls ++ [c] ∧
      Call.fileName c = file.Name ∧ Call.isDuplicateMove c = false := by
  unfold FileProcessor.moveFileToFolder
  rw [hl]
  simp only []
  by_cases hz : file.Ext = ".zip"
  · rw [if_pos hz]
    by_cases hF : FolderExists env w.fs (Join folderPath (TrimSuffix file.Name file.Ext)) = true
    · rw [if_pos hF]
      exact ⟨.MoveExtractedArchive folderPath file.Name, rfl, rfl, rfl⟩
    · rw [if_neg hF]
      exact ⟨.MoveFileToTargetFolder folderPath file.Name "Archives", rfl, rfl, rfl⟩
  · rw [if_neg hz]
    by_cases hp : file.Ext = ".png"
    · rw [if_pos hp]
      by_cases hd : fp.config.DetectTransparentPNGs = true
      · rw [if_pos hd]
        rcases hT : HasTransparency env w.fs file.Path with ⟨⟨b, e⟩, l⟩
        cases e with
        | some err => exact ⟨.MoveFileToTargetFolder folderPath file.Name t, rfl, rfl, rfl⟩
        | none =>
          cases b with
          | true =>
            exact ⟨.MoveFileToTargetFolder folderPath file.Name config.TransparentPNGFolder,
              rfl, rfl, rfl⟩
          | false => exact ⟨.MoveFileToTargetFolder folderPath file.Name t, rfl, rfl, rfl⟩
      · rw [if_neg hd]
        exact ⟨.MoveFileToTargetFolder folderPath file.Name t, rfl, rfl, rfl⟩
    · rw [if_neg hp]
      exact ⟨.MoveFileToTargetFolder folderPath file.Name t, rfl, rfl, rfl⟩

theorem routeAndCount_one_call (fp : FileProcessor) (env : Env) (w : World)
    (folderPath : String) (file : FileDetail) (t : String)
    (hl : List.lookup file.Ext fp.extConfig.ExtensionToFolder = some t) :
    ∃ c, (fp.routeAndCount env w folderPath file).calls = w.calls ++ [c] ∧
      Call.fileName c = file.Name ∧ Call.isDuplicateMove c = false := by
  obtain ⟨c, h1, h2, h3⟩ := moveFileToFolder_one_call fp env w folderPath file fp.extConfig t hl
  refine ⟨c, ?_, h2, h3⟩
  unfold FileProcessor.routeAndCount
  split <;> rename_i heq <;> rw [heq] at h1 <;> simpa using h1

/-- The mover calls that a step of `processFileGroups` adds are made for
members of the bucket of the candidate, and the step marks no digest but the
candidate's. -/
theorem processDetail_calls (fp : FileProcessor) (env : Env) (folderPath : String)
    (fileHashes : List (String × List FileDetail)) (st : GroupState) (detail : FileDetail) :
    ∃ extra, (fp.processDetail env folderPath fileHashes st detail).world.calls
        = st.world.calls ++ extra ∧
      (∀ c ∈ extra, ∃ f ∈ bucketOf fileHashes detail.Hash, Call.fileName c = f.Name) ∧
      ((fp.processDetail env folderPath fileHashes st detail).processedHashes
          = st.processedHashes ∨
        (fp.processDetail env folderPath fileHashes st detail).processedHashes
          = detail.Hash :: st.processedHashes) := by
  have hroute : ∀ (w : World) (f : FileDetail), f ∈ bucketOf fileHashes detail.Hash →
      ∃ extra, (fp.routeAndCount env w folderPath f).calls = w.calls ++ extra ∧
        ∀ c ∈ extra, ∃ f ∈ bucketOf fileHashes detail.Hash, Call.fileName c = f.Name := by
    intro w f hf
    cases hl : List.lookup f.Ext fp.extConfig.ExtensionToFolder with
    | none =>
      refine ⟨[], ?_, fun c hc => (by cases hc)⟩
      unfold FileProcessor.routeAndCount FileProcessor.moveFileToFolder
      rw [hl]
      simp [World.logf]
    | some t =>
      obtain ⟨c, h1, h2, _⟩ := routeAndCount_one_call fp env w folderPath f t hl
      refine ⟨[c], h1, ?_⟩
      intro c0 hc0
      rw [List.mem_singleton.mp hc0]
      exact ⟨f, hf, h2⟩
  unfold FileProcessor.processDetail
  by_cases h1 : detail.Hash = ""
  · rw [if_pos h1]; exact ⟨[], by simp [World.logf], fun c hc => (by cases hc), Or.inl rfl⟩
  · rw [if_neg h1]
    by_cases h2 : detail.Hash ∈ st.processedHashes
    · rw [if_pos h2]; exact ⟨[], by simp, fun c hc => (by cases hc), Or.inl rfl⟩
    · rw [if_neg h2]
      rcases hb : bucketOf fileHashes detail.Hash with _ | ⟨first, _ | ⟨second, more⟩⟩
      · exact ⟨[], by simp [World.logf], fun c hc => (by cases hc), Or.inl rfl⟩
      · simp only []
        by_cases hdo : fp.config.DuplicatesOnly = true
        · rw [if_pos hdo]; exact ⟨[], by simp, fun c hc => (by cases hc), Or.inl rfl⟩
        · rw [if_neg hdo]
          cases hl : List.lookup first.Ext fp.extConfig.ExtensionToFolder with
          | none => exact ⟨[], by simp [World.logf], fun c hc => (by cases hc), Or.inl rfl⟩
          | some t =>
            rw [hb] at hroute
            obtain ⟨extra, he1, he2⟩ := hroute st.world first (by simp)
            exact ⟨extra, he1, he2, Or.inr rfl⟩
      · simp only []
        rw [hb] at hroute
        have hmem := chooseOriginal_mem first (second :: more)
        have hspec := (moveDuplicates_spec env folderPath
          (chooseOriginal first (first :: second :: more)) (first :: second :: more) st.world).1
        have hdupnames : ∀ c ∈ ((first :: second :: more).filter (fun f =>
            decide (f.Path ≠ (chooseOriginal first (first :: second :: more)).Path))).map
            (dupCall folderPath (chooseOriginal first (first :: second :: more))),
            ∃ f ∈ first :: second :: more, Call.fileName c = f.Name := by
          intro c hc
          rw [List.mem_map] at hc
          obtain ⟨g, hg, rfl⟩ := hc
          exact ⟨g, (List.mem_filter.mp hg).1, rfl⟩
        obtain ⟨D, hD1, hD2⟩ : ∃ D, (moveDuplicates env folderPath
            (chooseOriginal first (first :: second :: more)) st.world
            (first :: second :: more)).calls = st.world.calls ++ D ∧
            ∀ c ∈ D, ∃ f ∈ first :: second :: more, Call.fileName c = f.Name :=
          ⟨_, hspec, hdupnames⟩
        by_cases hdo : fp.config.DuplicatesOnly = true
        · rw [if_pos hdo]
          exact ⟨D, by simpa [World.logf] using hD1, hD2, Or.inr rfl⟩
        · rw [if_neg hdo]
          cases hl : List.lookup (chooseOriginal first (first :: second :: more)).Ext
              fp.extConfig.ExtensionToFolder with
          | none => exact ⟨D, by simpa [World.logf] using hD1, hD2, Or.inr rfl⟩
          | some t =>
            simp only []
            obtain ⟨extra, he1, he2⟩ := hroute (moveDuplicates env folderPath
              (chooseOriginal first (first :: second :: more)) st.world
              (first :: second :: more)) _ hmem
            refine ⟨D ++ extra, ?_, ?_, Or.inr trivial⟩
            · show (fp.routeAndCount env _ folderPath _).calls = _
              rw [he1, hD1, List.append_assoc]
            · intro c hc
              rcases List.mem_append.mp hc with h | h
              · exact hD2 c h
              · exact he2 c h

/-- The step of `processFileGroups` on the first candidate of a bucket of one
file with a mapped extension, in normal mode. -/
theorem processDetail_singleton (fp : FileProcessor) (env : Env) (folderPath : String)
    (fileHashes : List (String × List FileDetail)) (st : GroupState) (detail original : FileDetail)
    (t : String) (hhash : detail.Hash ≠ "") (hnew : detail.Hash ∉ st.processedHashes)
    (hbucket : bucketOf fileHashes detail.Hash = [original])
    (hmode : fp.config.DuplicatesOnly = false)
    (hl : List.lookup original.Ext fp.extConfig.ExtensionToFolder = some t) :
    fp.processDetail env folderPath fileHashes st detail
      = { world := fp.routeAndCount env st.world folderPath original,
          processedHashes := detail.Hash :: st.processedHashes } := by
  unfold FileProcessor.processDetail
  rw [if_neg hhash, if_neg hnew, hbucket]
  simp only [hmode, Bool.false_eq_true, if_false, hl]

/-- In a run of `processFileGroups` in normal mode, a file with a mapped
extension that is alone in its bucket, and in no other bucket, gets one mover
call as soon as a candidate carries the key of that bucket. -/
theorem foldl_processDetail_once (fp : FileProcessor) (env : Env) (folderPath : String)
    (fileHashes : List (String × List FileDetail)) (key : String) (original : FileDetail)
    (t : String) (hkey : key ≠ "") (hbucket : bucketOf fileHashes key = [original])
    (hothers : ∀ k, k ≠ key → ∀ f ∈ bucketOf fileHashes k, f.Name ≠ original.Name)
    (hmode : fp.config.DuplicatesOnly = false)
    (hl : List.lookup original.Ext fp.extConfig.ExtensionToFolder = some t) :
    ∀ (fileDetails : List FileDetail) (st : GroupState),
      ((key ∈ st.processedHashes ∨ ∀ d ∈ fileDetails, d.Hash ≠ key) →
        callsFor original.Name
            (fileDetails.foldl (fp.processDetail env folderPath fileHashes) st).world.calls
          = callsFor original.Name st.world.calls) ∧
      (key ∉ st.processedHashes → (∃ d ∈ fileDetails, d.Hash = key) →
        callsFor original.Name
            (fileDetails.foldl (fp.processDetail env folderPath fileHashes) st).world.calls
          = callsFor original.Name st.world.calls + 1) := by
  intro fileDetails
  induction fileDetails with
  | nil =>
    intro st
    refine ⟨fun _ => rfl, ?_⟩
    rintro _ ⟨d, hd, _⟩
    cases hd
  | cons d rest ih =>
    intro st
    rw [List.foldl_cons]
    by_cases hdk : d.Hash = key
    · by_cases hproc : key ∈ st.processedHashes
      · have hstep : fp.processDetail env folderPath fileHashes st d = st :=
          processDetail_processed fp env folderPath fileHashes st d (by rw [hdk]; exact hkey)
            (by rw [hdk]; exact hproc)
        rw [hstep]
        refine ⟨fun _ => (ih st).1 (Or.inl hproc), fun h => absurd hproc h⟩
      · have hstep := processDetail_singleton fp env folderPath fileHashes st d original t
          (by rw [hdk]; exact hkey) (by rw [hdk]; exact hproc) (by rw [hdk]; exact hbucket)
          hmode hl
        rw [hstep]
        obtain ⟨c, hc1, hc2, _⟩ := routeAndCount_one_call fp env st.world folderPath original t hl
        have hcount : callsFor original.Name
            (fp.routeAndCount env st.world folderPath original).calls
            = callsFor original.Name st.world.calls + 1 := by
          rw [hc1, callsFor_append]
          simp [callsFor, hc2]
        have hih := (ih ⟨fp.routeAndCount env st.world folderPath original,
          d.Hash :: st.processedHashes⟩).1
          (Or.inl (by rw [hdk]; exact List.mem_cons_self _ _))
        refine ⟨?_, fun _ _ => by rw [hih]; exact hcount⟩
        rintro (h | h)
        · exact absurd h hproc
        · exact absurd hdk (h d (List.mem_cons_self _ _))
    · obtain ⟨extra, he1, he2, he3⟩ := processDetail_calls fp env folderPath fileHashes st d
      have hcount : callsFor original.Name
          (fp.processDetail env folderPath fileHashes st d).world.calls
          = callsFor original.Name st.world.calls := by
        rw [he1, callsFor_append, callsFor_others original.Name extra]
        · rfl
        · intro c hc
          obtain ⟨f, hf, hn⟩ := he2 c hc
          rw [hn]
          exact hothers d.Hash hdk f hf
      have hmark : key ∈ (fp.processDetail env folderPath fileHashes st d).processedHashes
          ↔ key ∈ st.processedHashes := by
        rcases he3 with h | h
        · rw [h]
        · rw [h, List.mem_cons]
          constructor
          · rintro (h0 | h0)
            · exact absurd h0.symm hdk
            · exact h0
          · exact Or.inr
      obtain ⟨ih1, ih2⟩ := ih (fp.processDetail env folderPath fileHashes st d)
      refine ⟨?_, ?_⟩
      · rintro (h | h)
        · rw [ih1 (Or.inl (hmark.mpr h)), hcount]
        · rw [ih1 (Or.inr (fun d0 hd0 => h d0 (List.mem_cons_of_mem _ hd0))), hcount]
      · rintro hproc ⟨d0, hd0, hd0k⟩
        rcases List.mem_cons.mp hd0 with h | h
        · rw [h] at hd0k; exact absurd hd0k hdk
        · rw [ih2 (fun hp => hproc (hmark.mp hp)) ⟨d0, h, hd0k⟩, hcount]

/-- The size group of a file that is the only regular file of its size. -/
theorem groupBySize_unique (env : Env) (folderPath : String) (entries : List DirEntry)
    (w : World) (x : DirEntry) (n : Nat)
    (hx : regularOfSize env w.fs folderPath n entries = [x]) :
    (groupBySize env folderPath entries ([], w)).1.lookup n = some [x] := by
  have h1 := (groupBySize_spec env folderPath entries [] w).1 n
  rw [hx] at h1
  cases hl : (groupBySize env folderPath entries ([], w)).1.lookup n with
  | none => rw [hl] at h1; simp at h1
  | some v =>
    rw [hl] at h1
    simp only [Option.getD_some, List.lookup, Option.getD_none, List.nil_append] at h1
    rw [h1]

/-- Claim C12. Let `x` be the only regular file of the listing for which
`os.Stat` reports the size `n`, under a runtime that visits every group once
and does not cancel, and a digest function that renders 64 hexadecimal digits.
Then the size table holds `[x]` under `n`; the step on that group records the
candidate with the digest `size-<n>` by an equation in which no file is opened,
read or hashed (it is the same for every environment, runtime and ceiling);
at the end of the grouping that candidate is recorded, every candidate of that
name is that candidate, its bucket is exactly `[candidate]` and no other bucket
has a member of that name; and in normal mode with a mapped extension the whole
run returns no error, makes exactly one mover call for that name, and no call
of `MoveDuplicateFile` for it. -/
theorem C12_unique_size_file_is_routed_once (fp : FileProcessor) (env : Env) (sched : Sched)
    (w : World) (folderPath : String) (entries : List DirEntry) (x : DirEntry) (n : Nat)
    (hfair : sched.Fair) (hhex : env.HexDigests)
    (hx : regularOfSize env w.fs folderPath n entries = [x]) :
    (groupBySize env folderPath entries
        ([], w.logf .Debug "[DEBUG] Grouping files by size")).1.lookup n = some [x] ∧
    (∀ (env0 : Env) (sched0 : Sched) (maxBytes : Int) (acc : Acc), acc.cancelled = false →
      sizeGroupStep env0 sched0 folderPath maxBytes acc (n, [x])
        = ⟨appendTo ("size-" ++ Sprint n) (sizeDetail folderPath n x) acc.fileHashes,
           acc.fileDetails ++ [sizeDetail folderPath n x],
           { acc.world with stats := acc.world.stats.IncrementTotalFiles },
           acc.cancelled⟩) ∧
    (sizeDetail folderPath n x ∈ (fp.buildGroups env sched w folderPath entries).fileDetails ∧
      (∀ d ∈ (fp.buildGroups env sched w folderPath entries).fileDetails,
        d.Name = x.Name → d = sizeDetail folderPath n x) ∧
      bucketOf (fp.buildGroups env sched w folderPath entries).fileHashes ("size-" ++ Sprint n)
        = [sizeDetail folderPath n x] ∧
      (∀ k, k ≠ "size-" ++ Sprint n →
        ∀ f ∈ bucketOf (fp.buildGroups env sched w folderPath entries).fileHashes k,
          f.Name ≠ x.Name)) ∧
    (fp.config.DuplicatesOnly = false →
      ∀ t, List.lookup (ToLower (Ext x.Name)) fp.extConfig.ExtensionToFolder = some t →
        (fp.processFilesWithDuplicates env sched w folderPath entries).2 = none ∧
        callsFor x.Name (fp.processFilesWithDuplicates env sched w folderPath entries).1.calls
          = callsFor x.Name w.calls + 1 ∧
        ∀ a b o, Call.MoveDuplicateFile a b o
            ∈ (fp.processFilesWithDuplicates env sched w folderPath entries).1.calls →
          Call.MoveDuplicateFile a b o ∈ w.calls ∨ b ≠ x.Name) := by
  have hkeeps := buildGroups_keeps fp env sched w folderPath entries x n hfair hhex hx
  have hworld := buildGroups_world fp env sched w folderPath entries
  refine ⟨?_, ?_, ?_, ?_⟩
  · exact groupBySize_unique env folderPath entries _ x n hx
  · intro env0 sched0 maxBytes acc hc
    exact sizeGroupStep_singleton env0 sched0 folderPath maxBytes acc n x hc
  · exact ⟨hkeeps.recorded (by simp), hkeeps.details, hkeeps.bucket_eq, hkeeps.others⟩
  · intro hmode t hl
    have hrun : ¬ (fp.buildGroups env sched w folderPath entries).cancelled = true := by
      rw [hkeeps.running]; exact Bool.false_ne_true
    have hres : fp.processFilesWithDuplicates env sched w folderPath entries
        = (fp.processFileGroups env (fp.buildGroups env sched w folderPath entries).world
            folderPath (fp.buildGroups env sched w folderPath entries).fileDetails
            (fp.buildGroups env sched w folderPath entries).fileHashes, none) := by
      unfold FileProcessor.processFilesWithDuplicates
      simp only []
      rw [if_neg hrun]
    rw [hres]
    refine ⟨rfl, ?_, ?_⟩
    · have honce := (foldl_processDetail_once fp env folderPath
        (fp.buildGroups env sched w folderPath entries).fileHashes ("size-" ++ Sprint n)
        (sizeDetail folderPath n x) t (sizeKey_ne_empty n) hkeeps.bucket_eq hkeeps.others
        hmode hl (fp.buildGroups env sched w folderPath entries).fileDetails
        ⟨(fp.buildGroups env sched w folderPath entries).world, []⟩).2
        (by simp) ⟨sizeDetail folderPath n x, hkeeps.recorded (by simp), rfl⟩
      unfold FileProcessor.processFileGroups
      rw [← hworld.1]
      exact honce
    · intro a b o hmem
      unfold FileProcessor.processFileGroups at hmem
      rcases foldl_processDetail_duplicate_calls fp env folderPath _ _ _ _ hmem
        with hc | hc | ⟨h, _, hlen, g, hg, _, _, _, heq⟩
      · left; rw [← hworld.1]; exact hc
      · simp [Call.isDuplicateMove] at hc
      · right
        injection heq with _ hb _
        intro hname
        have hk : h = "size-" ++ Sprint n := by
          by_contra hne
          exact hkeeps.others h hne g hg (by rw [← hb]; exact hname)
        rw [hk, hkeeps.bucket_eq] at hlen
        simp at hlen

theorem Sched.inOrder_fair : Sched.inOrder.Fair :=
  ⟨fun _ => List.Perm.refl _, fun _ => List.Perm.refl _, fun _ => List.Perm.refl _,
    fun _ => rfl⟩

/-- The directory of `a.txt`, `b.txt` (5 bytes each) and `notes.txt`
(3 bytes): `notes.txt` is alone in the bucket `size-3` and the run makes one
mover call for it. -/
theorem C12_witness_notes_txt :
    (Sched.inOrder.Fair ∧ exHexEnv.HexDigests ∧
      regularOfSize exHexEnv exUniqueFS "d" 3 exUniqueEntries = [⟨"notes.txt", false⟩]) ∧
    bucketOf (exProcessor.buildGroups exHexEnv Sched.inOrder ⟨exUniqueFS, Stats.zero, [], []⟩
        "d" exUniqueEntries).fileHashes ("size-" ++ Sprint 3)
      = [sizeDetail "d" 3 ⟨"notes.txt", false⟩] ∧
    callsFor "notes.txt" (exProcessor.processFilesWithDuplicates exHexEnv Sched.inOrder
        ⟨exUniqueFS, Stats.zero, [], []⟩ "d" exUniqueEntries).1.calls
      = callsFor "notes.txt" [] + 1 := by
  have h := C12_unique_size_file_is_routed_once exProcessor exHexEnv Sched.inOrder
    ⟨exUniqueFS, Stats.zero, [], []⟩ "d" exUniqueEntries ⟨"notes.txt", false⟩ 3
    Sched.inOrder_fair exHexEnv_hexDigests (by decide)
  exact ⟨⟨Sched.inOrder_fair, exHexEnv_hexDigests, by decide⟩, h.2.2.1.2.2.1,
    (h.2.2.2 rfl "Documents" (by decide)).2.1⟩

/-! ## `Config.Validate` -/

/-- Claim C23. `Config.Validate` returns an error exactly when `Verbose` and
`Silent` are both set or `MaxHashFileSizeMB` is negative, whatever the values
of `MoveDuplicates`, `DuplicatesOnly`, `DetectTransparentPNGs`, `LogFilePath`
and `MaxHashFileSize`; the configuration after the call is the configuration
before it. -/
theorem C23_Validate_rejects_exactly (c : Config) :
    ((c.Validate).2 ≠ none ↔ (c.Verbose = true ∧ c.Silent = true) ∨ c.MaxHashFileSizeMB < 0) ∧
    (c.Validate).1 = c ∧
    (∀ (md dup png : Bool) (logPath : String) (maxSize : Int),
      (({ c with MoveDuplicates := md, DuplicatesOnly := dup, DetectTransparentPNGs := png,
                 LogFilePath := logPath, MaxHashFileSize := maxSize } : Config).Validate).2
        = (c.Validate).2) ∧
    (c.Verbose = true → c.Silent = true →
      (c.Validate).2 = some ("verbose and silent modes cannot be enabled simultaneously, " ++
        "otherwise, GoSorter might take a selfie")) ∧
    (¬ (c.Verbose = true ∧ c.Silent = true) → c.MaxHashFileSizeMB < 0 →
      (c.Validate).2 = some "max hash file size must be >= 0") := by
  unfold Config.Validate
  refine ⟨?_, ?_, ?_, ?_, ?_⟩
  · by_cases h1 : (c.Verbose && c.Silent) = true
    · simp only [h1, if_true]
      simp only [Bool.and_eq_true] at h1
      simp [h1]
    · by_cases h2 : c.MaxHashFileSizeMB < 0
      · simp only [h1, if_false, h2, if_true]
        simp [h2]
      · simp only [h1, if_false, h2]
        simp only [Bool.and_eq_true] at h1
        simp [h1, h2]
  · split_ifs <;> rfl
  · intro md dup png logPath maxSize
    simp only []
    split_ifs <;> rfl
  · intro hv hs
    simp [hv, hs]
  · intro h1 h2
    have h1b : ¬ (c.Verbose && c.Silent) = true := by
      simpa [Bool.and_eq_true] using h1
    simp [h1b, h2]

/-- The configuration of the test case "valid config" passes, and setting
both `Verbose` and `Silent` is rejected. -/
theorem C23_witness_test_cases :
    ((⟨true, false, false, true, "", false, 1024, 0⟩ : Config).Validate).2 = none ∧
    ((⟨true, true, false, false, "/tmp/log", true, 0, 7⟩ : Config).Validate).2 = none ∧
    ((⟨false, false, true, true, "", false, 1024, 0⟩ : Config).Validate).2
      = some ("verbose and silent modes cannot be enabled simultaneously, " ++
        "otherwise, GoSorter might take a selfie") ∧
    ((⟨false, false, false, true, "", false, -1, 0⟩ : Config).Validate).2
      = some "max hash file size must be >= 0" :=
  ⟨by decide, by decide,
    (C23_Validate_rejects_exactly ⟨false, false, true, true, "", false, 1024, 0⟩).2.2.2.1 rfl rfl,
    (C23_Validate_rejects_exactly ⟨false, false, false, true, "", false, -1, 0⟩).2.2.2.2
      (by decide) (by decide)⟩

/-! ## The unknown-extension counters -/

theorem lookup_bumpExt (ext q : String) (m : List (String × Int)) :
    (bumpExt ext m).lookup q = if q = ext then some (extCount m ext + 1) else m.lookup q := by
  induction m with
  | nil =>
    by_cases h : q = ext
    · subst h; simp [bumpExt, extCount, List.lookup]
    · have hb : (q == ext) = false := by rw [beq_eq_false_iff_ne]; exact h
      simp [bumpExt, List.lookup, hb, h]
  | cons e rest ih =>
    obtain ⟨k, v⟩ := e
    unfold bumpExt
    by_cases hk : k = ext
    · subst hk
      rw [if_pos rfl]
      by_cases h : q = k
      · subst h; simp [extCount, List.lookup]
      · have hb : (q == k) = false := by rw [beq_eq_false_iff_ne]; exact h
        simp [List.lookup, hb, h]
    · rw [if_neg hk]
      by_cases hq : q = k
      · subst hq
        simp [List.lookup, hk]
      · have hb : (q == k) = false := by rw [beq_eq_false_iff_ne]; exact hq
        have hb2 : (ext == k) = false := by
          rw [beq_eq_false_iff_ne]; exact fun e => hk e.symm
        simp only [List.lookup, hb]
        rw [ih]
        by_cases hqe : q = ext
        · rw [if_pos hqe, if_pos hqe]
          simp [extCount, List.lookup, hb2]
        · rw [if_neg hqe, if_neg hqe]

theorem values_bumpExt (ext : String) (m : List (String × Int)) :
    ((bumpExt ext m).map Prod.snd).sum = (m.map Prod.snd).sum + 1 := by
  induction m with
  | nil => simp [bumpExt]
  | cons e rest ih =>
    obtain ⟨k, v⟩ := e
    unfold bumpExt
    by_cases hk : k = ext
    · rw [if_pos hk]; simp; ring
    · rw [if_neg hk]; simp [ih]; ring

theorem keys_bumpExt (ext : String) (m : List (String × Int)) :
    (bumpExt ext m).map Prod.fst
      = if ext ∈ m.map Prod.fst then m.map Prod.fst else m.map Prod.fst ++ [ext] := by
  induction m with
  | nil => simp [bumpExt]
  | cons e rest ih =>
    obtain ⟨k, v⟩ := e
    unfold bumpExt
    by_cases hk : k = ext
    · subst hk; simp
    · rw [if_neg hk]
      have hk2 : ¬ ext = k := fun e => hk e.symm
      by_cases hm : ext ∈ rest.map Prod.fst
      · rw [if_pos hm] at ih
        simp only [List.map_cons, ih]
        rw [if_pos (List.mem_cons_of_mem _ hm)]
      · rw [if_neg hm] at ih
        simp only [List.map_cons, ih]
        rw [if_neg (by simp only [List.mem_cons, not_or]; exact ⟨hk2, hm⟩)]
        rfl

theorem keys_bumpExt_nodup (ext : String) (m : List (String × Int))
    (h : (m.map Prod.fst).Nodup) : ((bumpExt ext m).map Prod.fst).Nodup := by
  rw [keys_bumpExt]
  by_cases hm : ext ∈ m.map Prod.fst
  · rw [if_pos hm]; exact h
  · rw [if_neg hm, List.nodup_append]
    refine ⟨h, List.nodup_singleton ext, ?_⟩
    intro a ha hb
    rw [List.mem_singleton] at hb
    subst hb
    exact hm ha

/-- The counters after a sequence of `IncrementUnknownExtensions`. -/
theorem foldl_IncrementUnknownExtensions (exts : List String) :
    ∀ s : Stats,
      (exts.foldl Stats.IncrementUnknownExtensions s).UnknownExtensions
        = s.UnknownExtensions + (exts.length : Int) ∧
      (∀ e, (exts.foldl Stats.IncrementUnknownExtensions s).UnknownExtMap.lookup e
        = if exts.count e = 0 then s.UnknownExtMap.lookup e
          else some (extCount s.UnknownExtMap e + (exts.count e : Int))) ∧
      (((exts.foldl Stats.IncrementUnknownExtensions s).UnknownExtMap.map Prod.snd).sum
        = (s.UnknownExtMap.map Prod.snd).sum + (exts.length : Int)) ∧
      ((s.UnknownExtMap.map Prod.fst).Nodup →
        ((exts.foldl Stats.IncrementUnknownExtensions s).UnknownExtMap.map Prod.fst).Nodup) ∧
      (exts.foldl Stats.IncrementUnknownExtensions s).FilesMoved = s.FilesMoved ∧
      (exts.foldl Stats.IncrementUnknownExtensions s).DuplicatesMoved = s.DuplicatesMoved ∧
      (exts.foldl Stats.IncrementUnknownExtensions s).TotalFiles = s.TotalFiles ∧
      (exts.foldl Stats.IncrementUnknownExtensions s).ErrorsCount = s.ErrorsCount ∧
      (exts.foldl Stats.IncrementUnknownExtensions s).TransparentPNGsMoved
        = s.TransparentPNGsMoved := by
  induction exts with
  | nil =>
    intro s
    exact ⟨by simp, fun e => by simp, by simp, fun h => h, rfl, rfl, rfl, rfl, rfl⟩
  | cons x rest ih =>
    intro s
    rw [List.foldl_cons]
    obtain ⟨h1, h2, h3, h4, h5, h6, h7, h8, h9⟩ := ih (s.IncrementUnknownExtensions x)
    refine ⟨?_, ?_, ?_, ?_, h5, h6, h7, h8, h9⟩
    · rw [h1]
      simp only [Stats.IncrementUnknownExtensions, List.length_cons]
      push_cast
      ring
    · intro e
      rw [h2 e]
      simp only [Stats.IncrementUnknownExtensions]
      by_cases hxe : x = e
      · subst hxe
        rw [lookup_bumpExt, if_pos rfl, extCount_bumpExt_self]
        simp only [List.count_cons_self]
        by_cases hc : List.count x rest = 0
        · simp [hc]
        · rw [if_neg hc, if_neg (by omega)]
          congr 1
          push_cast
          ring
      · have hex : e ≠ x := fun h => hxe h.symm
        rw [lookup_bumpExt, if_neg hex, extCount_bumpExt_other x e _ hex]
        have hcount : List.count e (x :: rest) = List.count e rest := by
          rw [List.count_cons]
          simp [hxe]
        rw [hcount]
    · rw [h3]
      simp only [Stats.IncrementUnknownExtensions, values_bumpExt, List.length_cons]
      push_cast
      ring
    · intro hn
      exact h4 (keys_bumpExt_nodup x _ hn)

/-- Claim C25. After any sequence of `IncrementUnknownExtensions` calls on a
fresh `Stats`: `GetUnknownExtensions` is the number of calls;
`GetUnknownExtMap` has, for each extension, the number of calls made with it,
and no entry for an extension never passed; no extension has two entries; the
total equals the sum of the values of the histogram; and, on any `Stats`, the
other five counters keep their values. -/
theorem C25_unknown_extension_histogram (exts : List String) :
    (exts.foldl Stats.IncrementUnknownExtensions Stats.zero).GetUnknownExtensions
      = (exts.length : Int) ∧
    (∀ e, e ∈ exts →
      (exts.foldl Stats.IncrementUnknownExtensions Stats.zero).GetUnknownExtMap.lookup e
        = some (exts.count e : Int)) ∧
    (∀ e, e ∉ exts →
      (exts.foldl Stats.IncrementUnknownExtensions Stats.zero).GetUnknownExtMap.lookup e
        = none) ∧
    (((exts.foldl Stats.IncrementUnknownExtensions Stats.zero).GetUnknownExtMap.map
      Prod.fst).Nodup) ∧
    (((exts.foldl Stats.IncrementUnknownExtensions Stats.zero).GetUnknownExtMap.map
      Prod.snd).sum
      = (exts.foldl Stats.IncrementUnknownExtensions Stats.zero).GetUnknownExtensions) ∧
    (∀ s : Stats,
      (exts.foldl Stats.IncrementUnknownExtensions s).FilesMoved = s.FilesMoved ∧
      (exts.foldl Stats.IncrementUnknownExtensions s).DuplicatesMoved = s.DuplicatesMoved ∧
      (exts.foldl Stats.IncrementUnknownExtensions s).TotalFiles = s.TotalFiles ∧
      (exts.foldl Stats.IncrementUnknownExtensions s).ErrorsCount = s.ErrorsCount ∧
      (exts.foldl Stats.IncrementUnknownExtensions s).TransparentPNGsMoved
        = s.TransparentPNGsMoved) := by
  obtain ⟨h1, h2, h3, h4, _⟩ := foldl_IncrementUnknownExtensions exts Stats.zero
  unfold Stats.GetUnknownExtensions Stats.GetUnknownExtMap
  refine ⟨?_, ?_, ?_, ?_, ?_, ?_⟩
  · rw [h1]; simp [Stats.zero]
  · intro e he
    rw [h2 e, if_neg (fun h0 => (List.count_eq_zero.mp h0) he)]
    simp [Stats.zero, extCount]
  · intro e he
    rw [h2 e, if_pos (List.count_eq_zero.mpr he)]
    simp [Stats.zero]
  · exact h4 (by simp [Stats.zero])
  · rw [h3, h1]; simp [Stats.zero]
  · intro s
    obtain ⟨_, _, _, _, h5, h6, h7, h8, h9⟩ := foldl_IncrementUnknownExtensions exts s
    exact ⟨h5, h6, h7, h8, h9⟩

/-- The calls of `TestStats_UnknownExtensions`: `.unknown1`, `.unknown2` and
`.unknown1` again. -/
theorem C25_witness_test_calls :
    (".unknown1" ∈ [".unknown1", ".unknown2", ".unknown1"] ∧
      ".def" ∉ [".unknown1", ".unknown2", ".unknown1"]) ∧
    ([".unknown1", ".unknown2", ".unknown1"].foldl Stats.IncrementUnknownExtensions
        Stats.zero).GetUnknownExtMap.lookup ".unknown1"
      = some (([".unknown1", ".unknown2", ".unknown1"].count ".unknown1" : Nat) : Int) ∧
    ([".unknown1", ".unknown2", ".unknown1"].foldl Stats.IncrementUnknownExtensions
        Stats.zero).GetUnknownExtMap.lookup ".def" = none ∧
    ([".unknown1", ".unknown2", ".unknown1"].foldl Stats.IncrementUnknownExtensions
        Stats.zero).GetUnknownExtMap = [(".unknown1", 2), (".unknown2", 1)] :=
  ⟨⟨by decide, by decide⟩,
    (C25_unknown_extension_histogram [".unknown1", ".unknown2", ".unknown1"]).2.1
      ".unknown1" (by decide),
    (C25_unknown_extension_histogram [".unknown1", ".unknown2", ".unknown1"]).2.2.1
      ".def" (by decide),
    by decide⟩

/-! ## Partial and full hashes -/

/-- The outcome of `PartialHashFile` on a regular file that is opened and
read. -/
theorem PartialHashFile_of_file (env : Env) (fs : FS) (p : String) (numBytes : Nat)
    (c : List UInt8) (ho : env.openFault p = none) (hr : env.readFault p = none)
    (h : fs.lookup p = some (.file c)) :
    (PartialHashFile env fs p numBytes).1 = (env.sha256hex (c.take numBytes), none) := by
  unfold PartialHashFile
  simp only [osOpen, ho, h, osReadAll, hr]

/-- Claim C30. For regular files that are opened and read without failure,
`PartialHashFile` is the SHA-256 of the first `min(size, numBytes)` bytes: two
files (in the same or in different file systems) that agree on that prefix get
the same partial hash; and for a file whose size is at most `numBytes` and at
most `maxBytes`, the partial hash is the digest that `HashFile` returns, the
SHA-256 of the whole content, both without an error. A single `Read` is taken
to return the whole prefix. -/
theorem C30_partial_hash_reads_the_start (env : Env) (fs fs2 : FS) (p q : String) (numBytes : Nat)
    (maxBytes : Int) (c d : List UInt8)
    (hop : env.openFault p = none) (hrp : env.readFault p = none)
    (hoq : env.openFault q = none) (hrq : env.readFault q = none)
    (hp : fs.lookup p = some (.file c)) (hq : fs2.lookup q = some (.file d)) :
    (PartialHashFile env fs p numBytes).1 = (env.sha256hex (c.take numBytes), none) ∧
    (c.take numBytes).length = min c.length numBytes ∧
    (c.take numBytes = d.take numBytes →
      (PartialHashFile env fs p numBytes).1 = (PartialHashFile env fs2 q numBytes).1) ∧
    (env.statFault p = none → c.length ≤ numBytes → (c.length : Int) ≤ maxBytes →
      (PartialHashFile env fs p numBytes).1.1 = (HashFile env fs p maxBytes).1.1 ∧
      (PartialHashFile env fs p numBytes).1.1 = env.sha256hex c ∧
      (PartialHashFile env fs p numBytes).1.2 = none ∧
      (HashFile env fs p maxBytes).1.2 = none) := by
  have h1 := PartialHashFile_of_file env fs p numBytes c hop hrp hp
  have h2 := PartialHashFile_of_file env fs2 q numBytes d hoq hrq hq
  refine ⟨h1, ?_, ?_, ?_⟩
  · rw [List.length_take]; exact Nat.min_comm _ _
  · intro hpre
    rw [h1, h2, hpre]
  · intro hs hlen hmax
    have h3 := HashFile_of_file env fs p maxBytes c hs hop hrp hp
    have h4 : hashOutcome env maxBytes c = env.sha256hex c := by
      unfold hashOutcome
      simp [not_lt.mpr hmax]
    rw [h1, h3, h4, List.take_of_length_le hlen]
    exact ⟨rfl, rfl, rfl, rfl⟩

/-- Two files of three bytes that differ in their last byte only have the
same partial hash over two bytes. -/
theorem C30_witness_same_start :
    (FS.lookup [("a", .file [1, 2, 3])] "a" = some (.file [1, 2, 3]) ∧
      FS.lookup [("b", .file [1, 2, 4])] "b" = some (.file [1, 2, 4]) ∧
      ([1, 2, 3] : List UInt8).take 2 = ([1, 2, 4] : List UInt8).take 2) ∧
    (PartialHashFile exEnv [("a", .file [1, 2, 3])] "a" 2).1
      = (PartialHashFile exEnv [("b", .file [1, 2, 4])] "b" 2).1 :=
  ⟨⟨by decide, by decide, by decide⟩,
    (C30_partial_hash_reads_the_start exEnv [("a", .file [1, 2, 3])] [("b", .file [1, 2, 4])]
      "a" "b" 2 0 [1, 2, 3] [1, 2, 4] rfl rfl rfl rfl (by decide) (by decide)).2.2.1
      (by decide)⟩

/-! ## The counters of a run without duplicate detection -/

theorem filter_mapped_split (fp : FileProcessor) (entries : List DirEntry) :
    (entries.filter (fun e => !e.IsDir && fp.mapped e)).length
      + (entries.filter (fun e => !e.IsDir && !fp.mapped e)).length
      = (entries.filter (fun e => !e.IsDir)).length := by
  induction entries with
  | nil => simp
  | cons x rest ih =>
    simp only [List.filter_cons]
    cases hd : x.IsDir <;> cases hm : fp.mapped x <;> simp <;> omega

/-- Claim C28. In a run without duplicate detection that is not cancelled,
started on fresh counters, `FilesMoved + UnknownExtensions = TotalFiles` and
`TotalFiles` is the number of non-directory entries, in every environment (so
whether or not the physical moves succeed); `FilesMoved` is the number of
regular files with a mapped extension, because `moveFileToFolder` returns no
error for a mapped extension. -/
theorem C28_counters_add_up (fp : FileProcessor) (env : Env) (sched : Sched)
    (folderPath : String) (w : World) (entries : List DirEntry)
    (hsched : ∀ e, sched.cancelAt e = false)
    (hfresh : w.stats.TotalFiles = 0 ∧ w.stats.FilesMoved = 0 ∧ w.stats.UnknownExtensions = 0) :
    (fp.processFilesWithoutDuplicates env sched folderPath w entries).2 = none ∧
    (fp.processFilesWithoutDuplicates env sched folderPath w entries).1.stats.TotalFiles
      = ((entries.filter (fun e => !e.IsDir)).length : Int) ∧
    (fp.processFilesWithoutDuplicates env sched folderPath w entries).1.stats.FilesMoved
      + (fp.processFilesWithoutDuplicates env sched folderPath w entries).1.stats.UnknownExtensions
      = (fp.processFilesWithoutDuplicates env sched folderPath w entries).1.stats.TotalFiles ∧
    (fp.processFilesWithoutDuplicates env sched folderPath w entries).1.stats.FilesMoved
      = ((entries.filter (fun e => !e.IsDir && fp.mapped e)).length : Int) ∧
    (∀ (w0 : World) (file : FileDetail) (t : String),
      List.lookup file.Ext fp.extConfig.ExtensionToFolder = some t →
      (fp.moveFileToFolder env w0 folderPath file fp.extConfig).2 = none) := by
  obtain ⟨h1, h2, h3, _⟩ := processFilesWithoutDuplicates_counts fp env sched folderPath
    hsched entries w
  obtain ⟨f1, f2, f3⟩ := hfresh
  have hsplit := filter_mapped_split fp entries
  refine ⟨processFilesWithoutDuplicates_no_error fp env sched folderPath hsched entries w,
    ?_, ?_, ?_, ?_⟩
  · rw [h1, f1]; simp
  · rw [h1, h2, h3, f1, f2, f3]
    have : (((entries.filter (fun e => !e.IsDir && fp.mapped e)).length
      + (entries.filter (fun e => !e.IsDir && !fp.mapped e)).length : Nat) : Int)
      = ((entries.filter (fun e => !e.IsDir)).length : Int) := by rw [hsplit]
    push_cast at this
    omega
  · rw [h2, f2]; simp
  · intro w0 file t hl
    exact moveFileToFolder_no_error fp env w0 folderPath file fp.extConfig t hl

/-- The run over the four files of the test, in an environment in which no
folder can be created and so no file is moved: three files are counted as
moved and one as unknown. -/
theorem C28_witness_failing_moves :
    ((∀ e, Sched.inOrder.cancelAt e = false) ∧
      (Stats.zero.TotalFiles = 0 ∧ Stats.zero.FilesMoved = 0 ∧
        Stats.zero.UnknownExtensions = 0)) ∧
    (exPlainProcessor.processFilesWithoutDuplicates exNoMkdirEnv Sched.inOrder "d"
        ⟨exMixedFS, Stats.zero, [], []⟩ exMixedEntries).1.stats.FilesMoved
      + (exPlainProcessor.processFilesWithoutDuplicates exNoMkdirEnv Sched.inOrder "d"
        ⟨exMixedFS, Stats.zero, [], []⟩ exMixedEntries).1.stats.UnknownExtensions
      = (exPlainProcessor.processFilesWithoutDuplicates exNoMkdirEnv Sched.inOrder "d"
        ⟨exMixedFS, Stats.zero, [], []⟩ exMixedEntries).1.stats.TotalFiles ∧
    (exPlainProcessor.processFilesWithoutDuplicates exNoMkdirEnv Sched.inOrder "d"
        ⟨exMixedFS, Stats.zero, [], []⟩ exMixedEntries).1.fs = exMixedFS :=
  ⟨⟨fun _ => rfl, rfl, rfl, rfl⟩,
    (C28_counters_add_up exPlainProcessor exNoMkdirEnv Sched.inOrder "d"
      ⟨exMixedFS, Stats.zero, [], []⟩ exMixedEntries (fun _ => rfl) ⟨rfl, rfl, rfl⟩).2.2.1,
    by decide⟩

/-! ## Cancellation -/

/-- A run without duplicate detection that meets the raised signal at an entry
ends in the state reached before that entry. -/
theorem processFilesWithoutDuplicates_cancel (fp : FileProcessor) (env : Env) (sched : Sched)
    (folderPath : String) (entry : DirEntry) (rest : List DirEntry)
    (hentry : sched.cancelAt entry = true) :
    ∀ (pre : List DirEntry) (w : World), (∀ e ∈ pre, sched.cancelAt e = false) →
      fp.processFilesWithoutDuplicates env sched folderPath w (pre ++ entry :: rest)
        = ((fp.processFilesWithoutDuplicates env sched folderPath w pre).1,
            some .canceled) := by
  intro pre
  induction pre with
  | nil =>
    intro w _
    rw [List.nil_append]
    conv_lhs => unfold FileProcessor.processFilesWithoutDuplicates
    simp only [hentry, if_true]
    rfl
  | cons e pre ih =>
    intro w hpre
    have he : sched.cancelAt e = false := hpre e (List.mem_cons_self _ _)
    have hrest : ∀ e0 ∈ pre, sched.cancelAt e0 = false :=
      fun e0 h0 => hpre e0 (List.mem_cons_of_mem _ h0)
    rw [List.cons_append]
    by_cases hd : e.IsDir = true
    · rw [processFilesWithoutDuplicates_dir fp env sched folderPath w e _ he hd,
        processFilesWithoutDuplicates_dir fp env sched folderPath w e _ he hd]
      exact ih w hrest
    · have hd2 : e.IsDir = false := by simpa using hd
      cases hl : List.lookup (ToLower (Ext e.Name)) fp.extConfig.ExtensionToFolder with
      | none =>
        rw [processFilesWithoutDuplicates_unknown fp env sched folderPath w e _ he hd2 hl,
          processFilesWithoutDuplicates_unknown fp env sched folderPath w e _ he hd2 hl]
        exact ih _ hrest
      | some t =>
        rw [processFilesWithoutDuplicates_mapped fp env sched folderPath w e _ t he hd2 hl,
          processFilesWithoutDuplicates_mapped fp env sched folderPath w e _ t he hd2 hl]
        exact ih _ hrest

/-- Claim C21. Without duplicate detection: if the signal is raised when an
entry is examined (and was not at the entries before it), the run returns the
cancellation error and its state is the state reached after the entries before
it, so that neither that entry nor a later one is counted or moved; at the
first entry nothing changes at all. With duplicate detection: a run that
returns the cancellation error has made no mover call and has left the file
system as it was, its state being that of the grouping. -/
theorem C21_cancellation_stops_the_run (fp : FileProcessor) (env : Env) (sched : Sched)
    (folderPath : String) (w : World) :
    (∀ (pre : List DirEntry) (entry : DirEntry) (rest : List DirEntry),
      (∀ e ∈ pre, sched.cancelAt e = false) → sched.cancelAt entry = true →
      fp.processFilesWithoutDuplicates env sched folderPath w (pre ++ entry :: rest)
        = ((fp.processFilesWithoutDuplicates env sched folderPath w pre).1,
            some .canceled)) ∧
    (∀ (entry : DirEntry) (rest : List DirEntry), sched.cancelAt entry = true →
      fp.processFilesWithoutDuplicates env sched folderPath w (entry :: rest)
        = (w, some .canceled)) ∧
    (∀ entries : List DirEntry,
      (fp.processFilesWithDuplicates env sched w folderPath entries).2 = some .canceled →
      (fp.buildGroups env sched w folderPath entries).cancelled = true ∧
      (fp.processFilesWithDuplicates env sched w folderPath entries).1
        = (fp.buildGroups env sched w folderPath entries).world ∧
      (fp.processFilesWithDuplicates env sched w folderPath entries).1.calls = w.calls ∧
      (fp.processFilesWithDuplicates env sched w folderPath entries).1.fs = w.fs) := by
  refine ⟨?_, ?_, ?_⟩
  · intro pre entry rest hpre hentry
    exact processFilesWithoutDuplicates_cancel fp env sched folderPath entry rest hentry pre w
      hpre
  · intro entry rest hentry
    exact processFilesWithoutDuplicates_cancel fp env sched folderPath entry rest hentry [] w
      (fun e he => by cases he)
  · intro entries hres
    have hworld := buildGroups_world fp env sched w folderPath entries
    unfold FileProcessor.processFilesWithDuplicates at hres ⊢
    simp only [] at hres ⊢
    by_cases hc : (fp.buildGroups env sched w folderPath entries).cancelled = true
    · rw [if_pos hc]
      exact ⟨hc, rfl, hworld.1, hworld.2⟩
    · rw [if_neg hc] at hres
      cases hres

set_option maxRecDepth 8000 in
/-- The signal raised at `image.jpg`: `document.pdf` is moved, and `image.jpg`,
`unknown.xyz` and `video.mp4` are neither counted nor moved. The signal raised
from the start of a run with duplicate detection on `a.txt`, `b.txt`, `c.txt`:
the run returns the cancellation error at the enqueue step and moves nothing. -/
theorem C21_witness_cancelled_runs :
    ((∀ e ∈ [(⟨"document.pdf", false⟩ : DirEntry)], exCancelAtImage.cancelAt e = false) ∧
      exCancelAtImage.cancelAt ⟨"image.jpg", false⟩ = true ∧
      (exProcessor.processFilesWithDuplicates exEnv exCancelled exHelloWorld "d"
        exHelloEntries).2 = some .canceled) ∧
    (exPlainProcessor.processFilesWithoutDuplicates exEnv exCancelAtImage "d"
        ⟨exMixedFS, Stats.zero, [], []⟩
        ([⟨"document.pdf", false⟩] ++ ⟨"image.jpg", false⟩ ::
          [⟨"unknown.xyz", false⟩, ⟨"video.mp4", false⟩])
      = ((exPlainProcessor.processFilesWithoutDuplicates exEnv exCancelAtImage "d"
          ⟨exMixedFS, Stats.zero, [], []⟩ [⟨"document.pdf", false⟩]).1, some .canceled)) ∧
    (exPlainProcessor.processFilesWithoutDuplicates exEnv exCancelAtImage "d"
        ⟨exMixedFS, Stats.zero, [], []⟩ exMixedEntries).1.calls
      = [.MoveFileToTargetFolder "d" "document.pdf" "PDFs"] ∧
    (exProcessor.processFilesWithDuplicates exEnv exCancelled exHelloWorld "d"
        exHelloEntries).1.fs = exHelloWorld.fs := by
  have h := C21_cancellation_stops_the_run exPlainProcessor exEnv exCancelAtImage "d"
    ⟨exMixedFS, Stats.zero, [], []⟩
  have h2 := (C21_cancellation_stops_the_run exProcessor exEnv exCancelled "d"
    exHelloWorld).2.2 exHelloEntries (by decide)
  exact ⟨⟨by decide, by decide, by decide⟩,
    h.1 [⟨"document.pdf", false⟩] ⟨"image.jpg", false⟩
      [⟨"unknown.xyz", false⟩, ⟨"video.mp4", false⟩] (by decide) (by decide),
    by decide, h2.2.2.2⟩

/-! ## `mergeWithDefaults` -/

theorem lookup_mapStore (k v q : String) (m : List (String × String)) :
    (mapStore k v m).lookup q = if q = k then some v else m.lookup q := by
  induction m with
  | nil =>
    by_cases h : q = k
    · subst h; simp [mapStore, List.lookup]
    · have hb : (q == k) = false := by rw [beq_eq_false_iff_ne]; exact h
      simp [mapStore, List.lookup, hb, h]
  | cons e rest ih =>
    obtain ⟨k0, v0⟩ := e
    unfold mapStore
    by_cases hk : k0 = k
    · subst hk
      rw [if_pos rfl]
      by_cases h : q = k0
      · subst h; simp [List.lookup]
      · have hb : (q == k0) = false := by rw [beq_eq_false_iff_ne]; exact h
        simp [List.lookup, hb, h]
    · rw [if_neg hk]
      by_cases hq : q = k0
      · subst hq
        simp [List.lookup, hk]
      · have hb : (q == k0) = false := by rw [beq_eq_false_iff_ne]; exact hq
        simp only [List.lookup, hb]
        exact ih

theorem lookup_none_of_not_mem_keys (m : List (String × String)) (q : String)
    (h : q ∉ m.map Prod.fst) : m.lookup q = none := by
  induction m with
  | nil => rfl
  | cons e rest ih =>
    obtain ⟨k0, v0⟩ := e
    simp only [List.map_cons, List.mem_cons, not_or] at h
    have hb : (q == k0) = false := by rw [beq_eq_false_iff_ne]; exact h.1
    simp only [List.lookup, hb]
    exact ih h.2

/-- Storing every entry of a map into another: the stored entries win. -/
theorem lookup_storeAll (q : String) :
    ∀ (src dst : List (String × String)), (src.map Prod.fst).Nodup →
      (storeAll src dst).lookup q
        = match src.lookup q with
          | some v => some v
          | none => dst.lookup q := by
  intro src
  induction src with
  | nil => intro dst _; rfl
  | cons e rest ih =>
    obtain ⟨k, v⟩ := e
    intro dst hnd
    rw [List.map_cons, List.nodup_cons] at hnd
    have hstep : storeAll ((k, v) :: rest) dst = storeAll rest (mapStore k v dst) := rfl
    rw [hstep, ih _ hnd.2, lookup_mapStore]
    by_cases hq : q = k
    · subst hq
      rw [lookup_none_of_not_mem_keys rest q hnd.1]
      simp [List.lookup]
    · have hb : (q == k) = false := by rw [beq_eq_false_iff_ne]; exact hq
      simp only [List.lookup, hb, if_neg hq]

set_option maxRecDepth 100000 in
/-- No extension is listed twice in the default mapping. -/
theorem DefaultExtensionConfig_keys_nodup :
    (DefaultExtensionConfig.ExtensionToFolder.map Prod.fst).Nodup := by
  decide

/-- Claim C24. For a user configuration whose map has each key once,
`mergeWithDefaults` returns a map in which an extension has the user's folder
if the user defines it, the default folder if only the defaults define it, and
no folder otherwise (so every default key and every user key is present); each
of the three special folder names is the user's value when it is not empty and
the default (`Archives-Extracted`, `Duplicates`, `PNGs`) when it is empty. -/
theorem C24_mergeWithDefaults (userConfig : ExtensionConfig)
    (hmap : (userConfig.ExtensionToFolder.map Prod.fst).Nodup) :
    (∀ ext, (mergeWithDefaults userConfig).ExtensionToFolder.lookup ext
      = match userConfig.ExtensionToFolder.lookup ext with
        | some folder => some folder
        | none => DefaultExtensionConfig.ExtensionToFolder.lookup ext) ∧
    (mergeWithDefaults userConfig).ArchiveExtractedFolder
      = (if userConfig.ArchiveExtractedFolder = "" then "Archives-Extracted"
         else userConfig.ArchiveExtractedFolder) ∧
    (mergeWithDefaults userConfig).DuplicatesFolder
      = (if userConfig.DuplicatesFolder = "" then "Duplicates"
         else userConfig.DuplicatesFolder) ∧
    (mergeWithDefaults userConfig).TransparentPNGFolder
      = (if userConfig.TransparentPNGFolder = "" then "PNGs"
         else userConfig.TransparentPNGFolder) := by
  refine ⟨?_, rfl, rfl, rfl⟩
  intro ext
  unfold mergeWithDefaults
  simp only []
  by_cases hlen : userConfig.ExtensionToFolder.length = 0
  · rw [if_pos hlen]
    have hnil : userConfig.ExtensionToFolder = [] := List.length_eq_zero.mp hlen
    rw [hnil]
    rfl
  · rw [if_neg hlen, lookup_storeAll ext _ _ hmap]
    cases hu : userConfig.ExtensionToFolder.lookup ext with
    | some v => rfl
    | none =>
      simp only []
      rw [lookup_storeAll ext _ _ DefaultExtensionConfig_keys_nodup]
      cases hd : DefaultExtensionConfig.ExtensionToFolder.lookup ext with
      | some v => rfl
      | none => rfl

set_option maxRecDepth 100000 in
/-- The user mapping of the tests: `.custom` is added, `.jpg` is overridden,
`.pdf` keeps its default folder, `MyArchives` is kept and the two empty special
names get their defaults. -/
theorem C24_witness_user_mapping :
    (exUserExtensionConfig.ExtensionToFolder.map Prod.fst).Nodup ∧
    (mergeWithDefaults exUserExtensionConfig).ExtensionToFolder.lookup ".custom"
      = (match exUserExtensionConfig.ExtensionToFolder.lookup ".custom" with
        | some folder => some folder
        | none => DefaultExtensionConfig.ExtensionToFolder.lookup ".custom") ∧
    (mergeWithDefaults exUserExtensionConfig).ExtensionToFolder.lookup ".custom"
      = some "CustomFolder" ∧
    (mergeWithDefaults exUserExtensionConfig).ExtensionToFolder.lookup ".jpg"
      = some "MyPictures" ∧
    (mergeWithDefaults exUserExtensionConfig).ExtensionToFolder.lookup ".pdf" = some "PDFs" ∧
    (mergeWithDefaults exUserExtensionConfig).ArchiveExtractedFolder = "MyArchives" ∧
    (mergeWithDefaults exUserExtensionConfig).DuplicatesFolder = "Duplicates" ∧
    (mergeWithDefaults exUserExtensionConfig).TransparentPNGFolder = "PNGs" :=
  ⟨by decide, (C24_mergeWithDefaults exUserExtensionConfig (by decide)).1 ".custom",
    by decide, by decide, by decide, by decide, by decide, by decide⟩

/-! ## The total of files -/

theorem members_appendTo {κ ν : Type} [DecidableEq κ] (k : κ) (v : ν) (m : List (κ × List ν)) :
    members (appendTo k v m) = members m + 1 := by
  induction m with
  | nil => simp [members, appendTo]
  | cons e rest ih =>
    obtain ⟨k0, vs⟩ := e
    unfold appendTo
    by_cases h0 : k0 = k
    · rw [if_pos h0]
      simp [members]
      omega
    · rw [if_neg h0]
      unfold members at ih ⊢
      simp only [List.map_cons, List.sum_cons, ih]
      omega

theorem members_perm {κ ν : Type} (m m2 : List (κ × List ν)) (h : m.Perm m2) :
    members m = members m2 := by
  unfold members
  exact (h.map _).sum_eq

theorem collectResults_total :
    ∀ (results : List (FileDetail × Option HashError)) (acc : Acc),
      (∀ res ∈ results, res.2 = none) →
      (collectResults acc results).world.stats.TotalFiles
        = acc.world.stats.TotalFiles + (results.length : Int) := by
  intro results
  induction results with
  | nil => intro acc _; simp [collectResults]
  | cons res rest ih =>
    intro acc hres
    unfold collectResults
    rw [List.foldl_cons]
    have h2 : res.2 = none := hres res (List.mem_cons_self _ _)
    have hrest : ∀ r ∈ rest, r.2 = none := fun r hr => hres r (List.mem_cons_of_mem _ hr)
    rw [h2]
    simp only []
    have := ih ({ acc with
        fileDetails := acc.fileDetails ++ [res.1],
        fileHashes := appendTo res.1.Hash res.1 acc.fileHashes,
        world := { acc.world with stats := acc.world.stats.IncrementTotalFiles } }) hrest
    unfold collectResults at this
    rw [this]
    simp only [Stats.IncrementTotalFiles, List.length_cons]
    push_cast
    ring

theorem partialGroupStep_total (env : Env) (sched : Sched) (folderPath : String)
    (maxBytes : Int) (size : Nat) (acc : Acc) (g : String × List DirEntry)
    (hfair : sched.Fair) (hc : acc.cancelled = false)
    (hhash : ∀ e ∈ g.2, (HashFile env acc.world.fs (Join folderPath e.Name) maxBytes).1.2 = none) :
    (partialGroupStep env sched folderPath maxBytes size acc g).world.stats.TotalFiles
      = acc.world.stats.TotalFiles + (g.2.length : Int) := by
  have hany : ∀ l : List DirEntry, l.any sched.cancelAt = false := by
    intro l
    rw [List.any_eq_false]
    intro e _
    simp [hfair.noCancel e]
  have hcollect : ∀ (w0 : World) (pGroup : List DirEntry), w0.fs = acc.world.fs →
      w0.stats = acc.world.stats → (∀ e ∈ pGroup, e ∈ g.2) →
      (collectResults ⟨acc.fileHashes, acc.fileDetails, w0, acc.cancelled⟩ (sched.arrival
        (pGroup.map (hashWorker env w0.fs folderPath maxBytes)))).world.stats.TotalFiles
        = acc.world.stats.TotalFiles + (pGroup.length : Int) := by
    intro w0 pGroup hfs hstats hsub
    rw [collectResults_total]
    · rw [(hfair.arrival _).length_eq, List.length_map]
      show w0.stats.TotalFiles + _ = _
      rw [hstats]
    · intro res hres
      have hres2 := (hfair.arrival _).mem_iff.mp hres
      rw [List.mem_map] at hres2
      obtain ⟨e, he, rfl⟩ := hres2
      show (HashFile env w0.fs (Join folderPath e.Name) maxBytes).1.2 = none
      rw [hfs]
      exact hhash e (hsub e he)
  have hrun : ¬ acc.cancelled = true := by rw [hc]; exact Bool.false_ne_true
  obtain ⟨ph, pg⟩ := g
  unfold partialGroupStep
  rw [if_neg hrun]
  rcases pg with _ | ⟨e1, _ | ⟨e2, more⟩⟩
  · simp only [hany, Bool.false_eq_true, if_false]
    exact hcollect _ [] rfl rfl (fun e he => he)
  · simp only []
    simp [Stats.IncrementTotalFiles]
  · simp only [hany, Bool.false_eq_true, if_false]
    exact hcollect _ (e1 :: e2 :: more) rfl rfl (fun e he => he)

theorem foldl_partialGroupStep_total (env : Env) (sched : Sched) (folderPath : String)
    (maxBytes : Int) (size : Nat) (fs : FS) (hfair : sched.Fair) :
    ∀ (gs : List (String × List DirEntry)) (acc : Acc), acc.cancelled = false →
      acc.world.fs = fs →
      (∀ g ∈ gs, ∀ e ∈ g.2, (HashFile env fs (Join folderPath e.Name) maxBytes).1.2 = none) →
      (gs.foldl (partialGroupStep env sched folderPath maxBytes size) acc).world.stats.TotalFiles
        = acc.world.stats.TotalFiles + (members gs : Int) := by
  intro gs
  induction gs with
  | nil => intro acc _ _ _; simp [members]
  | cons g rest ih =>
    intro acc hc hfs hhash
    rw [List.foldl_cons]
    have hstep := partialGroupStep_total env sched folderPath maxBytes size acc g hfair hc
      (by rw [hfs]; exact hhash g (List.mem_cons_self _ _))
    rw [ih _ (partialGroupStep_cancelled env sched folderPath maxBytes size acc g
        hfair.noCancel hc)
      ((partialGroupStep_world env sched folderPath maxBytes size acc g).2.trans hfs)
      (fun g0 hg0 => hhash g0 (List.mem_cons_of_mem _ hg0)), hstep]
    simp only [members, List.map_cons, List.sum_cons]
    push_cast
    ring

theorem groupByPartialHash_total (env : Env) (folderPath : String) (sz : Nat) (fs : FS) :
    ∀ (group : List DirEntry) (ph0 : List (String × List DirEntry)) (w : World),
      w.fs = fs →
      (∀ e ∈ group, (PartialHashFile env fs (Join folderPath e.Name) sz).1.2 = none) →
      members (groupByPartialHash env folderPath sz group (ph0, w)).1
        = members ph0 + group.length ∧
      (groupByPartialHash env folderPath sz group (ph0, w)).2.stats = w.stats := by
  intro group
  induction group with
  | nil => intro ph0 w _ _; exact ⟨rfl, rfl⟩
  | cons entry rest ih =>
    intro ph0 w hfs hok
    have h1 : (PartialHashFile env w.fs (Join folderPath entry.Name) sz).1.2 = none := by
      rw [hfs]; exact hok entry (List.mem_cons_self _ _)
    unfold groupByPartialHash
    simp only [h1]
    obtain ⟨i1, i2⟩ := ih (appendTo (PartialHashFile env w.fs (Join folderPath entry.Name) sz).1.1
      entry ph0)
      { w with log := w.log ++ (PartialHashFile env w.fs (Join folderPath entry.Name) sz).2 }
      hfs (fun e he => hok e (List.mem_cons_of_mem _ he))
    refine ⟨?_, i2⟩
    rw [i1, members_appendTo, List.length_cons]
    omega

theorem sizeGroupStep_total (env : Env) (sched : Sched) (folderPath : String)
    (maxBytes : Int) (acc : Acc) (g : Nat × List DirEntry)
    (hfair : sched.Fair) (hc : acc.cancelled = false)
    (hpart : ∀ e ∈ g.2,
      (PartialHashFile env acc.world.fs (Join folderPath e.Name) 4096).1.2 = none)
    (hhash : ∀ e ∈ g.2, (HashFile env acc.world.fs (Join folderPath e.Name) maxBytes).1.2 = none) :
    (sizeGroupStep env sched folderPath maxBytes acc g).world.stats.TotalFiles
      = acc.world.stats.TotalFiles + (g.2.length : Int) := by
  have hfold : ∀ (group : List DirEntry) (w0 : World), w0.fs = acc.world.fs →
      w0.stats = acc.world.stats → (∀ e ∈ group, e ∈ g.2) →
      ((sched.partialOrder (groupByPartialHash env folderPath 4096 group ([], w0)).1).foldl
        (partialGroupStep env sched folderPath maxBytes g.1)
        ⟨acc.fileHashes, acc.fileDetails,
          (groupByPartialHash env folderPath 4096 group ([], w0)).2,
          acc.cancelled⟩).world.stats.TotalFiles
        = acc.world.stats.TotalFiles + (group.length : Int) := by
    intro group w0 hfs hstats hsub
    obtain ⟨hm, hst⟩ := groupByPartialHash_total env folderPath 4096 acc.world.fs group [] w0
      hfs (fun e he => hpart e (hsub e he))
    have hfs2 := (groupByPartialHash_world env folderPath 4096 group [] w0).2
    have hall : ∀ p ∈ sched.partialOrder
        (groupByPartialHash env folderPath 4096 group ([], w0)).1, ∀ e ∈ p.2,
        (HashFile env acc.world.fs (Join folderPath e.Name) maxBytes).1.2 = none := by
      intro p hp e he
      have hp2 := (hfair.partialOrder _).mem_iff.mp hp
      rcases groupByPartialHash_mem env folderPath 4096 group [] w0 p hp2 e he
        with h1 | ⟨q, hq, _⟩
      · exact hhash e (hsub e h1)
      · cases hq
    have hf := foldl_partialGroupStep_total env sched folderPath maxBytes g.1 acc.world.fs
      hfair (sched.partialOrder (groupByPartialHash env folderPath 4096 group ([], w0)).1)
      ⟨acc.fileHashes, acc.fileDetails,
        (groupByPartialHash env folderPath 4096 group ([], w0)).2, acc.cancelled⟩
      hc (hfs2.trans hfs) hall
    rw [hf, members_perm _ _ (hfair.partialOrder _), hm]
    show (groupByPartialHash env folderPath 4096 group ([], w0)).2.stats.TotalFiles + _ = _
    rw [hst, hstats]
    simp [members]
  have hrun : ¬ acc.cancelled = true := by rw [hc]; exact Bool.false_ne_true
  obtain ⟨k, group⟩ := g
  unfold sizeGroupStep
  rw [if_neg hrun]
  rcases group with _ | ⟨e1, _ | ⟨e2, more⟩⟩
  · simp only []
    exact hfold [] _ rfl rfl (fun e he => he)
  · simp only []
    simp [Stats.IncrementTotalFiles]
  · simp only []
    exact hfold (e1 :: e2 :: more) _ rfl rfl (fun e he => he)

theorem foldl_sizeGroupStep_total (env : Env) (sched : Sched) (folderPath : String)
    (maxBytes : Int) (fs : FS) (hfair : sched.Fair) :
    ∀ (gs : List (Nat × List DirEntry)) (acc : Acc), acc.cancelled = false →
      acc.world.fs = fs →
      (∀ g ∈ gs, ∀ e ∈ g.2,
        (PartialHashFile env fs (Join folderPath e.Name) 4096).1.2 = none ∧
        (HashFile env fs (Join folderPath e.Name) maxBytes).1.2 = none) →
      (gs.foldl (sizeGroupStep env sched folderPath maxBytes) acc).world.stats.TotalFiles
        = acc.world.stats.TotalFiles + (members gs : Int) := by
  intro gs
  induction gs with
  | nil => intro acc _ _ _; simp [members]
  | cons g rest ih =>
    intro acc hc hfs hok
    rw [List.foldl_cons]
    have hg := hok g (List.mem_cons_self _ _)
    have hstep := sizeGroupStep_total env sched folderPath maxBytes acc g hfair hc
      (by rw [hfs]; exact fun e he => (hg e he).1) (by rw [hfs]; exact fun e he => (hg e he).2)
    rw [ih _ (sizeGroupStep_cancelled env sched folderPath maxBytes acc g hfair.noCancel hc)
      ((sizeGroupStep_world env sched folderPath maxBytes acc g).2.trans hfs)
      (fun g0 hg0 => hok g0 (List.mem_cons_of_mem _ hg0)), hstep]
    simp only [members, List.map_cons, List.sum_cons]
    push_cast
    ring

theorem groupBySize_total (env : Env) (folderPath : String) (fs : FS) :
    ∀ (entries : List DirEntry) (sg : List (Nat × List DirEntry)) (w : World), w.fs = fs →
      (∀ e ∈ entries, e.IsDir = false → statSize env fs folderPath e ≠ none) →
      members (groupBySize env folderPath entries (sg, w)).1
        = members sg + (entries.filter (fun e => !e.IsDir)).length ∧
      (groupBySize env folderPath entries (sg, w)).2.stats = w.stats := by
  intro entries
  induction entries with
  | nil => intro sg w _ _; exact ⟨rfl, rfl⟩
  | cons entry rest ih =>
    intro sg w hfs hok
    have hrest : ∀ e ∈ rest, e.IsDir = false → statSize env fs folderPath e ≠ none :=
      fun e he => hok e (List.mem_cons_of_mem _ he)
    unfold groupBySize
    by_cases hd : entry.IsDir = true
    · rw [if_pos hd]
      obtain ⟨i1, i2⟩ := ih sg w hfs hrest
      refine ⟨?_, i2⟩
      rw [i1]
      simp [hd]
    · rw [if_neg hd]
      have hd2 : entry.IsDir = false := by simpa using hd
      have hstat := hok entry (List.mem_cons_self _ _) hd2
      simp only []
      cases hs : osStat env w.fs (Join folderPath entry.Name) with
      | error e =>
        exfalso
        apply hstat
        unfold statSize
        rw [← hfs, hs]
      | ok info =>
        simp only []
        obtain ⟨i1, i2⟩ := ih (appendTo info.size entry sg) w hfs hrest
        refine ⟨?_, i2⟩
        rw [i1, members_appendTo]
        simp [hd2]
        omega

/-- The grouping counts every regular file of the listing once when no stat
and no hash fails. -/
theorem buildGroups_total (fp : FileProcessor) (env : Env) (sched : Sched) (w : World)
    (folderPath : String) (entries : List DirEntry) (hfair : sched.Fair)
    (hok : env.Hashes w.fs folderPath (maxBytesOf fp.config) entries) :
    (fp.buildGroups env sched w folderPath entries).world.stats.TotalFiles
      = w.stats.TotalFiles + ((entries.filter (fun e => !e.IsDir)).length : Int) := by
  unfold FileProcessor.buildGroups
  simp only []
  obtain ⟨hm, hst⟩ := groupBySize_total env folderPath w.fs entries []
    (w.logf .Debug "[DEBUG] Grouping files by size") rfl hok.stat
  obtain ⟨hlook, hnd⟩ := groupBySize_spec env folderPath entries []
    (w.logf .Debug "[DEBUG] Grouping files by size")
  have hnd2 := hnd (by simp)
  have hfs := (groupBySize_world env folderPath entries []
    (w.logf .Debug "[DEBUG] Grouping files by size")).2
  have hmem : ∀ g ∈ (groupBySize env folderPath entries ([],
      w.logf .Debug "[DEBUG] Grouping files by size")).1, ∀ e ∈ g.2,
      e ∈ entries ∧ e.IsDir = false := by
    intro g hg e he
    have h1 := lookup_of_mem_nodup _ g.1 g.2 hnd2 hg
    have h2 := hlook g.1
    rw [h1] at h2
    simp only [Option.getD_some, List.lookup, Option.getD_none, List.nil_append] at h2
    rw [h2] at he
    unfold regularOfSize at he
    have h3 := List.mem_filter.mp he
    refine ⟨h3.1, ?_⟩
    have h4 := h3.2
    simp only [Bool.and_eq_true, Bool.not_eq_true', decide_eq_true_eq] at h4
    exact h4.1
  have hall : ∀ g ∈ sched.sizeOrder (groupBySize env folderPath entries ([],
      w.logf .Debug "[DEBUG] Grouping files by size")).1, ∀ e ∈ g.2,
      (PartialHashFile env w.fs (Join folderPath e.Name) 4096).1.2 = none ∧
      (HashFile env w.fs (Join folderPath e.Name) (maxBytesOf fp.config)).1.2 = none := by
    intro g hg e he
    have hg2 := (hfair.sizeOrder _).mem_iff.mp hg
    obtain ⟨h1, h2⟩ := hmem g hg2 e he
    exact ⟨hok.partialHash e h1 h2, hok.fullHash e h1 h2⟩
  have hf := foldl_sizeGroupStep_total env sched folderPath (maxBytesOf fp.config) w.fs hfair
    (sched.sizeOrder (groupBySize env folderPath entries ([],
      w.logf .Debug "[DEBUG] Grouping files by size")).1)
    ⟨[], [], (groupBySize env folderPath entries ([],
      w.logf .Debug "[DEBUG] Grouping files by size")).2, false⟩ rfl hfs hall
  rw [hf, members_perm _ _ (hfair.sizeOrder _), hm]
  show (groupBySize env folderPath entries ([],
    w.logf .Debug "[DEBUG] Grouping files by size")).2.stats.TotalFiles + _ = _
  rw [hst]
  simp [members, World.logf]

theorem processDetail_total (fp : FileProcessor) (env : Env) (folderPath : String)
    (fileHashes : List (String × List FileDetail)) (st : GroupState) (detail : FileDetail) :
    (fp.processDetail env folderPath fileHashes st detail).world.stats.TotalFiles
      = st.world.stats.TotalFiles := by
  unfold FileProcessor.processDetail
  by_cases h1 : detail.Hash = ""
  · rw [if_pos h1]; rfl
  · rw [if_neg h1]
    by_cases h2 : detail.Hash ∈ st.processedHashes
    · rw [if_pos h2]
    · rw [if_neg h2]
      rcases hb : bucketOf fileHashes detail.Hash with _ | ⟨first, _ | ⟨second, more⟩⟩
      · rfl
      · simp only []
        by_cases hdo : fp.config.DuplicatesOnly = true
        · rw [if_pos hdo]
        · rw [if_neg hdo]
          cases hl : List.lookup first.Ext fp.extConfig.ExtensionToFolder with
          | none => rfl
          | some t =>
            exact (routeAndCount_stats_frame fp env st.world folderPath first t hl).2.1
      · simp only []
        have hdup := (moveDuplicates_other_stats env folderPath
          (chooseOriginal first (first :: second :: more)) (first :: second :: more) st.world).1
        by_cases hdo : fp.config.DuplicatesOnly = true
        · rw [if_pos hdo]; exact hdup
        · rw [if_neg hdo]
          cases hl : List.lookup (chooseOriginal first (first :: second :: more)).Ext
              fp.extConfig.ExtensionToFolder with
          | none => exact hdup
          | some t =>
            simp only []
            rw [(routeAndCount_stats_frame fp env _ folderPath _ t hl).2.1]
            exact hdup

theorem processFileGroups_total (fp : FileProcessor) (env : Env) (folderPath : String)
    (fileHashes : List (String × List FileDetail)) :
    ∀ (fileDetails : List FileDetail) (st : GroupState),
      (fileDetails.foldl (fp.processDetail env folderPath fileHashes) st).world.stats.TotalFiles
        = st.world.stats.TotalFiles := by
  intro fileDetails
  induction fileDetails with
  | nil => intro st; rfl
  | cons d rest ih =>
    intro st
    rw [List.foldl_cons, ih, processDetail_total]

/-- Claim C22. When the directory exists and is listed, the runtime does not
cancel, and (with duplicate detection) no stat, partial hash or full hash of a
regular file of the listing fails, the `TotalFiles` counter after
`ProcessDirectory` is its value before plus the number of non-directory
entries of the listing, with duplicate detection and without; directories add
nothing. -/
theorem C22_total_files_counts_regular_entries (fp : FileProcessor) (env : Env)
    (sched : Sched) (w : World) (folderPath : String) (entries : List DirEntry)
    (hdir : FolderExists env w.fs folderPath = true)
    (hlist : osReadDir env w.fs folderPath = .ok entries)
    (hfair : sched.Fair)
    (hok : fp.config.MoveDuplicates = true →
      env.Hashes w.fs folderPath (maxBytesOf fp.config) entries) :
    (fp.ProcessDirectory env sched w folderPath).2 = none ∧
    (fp.ProcessDirectory env sched w folderPath).1.stats.TotalFiles
      = w.stats.TotalFiles + ((entries.filter (fun e => !e.IsDir)).length : Int) := by
  unfold FileProcessor.ProcessDirectory
  rw [hdir, hlist]
  simp only [Bool.not_true, Bool.false_eq_true, if_false]
  unfold FileProcessor.processFiles
  by_cases hmd : fp.config.MoveDuplicates = true
  · rw [if_pos hmd]
    refine ⟨processFilesWithDuplicates_no_error fp env sched w folderPath entries
      hfair.noCancel, ?_⟩
    have hrun : ¬ (fp.buildGroups env sched w folderPath entries).cancelled = true := by
      rw [buildGroups_not_cancelled fp env sched w folderPath entries hfair.noCancel]
      exact Bool.false_ne_true
    unfold FileProcessor.processFilesWithDuplicates
    simp only []
    rw [if_neg hrun]
    unfold FileProcessor.processFileGroups
    rw [processFileGroups_total]
    exact buildGroups_total fp env sched w folderPath entries hfair (hok hmd)
  · rw [if_neg hmd]
    exact ⟨processFilesWithoutDuplicates_no_error fp env sched folderPath hfair.noCancel
      entries w,
      (processFilesWithoutDuplicates_counts fp env sched folderPath hfair.noCancel
        entries w).1⟩

set_option maxRecDepth 8000 in
/-- The directory with the folder `archive` and the file `archive.zip`, with
duplicate detection: one file is counted. -/
theorem C22_witness_folder_and_file :
    (FolderExists exEnv exZipFS "d" = true ∧
      osReadDir exEnv exZipFS "d" = .ok [⟨"archive", true⟩, ⟨"archive.zip", false⟩] ∧
      Sched.inOrder.Fair ∧
      exEnv.Hashes exZipFS "d" (maxBytesOf exProcessor.config)
        [⟨"archive", true⟩, ⟨"archive.zip", false⟩]) ∧
    (exProcessor.ProcessDirectory exEnv Sched.inOrder ⟨exZipFS, Stats.zero, [], []⟩
        "d").1.stats.TotalFiles
      = Stats.zero.TotalFiles
        + ((([⟨"archive", true⟩, ⟨"archive.zip", false⟩] : List DirEntry).filter
            (fun e => !e.IsDir)).length : Int) := by
  have hok : exEnv.Hashes exZipFS "d" (maxBytesOf exProcessor.config)
      [⟨"archive", true⟩, ⟨"archive.zip", false⟩] :=
    ⟨by decide, by decide, by decide⟩
  exact ⟨⟨by decide, rfl, Sched.inOrder_fair, hok⟩,
    (C22_total_files_counts_regular_entries exProcessor exEnv Sched.inOrder
      ⟨exZipFS, Stats.zero, [], []⟩ "d" [⟨"archive", true⟩, ⟨"archive.zip", false⟩]
      (by decide) rfl Sched.inOrder_fair (fun _ => hok)).2⟩

/-! ## One mover call for a file -/

theorem filter_name_le_one (l : List FileDetail) (name : String)
    (h : (l.map FileDetail.Name).Nodup) :
    (l.filter (fun f => decide (f.Name = name))).length ≤ 1 := by
  induction l with
  | nil => simp
  | cons x rest ih =>
    rw [List.map_cons, List.nodup_cons] at h
    rw [List.filter_cons]
    by_cases hx : x.Name = name
    · simp only [hx, decide_True, if_true, List.length_cons]
      have hnone : rest.filter (fun f => decide (f.Name = name)) = [] := by
        rw [List.filter_eq_nil_iff]
        intro f hf
        simp only [decide_eq_true_eq]
        intro hfn
        exact h.1 (by rw [hx, ← hfn]; exact List.mem_map_of_mem _ hf)
      rw [hnone]
      simp
    · simp only [hx, decide_False, Bool.false_eq_true, if_false]
      exact ih h.2

theorem callsFor_dupCalls (folderPath name : String) (original : FileDetail)
    (F : List FileDetail) :
    callsFor name (F.map (dupCall folderPath original))
      = (F.filter (fun f => decide (f.Name = name))).length := by
  unfold callsFor
  induction F with
  | nil => rfl
  | cons x rest ih =>
    simp only [List.map_cons, List.filter_cons]
    by_cases hx : x.Name = name
    · have h1 : Call.fileName (dupCall folderPath original x) = name := hx
      simp only [h1, hx, decide_True, if_true, List.length_cons, ih]
    · have h1 : ¬ Call.fileName (dupCall folderPath original x) = name := hx
      simp only [h1, hx, decide_False, Bool.false_eq_true, if_false, ih]

/-- The calls of one step of `processFileGroups` on a bucket whose members
have distinct names: at most one for a name, all for members of the bucket,
and none unless the digest becomes marked. -/
theorem processDetail_calls_once (fp : FileProcessor) (env : Env) (folderPath : String)
    (fileHashes : List (String × List FileDetail)) (st : GroupState) (detail : FileDetail)
    (hnames : ((bucketOf fileHashes detail.Hash).map FileDetail.Name).Nodup) :
    ∃ extra, (fp.processDetail env folderPath fileHashes st detail).world.calls
        = st.world.calls ++ extra ∧
      (∀ name, callsFor name extra ≤ 1) ∧
      (∀ c ∈ extra, ∃ f ∈ bucketOf fileHashes detail.Hash, Call.fileName c = f.Name) ∧
      ((extra = [] ∧ (fp.processDetail env folderPath fileHashes st detail).processedHashes
          = st.processedHashes) ∨
        (detail.Hash ∉ st.processedHashes ∧
          (fp.processDetail env folderPath fileHashes st detail).processedHashes
            = detail.Hash :: st.processedHashes)) := by
  have hzero : ∀ name, callsFor name ([] : List Call) ≤ 1 := fun _ => Nat.zero_le _
  unfold FileProcessor.processDetail
  by_cases h1 : detail.Hash = ""
  · rw [if_pos h1]
    exact ⟨[], by simp [World.logf], hzero, fun c hc => (by cases hc), Or.inl ⟨rfl, rfl⟩⟩
  · rw [if_neg h1]
    by_cases h2 : detail.Hash ∈ st.processedHashes
    · rw [if_pos h2]
      exact ⟨[], by simp, hzero, fun c hc => (by cases hc), Or.inl ⟨rfl, rfl⟩⟩
    · rw [if_neg h2]
      rcases hb : bucketOf fileHashes detail.Hash with _ | ⟨first, _ | ⟨second, more⟩⟩
      · exact ⟨[], by simp [World.logf], hzero, fun c hc => (by cases hc), Or.inl ⟨rfl, rfl⟩⟩
      · simp only []
        by_cases hdo : fp.config.DuplicatesOnly = true
        · rw [if_pos hdo]
          exact ⟨[], by simp, hzero, fun c hc => (by cases hc), Or.inl ⟨rfl, rfl⟩⟩
        · rw [if_neg hdo]
          cases hl : List.lookup first.Ext fp.extConfig.ExtensionToFolder with
          | none =>
            exact ⟨[], by simp [World.logf], hzero, fun c hc => (by cases hc),
              Or.inl ⟨rfl, rfl⟩⟩
          | some t =>
            obtain ⟨c, hc1, hc2, _⟩ := routeAndCount_one_call fp env st.world folderPath
              first t hl
            refine ⟨[c], hc1, ?_, ?_, Or.inr ⟨h2, rfl⟩⟩
            · intro name
              unfold callsFor
              exact (List.length_filter_le _ _).trans (by simp)
            · intro c0 hc0
              rw [List.mem_singleton.mp hc0]
              exact ⟨first, by simp, hc2⟩
      · simp only []
        rw [hb] at hnames
        have hmem := chooseOriginal_mem first (second :: more)
        have hspec := (moveDuplicates_spec env folderPath
          (chooseOriginal first (first :: second :: more)) (first :: second :: more) st.world).1
        generalize chooseOriginal first (first :: second :: more) = o at hmem hspec ⊢
        generalize hF : (first :: second :: more).filter
          (fun f => decide (f.Path ≠ o.Path)) = F at hspec
        have hFsub : ∀ f ∈ F, f ∈ first :: second :: more ∧ f.Path ≠ o.Path := by
          intro f hf
          rw [← hF, List.mem_filter] at hf
          exact ⟨hf.1, by simpa using hf.2⟩
        have hFnames : (F.map FileDetail.Name).Nodup := by
          rw [← hF]
          exact hnames.sublist ((List.filter_sublist _).map _)
        have hFo : (F.filter (fun f => decide (f.Name = o.Name))).length = 0 := by
          rw [List.length_eq_zero, List.filter_eq_nil_iff]
          intro f hf
          simp only [decide_eq_true_eq]
          intro hn
          have hfo : f = o := List.inj_on_of_nodup_map hnames (hFsub f hf).1 hmem hn
          exact (hFsub f hf).2 (by rw [hfo])
        have hdupone : ∀ name, callsFor name (F.map (dupCall folderPath o)) ≤ 1 := by
          intro name
          rw [callsFor_dupCalls]
          exact filter_name_le_one F name hFnames
        have hdupmem : ∀ c ∈ F.map (dupCall folderPath o),
            ∃ f ∈ first :: second :: more, Call.fileName c = f.Name := by
          intro c hc
          rw [List.mem_map] at hc
          obtain ⟨g, hg, rfl⟩ := hc
          exact ⟨g, (hFsub g hg).1, rfl⟩
        by_cases hdo : fp.config.DuplicatesOnly = true
        · rw [if_pos hdo]
          exact ⟨_, by simpa [World.logf] using hspec, hdupone, hdupmem, Or.inr ⟨h2, rfl⟩⟩
        · rw [if_neg hdo]
          cases hl : List.lookup o.Ext fp.extConfig.ExtensionToFolder with
          | none =>
            exact ⟨_, by simpa [World.logf] using hspec, hdupone, hdupmem, Or.inr ⟨h2, rfl⟩⟩
          | some t =>
            simp only []
            obtain ⟨c, hc1, hc2, _⟩ := routeAndCount_one_call fp env
              (moveDuplicates env folderPath o st.world (first :: second :: more)) folderPath
              o t hl
            refine ⟨F.map (dupCall folderPath o) ++ [c], ?_, ?_, ?_, Or.inr ⟨h2, trivial⟩⟩
            · rw [hc1, hspec, List.append_assoc]
            · intro name
              rw [callsFor_append]
              by_cases hn : name = o.Name
              · subst hn
                rw [callsFor_dupCalls, hFo]
                unfold callsFor
                exact (Nat.zero_add _).le.trans ((List.length_filter_le _ _).trans (by simp))
              · have hc0 : callsFor name [c] = 0 := by
                  apply callsFor_others
                  intro c0 hc0
                  rw [List.mem_singleton.mp hc0, hc2]
                  exact fun e => hn e.symm
                rw [hc0]
                exact hdupone name
            · intro c0 hc0
              rcases List.mem_append.mp hc0 with h | h
              · exact hdupmem c0 h
              · rw [List.mem_singleton.mp h]
                exact ⟨o, hmem, hc2⟩

/-- The table of a list of candidates, given by its entries: every entry lists
the candidates of its digest, every digest has an entry, no digest has two. -/
theorem bucketOf_eq_filter (l : List FileDetail) (fileHashes : List (String × List FileDetail))
    (hentries : ∀ p ∈ fileHashes, p.2 = l.filter (fun d => decide (d.Hash = p.1)))
    (hall : ∀ d ∈ l, d.Hash ∈ fileHashes.map Prod.fst)
    (hnd : (fileHashes.map Prod.fst).Nodup) :
    ∀ h, bucketOf fileHashes h = l.filter (fun d => decide (d.Hash = h)) := by
  intro h
  by_cases hk : h ∈ fileHashes.map Prod.fst
  · rw [List.mem_map] at hk
    obtain ⟨⟨k, b⟩, hp, rfl⟩ := hk
    unfold bucketOf
    rw [lookup_of_mem_nodup fileHashes k b hnd hp]
    exact hentries _ hp
  · have hnone : bucketOf fileHashes h = [] := by
      by_contra hne
      exact hk (List.mem_map.mpr ⟨_, bucketOf_mem fileHashes h hne, rfl⟩)
    rw [hnone]
    symm
    rw [List.filter_eq_nil_iff]
    intro d hd
    simp only [decide_eq_true_eq]
    intro hdh
    exact hk (by rw [← hdh]; exact hall d hd)

theorem foldl_processDetail_once_each (fp : FileProcessor) (env : Env) (folderPath : String)
    (fileHashes : List (String × List FileDetail)) (l : List FileDetail) (name : String)
    (base : Nat)
    (hkeys : ∀ h, bucketOf fileHashes h = l.filter (fun d => decide (d.Hash = h)))
    (hnames : (l.map FileDetail.Name).Nodup) :
    ∀ (ds : List FileDetail) (st : GroupState),
      (callsFor name st.world.calls ≤ base + 1 ∧
        ((∀ f ∈ l, f.Name = name → f.Hash ∉ st.processedHashes) →
          callsFor name st.world.calls = base)) →
      callsFor name (ds.foldl (fp.processDetail env folderPath fileHashes) st).world.calls
        ≤ base + 1 := by
  intro ds
  induction ds with
  | nil => intro st h; exact h.1
  | cons d rest ih =>
    intro st hinv
    rw [List.foldl_cons]
    apply ih
    have hbn : ((bucketOf fileHashes d.Hash).map FileDetail.Name).Nodup := by
      rw [hkeys]
      exact hnames.sublist ((List.filter_sublist _).map _)
    obtain ⟨extra, he1, he2, he3, he4⟩ := processDetail_calls_once fp env folderPath
      fileHashes st d hbn
    rw [he1, callsFor_append]
    rcases he4 with ⟨hnil, hP⟩ | ⟨hnew, hP⟩
    · rw [hnil, hP]
      simpa [callsFor] using hinv
    · rw [hP]
      by_cases hmem : ∃ f ∈ bucketOf fileHashes d.Hash, f.Name = name
      · obtain ⟨f, hf, hfn⟩ := hmem
        rw [hkeys, List.mem_filter] at hf
        have hfh : f.Hash = d.Hash := by simpa using hf.2
        have hbase : callsFor name st.world.calls = base := by
          apply hinv.2
          intro f2 hf2 hf2n
          have : f2 = f := List.inj_on_of_nodup_map hnames hf2 hf.1 (hf2n.trans hfn.symm)
          rw [this, hfh]
          exact hnew
        refine ⟨?_, ?_⟩
        · rw [hbase]
          have := he2 name
          omega
        · intro hall
          exfalso
          exact hall f hf.1 hfn (by rw [hfh]; exact List.mem_cons_self _ _)
      · have hzero : callsFor name extra = 0 := by
          apply callsFor_others
          intro c hc hcn
          obtain ⟨f, hf, hfn⟩ := he3 c hc
          exact hmem ⟨f, hf, hfn.symm.trans hcn⟩
        rw [hzero]
        refine ⟨hinv.1, ?_⟩
        intro hall
        apply hinv.2
        intro f hf hfn hfp
        exact hall f hf hfn (List.mem_cons_of_mem _ hfp)

/-- Claim C29. Let the candidates have pairwise distinct paths, each the join
of the folder and the name, and let every bucket list the candidates of its
digest. Then a run of `processFileGroups` adds at most one mover call for any
file name, so that no file is handed to two movers or twice to one, and none is
both moved as a duplicate and routed; a step on a candidate whose digest is
marked in `processedHashes` changes nothing, and a step that adds a mover call
marks the digest. -/
theorem C29_at_most_one_mover_call (fp : FileProcessor) (env : Env) (w : World)
    (folderPath : String) (fileDetails : List FileDetail)
    (fileHashes : List (String × List FileDetail))
    (hkeys : ∀ h, bucketOf fileHashes h = fileDetails.filter (fun d => decide (d.Hash = h)))
    (hpaths : (fileDetails.map FileDetail.Path).Nodup)
    (hjoin : ∀ d ∈ fileDetails, d.Path = Join folderPath d.Name) :
    (∀ name, callsFor name (fp.processFileGroups env w folderPath fileDetails fileHashes).calls
      ≤ callsFor name w.calls + 1) ∧
    (∀ (st : GroupState) (d : FileDetail), d.Hash ≠ "" → d.Hash ∈ st.processedHashes →
      fp.processDetail env folderPath fileHashes st d = st) ∧
    (∀ (st : GroupState) (d : FileDetail),
      (fp.processDetail env folderPath fileHashes st d).world.calls ≠ st.world.calls →
      d.Hash ∉ st.processedHashes ∧
      d.Hash ∈ (fp.processDetail env folderPath fileHashes st d).processedHashes) := by
  have hnames : (fileDetails.map FileDetail.Name).Nodup := by
    have hmap : fileDetails.map FileDetail.Path
        = (fileDetails.map FileDetail.Name).map (Join folderPath) := by
      rw [List.map_map]
      apply List.map_congr_left
      intro d hd
      exact hjoin d hd
    rw [hmap] at hpaths
    exact hpaths.of_map _
  refine ⟨?_, ?_, ?_⟩
  · intro name
    unfold FileProcessor.processFileGroups
    exact foldl_processDetail_once_each fp env folderPath fileHashes fileDetails name
      (callsFor name w.calls) hkeys hnames fileDetails ⟨w, []⟩
      ⟨Nat.le_succ _, fun _ => rfl⟩
  · intro st d h1 h2
    exact processDetail_processed fp env folderPath fileHashes st d h1 h2
  · intro st d hne
    have hbn : ((bucketOf fileHashes d.Hash).map FileDetail.Name).Nodup := by
      rw [hkeys]
      exact hnames.sublist ((List.filter_sublist _).map _)
    obtain ⟨extra, he1, _, _, he4⟩ := processDetail_calls_once fp env folderPath
      fileHashes st d hbn
    rcases he4 with ⟨hnil, _⟩ | ⟨hnew, hP⟩
    · exfalso
      apply hne
      rw [he1, hnil, List.append_nil]
    · exact ⟨hnew, by rw [hP]; exact List.mem_cons_self _ _⟩

/-- The run on `a.txt`, `b.txt` (same bytes) and `c.txt`: `a.txt` is routed
once, `b.txt` is moved as a duplicate once, and neither gets a second call. -/
theorem C29_witness_hello :
    ((∀ h, bucketOf [(plainDigest exHello, [exDetailA, exDetailB]),
          (plainDigest exWorld, [exDetailC])] h
        = [exDetailA, exDetailB, exDetailC].filter (fun d => decide (d.Hash = h))) ∧
      ([exDetailA, exDetailB, exDetailC].map FileDetail.Path).Nodup ∧
      (∀ d ∈ [exDetailA, exDetailB, exDetailC], d.Path = Join "d" d.Name)) ∧
    (∀ name, callsFor name (exProcessor.processFileGroups exEnv exHelloWorld "d"
        [exDetailA, exDetailB, exDetailC]
        [(plainDigest exHello, [exDetailA, exDetailB]),
          (plainDigest exWorld, [exDetailC])]).calls
      ≤ callsFor name exHelloWorld.calls + 1) ∧
    (exProcessor.processFileGroups exEnv exHelloWorld "d"
        [exDetailA, exDetailB, exDetailC]
        [(plainDigest exHello, [exDetailA, exDetailB]),
          (plainDigest exWorld, [exDetailC])]).calls
      = [.MoveDuplicateFile "d" "b.txt" "d/a.txt",
         .MoveFileToTargetFolder "d" "a.txt" "Documents",
         .MoveFileToTargetFolder "d" "c.txt" "Documents"] := by
  have hkeys := bucketOf_eq_filter [exDetailA, exDetailB, exDetailC]
    [(plainDigest exHello, [exDetailA, exDetailB]), (plainDigest exWorld, [exDetailC])]
    (by decide) (by decide) (by decide)
  exact ⟨⟨hkeys, by decide, by decide⟩,
    (C29_at_most_one_mover_call exProcessor exEnv exHelloWorld "d"
      [exDetailA, exDetailB, exDetailC]
      [(plainDigest exHello, [exDetailA, exDetailB]), (plainDigest exWorld, [exDetailC])]
      hkeys (by decide) (by decide)).1,
    by decide⟩

/-! ## The order of the members of a bucket -/

/-- Collecting the results appends every error-free result to the bucket of
its digest and to the candidates, in the order of the results. -/
theorem collectResults_tables :
    ∀ (results : List (FileDetail × Option HashError)) (acc : Acc),
      (∀ h, bucketOf (collectResults acc results).fileHashes h
        = bucketOf acc.fileHashes h ++ arrived results h) ∧
      (collectResults acc results).fileDetails = acc.fileDetails ++ delivered results := by
  intro results
  induction results with
  | nil => intro acc; exact ⟨fun h => by simp [collectResults, arrived], by simp [collectResults, delivered]⟩
  | cons res rest ih =>
    intro acc
    unfold collectResults
    rw [List.foldl_cons]
    cases h2 : res.2 with
    | some err =>
      simp only []
      obtain ⟨i1, i2⟩ := ih ({ acc with world :=
        ({ acc.world with stats := acc.world.stats.IncrementErrors }.logf .Error
          "Failed to hash file %s: %v") })
      unfold collectResults at i1 i2
      refine ⟨fun h => ?_, ?_⟩
      · rw [i1 h]
        simp [arrived, List.filter_cons, h2]
      · rw [i2]
        simp [delivered, List.filter_cons, h2]
    | none =>
      simp only []
      obtain ⟨i1, i2⟩ := ih ({ acc with
        fileDetails := acc.fileDetails ++ [res.1],
        fileHashes := appendTo res.1.Hash res.1 acc.fileHashes,
        world := { acc.world with stats := acc.world.stats.IncrementTotalFiles } })
      unfold collectResults at i1 i2
      refine ⟨fun h => ?_, ?_⟩
      · rw [i1 h]
        show bucketOf (appendTo res.1.Hash res.1 acc.fileHashes) h ++ _ = _
        rw [bucketOf_appendTo]
        by_cases hh : res.1.Hash = h
        · rw [if_pos hh]
          simp [arrived, List.filter_cons, h2, hh]
        · rw [if_neg hh]
          simp [arrived, List.filter_cons, h2, hh]
      · rw [i2]
        simp [delivered, List.filter_cons, h2]

/-- The tables after the step on a partial-hash group of two files or more. -/
theorem partialGroupStep_tables (env : Env) (sched : Sched) (folderPath : String)
    (maxBytes : Int) (size : Nat) (acc : Acc) (ph : String) (e1 e2 : DirEntry)
    (more : List DirEntry) (hc : acc.cancelled = false)
    (hsched : ∀ e, sched.cancelAt e = false) :
    (∀ h, bucketOf (partialGroupStep env sched folderPath maxBytes size acc
        (ph, e1 :: e2 :: more)).fileHashes h
      = bucketOf acc.fileHashes h ++ arrived (sched.arrival
          ((e1 :: e2 :: more).map (hashWorker env acc.world.fs folderPath maxBytes))) h) ∧
    (partialGroupStep env sched folderPath maxBytes size acc
        (ph, e1 :: e2 :: more)).fileDetails
      = acc.fileDetails ++ delivered (sched.arrival
          ((e1 :: e2 :: more).map (hashWorker env acc.world.fs folderPath maxBytes))) := by
  have hany : ∀ l : List DirEntry, l.any sched.cancelAt = false := by
    intro l
    rw [List.any_eq_false]
    intro e _
    simp [hsched e]
  have hrun : ¬ acc.cancelled = true := by rw [hc]; exact Bool.false_ne_true
  unfold partialGroupStep
  rw [if_neg hrun]
  simp only [hany, Bool.false_eq_true, if_false]
  exact collectResults_tables _ _

theorem arrived_names_sublist (env : Env) (fs : FS) (folderPath : String) (maxBytes : Int)
    (pg : List DirEntry) (h : String) :
    ((arrived (pg.map (hashWorker env fs folderPath maxBytes)) h).map FileDetail.Name).Sublist
      (pg.map DirEntry.Name) := by
  unfold arrived
  have h1 : pg.map DirEntry.Name
      = ((pg.map (hashWorker env fs folderPath maxBytes)).map Prod.fst).map FileDetail.Name := by
    rw [List.map_map, List.map_map]
    rfl
  rw [h1]
  exact ((List.filter_sublist _).map _).map _

theorem exReverseArrival_fair : exReverseArrival.Fair :=
  ⟨fun _ => List.Perm.refl _, fun _ => List.Perm.refl _, fun l => List.reverse_perm l,
    fun _ => rfl⟩

set_option maxRecDepth 8000 in
/-- Claim C26 as stated fails. In the directory of `a.txt` and `b.txt` (same
bytes, names of the same length) and `c.txt`, when the result for `b.txt`
arrives before that for `a.txt`, the bucket is `[b.txt, a.txt]`, not in the
order of the listing, and the original is `b.txt`; when the results arrive in
the order of the jobs the original is `a.txt`. -/
theorem C26_counterexample_reverse_arrival :
    exReverseArrival.Fair ∧
    osReadDir exEnv exHelloFS "d" = .ok exHelloEntries ∧
    bucketOf (exProcessor.buildGroups exEnv exReverseArrival exHelloWorld "d"
        exHelloEntries).fileHashes (plainDigest exHello) = [exDetailB, exDetailA] ∧
    (exProcessor.ProcessDirectory exEnv exReverseArrival exHelloWorld "d").1.calls
      = [.MoveDuplicateFile "d" "a.txt" "d/b.txt",
         .MoveFileToTargetFolder "d" "b.txt" "Documents"] ∧
    (exProcessor.ProcessDirectory exEnv Sched.inOrder exHelloWorld "d").1.calls
      = [.MoveDuplicateFile "d" "b.txt" "d/a.txt",
         .MoveFileToTargetFolder "d" "a.txt" "Documents"] :=
  ⟨exReverseArrival_fair, rfl, by decide, by decide, by decide⟩

/-- Claim C26, amended. The step on a partial-hash group of two files or more
(no cancellation) appends to the bucket of every digest the error-free results
of that digest in the order in which they arrive. If the results arrive in the
order of the jobs, the names of a bucket that was empty before follow the order
of the group, which is that of the listing. Whatever the order, when the bucket
then has two members or more, the chosen original is the first of its members
with a name of least length: the members before it have strictly longer
names. -/
theorem C26_buckets_follow_arrival_order (env : Env) (sched : Sched) (folderPath : String)
    (maxBytes : Int) (size : Nat) (acc : Acc) (ph : String) (e1 e2 : DirEntry)
    (more : List DirEntry) (hc : acc.cancelled = false)
    (hsched : ∀ e, sched.cancelAt e = false) :
    (∀ h, bucketOf (partialGroupStep env sched folderPath maxBytes size acc
        (ph, e1 :: e2 :: more)).fileHashes h
      = bucketOf acc.fileHashes h ++ arrived (sched.arrival
          ((e1 :: e2 :: more).map (hashWorker env acc.world.fs folderPath maxBytes))) h) ∧
    ((∀ l, sched.arrival l = l) → ∀ h, bucketOf acc.fileHashes h = [] →
      ((bucketOf (partialGroupStep env sched folderPath maxBytes size acc
        (ph, e1 :: e2 :: more)).fileHashes h).map FileDetail.Name).Sublist
        ((e1 :: e2 :: more).map DirEntry.Name)) ∧
    (∀ h first second rest,
      bucketOf (partialGroupStep env sched folderPath maxBytes size acc
        (ph, e1 :: e2 :: more)).fileHashes h = first :: second :: rest →
      ∃ pre post,
        first :: second :: rest
          = pre ++ chooseOriginal first (first :: second :: rest) :: post ∧
        (∀ f ∈ pre,
          len (chooseOriginal first (first :: second :: rest)).Name < len f.Name) ∧
        (∀ f ∈ post,
          len (chooseOriginal first (first :: second :: rest)).Name ≤ len f.Name)) := by
  have htab := (partialGroupStep_tables env sched folderPath maxBytes size acc ph e1 e2 more
    hc hsched).1
  refine ⟨htab, ?_, ?_⟩
  · intro hid h hempty
    rw [htab h, hempty, hid, List.nil_append]
    exact arrived_names_sublist env acc.world.fs folderPath maxBytes (e1 :: e2 :: more) h
  · intro h first second rest _
    exact chooseOriginal_split first (second :: rest)

set_option maxRecDepth 8000 in
/-- The group of `a.txt` and `b.txt` under the runtime that delivers the
results in reverse: the bucket of their digest is `[b.txt, a.txt]`. -/
theorem C26_witness_reverse_bucket :
    ((⟨[], [], exHelloWorld, false⟩ : Acc).cancelled = false ∧
      (∀ e, exReverseArrival.cancelAt e = false)) ∧
    bucketOf (partialGroupStep exEnv exReverseArrival "d" 1024 5 ⟨[], [], exHelloWorld, false⟩
        ("", [⟨"a.txt", false⟩, ⟨"b.txt", false⟩])).fileHashes (plainDigest exHello)
      = bucketOf [] (plainDigest exHello) ++ arrived (exReverseArrival.arrival
          ([(⟨"a.txt", false⟩ : DirEntry), ⟨"b.txt", false⟩].map
            (hashWorker exEnv exHelloWorld.fs "d" 1024))) (plainDigest exHello) ∧
    bucketOf (partialGroupStep exEnv exReverseArrival "d" 1024 5 ⟨[], [], exHelloWorld, false⟩
        ("", [⟨"a.txt", false⟩, ⟨"b.txt", false⟩])).fileHashes (plainDigest exHello)
      = [exDetailB, exDetailA] :=
  ⟨⟨rfl, fun _ => rfl⟩,
    (C26_buckets_follow_arrival_order exEnv exReverseArrival "d" 1024 5
      ⟨[], [], exHelloWorld, false⟩ "" ⟨"a.txt", false⟩ ⟨"b.txt", false⟩ [] rfl
      (fun _ => rfl)).1 (plainDigest exHello),
    by decide⟩

/-! ## Independence of the arrival order -/

theorem arrived_perm (results results2 : List (FileDetail × Option HashError)) (h : String)
    (hperm : results2.Perm results) : (arrived results2 h).Perm (arrived results h) := by
  unfold arrived
  exact (hperm.filter _).map _

theorem delivered_perm (results results2 : List (FileDetail × Option HashError))
    (hperm : results2.Perm results) : (delivered results2).Perm (delivered results) := by
  unfold delivered
  exact (hperm.filter _).map _

/-- The duplicates counter after a step of `processFileGroups` on a bucket
whose members have distinct paths: the step either marks the digest and adds
the duplicates of its bucket, or changes neither the counter nor the marks, the
bucket then having no duplicates or being marked already. -/
theorem processDetail_duplicatesMoved (fp : FileProcessor) (env : Env) (folderPath : String)
    (fileHashes : List (String × List FileDetail)) (st : GroupState) (detail : FileDetail)
    (hpaths : ((bucketOf fileHashes detail.Hash).map FileDetail.Path).Nodup) :
    ((fp.processDetail env folderPath fileHashes st detail).world.stats.DuplicatesMoved
        = st.world.stats.DuplicatesMoved + (duplicatesOf fileHashes detail.Hash : Int) ∧
      detail.Hash ∉ st.processedHashes ∧
      (fp.processDetail env folderPath fileHashes st detail).processedHashes
        = detail.Hash :: st.processedHashes) ∨
    ((fp.processDetail env folderPath fileHashes st detail).world.stats.DuplicatesMoved
        = st.world.stats.DuplicatesMoved ∧
      (fp.processDetail env folderPath fileHashes st detail).processedHashes
        = st.processedHashes ∧
      (duplicatesOf fileHashes detail.Hash = 0 ∨ detail.Hash ∈ st.processedHashes)) := by
  unfold FileProcessor.processDetail
  by_cases h1 : detail.Hash = ""
  · rw [if_pos h1]
    exact Or.inr ⟨rfl, rfl, Or.inl (by simp [duplicatesOf, h1])⟩
  · rw [if_neg h1]
    by_cases h2 : detail.Hash ∈ st.processedHashes
    · rw [if_pos h2]
      exact Or.inr ⟨rfl, rfl, Or.inr h2⟩
    · rw [if_neg h2]
      rcases hb : bucketOf fileHashes detail.Hash with _ | ⟨first, _ | ⟨second, more⟩⟩
      · exact Or.inr ⟨rfl, rfl, Or.inl (by simp [duplicatesOf, h1, hb])⟩
      · have hzero : duplicatesOf fileHashes detail.Hash = 0 := by
          simp [duplicatesOf, h1, hb]
        simp only []
        by_cases hdo : fp.config.DuplicatesOnly = true
        · rw [if_pos hdo]
          exact Or.inr ⟨rfl, rfl, Or.inl hzero⟩
        · rw [if_neg hdo]
          cases hl : List.lookup first.Ext fp.extConfig.ExtensionToFolder with
          | none => exact Or.inr ⟨rfl, rfl, Or.inl hzero⟩
          | some t =>
            obtain ⟨_, _, _, hdm⟩ := routeAndCount_frame fp env st.world folderPath first
            refine Or.inl ⟨?_, h2, rfl⟩
            rw [hzero]
            simpa using hdm
      · rw [hb] at hpaths
        have hcount : duplicatesOf fileHashes detail.Hash = more.length + 1 := by
          simp [duplicatesOf, h1, hb]
        obtain ⟨pre, post, hsplit, _, _⟩ := chooseOriginal_split first (second :: more)
        have hspec := (moveDuplicates_spec env folderPath
          (chooseOriginal first (first :: second :: more)) (first :: second :: more)
          st.world).2.1
        have hlen : ((first :: second :: more).filter (fun f =>
            decide (f.Path ≠ (chooseOriginal first (first :: second :: more)).Path))).length
            = more.length + 1 := by
          have hnd := hpaths
          rw [hsplit] at hnd
          have hfil := (filter_path_ne_of_nodup pre post _ hnd).1
          rw [← hsplit] at hfil
          rw [hfil]
          have hl2 := congrArg List.length hsplit
          simp only [List.length_cons, List.length_append] at hl2 ⊢
          omega
        rw [hlen] at hspec
        simp only []
        generalize chooseOriginal first (first :: second :: more) = o at hspec ⊢
        by_cases hdo : fp.config.DuplicatesOnly = true
        · rw [if_pos hdo]
          refine Or.inl ⟨?_, h2, rfl⟩
          rw [hcount]
          simpa [World.logf] using hspec
        · rw [if_neg hdo]
          cases hl : List.lookup o.Ext fp.extConfig.ExtensionToFolder with
          | none =>
            refine Or.inl ⟨?_, h2, rfl⟩
            rw [hcount]
            simpa [World.logf, Stats.IncrementUnknownExtensions] using hspec
          | some t =>
            simp only []
            obtain ⟨_, _, _, hdm⟩ := routeAndCount_frame fp env
              (moveDuplicates env folderPath o st.world (first :: second :: more)) folderPath o
            refine Or.inl ⟨?_, h2, trivial⟩
            rw [hcount, hdm]
            exact hspec

theorem sum_insert_sdiff_of_not_mem (g : String → Nat) (h : String) (S P : Finset String)
    (hP : h ∉ P) :
    (insert h S \ P).sum g = g h + (S \ insert h P).sum g := by
  have h1 : insert h S \ P = insert h (S \ insert h P) := by
    ext x
    simp only [Finset.mem_sdiff, Finset.mem_insert]
    constructor
    · rintro ⟨hx | hx, hxP⟩
      · exact Or.inl hx
      · by_cases hxh : x = h
        · exact Or.inl hxh
        · exact Or.inr ⟨hx, fun hc => hc.elim hxh hxP⟩
    · rintro (hx | ⟨hx, hxP⟩)
      · exact ⟨Or.inl hx, by rw [hx]; exact hP⟩
      · exact ⟨Or.inr hx, fun hc => hxP (Or.inr hc)⟩
  have h2 : h ∉ S \ insert h P := by
    simp [Finset.mem_sdiff]
  rw [h1, Finset.sum_insert h2]

theorem sum_insert_sdiff_of_zero (g : String → Nat) (h : String) (S P : Finset String)
    (hz : g h = 0 ∨ h ∈ P) :
    (insert h S \ P).sum g = (S \ P).sum g := by
  by_cases hP : h ∈ P
  · have h1 : insert h S \ P = S \ P := by
      ext x
      simp only [Finset.mem_sdiff, Finset.mem_insert]
      constructor
      · rintro ⟨hx | hx, hxP⟩
        · exact absurd (hx ▸ hP) hxP
        · exact ⟨hx, hxP⟩
      · rintro ⟨hx, hxP⟩
        exact ⟨Or.inr hx, hxP⟩
    rw [h1]
  · have hg : g h = 0 := hz.resolve_right hP
    have h1 : insert h S \ P = insert h (S \ P) := by
      ext x
      simp only [Finset.mem_sdiff, Finset.mem_insert]
      constructor
      · rintro ⟨hx | hx, hxP⟩
        · exact Or.inl hx
        · exact Or.inr ⟨hx, hxP⟩
      · rintro (hx | ⟨hx, hxP⟩)
        · exact ⟨Or.inl hx, by rw [hx]; exact hP⟩
        · exact ⟨Or.inr hx, hxP⟩
    rw [h1, Finset.sum_insert_zero hg]

/-- The duplicates counter after a run of `processFileGroups` over buckets
whose members have distinct paths: the sum, over the digests of the candidates
that are not marked yet, of the duplicates of their buckets. -/
theorem foldl_processDetail_duplicatesMoved (fp : FileProcessor) (env : Env)
    (folderPath : String) (fileHashes : List (String × List FileDetail))
    (hpaths : ∀ h, ((bucketOf fileHashes h).map FileDetail.Path).Nodup) :
    ∀ (l : List FileDetail) (st : GroupState),
      (l.foldl (fp.processDetail env folderPath fileHashes) st).world.stats.DuplicatesMoved
        = st.world.stats.DuplicatesMoved
          + ((((l.map FileDetail.Hash).toFinset \ st.processedHashes.toFinset).sum
              (duplicatesOf fileHashes) : Nat) : Int) := by
  intro l
  induction l with
  | nil => intro st; simp
  | cons d rest ih =>
    intro st
    rw [List.foldl_cons, ih, List.map_cons, List.toFinset_cons]
    rcases processDetail_duplicatesMoved fp env folderPath fileHashes st d (hpaths d.Hash)
      with ⟨h1, h2, h3⟩ | ⟨h1, h2, h3⟩
    · rw [h1, h3, List.toFinset_cons,
        sum_insert_sdiff_of_not_mem _ _ _ _ (by simpa using h2)]
      push_cast
      ring
    · rw [h1, h2, sum_insert_sdiff_of_zero _ _ _ _ (by simpa using h3)]

theorem bucketOf_paths_nodup (fileHashes : List (String × List FileDetail))
    (hpaths : ∀ p ∈ fileHashes, (p.2.map FileDetail.Path).Nodup) :
    ∀ h, ((bucketOf fileHashes h).map FileDetail.Path).Nodup := by
  intro h
  by_cases hne : bucketOf fileHashes h = []
  · rw [hne]; exact List.nodup_nil
  · exact hpaths _ (bucketOf_mem fileHashes h hne)

set_option maxRecDepth 8000 in
/-- Claim C27 as stated fails. In the directory of `a.txt` and `b.xyz` (same
bytes, names of the same length), when the results arrive in the order of the
jobs the original is `a.txt` and it is routed to `Documents`; when they arrive
in reverse the original is `b.xyz`, whose extension is unknown, and no original
is routed. One duplicate is moved in both runs. -/
theorem C27_counterexample_routed_originals :
    exReverseArrival.Fair ∧ Sched.inOrder.Fair ∧
    (exProcessor.ProcessDirectory exEnv Sched.inOrder ⟨exTieFS, Stats.zero, [], []⟩
        "d").1.calls
      = [.MoveDuplicateFile "d" "b.xyz" "d/a.txt",
         .MoveFileToTargetFolder "d" "a.txt" "Documents"] ∧
    (exProcessor.ProcessDirectory exEnv exReverseArrival ⟨exTieFS, Stats.zero, [], []⟩
        "d").1.calls
      = [.MoveDuplicateFile "d" "a.txt" "d/b.xyz"] ∧
    (exProcessor.ProcessDirectory exEnv Sched.inOrder ⟨exTieFS, Stats.zero, [], []⟩
        "d").1.stats.FilesMoved = 1 ∧
    (exProcessor.ProcessDirectory exEnv exReverseArrival ⟨exTieFS, Stats.zero, [], []⟩
        "d").1.stats.FilesMoved = 0 ∧
    (exProcessor.ProcessDirectory exEnv Sched.inOrder ⟨exTieFS, Stats.zero, [], []⟩
        "d").1.stats.DuplicatesMoved = 1 ∧
    (exProcessor.ProcessDirectory exEnv exReverseArrival ⟨exTieFS, Stats.zero, [], []⟩
        "d").1.stats.DuplicatesMoved = 1 :=
  ⟨exReverseArrival_fair, Sched.inOrder_fair, by decide, by decide, by decide, by decide,
    by decide, by decide⟩

/-- Claim C27, amended. For every permutation of the full-hash results, the
bucket of every digest after collecting them is a permutation of the bucket
for the other order (the same files), and so is the list of candidates. When
the members of every bucket have distinct paths, a run of `processFileGroups`
on the tables of either order adds to `DuplicatesMoved` the same number: the
sum, over the digests of the candidates, of one less than the size of the
bucket (nothing for the empty digest). -/
theorem C27_duplicates_moved_is_order_independent (fp : FileProcessor) (env : Env)
    (folderPath : String) (acc : Acc) (results results2 : List (FileDetail × Option HashError))
    (w w2 : World) (hperm : results2.Perm results)
    (hpaths : ∀ p ∈ (collectResults acc results).fileHashes,
      (p.2.map FileDetail.Path).Nodup) :
    (∀ h, (bucketOf (collectResults acc results2).fileHashes h).Perm
      (bucketOf (collectResults acc results).fileHashes h)) ∧
    (collectResults acc results2).fileDetails.Perm (collectResults acc results).fileDetails ∧
    (fp.processFileGroups env w folderPath (collectResults acc results).fileDetails
        (collectResults acc results).fileHashes).stats.DuplicatesMoved
      = w.stats.DuplicatesMoved
        + (((((collectResults acc results).fileDetails.map FileDetail.Hash).toFinset.sum
            (duplicatesOf (collectResults acc results).fileHashes) : Nat)) : Int) ∧
    (fp.processFileGroups env w2 folderPath (collectResults acc results2).fileDetails
        (collectResults acc results2).fileHashes).stats.DuplicatesMoved
        - w2.stats.DuplicatesMoved
      = (fp.processFileGroups env w folderPath (collectResults acc results).fileDetails
        (collectResults acc results).fileHashes).stats.DuplicatesMoved
        - w.stats.DuplicatesMoved := by
  obtain ⟨hb, hd⟩ := collectResults_tables results acc
  obtain ⟨hb2, hd2⟩ := collectResults_tables results2 acc
  have hbperm : ∀ h, (bucketOf (collectResults acc results2).fileHashes h).Perm
      (bucketOf (collectResults acc results).fileHashes h) := by
    intro h
    rw [hb h, hb2 h]
    exact (arrived_perm results results2 h hperm).append_left _
  have hdperm : (collectResults acc results2).fileDetails.Perm
      (collectResults acc results).fileDetails := by
    rw [hd, hd2]
    exact (delivered_perm results results2 hperm).append_left _
  have hp1 := bucketOf_paths_nodup _ hpaths
  have hp2 : ∀ h, ((bucketOf (collectResults acc results2).fileHashes h).map
      FileDetail.Path).Nodup := fun h => ((hbperm h).map _).nodup_iff.mpr (hp1 h)
  have hc1 := foldl_processDetail_duplicatesMoved fp env folderPath _ hp1
    (collectResults acc results).fileDetails ⟨w, []⟩
  have hc2 := foldl_processDetail_duplicatesMoved fp env folderPath _ hp2
    (collectResults acc results2).fileDetails ⟨w2, []⟩
  simp only [List.toFinset_nil, Finset.sdiff_empty] at hc1 hc2
  have hsame : ((collectResults acc results2).fileDetails.map FileDetail.Hash).toFinset.sum
      (duplicatesOf (collectResults acc results2).fileHashes)
      = ((collectResults acc results).fileDetails.map FileDetail.Hash).toFinset.sum
      (duplicatesOf (collectResults acc results).fileHashes) := by
    rw [List.toFinset_eq_of_perm _ _ (hdperm.map _)]
    apply Finset.sum_congr rfl
    intro h _
    unfold duplicatesOf
    rw [(hbperm h).length_eq]
  refine ⟨hbperm, hdperm, ?_, ?_⟩
  · unfold FileProcessor.processFileGroups
    exact hc1
  · unfold FileProcessor.processFileGroups
    rw [hc1, hc2, hsame]
    ring

/-- The results for `a.txt` and `b.txt` in the two orders: the buckets are
permutations of each other and one duplicate is moved in either order. -/
theorem C27_witness_two_orders :
    ([((exDetailB, none) : FileDetail × Option HashError), (exDetailA, none)].Perm
        [(exDetailA, none), (exDetailB, none)] ∧
      (∀ p ∈ (collectResults ⟨[], [], exHelloWorld, false⟩
          [(exDetailA, none), (exDetailB, none)]).fileHashes,
        (p.2.map FileDetail.Path).Nodup)) ∧
    (exProcessor.processFileGroups exEnv exHelloWorld "d"
        (collectResults ⟨[], [], exHelloWorld, false⟩
          [(exDetailB, none), (exDetailA, none)]).fileDetails
        (collectResults ⟨[], [], exHelloWorld, false⟩
          [(exDetailB, none), (exDetailA, none)]).fileHashes).stats.DuplicatesMoved
        - exHelloWorld.stats.DuplicatesMoved
      = (exProcessor.processFileGroups exEnv exHelloWorld "d"
        (collectResults ⟨[], [], exHelloWorld, false⟩
          [(exDetailA, none), (exDetailB, none)]).fileDetails
        (collectResults ⟨[], [], exHelloWorld, false⟩
          [(exDetailA, none), (exDetailB, none)]).fileHashes).stats.DuplicatesMoved
        - exHelloWorld.stats.DuplicatesMoved ∧
    (exProcessor.processFileGroups exEnv exHelloWorld "d"
        (collectResults ⟨[], [], exHelloWorld, false⟩
          [(exDetailB, none), (exDetailA, none)]).fileDetails
        (collectResults ⟨[], [], exHelloWorld, false⟩
          [(exDetailB, none), (exDetailA, none)]).fileHashes).stats.DuplicatesMoved = 1 :=
  ⟨⟨List.Perm.swap _ _ _, by decide⟩,
    (C27_duplicates_moved_is_order_independent exProcessor exEnv "d"
      ⟨[], [], exHelloWorld, false⟩ [(exDetailA, none), (exDetailB, none)]
      [(exDetailB, none), (exDetailA, none)] exHelloWorld exHelloWorld
      (List.Perm.swap _ _ _) (by decide)).2.2.2,
    by decide⟩

end GoSorter
